import Mathlib

/-!
# cpp-ethereum: RLP codec and hex-prefix trie

A shallow embedding of `RLP.h` (the `RLP` reader and the `RLPStream` writer) and of
`libethereum/Trie.cpp` (hex-prefix encoding and the in-memory `Trie`), followed by the
properties proved about them.

Conventions of the embedding:
* a byte string (`bytes`, `std::string`, `fConstBytes`) is a `List Nat`, one octet per entry;
  a value stored into a byte is reduced `% 256`;
* `uint` is the unsigned 64-bit integer of the code; `bigint` is `Nat`;
* loops are recursions on a fuel that is provably never exhausted before the loop ends.
-/

namespace eth

/-! # Embedding of the source -/

/-- A byte string: one octet per entry. -/
abbrev Bytes := List Nat

/-- Modelled from the spec: `Common.h` is not among the sources; the spec names the integer
widths (unsigned 64-bit, 256-bit, arbitrary precision), so `uint` arithmetic wraps at this
modulus. -/
def uintMod : Nat := 2 ^ 64

/-! ## Reference notions used to state the layouts -/

/-- The value of a big-endian byte string. -/
def bigEndianValue (bs : Bytes) : Nat :=
  bs.foldl (fun acc b => acc * 256 + b) 0

/-- The `n`-byte big-endian representation of `x` (of `x % 256 ^ n`, when `x` is larger). -/
def beBytes : Nat → Nat → Bytes
  | 0, _ => []
  | n + 1, x => beBytes n (x / 256) ++ [x % 256]

/-- The byte string `bs` is the big-endian representation of `x` with no leading zero byte. -/
def IsMinimalBE (bs : Bytes) (x : Nat) : Prop :=
  bigEndianValue bs = x ∧ (∀ b ∈ bs, b < 256) ∧ bs.head? ≠ some 0

/-! ## RLPStream (RLP.h, lines 188-294) -/

/-- The writer: `m_out` is the byte buffer built so far. -/
structure RLPStream where
  m_out : Bytes
deriving DecidableEq

namespace RLPStream

/-- `m_out.push_back(b)`: the value is converted to a byte. -/
def push_back (s : RLPStream) (b : Nat) : RLPStream :=
  ⟨s.m_out ++ [b % 256]⟩

/-- The loop of `bytesRequired`: `for (; _i != 0; ++i, _i >>= 8) {}` with a `uint` counter.
The fuel bounds the iterations; with `x ≤ fuel` it reaches zero only when `x` has. -/
def bytesRequiredLoop : Nat → Nat → Nat → Nat
  | 0, _, i => i
  | fuel + 1, x, i =>
    if x ≠ 0 then bytesRequiredLoop fuel (x >>> 8) ((i + 1) % uintMod) else i

/-- `bytesRequired(_i)`: `_i >>= 8; uint i = 1; for (; _i != 0; ++i, _i >>= 8) {} return i;` -/
def bytesRequired (x : Nat) : Nat :=
  bytesRequiredLoop x (x >>> 8) 1

/-- The loop of `pushInt`: `for (; _i; _i >>= 8) *(b--) = (byte)_i;` where `b` starts at the
last byte of the buffer; `k` is the number of bytes `b` has moved back so far. A store below
the start of the buffer (undefined in the source, and unreachable from its callers, which pass
`_br = bytesRequired(_i)`) leaves the buffer as it is. -/
def pushIntLoop : Nat → Nat → Nat → Bytes → Bytes
  | 0, _, _, buf => buf
  | fuel + 1, x, k, buf =>
    if x ≠ 0 then
      pushIntLoop fuel (x >>> 8) (k + 1)
        (if k < buf.length then buf.set (buf.length - 1 - k) (x % 256) else buf)
    else buf

/-- `pushInt(_i, _br)`: `m_out.resize(m_out.size() + _br)` then the store loop. -/
def pushInt (s : RLPStream) (x br : Nat) : RLPStream :=
  ⟨pushIntLoop x x 0 (s.m_out ++ List.replicate br 0)⟩

/-- `pushCount(_count, _base)`. -/
def pushCount (s : RLPStream) (count base : Nat) : RLPStream :=
  let br := bytesRequired count
  (s.push_back (br + 0x37 + base)).pushInt count br

/-- `appendNumeric(uint _i)`. -/
def appendNumericUint (s : RLPStream) (i : Nat) : RLPStream :=
  if i < 0x18 then s.push_back i
  else
    let br := bytesRequired i
    (s.push_back (br + 0x17)).pushInt i br

/-- `appendNumeric(u256 _i)`. -/
def appendNumericU256 (s : RLPStream) (i : Nat) : RLPStream :=
  if i < 0x18 then s.push_back i
  else
    let br := bytesRequired i
    (s.push_back (br + 0x17)).pushInt i br

/-- `appendNumeric(bigint _i)`. -/
def appendNumericBigint (s : RLPStream) (i : Nat) : RLPStream :=
  if i < 0x18 then s.push_back i
  else
    let br := bytesRequired i
    let s1 :=
      if br ≤ 32 then s.push_back (bytesRequired i + 0x17)
      else
        let brbr := bytesRequired br
        (s.push_back (0x37 + brbr)).pushInt br brbr
    s1.pushInt i br

/-- `append(std::string const& _s)`: the header, then `resize` and `memcpy` of the bytes. -/
def append (s : RLPStream) (str : Bytes) : RLPStream :=
  let s1 :=
    if str.length < 0x38 then s.push_back (str.length ||| 0x40)
    else s.pushCount str.length 0x40
  ⟨s1.m_out ++ str⟩

/-- `appendList(uint _count)`. -/
def appendList (s : RLPStream) (count : Nat) : RLPStream :=
  if count < 0x38 then s.push_back (count ||| 0x80)
  else s.pushCount count 0x80

/-- `out()`. -/
def out (s : RLPStream) : Bytes := s.m_out

end RLPStream

/-! ## RLP values and their encoding through the stream -/

/-- An RLP value: an integer, a byte string, or a list of values. -/
inductive RLPValue where
  | int (x : Nat)
  | str (s : Bytes)
  | list (items : List RLPValue)

mutual
/-- Write a value to the stream: `append` for integers and strings, `appendList(count)`
followed by the elements for a list. -/
def RLPValue.stream : RLPValue → RLPStream → RLPStream
  | .int x, s => s.appendNumericBigint x
  | .str b, s => s.append b
  | .list l, s => RLPValue.streamAll l (s.appendList l.length)
/-- Write the values one after the other. -/
def RLPValue.streamAll : List RLPValue → RLPStream → RLPStream
  | [], s => s
  | v :: vs, s => RLPValue.streamAll vs (RLPValue.stream v s)
end

/-- The encoding of a value: the output of a fresh stream to which it was written. -/
def encode (v : RLPValue) : Bytes := (v.stream ⟨[]⟩).out

/-! ## Reference layout of an encoding, used to state and prove the codec properties -/

/-- The number of base-256 digits of `x` (zero for `x = 0`). -/
def byteLen (x : Nat) : Nat := if x = 0 then 0 else Nat.log 256 x + 1

/-- Layout of an integer: direct below 24, then width-prefixed, then length-prefixed. -/
def intLayout (x : Nat) : Bytes :=
  if x < 24 then [x]
  else if byteLen x ≤ 32 then (0x17 + byteLen x) :: beBytes (byteLen x) x
  else (0x37 + byteLen (byteLen x)) :: (beBytes (byteLen (byteLen x)) (byteLen x)
    ++ beBytes (byteLen x) x)

/-- Layout of the header that carries a count `n` (a string length or a list item count)
over the base byte `base` (`0x40` for strings, `0x80` for lists). -/
def countLayout (base n : Nat) : Bytes :=
  if n < 56 then [base + n]
  else (base + 0x37 + byteLen n) :: beBytes (byteLen n) n

mutual
/-- The value fits the integer widths of the code: a string length and a list item count are
`uint` values, and an integer has fewer than `2 ^ 64` bytes (more cannot be held in memory). -/
def RLPValue.Fits : RLPValue → Prop
  | .int x => byteLen x < 2 ^ 64
  | .str b => b.length < 2 ^ 64
  | .list l => l.length < 2 ^ 64 ∧ RLPValue.FitsAll l
/-- Every value of the list fits. -/
def RLPValue.FitsAll : List RLPValue → Prop
  | [] => True
  | v :: vs => v.Fits ∧ RLPValue.FitsAll vs
end

/-! ## Reads, and hex-prefix encoding (Trie.cpp, lines 42-73) -/

/-- What is not a value in the source: a read outside the data (`outOfBounds`), a failed
`assert` (`assertion`), and arithmetic on the data pointer of a view that has none
(`pointer`). -/
inductive Fault where
  | outOfBounds
  | assertion
  | pointer
deriving DecidableEq

deriving instance DecidableEq for Except

/-- The element read `d[i]`; a read at or beyond the end of the data is a fault. -/
def readByte (d : Bytes) (i : Nat) : Except Fault Nat :=
  match d[i]? with
  | some b => .ok b
  | none => .error .outOfBounds

/-- The loop `for (uint i = begin; i < end; i += 2) ret += _hexVector[i] * 16 +
_hexVector[i + 1];` the sum being stored into a `char`. The fuel is `stop - i`, which is zero
exactly when the loop condition fails; `i += 2` cannot wrap, as `i + 1` has just indexed the
vector. -/
def hexPrefixEncodeLoop (v : Bytes) (stop : Nat) : Nat → Nat → Bytes → Except Fault Bytes
  | 0, _, ret => .ok ret
  | fuel + 1, i, ret =>
    if i < stop then do
      let a ← readByte v i
      let b ← readByte v (i + 1)
      hexPrefixEncodeLoop v stop fuel (i + 2) (ret ++ [(a * 16 + b) % 256])
    else .ok ret

/-- `hexPrefixEncode(bytes const& _hexVector, bool _terminated, int _begin, int _end)`: the
`int` arguments are converted to `uint`, and `end - begin` is a `uint` difference. -/
def hexPrefixEncode (v : Bytes) (terminated : Bool) (_begin _end : Int) : Except Fault Bytes :=
  let begin : Nat := (_begin % (uintMod : Int)).toNat
  let stop : Nat :=
    if _end < 0 then (((v.length : Int) + 1 + _end) % (uintMod : Int)).toNat
    else (_end % (uintMod : Int)).toNat
  let odd : Bool := decide ((stop + uintMod - begin) % uintMod % 2 ≠ 0)
  let ret0 : Nat := (((if terminated then 2 else 0) ||| (if odd then 1 else 0)) * 16) % 256
  if odd then do
    let a ← readByte v begin
    hexPrefixEncodeLoop v stop (stop - (begin + 1)) (begin + 1) [(ret0 ||| a) % 256]
  else hexPrefixEncodeLoop v stop (stop - begin) begin [ret0]

/-- Reference packing of a nibble path, two nibbles per byte, high nibble first. -/
def packNibbles : List Nat → Bytes
  | a :: b :: rest => (a * 16 + b) :: packNibbles rest
  | _ => []

/-- Reference layout of the hex-prefix encoding of a whole nibble path: the flag nibble, the
first nibble of an odd path in the low half of the first byte, then the packed rest. -/
def hpLayout (p : List Nat) (t : Bool) : Bytes :=
  if p.length % 2 = 1 then
    (((if t then 2 else 0) + 1) * 16 + p.headD 0) :: packNibbles p.tail
  else ((if t then 2 else 0) * 16) :: packNibbles p

/-! ## Views of a buffer -/

/-- Modelled from the spec: `foreign.h` is not among the sources. The spec says that the
reader is a cursor over an immutable buffer and that child views are produced by cropping the
same buffer. A view is either null (`none`: no data pointer, no bytes) or the bytes from its
first byte to the end of the buffer it looks into. -/
abbrev fConstBytes := Option Bytes

namespace fConstBytes

/-- `size()`: the number of bytes in view. -/
def size : fConstBytes → Nat
  | none => 0
  | some l => l.length

/-- The element read `m_data[i]`. -/
def get (d : fConstBytes) (i : Nat) : Except Fault Nat :=
  match d with
  | none => .error .outOfBounds
  | some l => readByte l i

/-- `cropped(begin)`: the view from `begin` on; the null view when `begin` lies beyond the
end of the view. -/
def cropped (d : fConstBytes) (b : Nat) : fConstBytes :=
  match d with
  | none => none
  | some l => if b ≤ l.length then some (l.drop b) else none

/-- `cropped(begin, count)`: `count` bytes from `begin` on; the null view when they are not
all in view. -/
def croppedCount (d : fConstBytes) (b count : Nat) : fConstBytes :=
  match d with
  | none => none
  | some l => if b + count ≤ l.length then some ((l.drop b).take count) else none

/-- `toString()`: the bytes in view. -/
def toString : fConstBytes → Bytes
  | none => []
  | some l => l

/-- The pointer difference `d.data() - m.data()` of a view `d` cropped from `m`: both end
where the buffer ends, so it is the difference of their sizes. It is not defined when one of
them has no data pointer. -/
def offsetFrom (d m : fConstBytes) : Except Fault Nat :=
  match d, m with
  | some a, some b => .ok (b.length - a.length)
  | _, _ => .error .pointer

end fConstBytes

/-! ## RLP (RLP.h, lines 20-184) -/

/-- The reader: a view of the bytes of an item (and of whatever follows it). -/
structure RLP where
  m_data : fConstBytes
deriving DecidableEq

namespace RLP

/-- `RLP()`: the null node. -/
def null : RLP := ⟨none⟩

/-- `isNull()`. -/
def isNull (r : RLP) : Bool := r.m_data.size == 0

/-- `assert(!isNull())`. -/
def assertNotNull (r : RLP) : Except Fault Unit :=
  if r.isNull then .error .assertion else .ok ()

/-- `isEmpty()`. -/
def isEmpty (r : RLP) : Except Fault Bool := do
  let b ← r.m_data.get 0
  pure (b == 0x40 || b == 0x80)

/-- `isString()`. -/
def isString (r : RLP) : Except Fault Bool := do
  r.assertNotNull
  let b ← r.m_data.get 0
  pure (decide (0x40 ≤ b) && decide (b < 0x80))

/-- `isList()`. -/
def isList (r : RLP) : Except Fault Bool := do
  r.assertNotNull
  let b ← r.m_data.get 0
  pure (decide (0x80 ≤ b) && decide (b < 0xc0))

/-- `isInt()`. -/
def isInt (r : RLP) : Except Fault Bool := do
  r.assertNotNull
  let b ← r.m_data.get 0
  pure (decide (b < 0x40))

/-- `isSlimInt()`. -/
def isSlimInt (r : RLP) : Except Fault Bool := do
  r.assertNotNull
  let b ← r.m_data.get 0
  pure (decide (b < 0x20))

/-- `isFatInt()`. -/
def isFatInt (r : RLP) : Except Fault Bool := do
  r.assertNotNull
  let b ← r.m_data.get 0
  pure (decide (0x20 ≤ b) && decide (b < 0x38))

/-- `isBigInt()`. -/
def isBigInt (r : RLP) : Except Fault Bool := do
  r.assertNotNull
  let b ← r.m_data.get 0
  pure (decide (0x38 ≤ b) && decide (b < 0x40))

/-- `isDirectValueInt()`. -/
def isDirectValueInt (r : RLP) : Except Fault Bool := do
  r.assertNotNull
  let b ← r.m_data.get 0
  pure (decide (b < 0x18))

/-- `isIndirectValueInt()`. -/
def isIndirectValueInt (r : RLP) : Except Fault Bool := do
  r.assertNotNull
  let b ← r.m_data.get 0
  pure (decide (0x18 ≤ b) && decide (b < 0x38))

/-- `isIndirectAddressedInt()`. -/
def isIndirectAddressedInt (r : RLP) : Except Fault Bool := do
  r.assertNotNull
  let b ← r.m_data.get 0
  pure (decide (b < 0x40) && decide (0x38 ≤ b))

/-- `isSmallString()`. -/
def isSmallString (r : RLP) : Except Fault Bool := do
  r.assertNotNull
  let b ← r.m_data.get 0
  pure (decide (0x40 ≤ b) && decide (b < 0x78))

/-- `isSmallList()`. -/
def isSmallList (r : RLP) : Except Fault Bool := do
  r.assertNotNull
  let b ← r.m_data.get 0
  pure (decide (0x80 ≤ b) && decide (b < 0xb8))

/-- The accumulation `for (i = 0; i < count; ++i) ret = (ret << 8) | m_data[i + off];` in an
integer type whose values are reduced by `wrap`. -/
def readBigEndian (wrap : Nat → Nat) (d : fConstBytes) (off : Nat) :
    Nat → Nat → Nat → Except Fault Nat
  | 0, _, ret => .ok ret
  | count + 1, i, ret => do
    let b ← d.get (i + off)
    readBigEndian wrap d off count (i + 1) (wrap ((ret <<< 8) ||| b))

/-- `items()`: the count held in, or after, the first byte. -/
def items (r : RLP) : Except Fault Nat := do
  let b ← r.m_data.get 0
  let n := b &&& 0x3f
  if n < 0x38 then pure n
  else readBigEndian (· % uintMod) r.m_data 1 (n - 0x37) 0 0

/-- `intLengthSize()`. -/
def intLengthSize (r : RLP) : Except Fault Nat := do
  if (← r.isIndirectAddressedInt) then
    let b ← r.m_data.get 0
    pure (b - 0x37)
  else pure 0

/-- `intSize()`. -/
def intSize (r : RLP) : Except Fault Nat := do
  if !(← r.isInt) then pure 0
  else if (← r.isDirectValueInt) then pure 0
  else if (← r.isIndirectAddressedInt) then
    pure (((← r.intLengthSize) + (← r.items)) % uintMod)
  else
    let b ← r.m_data.get 0
    pure (b - 0x17)

/-- `payload()`. -/
def payload (r : RLP) : Except Fault fConstBytes := do
  if !(← r.isString) then
    if !(← r.isList) then throw .assertion
  let b ← r.m_data.get 0
  let n := b &&& 0x3f
  pure (r.m_data.cropped (1 + (if n < 0x38 then 0 else n - 0x37)))

/-- The loop `for (i = 0; i < c; ++i, d = d.cropped(RLP(d).size())) {}` of `size()` and of
`operator[]`, given the function `sz` that computes `size()`. -/
def skipItems (sz : RLP → Except Fault Nat) : Nat → fConstBytes → Except Fault fConstBytes
  | 0, d => .ok d
  | c + 1, d => do
    let n ← sz ⟨d⟩
    skipItems sz c (d.cropped n)

/-- The loop `for (i = 0; i < c; ++i, d = d.cropped(RLP(d).size())) ret.push_back(RLP(d));`
of `toList()`. -/
def collectItems (sz : RLP → Except Fault Nat) : Nat → fConstBytes → Except Fault (List RLP)
  | 0, _ => .ok []
  | c + 1, d => do
    let n ← sz ⟨d⟩
    let rest ← collectItems sz c (d.cropped n)
    pure (⟨d⟩ :: rest)

/-- The body of `size()`, the recursion unfolded `fuel` times. A view of `fuel` bytes needs
no more: every nested item lies in the payload, which is shorter than the item, and a view
without bytes is null, of size zero. -/
def sizeAux : Nat → RLP → Except Fault Nat
  | 0, _ => .ok 0
  | fuel + 1, r => do
    if r.isNull then pure 0
    else if (← r.isInt) then pure ((1 + (← r.intSize)) % uintMod)
    else if (← r.isString) then
      pure (((← (← r.payload).offsetFrom r.m_data) + (← r.items)) % uintMod)
    else if (← r.isList) then
      let d ← r.payload
      let c ← r.items
      let d ← skipItems (sizeAux fuel) c d
      d.offsetFrom r.m_data
    else pure 0

/-- `size()`: the number of bytes of the item (header, payload and children). -/
def size (r : RLP) : Except Fault Nat := sizeAux r.m_data.size r

/-- `itemCount()`. -/
def itemCount (r : RLP) : Except Fault Nat := do
  if (← r.isList) then r.items else pure 0

/-- `stringSize()`. -/
def stringSize (r : RLP) : Except Fault Nat := do
  if (← r.isString) then r.items else pure 0

/-- `operator[](uint _i)`. -/
def getItem (r : RLP) (i : Nat) : Except Fault RLP := do
  if !(← r.isList) then pure null
  else if (← r.itemCount) ≤ i then pure null
  else
    let d ← r.payload
    let d ← skipItems size i d
    pure ⟨d⟩

/-- `toString()`. -/
def toString (r : RLP) : Except Fault Bytes := do
  if !(← r.isString) then pure []
  else pure ((← r.payload).croppedCount 0 (← r.items)).toString

/-- `toInt<_T>(_def)`, the values of `_T` being reduced by `wrap`. -/
def toInt (wrap : Nat → Nat) (r : RLP) (dflt : Nat) : Except Fault Nat := do
  if !(← r.isInt) then pure dflt
  else if (← r.isDirectValueInt) then r.m_data.get 0
  else
    let s := ((← r.intSize) + uintMod - (← r.intLengthSize)) % uintMod
    let o := ((← r.intLengthSize) + 1) % uintMod
    readBigEndian wrap r.m_data o s 0 0

/-- `toSlimInt(_def)`. -/
def toSlimInt (r : RLP) (dflt : Nat := 0) : Except Fault Nat := toInt (· % uintMod) r dflt

/-- `toFatInt(_def)`. -/
def toFatInt (r : RLP) (dflt : Nat := 0) : Except Fault Nat := toInt (· % 2 ^ 256) r dflt

/-- `toBigInt(_def)`. -/
def toBigInt (r : RLP) (dflt : Nat := 0) : Except Fault Nat := toInt id r dflt

/-- `toList()`. -/
def toList (r : RLP) : Except Fault (List RLP) := do
  if !(← r.isList) then pure []
  else
    let c ← r.items
    let d ← r.payload
    collectItems size c d

end RLP

mutual
/-- The item in view decodes to the value: it is classified as the value is, the typed
extractor gives the value back (`toSlimInt` as well when the integer is a `uint`), and the
items of a list are as many as its elements, each decoding to the corresponding element. -/
def RLPValue.DecodedBy : RLPValue → RLP → Prop
  | .int x, r => r.isInt = .ok true ∧ r.toBigInt = .ok x ∧ (x < 2 ^ 64 → r.toSlimInt = .ok x)
  | .str s, r => r.isString = .ok true ∧ r.toString = .ok s
  | .list l, r => r.isList = .ok true ∧
      ∃ views : List RLP, r.toList = .ok views ∧ RLPValue.AllDecodedBy l views
/-- The views are as many as the values, each value decoded by its view. -/
def RLPValue.AllDecodedBy : List RLPValue → List RLP → Prop
  | [], [] => True
  | v :: vs, w :: ws => v.DecodedBy w ∧ RLPValue.AllDecodedBy vs ws
  | _, _ => False
end

/-! ## The in-memory trie (Trie.cpp, lines 229-666) -/

/-- A nibble: a value in `0..15`. -/
abbrev Nibble := Fin 16

/-- Modelled from the spec: `toHex` (Common.h) is not among the sources; a byte string is
viewed as the sequence of twice as many nibbles, the high nibble of each byte first. -/
def toHex (s : Bytes) : List Nibble :=
  s.flatMap (fun b => [Fin.ofNat (b / 16), Fin.ofNat (b % 16)])

/-- Modelled from the spec: `commonPrefix` (Common.h) is not among the sources; the shared
prefix length of two nibble sequences is the largest `k` such that their first `k` nibbles
are equal. -/
def commonPrefix : List Nibble → List Nibble → Nat
  | a :: as, b :: bs => if a = b then commonPrefix as bs + 1 else 0
  | _, _ => 0

/-- Modelled from the spec: `RLPNull` is declared outside the sources; the canonical empty
encoding is the encoding of the empty string, the single byte `0x40`. -/
def RLPNull : Bytes := [0x40]

/-- A `TrieNode*`: the null pointer, or a `TrieLeafNode`, `TrieInfixNode` or
`TrieBranchNode` with its members. -/
inductive TrieNode where
  | null
  | leaf (m_ext : List Nibble) (m_value : Bytes)
  | infixNode (m_ext : List Nibble) (m_next : TrieNode)
  | branch (m_nodes : Nibble → TrieNode) (m_value : Bytes)

namespace TrieNode

/-- The test `p == nullptr`. -/
def isNull : TrieNode → Bool
  | .null => true
  | _ => false

/-- `std::array<TrieNode*, 16>` after `memset(m_nodes.data(), 0, ...)`. -/
def noNodes : Nibble → TrieNode := fun _ => .null

/-- `TrieBranchNode(byte _i1, TrieNode* _n1, std::string const& _value)`. -/
def branch1 (i1 : Nibble) (n1 : TrieNode) (value : Bytes) : TrieNode :=
  .branch (Function.update noNodes i1 n1) value

/-- `TrieBranchNode(byte _i1, TrieNode* _n1, byte _i2, TrieNode* _n2)`. -/
def branch2 (i1 : Nibble) (n1 : TrieNode) (i2 : Nibble) (n2 : TrieNode) : TrieNode :=
  .branch (Function.update (Function.update noNodes i1 n1) i2 n2) []

/-- `TrieNode::newBranch(_k1, _v1, _k2, _v2)`. The element read `_k[prefix]` past the end of
a key is a fault. -/
def newBranch (k1 : List Nibble) (v1 : Bytes) (k2 : List Nibble) (v2 : Bytes) :
    Except Fault TrieNode := do
  let pre := commonPrefix k1 k2
  let ret ←
    if k1.length = pre then
      match k2.drop pre with
      | c :: rest => pure (branch1 c (.leaf rest v2) v1)
      | [] => throw Fault.outOfBounds
    else if k2.length = pre then
      match k1.drop pre with
      | c :: rest => pure (branch1 c (.leaf rest v1) v2)
      | [] => throw Fault.outOfBounds
    else
      match k1.drop pre, k2.drop pre with
      | c1 :: r1, c2 :: r2 => pure (branch2 c1 (.leaf r1 v1) c2 (.leaf r2 v2))
      | _, _ => throw Fault.outOfBounds
  if pre ≠ 0 then pure (.infixNode (k1.take pre) ret) else pure ret

/-- `at(_key)` of the three node classes; a call through the null pointer is a fault. -/
def at_ : TrieNode → List Nibble → Except Fault Bytes
  | .null, _ => .error .pointer
  | .leaf e v, key => .ok (if key = e then v else [])
  | .infixNode e next, key =>
    if next.isNull then .error .assertion
    else if e.isPrefixOf key then next.at_ (key.drop e.length)
    else .ok []
  | .branch nodes v, key =>
    match key with
    | [] => .ok v
    | k :: rest => if (nodes k).isNull then .ok [] else (nodes k).at_ rest

/-- The body of `TrieBranchNode::insert` after its assertion, `childInsert k` being the
`insert` of the node in slot `k`. -/
def branchInsert (childInsert : Nibble → List Nibble → Bytes → Except Fault TrieNode)
    (nodes : Nibble → TrieNode) (v : Bytes) (key : List Nibble) (value : Bytes) :
    Except Fault TrieNode :=
  match key with
  | [] => .ok (.branch nodes value)
  | k :: rest =>
    if (nodes k).isNull then .ok (.branch (Function.update nodes k (.leaf rest value)) v)
    else do
      let c ← childInsert k rest value
      pure (.branch (Function.update nodes k c) v)

/-- `TrieInfixNode::insert` on the node with members `e` and `next`, `nextInsert` being
`m_next->insert`. The calls of `insert` on this node after `trimFront` are the recursive
calls; each has a shorter `m_ext`, so the fuel, which starts at the length of `m_ext`, is
zero only when `m_ext` is empty, and then `contains(_key)` holds. -/
def infixInsert (nextInsert : List Nibble → Bytes → Except Fault TrieNode) (next : TrieNode) :
    Nat → List Nibble → List Nibble → Bytes → Except Fault TrieNode
  | 0, e, key, value =>
    if value.isEmpty then .error .assertion
    else do
      let n ← nextInsert (key.drop e.length) value
      pure (.infixNode e n)
  | fuel + 1, e, key, value =>
    if value.isEmpty then .error .assertion
    else if e.isPrefixOf key then do
      let n ← nextInsert (key.drop e.length) value
      pure (.infixNode e n)
    else
      let pre := commonPrefix key e
      if pre ≠ 0 then do
        let r ← infixInsert nextInsert next fuel (e.drop pre) (key.drop pre) value
        pure (.infixNode (key.take pre) r)
      else
        match e with
        | [] => .error .outOfBounds
        | f :: e1 =>
          let n : TrieNode := if e1.isEmpty then next else .infixNode e1 next
          branchInsert
            (fun _ rest x =>
              if e1.isEmpty then nextInsert rest x
              else infixInsert nextInsert next fuel e1 rest x)
            (Function.update noNodes f n) [] key value

/-- `insert(_key, _value)` of the three node classes; a call through the null pointer is a
fault, and so is a failed `assert(_value.size())`. -/
def insert : TrieNode → List Nibble → Bytes → Except Fault TrieNode
  | .null, _, _ => .error .pointer
  | .leaf e v, key, value =>
    if value.isEmpty then .error .assertion
    else if key = e then .ok (.leaf e value)
    else newBranch key value e v
  | .infixNode e next, key, value =>
    infixInsert (fun k x => next.insert k x) next e.length e key value
  | .branch nodes v, key, value =>
    if value.isEmpty then .error .assertion
    else branchInsert (fun k rest x => (nodes k).insert rest x) nodes v key value

/-- The loop of `activeBranch()` from index `i` on, `n` being the active index found so far
(`255`, that is `(byte)-1`, when none). -/
def activeBranchLoop (nodes : Nibble → TrieNode) : Nat → Nat → Nat → Nat
  | 0, _, n => n
  | todo + 1, i, n =>
    if h : i < 16 then
      if !(nodes ⟨i, h⟩).isNull then
        if n = 255 then activeBranchLoop nodes todo (i + 1) i else 16
      else activeBranchLoop nodes todo (i + 1) n
    else n

/-- `activeBranch()`: `255` when no slot is active, `16` when several are, the index of the
active slot otherwise. -/
def activeBranch (nodes : Nibble → TrieNode) : Nat :=
  activeBranchLoop nodes 16 0 255

/-- `rejig()` on the branch with members `nodes` and `v`. -/
def rejig (nodes : Nibble → TrieNode) (v : Bytes) : Except Fault TrieNode :=
  let n := activeBranch nodes
  if n = 255 ∧ v ≠ [] then .ok (.leaf [] v)
  else if h : n < 16 ∧ v = [] then
    match nodes ⟨n, h.1⟩ with
    | .branch ns bv => .ok (.infixNode [⟨n, h.1⟩] (.branch ns bv))
    | .leaf e x => .ok (.leaf (⟨n, h.1⟩ :: e) x)
    | .infixNode e x => .ok (.infixNode (⟨n, h.1⟩ :: e) x)
    | .null => .error .assertion
  else .ok (.branch nodes v)

/-- `remove(_key)` of the three node classes; a call through the null pointer is a fault. -/
def remove : TrieNode → List Nibble → Except Fault TrieNode
  | .null, _ => .error .pointer
  | .leaf e v, key => .ok (if key = e then .null else .leaf e v)
  | .infixNode e next, key =>
    if e.isPrefixOf key then do
      let n ← next.remove (key.drop e.length)
      match n with
      | .leaf e2 v2 => pure (.leaf (e ++ e2) v2)
      | .infixNode e2 n2 => pure (.infixNode (e ++ e2) n2)
      | .null => pure .null
      | .branch ns bv => pure (.infixNode e (.branch ns bv))
    else .ok (.infixNode e next)
  | .branch nodes v, key =>
    match key with
    | [] => if v ≠ [] then rejig nodes [] else .ok (.branch nodes v)
    | k :: rest =>
      if (nodes k).isNull then .ok (.branch nodes v)
      else do
        let c ← (nodes k).remove rest
        rejig (Function.update nodes k c) v

end TrieNode

/-- Modelled from the spec: `appendRaw` is declared outside the sources; it appends a
pre-encoded fragment as one element. -/
def RLPStream.appendRaw (s : RLPStream) (b : Bytes) : RLPStream := ⟨s.m_out ++ b⟩

namespace TrieNode

/-- `makeRLP(_intoStream)` of the three node classes, and within it `putRLP` for a child:
the child is serialised on its own, then appended raw when shorter than 32 bytes and as its
digest otherwise. `sha3` is the hash function `H` of the spec, which embeds the digest as a
byte string. -/
def makeRLP (sha3 : Bytes → Bytes) : TrieNode → RLPStream → Except Fault RLPStream
  | .null, _ => .error .pointer
  | .leaf e v, s => do
    let hp ← hexPrefixEncode (e.map Fin.val) true 0 (-1)
    pure (((s.appendList 2).append hp).append v)
  | .infixNode e next, s => do
    if next.isNull then throw Fault.assertion
    let hp ← hexPrefixEncode (e.map Fin.val) false 0 (-1)
    let s1 := (s.appendList 2).append hp
    let c ← makeRLP sha3 next ⟨[]⟩
    pure (if c.out.length < 32 then s1.appendRaw c.out else s1.append (sha3 c.out))
  | .branch nodes v, s => do
    let s1 ← (List.finRange 16).foldlM
      (fun (acc : RLPStream) (i : Nibble) =>
        if (nodes i).isNull then pure (acc.append [])
        else do
          let c ← makeRLP sha3 (nodes i) ⟨[]⟩
          pure (if c.out.length < 32 then acc.appendRaw c.out else acc.append (sha3 c.out)))
      (s.appendList 17)
    pure (s1.append v)

/-- `rlp()`. -/
def rlp (sha3 : Bytes → Bytes) (n : TrieNode) : Except Fault Bytes := do
  let s ← makeRLP sha3 n ⟨[]⟩
  pure s.out

end TrieNode

/-- The `Trie`: its root pointer. -/
structure Trie where
  m_root : TrieNode

namespace Trie

/-- A freshly constructed trie: the root is the null pointer. -/
def empty : Trie := ⟨.null⟩

/-- `Trie::rlp()`. -/
def rlp (sha3 : Bytes → Bytes) (t : Trie) : Except Fault Bytes :=
  if t.m_root.isNull then .ok RLPNull else t.m_root.rlp sha3

/-- `Trie::hash256()`. -/
def hash256 (sha3 : Bytes → Bytes) (t : Trie) : Except Fault Bytes := do
  if t.m_root.isNull then pure (sha3 RLPNull)
  else
    let b ← t.m_root.rlp sha3
    pure (sha3 b)

/-- `Trie::at(_key)`. -/
def at_ (t : Trie) (key : Bytes) : Except Fault Bytes :=
  if t.m_root.isNull then .ok [] else t.m_root.at_ (toHex key)

/-- `Trie::remove(_key)`. -/
def remove (t : Trie) (key : Bytes) : Except Fault Trie :=
  if t.m_root.isNull then .ok t
  else do
    let r ← t.m_root.remove (toHex key)
    pure ⟨r⟩

/-- `Trie::insert(_key, _value)`: the call of `remove` for an empty value is not followed by
a `return`. -/
def insert (t : Trie) (key value : Bytes) : Except Fault Trie := do
  let t1 ← if value.isEmpty then t.remove key else pure t
  let h := toHex key
  if t1.m_root.isNull then pure ⟨.leaf h value⟩
  else
    let r ← t1.m_root.insert h value
    pure ⟨r⟩

/-- Insert the (key, value) pairs one after the other. -/
def insertAll (t : Trie) : List (Bytes × Bytes) → Except Fault Trie
  | [] => .ok t
  | (k, v) :: rest => do
    let t1 ← t.insert k v
    insertAll t1 rest

end Trie

/-! ## Reference notions for the trie: stored mapping, minimal shape, reachable tries -/

namespace TrieNode

/-- The node is a `TrieBranchNode`. -/
def isBranch : TrieNode → Bool
  | .branch _ _ => true
  | _ => false

/-- The value stored below a node at a nibble path, the empty byte string when there is
none: the mapping the node stands for. -/
def lookup : TrieNode → List Nibble → Bytes
  | .null, _ => []
  | .leaf e v, key => if key = e then v else []
  | .infixNode e next, key => if e.isPrefixOf key then next.lookup (key.drop e.length) else []
  | .branch nodes v, key =>
    match key with
    | [] => v
    | k :: rest => (nodes k).lookup rest

/-- Minimal shape: a leaf holds a non-empty value; an infix node has a non-empty path and a
branch below it; a branch has at least two populated among its sixteen slots and its value;
and so for the nodes below. -/
def Canonical : TrieNode → Prop
  | .null => True
  | .leaf _ v => v ≠ []
  | .infixNode e next => e ≠ [] ∧ next.isBranch = true ∧ next.Canonical
  | .branch nodes v =>
    (∀ i, (nodes i).Canonical) ∧
    ((∃ i j, i ≠ j ∧ (nodes i).isNull = false ∧ (nodes j).isNull = false) ∨
      (v ≠ [] ∧ ∃ i, (nodes i).isNull = false))

/-- What `m_next->insert` does on the minimal branch `next`, as the induction gives it. -/
def NextInsertSpec (nextInsert : List Nibble → Bytes → Except Fault TrieNode)
    (next : TrieNode) : Prop :=
  ∀ key value, value ≠ [] → ∃ n2, nextInsert key value = .ok n2 ∧ n2.Canonical ∧
    n2.isBranch = true ∧ ∀ k, n2.lookup k = if k = key then value else next.lookup k

/-- What `activeBranch()` returns: `255` with no active slot, the index of the only active
slot, or `16` with two active slots. -/
def ActiveResult (nodes : Nibble → TrieNode) (r : Nat) : Prop :=
  (r = 255 ∧ ∀ i, (nodes i).isNull = true) ∨
  (∃ m : Nibble, r = m.val ∧ (nodes m).isNull = false ∧ ∀ j, j ≠ m → (nodes j).isNull = true) ∨
  (r = 16 ∧ ∃ i j, i ≠ j ∧ (nodes i).isNull = false ∧ (nodes j).isNull = false)

end TrieNode

namespace Trie

/-- The tries obtained from the empty trie by inserts of non-empty values and removes. -/
inductive Reachable : Trie → Prop where
  | empty : Reachable Trie.empty
  | insert {t t2 : Trie} (k v : Bytes) : Reachable t → v ≠ [] → t.insert k v = .ok t2 →
      Reachable t2
  | remove {t t2 : Trie} (k : Bytes) : Reachable t → t.remove k = .ok t2 → Reachable t2

/-- The value of the last pair with key `k` in a list of (key, value) pairs, the empty byte
string when no pair has key `k`. -/
def lastValue {κ : Type} [DecidableEq κ] (l : List (κ × Bytes)) (k : κ) : Bytes :=
  match l.reverse.find? (fun e => e.1 = k) with
  | some e => e.2
  | none => []

end Trie

/-- Every entry of the byte string is an octet. -/
def IsBytes (s : Bytes) : Prop := ∀ b ∈ s, b < 256


instance (s : Bytes) : Decidable (IsBytes s) := by
  unfold IsBytes
  infer_instance

/-! ## Data of the scenarios -/

/-- A stand-in for the hash function when an example is evaluated: every digest is 32 zero
bytes. -/
def zeroDigest : Bytes → Bytes := fun _ => List.replicate 32 0

/-- The four inserts of scenario S2: "do" → "verb", "dog" → "puppy", "doge" → "coin",
"horse" → "stallion". -/
def scenarioS2 : List (Bytes × Bytes) :=
  [([0x64, 0x6f], [0x76, 0x65, 0x72, 0x62]),
   ([0x64, 0x6f, 0x67], [0x70, 0x75, 0x70, 0x70, 0x79]),
   ([0x64, 0x6f, 0x67, 0x65], [0x63, 0x6f, 0x69, 0x6e]),
   ([0x68, 0x6f, 0x72, 0x73, 0x65], [0x73, 0x74, 0x61, 0x6c, 0x6c, 0x69, 0x6f, 0x6e])]


/-! ## Reference notions: hex-prefix decoding and child references -/

/-- Reference unpacking of a byte string into nibbles, the high nibble of each byte first. -/
def unpackNibbles : Bytes → List Nat
  | [] => []
  | b :: rest => (b / 16) :: (b % 16) :: unpackNibbles rest

/-- Reference decoder of the hex-prefix encoding, the `HP-decode` of the spec, stated from its
words (the code has the encoder only): the termination flag is the bit of weight two and the
oddness flag the bit of weight one of the first nibble; an odd path starts with the low
nibble of the first byte, and the other bytes hold two nibbles each. -/
def hpDecode : Bytes → Option (List Nat × Bool)
  | [] => none
  | b :: rest =>
    let t := decide (b / 16 / 2 % 2 = 1)
    if b / 16 % 2 = 1 then some ((b % 16) :: unpackNibbles rest, t)
    else some (unpackNibbles rest, t)

/-- Reference notion, the `ref(C)` of the spec: what a parent embeds for a child whose own
encoding is `c`, namely `c` itself when it is shorter than 32 bytes and the digest `H(c)`, as
a byte string, when it has 32 bytes or more. -/
def childRef (sha3 : Bytes → Bytes) (c : Bytes) : Bytes :=
  if c.length < 32 then c else encode (.str (sha3 c))


/-! ## Reference notions: the nodes of a trie -/

namespace TrieNode

/-- The node `n` occurs in the tree rooted at `r`: it is `r`, or occurs below the child of an
infix node, or below a slot of a branch. -/
inductive Within (n : TrieNode) : TrieNode → Prop where
  | here : Within n n
  | infixNode (e : List Nibble) {next : TrieNode} : Within n next → Within n (.infixNode e next)
  | branch {nodes : Nibble → TrieNode} (i : Nibble) (v : Bytes) : Within n (nodes i) →
      Within n (.branch nodes v)

/-- The number of populated ones among the sixteen slots and the value of a branch. -/
def populated (nodes : Nibble → TrieNode) (v : Bytes) : Nat :=
  ((List.finRange 16).filter (fun i => !(nodes i).isNull)).length + (if v = [] then 0 else 1)

end TrieNode

/-! ## Nibbles of packed bytes, and the persistent trie (Trie.cpp, lines 668-834) -/

/-- `nibble(_data, _i)`: the high half of byte `_i / 2` for an even `_i`, the low half for an
odd one. -/
def nibble (data : Bytes) (i : Nat) : Except Fault Nat := do
  let b ← readByte data (i / 2)
  pure (if i &&& 1 ≠ 0 then b &&& 15 else b >>> 4)

/-- The loop `for (uint ai = _ab, bi = _bb; ai < _ae && bi < _be && nibble(_a, ai) ==
nibble(_b, bi); ++ai, ++bi) {}` of `sharedNibbles`: its body is empty. The fuel is
`_ae - ai`, zero only when the loop condition fails. -/
def sharedNibblesLoop (a b : Bytes) (ae be : Nat) : Nat → Nat → Nat → Except Fault Unit
  | 0, _, _ => .ok ()
  | fuel + 1, ai, bi =>
    if ai < ae ∧ bi < be then do
      let x ← nibble a ai
      let y ← nibble b bi
      if x = y then sharedNibblesLoop a b ae be fuel (ai + 1) (bi + 1) else pure ()
    else .ok ()

/-- `sharedNibbles(_a, _ab, _ae, _b, _bb, _be)`: `uint ret = 0;` the loop; `return ret;`. -/
def sharedNibbles (a : Bytes) (ab ae : Nat) (b : Bytes) (bb be : Nat) : Except Fault Nat := do
  let ret := 0
  sharedNibblesLoop a b ae be (ae - ab) ab bb
  pure ret

/-- The persistent trie: the root reference `m_root`, and the node store. Modelled from the
spec: the class declaration (`Trie.h`) and the store are not among the sources; the spec
gives the store the operations `get(digest) -> bytes` (empty if absent), `put(bytes) ->
digest` (returns `H(bytes)`) and `kill(digest)`. The store is the list of the (digest, bytes)
pairs it holds. -/
structure GenericTrieDB where
  m_root : Bytes
  store : List (Bytes × Bytes)
deriving DecidableEq

namespace GenericTrieDB

/-- Modelled from the spec: a persistent trie over an initially empty node store; its root is
`c_null = sha3(RLPNull)` (Trie.cpp, line 668). -/
def init (sha3 : Bytes → Bytes) : GenericTrieDB := ⟨sha3 RLPNull, []⟩

/-- Modelled from the spec: `node(h)` is the store's `get`, the bytes held under the digest,
empty if absent. -/
def node (db : GenericTrieDB) (h : Bytes) : Bytes :=
  match db.store.find? (fun e => e.1 = h) with
  | some e => e.2
  | none => []

/-- Modelled from the spec: `killNode(h)` is the store's `kill`. -/
def killNode (db : GenericTrieDB) (h : Bytes) : GenericTrieDB :=
  ⟨db.m_root, db.store.filter (fun e => e.1 ≠ h)⟩

/-- Modelled from the spec: `insertNode(bytes)` is the store's `put`; it returns the digest
`H(bytes)`. -/
def insertNode (sha3 : Bytes → Bytes) (db : GenericTrieDB) (b : Bytes) : GenericTrieDB × Bytes :=
  (⟨db.m_root, (sha3 b, b) :: db.store⟩, sha3 b)

/-- `mergeHelper(_s, _replace, _key, _value, _begin, _end, _nodeBegin)`: the whole body is
inside a comment, so the stream is left as it is. -/
def mergeHelper (s : RLPStream) (_replace : RLP) (_key _value : Bytes)
    (_begin _end _nodeBegin : Nat) : RLPStream := s

/-- `mergeItem(_s, _replace, _k, _v, _begin, _end, _nodeBegin)`: the whole body is inside a
comment. -/
def mergeItem (s : RLPStream) (_replace : RLP) (_k _v : Bytes)
    (_begin _end _nodeBegin : Nat) : RLPStream := s

/-- `streamNode(_s, _b)`: the bytes are appended raw when shorter than 32, and put into the
store and referenced by their digest otherwise. -/
def streamNode (sha3 : Bytes → Bytes) (db : GenericTrieDB) (s : RLPStream) (b : Bytes) :
    GenericTrieDB × RLPStream :=
  if b.length < 32 then (db, s.appendRaw b)
  else
    let r := db.insertNode sha3 b
    (r.1, s.append r.2)

/-- `insert(_key, _value)`: the root node is fetched and killed, `mergeHelper` writes to a
fresh stream, and what the stream holds becomes the new root. -/
def insert (sha3 : Bytes → Bytes) (db : GenericTrieDB) (key value : Bytes) : GenericTrieDB :=
  let rv := db.node db.m_root
  let db1 := db.killNode db.m_root
  let s := mergeHelper ⟨[]⟩ ⟨some rv⟩ key value 0 (key.length * 2 % uintMod) 0
  let r := db1.insertNode sha3 s.out
  ⟨r.2, r.1.store⟩

/-- `remove(_key)`: the body is empty. -/
def remove (db : GenericTrieDB) (_key : Bytes) : GenericTrieDB := db

/-- `at(_key)`: `return std::string();`. -/
def at_ (_db : GenericTrieDB) (_key : Bytes) : Bytes := []

/-- Insert the (key, value) pairs one after the other. -/
def insertAll (sha3 : Bytes → Bytes) (db : GenericTrieDB) : List (Bytes × Bytes) → GenericTrieDB
  | [] => db
  | (k, v) :: rest => insertAll sha3 (db.insert sha3 k v) rest

end GenericTrieDB

/-- A stand-in for the hash function when an example is evaluated, one that tells byte
strings of different lengths (below 256) apart: the digest is the length, then 31 zero
bytes. -/
def lengthDigest : Bytes → Bytes := fun b => (b.length % 256) :: List.replicate 31 0

/-! ## Hex-prefix encoding of packed bytes (Trie.cpp, lines 675-694) -/

/-- The loop `for (auto i = begin; i < end; ++i, ++d)` of the packed-byte `hexPrefixEncode`:
the nibble is or-ed onto the last byte of `ret` when `d` is odd and pushed, shifted to the
high half, when `d` is even. The fuel is `end - i`, zero exactly when the loop condition
fails. -/
def hexPrefixEncodePackedLoop (data : Bytes) (stop : Nat) : Nat → Nat → Nat → Bytes →
    Except Fault Bytes
  | 0, _, _, ret => .ok ret
  | fuel + 1, i, d, ret =>
    if i < stop then do
      let n ← nibble data i
      hexPrefixEncodePackedLoop data stop fuel (i + 1) ((d + 1) % uintMod)
        (if d &&& 1 ≠ 0 then ret.dropLast ++ [(ret.getLastD 0 ||| n) % 256]
          else ret ++ [(n <<< 4) % 256])
    else .ok ret

/-- `hexPrefixEncode(bytesConstRef _data, bool _terminated, int _beginNibble, int
_endNibble)`: the `int` arguments are converted to `uint`, and `end - begin` is a `uint`
difference. -/
def hexPrefixEncodePacked (data : Bytes) (terminated : Bool) (_beginNibble _endNibble : Int) :
    Except Fault Bytes :=
  let begin : Nat := (_beginNibble % (uintMod : Int)).toNat
  let stop : Nat :=
    if _endNibble < 0 then
      (((data.length : Int) * 2 + 1 + _endNibble) % (uintMod : Int)).toNat
    else (_endNibble % (uintMod : Int)).toNat
  let odd : Bool := decide (((stop + uintMod - begin) % uintMod) &&& 1 ≠ 0)
  let ret0 : Nat := (((if terminated then 2 else 0) ||| (if odd then 1 else 0)) * 16) % 256
  hexPrefixEncodePackedLoop data stop (stop - begin) begin (if odd then 1 else 2) [ret0]

/-! ## The from-scratch encoding of a sorted map (Trie.cpp, lines 75-201) -/

/-- Conversion of a value to `unsigned`, an integer of 32 bits. -/
def toUnsigned (n : Nat) : Nat := n % 2 ^ 32

/-- Conversion of an unsigned value to `int`, a two's-complement integer of 32 bits. -/
def toSigned (n : Nat) : Int :=
  if n % 2 ^ 32 < 2 ^ 31 then ((n % 2 ^ 32 : Nat) : Int) else ((n % 2 ^ 32 : Nat) : Int) - 2 ^ 32

/-- The order of `std::map<bytes, ...>` on its keys: `std::less` on vectors, the
lexicographic comparison. -/
def lexLt : List Nibble → List Nibble → Bool
  | [], [] => false
  | [], _ :: _ => true
  | _ :: _, [] => false
  | a :: as, b :: bs => decide (a < b) || (decide (a = b) && lexLt as bs)

/-- Modelled from the spec: `HexMap` is declared outside the sources; it is the sorted
nibble-key map, a `std::map` from nibble vectors to values. It is held as the list of its
entries in iteration order, that is by increasing key; an iterator range is a segment of the
list. -/
abbrev HexMap := List (List Nibble × Bytes)

namespace HexMap

/-- `hexMap[k] = v`: the entry with key `k` is set to `v` when there is one, and put at its
place in the order otherwise. -/
def assign (k : List Nibble) (v : Bytes) : HexMap → HexMap
  | [] => [(k, v)]
  | e :: rest =>
    if lexLt k e.1 then (k, v) :: e :: rest
    else if k = e.1 then (k, v) :: rest
    else e :: assign k v rest

/-- The loop `for (auto i = _s.rbegin(); i != _s.rend(); ++i) hexMap[toHex(i->first)] =
i->second;` over the entries `s` of the string map, given in iteration order. -/
def ofStringMap (s : List (Bytes × Bytes)) : HexMap :=
  s.reverse.foldl (fun m e => assign (toHex e.1) e.2 m) []

end HexMap

/-- The vector read `k[i]`; a read at or beyond the end of the vector is a fault. -/
def readNibble (k : List Nibble) (i : Nat) : Except Fault Nibble :=
  match k[i]? with
  | some b => .ok b
  | none => .error .outOfBounds

/-- The loop `for (; shared < x && _begin->first[shared] == i->first[shared]; ++shared) {}`
of `hash256rlp`. The fuel is `x - shared`, zero exactly when `shared < x` fails. -/
def sharedLoop (k1 k2 : List Nibble) (x : Nat) : Nat → Nat → Except Fault Nat
  | 0, shared => .ok shared
  | fuel + 1, shared =>
    if shared < x then do
      let a ← readNibble k1 shared
      let b ← readNibble k2 shared
      if a = b then sharedLoop k1 k2 x fuel (shared + 1) else pure shared
    else .ok shared

/-- The loop `for (auto i = std::next(_begin); i != _end && sharedPre; ++i, ++c)` of
`hash256rlp` over the entries after the first, `sharedPre` being the minimum found so far. -/
def sharedPreLoop (first : List Nibble) (preLen : Nat) : HexMap → Nat → Except Fault Nat
  | [], sharedPre => .ok sharedPre
  | e :: rest, sharedPre =>
    if sharedPre ≠ 0 then do
      let x := min sharedPre (min first.length e.1.length)
      let shared ← sharedLoop first e.1 x (x - preLen) preLen
      sharedPreLoop first preLen rest (min shared sharedPre)
    else .ok sharedPre

/-- The loop `for (; n != _end && n->first[_preLen] == i; ++n) {}` of `hash256rlp`: the
entries from `b` on are split where `n` stops. -/
def spanNibble (preLen : Nat) (i : Nibble) : HexMap → Except Fault (HexMap × HexMap)
  | [] => .ok ([], [])
  | e :: rest => do
    let c ← readNibble e.1 preLen
    if c = i then do
      let r ← spanNibble preLen i rest
      pure (e :: r.1, r.2)
    else pure ([], e :: rest)

/-- `hash256aux(_s, _begin, _end, _preLen, _rlp)`, given what `hash256rlp` does on the range
with a fresh stream (`none` when its recursion could not be unfolded to the end): the
encoding is appended raw when shorter than 32 bytes and as its digest otherwise. -/
def hash256aux (sha3 : Bytes → Bytes) (rlpOf : Option (Except Fault RLPStream))
    (s : RLPStream) : Option (Except Fault RLPStream) :=
  match rlpOf with
  | none => none
  | some (.error f) => some (.error f)
  | some (.ok c) =>
    some (.ok (if c.out.length < 32 then s.appendRaw c.out else s.append (sha3 c.out)))

/-- The loop `for (auto i = 0; i < 16; ++i)` of `hash256rlp` from nibble `i` on: `b` is the
rest of the range, and `child g` is what `hash256rlp` does on the range `g` with the prefix
length `_preLen + 1` and a fresh stream. -/
def hash256Slots (sha3 : Bytes → Bytes) (child : HexMap → Option (Except Fault RLPStream))
    (preLen : Nat) : List Nibble → HexMap → RLPStream → Option (Except Fault RLPStream)
  | [], _, s => some (.ok s)
  | i :: more, b, s =>
    match spanNibble preLen i b with
    | .error f => some (.error f)
    | .ok (g, n) =>
      if g.isEmpty then hash256Slots sha3 child preLen more n (s.append [])
      else
        match hash256aux sha3 (child g) s with
        | none => none
        | some (.error f) => some (.error f)
        | some (.ok s2) => hash256Slots sha3 child preLen more n s2

/-- `hash256rlp(_s, _begin, _end, _preLen, _rlp)` on the range `l`, its recursion unfolded at
most `fuel` times: `none` when that is not enough, and what the function does otherwise. The
`uint` and `unsigned` values passed as `int` and `unsigned` arguments are converted. -/
def hash256rlp (sha3 : Bytes → Bytes) :
    Nat → HexMap → Nat → RLPStream → Option (Except Fault RLPStream)
  | 0, _, _, _ => none
  | fuel + 1, l, preLen, s =>
    match l with
    | [] => some (.ok (s.append []))
    | [e] => some (do
        let hp ← hexPrefixEncode (e.1.map Fin.val) true (toSigned preLen) (-1)
        pure (((s.appendList 2).append hp).append e.2))
    | first :: second :: rest =>
      match sharedPreLoop first.1 preLen (second :: rest) (uintMod - 1) with
      | .error f => some (.error f)
      | .ok sharedPre =>
        if sharedPre > preLen then
          match hexPrefixEncode (first.1.map Fin.val) false (toSigned preLen)
              (toSigned sharedPre) with
          | .error f => some (.error f)
          | .ok hp =>
            hash256aux sha3
              (hash256rlp sha3 fuel (first :: second :: rest) (toUnsigned sharedPre) ⟨[]⟩)
              ((s.appendList 2).append hp)
        else
          match hash256Slots sha3
              (fun g => hash256rlp sha3 fuel g (toUnsigned (preLen + 1)) ⟨[]⟩) preLen
              (List.finRange 16)
              (if preLen = first.1.length then second :: rest else first :: second :: rest)
              (s.appendList 17) with
          | none => none
          | some (.error f) => some (.error f)
          | some (.ok s2) =>
            some (.ok (if preLen = first.1.length then s2.append first.2 else s2.append []))

/-- `hash256(StringMap const& _s)` on the entries `s` of the string map: the digest of
`RLPNull` for an empty map, and otherwise the digest of what `hash256rlp` writes for the
sorted nibble-key map with prefix length 0. The recursion follows the nibbles of the keys, so
it is unfolded once more than the longest key has nibbles, and once for the root. -/
def hash256 (sha3 : Bytes → Bytes) (s : List (Bytes × Bytes)) : Option (Except Fault Bytes) :=
  if s.isEmpty then some (.ok (sha3 RLPNull))
  else
    let hexMap := HexMap.ofStringMap s
    match hash256rlp sha3 ((hexMap.map (fun e => e.1.length)).foldl max 0 + 2) hexMap 0 ⟨[]⟩ with
    | none => none
    | some (.error f) => some (.error f)
    | some (.ok r) => some (.ok (sha3 r.out))

/-! ## Reference notions: the entries of a trie in key order -/

namespace HexMap

/-- The entries with the nibbles `p` put before each key. -/
def prepend (p : List Nibble) (m : HexMap) : HexMap := m.map (fun x => (p ++ x.1, x.2))

/-- The keys increase strictly from each entry to the next, as in a `std::map`. -/
def Sorted (m : HexMap) : Prop := m.Pairwise (fun a b => lexLt a.1 b.1 = true)

end HexMap

namespace TrieNode

/-- The (nibble path, value) pairs stored below a node, by increasing path: the value of a
branch first, then the entries of its slots in order. -/
def entries : TrieNode → HexMap
  | .null => []
  | .leaf e v => [(e, v)]
  | .infixNode e next => HexMap.prepend e (entries next)
  | .branch nodes v =>
    (if v = [] then [] else [([], v)])
      ++ (List.finRange 16).flatMap (fun i => HexMap.prepend [i] (entries (nodes i)))

/-- The number of nodes on the longest path from a node down to a leaf. -/
def height : TrieNode → Nat
  | .null => 0
  | .leaf _ _ => 1
  | .infixNode _ next => height next + 1
  | .branch nodes _ => ((List.finRange 16).map (fun i => height (nodes i))).foldl max 0 + 1

end TrieNode

/-- The two keys do not continue alike after their first `L` nibbles. -/
def DivergeAt (k1 k2 : List Nibble) (L : Nat) : Prop :=
  ¬ ∃ c, k1[L]? = some c ∧ k2[L]? = some c
/-! # Properties

## Arithmetic of big-endian byte strings -/

theorem byteLen_zero : byteLen 0 = 0 := by simp [byteLen]

theorem byteLen_pos {x : Nat} (h : x ≠ 0) : byteLen x = byteLen (x / 256) + 1 := by
  unfold byteLen
  rw [if_neg h]
  by_cases h2 : x / 256 = 0
  · rw [if_pos h2]
    have : x < 256 := by
      rcases Nat.div_eq_zero_iff (by norm_num : 0 < 256) |>.mp h2 with h3
      exact h3
    rw [Nat.log_of_lt this]
  · rw [if_neg h2]
    have h3 : 256 ≤ x := by
      by_contra hc
      exact h2 (Nat.div_eq_of_lt (by omega))
    rw [Nat.log_of_one_lt_of_le (by norm_num) h3]

theorem lt_pow_byteLen (x : Nat) : x < 256 ^ byteLen x := by
  unfold byteLen
  split
  · subst_vars; simp
  · exact Nat.lt_pow_succ_log_self (by norm_num) x

theorem byteLen_le_of_lt_pow {x n : Nat} (h : x < 256 ^ n) : byteLen x ≤ n := by
  unfold byteLen
  split
  · omega
  · rename_i hx
    have := Nat.log_lt_of_lt_pow hx h
    omega

theorem pow_byteLen_le {x : Nat} (h : x ≠ 0) : 256 ^ (byteLen x - 1) ≤ x := by
  unfold byteLen
  rw [if_neg h]
  simpa using Nat.pow_log_le_self 256 h

theorem shiftRight8 (x : Nat) : x >>> 8 = x / 256 := by
  rw [Nat.shiftRight_eq_div_pow]

namespace RLPStream

theorem bytesRequiredLoop_eq (fuel : Nat) : ∀ (x i : Nat), x ≤ fuel → i + byteLen x < uintMod →
    bytesRequiredLoop fuel x i = i + byteLen x := by
  induction fuel with
  | zero =>
    intro x i hx _
    have : x = 0 := by omega
    subst this
    simp [bytesRequiredLoop, byteLen_zero]
  | succ f ih =>
    intro x i hx hi
    unfold bytesRequiredLoop
    by_cases h0 : x = 0
    · subst h0; simp [byteLen_zero]
    · rw [if_pos h0, shiftRight8]
      have hb := byteLen_pos h0
      have hlt : x / 256 < x := Nat.div_lt_self (Nat.pos_of_ne_zero h0) (by norm_num)
      rw [Nat.mod_eq_of_lt (by omega)]
      rw [ih (x / 256) (i + 1) (by omega) (by omega)]
      omega

theorem bytesRequired_eq {x : Nat} (h : byteLen x < uintMod) (h0 : x ≠ 0) :
    bytesRequired x = byteLen x := by
  unfold bytesRequired
  rw [shiftRight8, bytesRequiredLoop_eq x (x / 256) 1 (Nat.div_le_self _ _)]
  · rw [byteLen_pos h0]; omega
  · rw [byteLen_pos h0] at h; omega

end RLPStream

theorem beBytes_length (n x : Nat) : (beBytes n x).length = n := by
  induction n generalizing x with
  | zero => rfl
  | succ n ih => simp [beBytes, ih]

theorem beBytes_lt (n x : Nat) : ∀ b ∈ beBytes n x, b < 256 := by
  induction n generalizing x with
  | zero => simp [beBytes]
  | succ n ih =>
    intro b hb
    simp only [beBytes, List.mem_append, List.mem_singleton] at hb
    rcases hb with hb | hb
    · exact ih _ b hb
    · subst hb; exact Nat.mod_lt _ (by norm_num)

theorem bigEndianValue_append (a : Bytes) (b : Nat) :
    bigEndianValue (a ++ [b]) = bigEndianValue a * 256 + b := by
  simp [bigEndianValue, List.foldl_append]

theorem bigEndianValue_beBytes (n x : Nat) (h : x < 256 ^ n) : bigEndianValue (beBytes n x) = x := by
  induction n generalizing x with
  | zero =>
    have : x = 0 := by simpa using h
    subst this; rfl
  | succ n ih =>
    rw [beBytes, bigEndianValue_append, ih]
    · exact Nat.div_add_mod' x 256
    · rw [pow_succ] at h
      exact Nat.div_lt_of_lt_mul (by rw [Nat.mul_comm]; exact h)

theorem beBytes_zero (n : Nat) : beBytes n 0 = List.replicate n 0 := by
  induction n with
  | zero => rfl
  | succ n ih =>
    simp only [beBytes, Nat.zero_div, ih, Nat.zero_mod]
    exact (List.replicate_succ' ..).symm

theorem beBytes_head (n x : Nat) (h : 256 ^ n ≤ x) : (beBytes (n + 1) x).head? = some (x / 256 ^ n % 256) := by
  induction n generalizing x with
  | zero => simp [beBytes]
  | succ n ih =>
    rw [beBytes]
    have h2 : 256 ^ n ≤ x / 256 := by
      rw [Nat.le_div_iff_mul_le (by norm_num)]
      rw [pow_succ] at h; exact h
    have := ih (x / 256) h2
    rw [List.head?_append, this]
    simp [Nat.div_div_eq_div_mul, pow_succ, Nat.mul_comm]

theorem isMinimalBE_beBytes (x : Nat) : IsMinimalBE (beBytes (byteLen x) x) x := by
  refine ⟨bigEndianValue_beBytes _ _ (lt_pow_byteLen x), beBytes_lt _ _, ?_⟩
  by_cases h0 : x = 0
  · subst h0; simp [byteLen_zero, beBytes]
  · have hp := pow_byteLen_le h0
    have hl := lt_pow_byteLen x
    obtain ⟨n, hn⟩ : ∃ n, byteLen x = n + 1 := ⟨byteLen (x / 256), byteLen_pos h0⟩
    rw [hn] at hp hl ⊢
    simp only [Nat.add_sub_cancel] at hp
    rw [beBytes_head n x hp]
    intro hc
    have hc2 : x / 256 ^ n % 256 = 0 := by simpa using hc
    have h3 : x / 256 ^ n < 256 := by
      apply Nat.div_lt_of_lt_mul
      rw [pow_succ] at hl; exact hl
    rw [Nat.mod_eq_of_lt h3] at hc2
    have h4 : 0 < x / 256 ^ n := Nat.div_pos hp (by positivity)
    omega


theorem set_length_append (l : Bytes) (a v : Nat) (r : Bytes) :
    (l ++ a :: r).set l.length v = l ++ v :: r := by
  induction l with
  | nil => rfl
  | cons x xs ih => simp [List.set, ih]

namespace RLPStream

theorem pushIntLoop_eq (fuel : Nat) : ∀ (x k m : Nat) (A suf : Bytes), x ≤ fuel → x < 256 ^ m →
    suf.length = k →
    pushIntLoop fuel x k (A ++ List.replicate m 0 ++ suf) = A ++ beBytes m x ++ suf := by
  induction fuel with
  | zero =>
    intro x k m A suf hx _ _
    have : x = 0 := by omega
    subst this
    simp [pushIntLoop, beBytes_zero]
  | succ f ih =>
    intro x k m A suf hx hm hk
    unfold pushIntLoop
    by_cases h0 : x = 0
    · subst h0; simp [beBytes_zero]
    · rw [if_pos h0, shiftRight8]
      cases m with
      | zero => simp at hm; omega
      | succ m =>
        have hlen : (A ++ List.replicate (m + 1) 0 ++ suf).length = A.length + m + 1 + k := by
          simp [hk]; omega
        rw [if_pos (by rw [hlen]; omega)]
        have hidx : (A ++ List.replicate (m + 1) 0 ++ suf).length - 1 - k
            = (A ++ List.replicate m 0).length := by
          rw [hlen]; simp
        have hsplit : A ++ List.replicate (m + 1) 0 ++ suf
            = (A ++ List.replicate m 0) ++ 0 :: suf := by
          rw [List.replicate_succ']; simp
        rw [hidx, hsplit, set_length_append]
        have hlt : x / 256 < x := Nat.div_lt_self (Nat.pos_of_ne_zero h0) (by norm_num)
        have hm2 : x / 256 < 256 ^ m := by
          rw [pow_succ] at hm
          exact Nat.div_lt_of_lt_mul (by rw [Nat.mul_comm]; exact hm)
        rw [ih (x / 256) (k + 1) m A (x % 256 :: suf) (by omega) hm2 (by simp [hk])]
        simp [beBytes]

theorem pushInt_eq (s : RLPStream) {x br : Nat} (h : x < 256 ^ br) :
    s.pushInt x br = ⟨s.m_out ++ beBytes br x⟩ := by
  unfold pushInt
  have := pushIntLoop_eq x x 0 br s.m_out [] (le_refl _) h rfl
  simp only [List.append_nil] at this
  rw [this]

end RLPStream
/-! ## The stream operations append the reference layouts -/

theorem byteLen_le_eight {n : Nat} (h : n < 2 ^ 64) : byteLen n ≤ 8 :=
  byteLen_le_of_lt_pow (by norm_num; exact h)

theorem byteLen_pos_of_ne_zero {x : Nat} (h : x ≠ 0) : 1 ≤ byteLen x := by
  rw [byteLen_pos h]; omega

theorem lor_0x40 : ∀ n, n < 56 → n ||| 0x40 = 0x40 + n := by decide

theorem lor_0x80 : ∀ n, n < 56 → n ||| 0x80 = 0x80 + n := by decide

namespace RLPStream

theorem bytesRequired_of_lt {n : Nat} (h : n < 2 ^ 64) (h0 : n ≠ 0) :
    bytesRequired n = byteLen n := by
  apply bytesRequired_eq _ h0
  have := byteLen_le_eight h
  unfold uintMod
  omega

theorem pushCount_eq (s : RLPStream) {n base : Nat} (h : 56 ≤ n) (h2 : n < 2 ^ 64)
    (hb : base ≤ 0x80) :
    s.pushCount n base = ⟨s.m_out ++ countLayout base n⟩ := by
  unfold pushCount
  simp only
  rw [bytesRequired_of_lt h2 (by omega)]
  rw [pushInt_eq _ (lt_pow_byteLen n)]
  have h8 := byteLen_le_eight h2
  simp only [push_back, countLayout, if_neg (show ¬ n < 56 by omega)]
  rw [Nat.mod_eq_of_lt (by omega)]
  have e : byteLen n + 55 + base = base + 55 + byteLen n := by omega
  simp [e]

theorem append_eq (s : RLPStream) {str : Bytes} (h : str.length < 2 ^ 64) :
    s.append str = ⟨s.m_out ++ countLayout 0x40 str.length ++ str⟩ := by
  unfold append
  by_cases h56 : str.length < 56
  · simp only [show str.length < 0x38 from h56, if_true, push_back, lor_0x40 _ h56, countLayout]
    rw [Nat.mod_eq_of_lt (by omega)]
  · simp only [show ¬ str.length < 0x38 from h56, if_false]
    rw [pushCount_eq s (by omega) h (by norm_num)]

theorem appendList_eq (s : RLPStream) {n : Nat} (h : n < 2 ^ 64) :
    s.appendList n = ⟨s.m_out ++ countLayout 0x80 n⟩ := by
  unfold appendList
  by_cases h56 : n < 56
  · simp only [show n < 0x38 from h56, if_true, push_back, lor_0x80 _ h56, countLayout]
    rw [Nat.mod_eq_of_lt (by omega)]
  · simp only [show ¬ n < 0x38 from h56, if_false]
    rw [pushCount_eq s (by omega) h (by norm_num)]

theorem appendNumericBigint_eq (s : RLPStream) {x : Nat} (h : byteLen x < 2 ^ 64) :
    s.appendNumericBigint x = ⟨s.m_out ++ intLayout x⟩ := by
  unfold appendNumericBigint intLayout
  by_cases h24 : x < 24
  · simp only [show x < 0x18 from h24, if_true, push_back]
    rw [Nat.mod_eq_of_lt (by omega)]
  · simp only [show ¬ x < 0x18 from h24, h24, if_false]
    have hbr : bytesRequired x = byteLen x := bytesRequired_eq (by unfold uintMod; exact h) (by omega)
    rw [hbr]
    by_cases h32 : byteLen x ≤ 32
    · simp only [h32, if_true]
      rw [pushInt_eq _ (lt_pow_byteLen x)]
      simp only [push_back]
      rw [Nat.mod_eq_of_lt (by omega)]
      simp [Nat.add_comm]
    · simp only [h32, if_false]
      have hlt : byteLen x < 2 ^ 64 := h
      have h8 := byteLen_le_eight hlt
      rw [bytesRequired_of_lt hlt (by omega)]
      rw [pushInt_eq _ (lt_pow_byteLen (byteLen x)), pushInt_eq _ (lt_pow_byteLen x)]
      simp only [push_back]
      rw [Nat.mod_eq_of_lt (by omega)]
      simp

theorem appendNumericUint_eq_bigint (s : RLPStream) {x : Nat} (h : x < 2 ^ 64) :
    s.appendNumericUint x = s.appendNumericBigint x := by
  unfold appendNumericUint appendNumericBigint
  by_cases h24 : x < 0x18
  · simp only [h24, if_true]
  · simp only [h24, if_false]
    have hbr : bytesRequired x = byteLen x := bytesRequired_of_lt h (by omega)
    have h8 := byteLen_le_eight h
    rw [hbr, if_pos (by omega)]

theorem appendNumericU256_eq_bigint (s : RLPStream) {x : Nat} (h : x < 2 ^ 256) :
    s.appendNumericU256 x = s.appendNumericBigint x := by
  unfold appendNumericU256 appendNumericBigint
  by_cases h24 : x < 0x18
  · simp only [h24, if_true]
  · simp only [h24, if_false]
    have h32 : byteLen x ≤ 32 := byteLen_le_of_lt_pow (by norm_num; exact h)
    have hbr : bytesRequired x = byteLen x :=
      bytesRequired_eq (by unfold uintMod; omega) (by omega)
    rw [hbr, if_pos h32]

end RLPStream

theorem byteLen_lt_of_lt_two_pow_256 {x : Nat} (h : x < 2 ^ 256) : byteLen x < 2 ^ 64 := by
  have h1 : byteLen x ≤ 32 := byteLen_le_of_lt_pow (by norm_num; exact h)
  omega

/-! ## Writing a value appends its encoding -/

mutual
theorem RLPValue.stream_eq : ∀ (v : RLPValue) (s : RLPStream), v.Fits →
    v.stream s = ⟨s.m_out ++ encode v⟩
  | .int x, s, h => by
    simp only [RLPValue.Fits] at h
    simp [RLPValue.stream, encode, RLPStream.out, RLPStream.appendNumericBigint_eq _ h]
  | .str b, s, h => by
    simp only [RLPValue.Fits] at h
    simp [RLPValue.stream, encode, RLPStream.out, RLPStream.append_eq _ h]
  | .list l, s, h => by
    simp only [RLPValue.Fits] at h
    simp only [RLPValue.stream, encode, RLPStream.out]
    rw [RLPValue.streamAll_eq l _ h.2, RLPValue.streamAll_eq l _ h.2]
    simp [RLPStream.appendList_eq _ h.1]
theorem RLPValue.streamAll_eq : ∀ (l : List RLPValue) (s : RLPStream), RLPValue.FitsAll l →
    RLPValue.streamAll l s = ⟨s.m_out ++ (l.map encode).flatten⟩
  | [], s, _ => by simp [RLPValue.streamAll]
  | v :: vs, s, h => by
    simp only [RLPValue.FitsAll] at h
    simp only [RLPValue.streamAll]
    rw [RLPValue.stream_eq v s h.1, RLPValue.streamAll_eq vs _ h.2]
    simp
end

theorem encode_int {x : Nat} (h : byteLen x < 2 ^ 64) : encode (.int x) = intLayout x := by
  simp [encode, RLPValue.stream, RLPStream.out, RLPStream.appendNumericBigint_eq _ h]

theorem encode_str {b : Bytes} (h : b.length < 2 ^ 64) :
    encode (.str b) = countLayout 0x40 b.length ++ b := by
  simp [encode, RLPValue.stream, RLPStream.out, RLPStream.append_eq _ h]

theorem encode_list {l : List RLPValue} (h : (RLPValue.list l).Fits) :
    encode (.list l) = countLayout 0x80 l.length ++ (l.map encode).flatten := by
  simp only [RLPValue.Fits] at h
  simp only [encode, RLPValue.stream, RLPStream.out]
  rw [RLPValue.streamAll_eq l _ h.2]
  simp [RLPStream.appendList_eq _ h.1]

/-! ## Encoding layouts -/

theorem two_pow_64_le_of_byteLen {x : Nat} (h : 2 ^ 64 ≤ x) : 9 ≤ byteLen x := by
  by_contra hc
  have h1 : x < 256 ^ byteLen x := lt_pow_byteLen x
  have h2 : 256 ^ byteLen x ≤ 256 ^ 8 := Nat.pow_le_pow_right (by norm_num) (by omega)
  have h3 : (256 : Nat) ^ 8 = 2 ^ 64 := by norm_num
  omega

theorem byteLen_gt_of_two_pow_256_le {x : Nat} (h : 2 ^ 256 ≤ x) : 33 ≤ byteLen x := by
  by_contra hc
  have h1 : x < 256 ^ byteLen x := lt_pow_byteLen x
  have h2 : 256 ^ byteLen x ≤ 256 ^ 32 := Nat.pow_le_pow_right (by norm_num) (by omega)
  have h3 : (256 : Nat) ^ 32 = 2 ^ 256 := by norm_num
  omega

/-- C7: integer encoding layout. Appending a non-negative integer `x` emits (i) the single
byte `x` when `x < 24`; (ii) the byte `0x17 + n` followed by the `n`-byte big-endian
representation of `x` with no leading zero byte when `24 ≤ x < 2 ^ 256`, the first byte lying
in `0x18..0x1f` for `x < 2 ^ 64` and in `0x20..0x37` otherwise; (iii) when `x ≥ 2 ^ 256` (and
`x` has fewer than `2 ^ 64` bytes, as every `bigint` held in memory has) the byte `0x37 + m`,
the `m`-byte minimal big-endian length `n`, then the `n`-byte minimal big-endian `x`. The
`uint`, `u256` and `bigint` overloads give the same result on the values of the narrower
type. -/
theorem C7_integer_layout (x : Nat) (s : RLPStream) :
    (x < 24 → (s.appendNumericBigint x).m_out = s.m_out ++ [x]) ∧
    (24 ≤ x → x < 2 ^ 256 → ∃ bs : Bytes,
      (s.appendNumericBigint x).m_out = s.m_out ++ (0x17 + bs.length) :: bs ∧
      IsMinimalBE bs x ∧
      (x < 2 ^ 64 → 0x18 ≤ 0x17 + bs.length ∧ 0x17 + bs.length ≤ 0x1f) ∧
      (2 ^ 64 ≤ x → 0x20 ≤ 0x17 + bs.length ∧ 0x17 + bs.length ≤ 0x37)) ∧
    (2 ^ 256 ≤ x → byteLen x < 2 ^ 64 → ∃ ls bs : Bytes,
      (s.appendNumericBigint x).m_out = s.m_out ++ (0x37 + ls.length) :: (ls ++ bs) ∧
      IsMinimalBE ls bs.length ∧ IsMinimalBE bs x ∧ 0x37 + ls.length ≤ 0x3f) ∧
    (x < 2 ^ 64 → s.appendNumericUint x = s.appendNumericBigint x) ∧
    (x < 2 ^ 256 → s.appendNumericU256 x = s.appendNumericBigint x) := by
  refine ⟨?_, ?_, ?_, ?_, ?_⟩
  · intro h
    rw [RLPStream.appendNumericBigint_eq s
      (byteLen_lt_of_lt_two_pow_256 (lt_trans h (by norm_num)))]
    simp [intLayout, h]
  · intro h24 h256
    have h32 : byteLen x ≤ 32 := byteLen_le_of_lt_pow (by norm_num; exact h256)
    refine ⟨beBytes (byteLen x) x, ?_, isMinimalBE_beBytes x, ?_, ?_⟩
    · rw [RLPStream.appendNumericBigint_eq s (byteLen_lt_of_lt_two_pow_256 h256)]
      simp [intLayout, show ¬ x < 24 by omega, h32, beBytes_length]
    · intro h64
      have h8 := byteLen_le_eight h64
      have h1 := byteLen_pos_of_ne_zero (show x ≠ 0 by omega)
      rw [beBytes_length]; omega
    · intro h64
      have h9 := two_pow_64_le_of_byteLen h64
      rw [beBytes_length]; omega
  · intro h256 hfit
    have h33 := byteLen_gt_of_two_pow_256_le h256
    have h8 := byteLen_le_eight hfit
    refine ⟨beBytes (byteLen (byteLen x)) (byteLen x), beBytes (byteLen x) x, ?_, ?_,
      isMinimalBE_beBytes x, ?_⟩
    · rw [RLPStream.appendNumericBigint_eq s hfit]
      have hx : ¬ x < 24 := by
        intro hc
        have : (24 : Nat) < 2 ^ 256 := by norm_num
        omega
      simp [intLayout, hx, show ¬ byteLen x ≤ 32 by omega, beBytes_length]
    · rw [beBytes_length]; exact isMinimalBE_beBytes _
    · rw [beBytes_length]; omega
  · exact fun h => RLPStream.appendNumericUint_eq_bigint s h
  · exact fun h => RLPStream.appendNumericU256_eq_bigint s h

set_option maxRecDepth 100000 in
/-- Witness of C7 at `1024` (short form), at `2 ^ 256` (long form) and on the spec's
examples `15 → 0f`, `1024 → 19 04 00`, `0 → 00`. -/
theorem C7_integer_layout_witness :
    (∃ bs : Bytes, (RLPStream.appendNumericBigint ⟨[]⟩ 1024).m_out
        = [] ++ (0x17 + bs.length) :: bs ∧ IsMinimalBE bs 1024 ∧
      ((1024 : Nat) < 2 ^ 64 → 0x18 ≤ 0x17 + bs.length ∧ 0x17 + bs.length ≤ 0x1f) ∧
      (2 ^ 64 ≤ (1024 : Nat) → 0x20 ≤ 0x17 + bs.length ∧ 0x17 + bs.length ≤ 0x37)) ∧
    (∃ ls bs : Bytes, (RLPStream.appendNumericBigint ⟨[]⟩ (2 ^ 256)).m_out
        = [] ++ (0x37 + ls.length) :: (ls ++ bs) ∧
      IsMinimalBE ls bs.length ∧ IsMinimalBE bs (2 ^ 256) ∧ 0x37 + ls.length ≤ 0x3f) ∧
    (RLPStream.appendNumericBigint ⟨[]⟩ 15).m_out = [0x0f] ∧
    (RLPStream.appendNumericUint ⟨[]⟩ 1024).m_out = [0x19, 0x04, 0x00] ∧
    (RLPStream.appendNumericU256 ⟨[]⟩ 0).m_out = [0x00] ∧
    (RLPStream.appendNumericBigint ⟨[]⟩ (2 ^ 256)).m_out
      = [0x38, 33, 1] ++ List.replicate 32 0 :=
  ⟨(C7_integer_layout 1024 ⟨[]⟩).2.1 (by norm_num) (by norm_num),
   (C7_integer_layout (2 ^ 256) ⟨[]⟩).2.2.1 (le_refl _)
     (lt_of_le_of_lt (byteLen_le_of_lt_pow (show 2 ^ 256 < 256 ^ 33 by norm_num))
       (by norm_num)),
   by decide, by decide, by decide, by decide⟩

/-- C8: byte-string encoding layout. Appending a byte string `str` emits the byte
`0x40 + len` followed by `str` when `len < 56`, and otherwise (the length being a `uint`) the
byte `0x77 + n` followed by the `n`-byte big-endian length with no leading zero byte, followed
by `str`. -/
theorem C8_string_layout (str : Bytes) (s : RLPStream) :
    (str.length < 56 → (s.append str).m_out = s.m_out ++ (0x40 + str.length) :: str) ∧
    (56 ≤ str.length → str.length < 2 ^ 64 → ∃ ls : Bytes,
      (s.append str).m_out = s.m_out ++ (0x77 + ls.length) :: (ls ++ str) ∧
      IsMinimalBE ls str.length ∧ 0x77 + ls.length ≤ 0x7f) := by
  constructor
  · intro h
    rw [RLPStream.append_eq s (lt_trans h (by norm_num))]
    simp [countLayout, h]
  · intro h56 h64
    refine ⟨beBytes (byteLen str.length) str.length, ?_, isMinimalBE_beBytes _, ?_⟩
    · rw [RLPStream.append_eq s h64]
      simp [countLayout, show ¬ str.length < 56 by omega, beBytes_length]
    · have := byteLen_le_eight h64
      rw [beBytes_length]; omega

/-- Witness of C8 on `"dog" → 43 64 6f 67`, `"" → 40` and on a string of 56 bytes. -/
theorem C8_string_layout_witness :
    (RLPStream.append ⟨[]⟩ [0x64, 0x6f, 0x67]).m_out = [] ++ (0x40 + 3) :: [0x64, 0x6f, 0x67] ∧
    (RLPStream.append ⟨[]⟩ []).m_out = [] ++ (0x40 + 0) :: [] ∧
    (∃ ls : Bytes, (RLPStream.append ⟨[]⟩ (List.replicate 56 0x61)).m_out
        = [] ++ (0x77 + ls.length) :: (ls ++ List.replicate 56 0x61) ∧
      IsMinimalBE ls (List.replicate 56 0x61).length ∧ 0x77 + ls.length ≤ 0x7f) ∧
    (RLPStream.append ⟨[]⟩ (List.replicate 56 0x61)).m_out
      = [0x78, 56] ++ List.replicate 56 0x61 :=
  ⟨(C8_string_layout [0x64, 0x6f, 0x67] ⟨[]⟩).1 (by decide),
   (C8_string_layout [] ⟨[]⟩).1 (by decide),
   (C8_string_layout (List.replicate 56 0x61) ⟨[]⟩).2 (by decide) (by simp),
   by decide⟩

/-- C9 as stated fails: the two strings of the list `["cat", "dog"]` encode to 8 bytes in
total, yet the list header is `0x82` (the number of elements), not `0x88`. -/
theorem C9_list_layout_counterexample :
    (([RLPValue.str [0x63, 0x61, 0x74], RLPValue.str [0x64, 0x6f, 0x67]].map
      encode).flatten.length = 8) ∧
    encode (.list [.str [0x63, 0x61, 0x74], .str [0x64, 0x6f, 0x67]])
      = [0x82, 0x43, 0x63, 0x61, 0x74, 0x43, 0x64, 0x6f, 0x67] ∧
    encode (.list [.str [0x63, 0x61, 0x74], .str [0x64, 0x6f, 0x67]])
      ≠ (0x80 + 8) :: ([RLPValue.str [0x63, 0x61, 0x74],
          RLPValue.str [0x64, 0x6f, 0x67]].map encode).flatten := by
  decide

/-- C9 (amended): list encoding layout. The encoding of a list of `n < 56` elements (each
fitting the integer widths of the code) is the byte `0x80 + n`, where `n` is the number of
elements, followed by the concatenated encodings of its elements. -/
theorem C9_list_layout (l : List RLPValue) (h : l.length < 56) (hf : RLPValue.FitsAll l) :
    encode (.list l) = (0x80 + l.length) :: (l.map encode).flatten := by
  have hfits : (RLPValue.list l).Fits := by
    simp only [RLPValue.Fits]
    exact ⟨lt_trans h (by norm_num), hf⟩
  rw [encode_list hfits]
  simp [countLayout, h]

/-- Witness of C9 (amended) on `["cat", "dog"]` and on the empty list, which encodes to
`80`. -/
theorem C9_list_layout_witness :
    encode (.list [.str [0x63, 0x61, 0x74], .str [0x64, 0x6f, 0x67]])
      = (0x80 + 2) :: ([RLPValue.str [0x63, 0x61, 0x74],
          RLPValue.str [0x64, 0x6f, 0x67]].map encode).flatten ∧
    encode (.list []) = [0x80] :=
  ⟨C9_list_layout [.str [0x63, 0x61, 0x74], .str [0x64, 0x6f, 0x67]] (by decide)
    (by simp [RLPValue.FitsAll, RLPValue.Fits]), by decide⟩

/-! ## Hex-prefix encoding -/

theorem readByte_append_length (pre : Bytes) (a : Nat) (rest : Bytes) :
    readByte (pre ++ a :: rest) pre.length = .ok a := by
  have h : (pre ++ a :: rest)[pre.length]? = some a := by
    rw [List.getElem?_append_right (le_refl _)]
    simp
  unfold readByte
  rw [h]

theorem readByte_append_length_succ (pre : Bytes) (a b : Nat) (rest : Bytes) :
    readByte (pre ++ a :: b :: rest) (pre.length + 1) = .ok b := by
  have : pre ++ a :: b :: rest = (pre ++ [a]) ++ b :: rest := by simp
  rw [this]
  have h2 : pre.length + 1 = (pre ++ [a]).length := by simp
  rw [h2, readByte_append_length]

theorem hexPrefixEncodeLoop_eq (fuel : Nat) : ∀ (pre rest ret : Bytes),
    rest.length ≤ fuel → rest.length % 2 = 0 → (∀ x ∈ rest, x < 16) →
    hexPrefixEncodeLoop (pre ++ rest) (pre ++ rest).length fuel pre.length ret
      = .ok (ret ++ packNibbles rest) := by
  induction fuel with
  | zero =>
    intro pre rest ret h _ _
    have : rest = [] := List.eq_nil_of_length_eq_zero (by omega)
    subst this
    simp [hexPrefixEncodeLoop, packNibbles]
  | succ f ih =>
    intro pre rest ret h hev hn
    match rest, h, hev, hn with
    | [], _, _, _ => simp [hexPrefixEncodeLoop, packNibbles]
    | [a], _, hev, _ => simp at hev
    | a :: b :: rest2, h, hev, hn =>
      unfold hexPrefixEncodeLoop
      rw [if_pos (by simp)]
      rw [readByte_append_length, readByte_append_length_succ]
      simp only [bind, Except.bind]
      have ha : a < 16 := hn a (by simp)
      have hb : b < 16 := hn b (by simp)
      have e1 : pre ++ a :: b :: rest2 = (pre ++ [a, b]) ++ rest2 := by simp
      have e2 : pre.length + 2 = (pre ++ [a, b]).length := by simp
      rw [e2, e1]
      rw [ih (pre ++ [a, b]) rest2 _ (by simp at h; omega) (by simp at hev; omega)
        (fun x hx => hn x (by simp [hx]))]
      rw [Nat.mod_eq_of_lt (by omega)]
      simp [packNibbles]

theorem flag_lor (t : Bool) (odd : Bool) :
    ((if t then 2 else 0) ||| (if odd then 1 else 0) : Nat)
      = (if t then 2 else 0) + (if odd then 1 else 0) := by
  cases t <;> cases odd <;> rfl

theorem lor_nibble : ∀ f, f < 4 → ∀ a, a < 16 → (f * 16) ||| a = f * 16 + a := by decide

theorem hexPrefixEncodeLoop_odd (a : Nat) (rest ret : Bytes) (fuel : Nat)
    (h1 : rest.length ≤ fuel) (h2 : rest.length % 2 = 0) (h3 : ∀ x ∈ rest, x < 16) :
    hexPrefixEncodeLoop (a :: rest) (a :: rest).length fuel 1 ret
      = .ok (ret ++ packNibbles rest) :=
  hexPrefixEncodeLoop_eq fuel [a] rest ret h1 h2 h3

theorem hexPrefixEncodeLoop_even (p ret : Bytes) (fuel : Nat)
    (h1 : p.length ≤ fuel) (h2 : p.length % 2 = 0) (h3 : ∀ x ∈ p, x < 16) :
    hexPrefixEncodeLoop p p.length fuel 0 ret = .ok (ret ++ packNibbles p) :=
  hexPrefixEncodeLoop_eq fuel [] p ret h1 h2 h3

theorem hp_first_byte_false :
    ∀ a, a < 16 → ((0 ||| 1) * 16 % 256 ||| a) % 256 = (0 + 1) * 16 + a := by decide

theorem hp_first_byte_true :
    ∀ a, a < 16 → ((2 ||| 1) * 16 % 256 ||| a) % 256 = (2 + 1) * 16 + a := by decide

theorem hexPrefixEncode_whole (p : List Nat) (t : Bool) (hp : ∀ x ∈ p, x < 16)
    (hlen : p.length < 2 ^ 64) :
    hexPrefixEncode p t 0 (-1) = .ok (hpLayout p t) := by
  unfold hexPrefixEncode hpLayout
  have hstop : (((p.length : Int) + 1 + (-1)) % (uintMod : Int)).toNat = p.length := by
    unfold uintMod
    omega
  simp only [show ((-1 : Int) < 0) by decide, if_true, hstop]
  have hb : ((0 : Int) % (uintMod : Int)).toNat = 0 := by simp
  simp only [hb]
  have hodd : (p.length + uintMod - 0) % uintMod % 2 = p.length % 2 := by
    unfold uintMod
    omega
  simp only [hodd]
  by_cases ho : p.length % 2 = 1
  · simp only [ho, show decide ((1 : Nat) ≠ 0) = true from rfl, if_true]
    match p, hp, hlen, ho with
    | a :: rest, hp, hlen, ho =>
      have ha : a < 16 := hp a (by simp)
      simp only [readByte, List.getElem?_cons_zero, bind, Except.bind, zero_add]
      rw [hexPrefixEncodeLoop_odd a rest _ _ (by simp) (by simp at ho; omega)
        (fun x hx => hp x (by simp [hx]))]
      cases t
      · simpa using hp_first_byte_false a ha
      · simpa using hp_first_byte_true a ha
  · have ho2 : p.length % 2 = 0 := by omega
    simp only [ho2, show decide ((0 : Nat) ≠ 0) = false from rfl, if_false, Bool.false_eq_true,
      show ¬ ((0 : Nat) = 1) by decide]
    rw [hexPrefixEncodeLoop_even p _ _ (by simp) ho2 hp]
    cases t <;> simp

theorem packNibbles_length : ∀ (q : List Nat), (packNibbles q).length = q.length / 2
  | [] => rfl
  | [_] => by simp [packNibbles]
  | a :: b :: rest => by
    simp only [packNibbles, List.length_cons, packNibbles_length rest]
    omega

theorem packNibbles_getElem : ∀ (q : List Nat) (j : Nat), j < q.length / 2 →
    ∃ a b, q[2 * j]? = some a ∧ q[2 * j + 1]? = some b ∧
      (packNibbles q)[j]? = some (a * 16 + b)
  | [], j, h => by simp at h
  | [_], j, h => by
    simp only [List.length_singleton] at h
    omega
  | a :: b :: rest, 0, _ => ⟨a, b, by simp [packNibbles]⟩
  | a :: b :: rest, j + 1, h => by
    have h2 : j < rest.length / 2 := by
      simp only [List.length_cons] at h
      omega
    obtain ⟨x, y, h1, h2, h3⟩ := packNibbles_getElem rest j h2
    refine ⟨x, y, ?_, ?_, ?_⟩
    · rw [show 2 * (j + 1) = (2 * j + 1) + 1 by ring]
      simpa using h1
    · rw [show 2 * (j + 1) + 1 = (2 * j + 1 + 1) + 1 by ring]
      simpa using h2
    · simpa [packNibbles] using h3

/-- C10: hex-prefix encoding definition. For a nibble path `p` (each entry in `0..15`, the
length a `uint`) and a flag `t`, `hexPrefixEncode(p, t)` returns a byte string of length
`len(p) / 2 + 1`; the high nibble of its first byte is `(t ? 2 : 0) | (len(p) odd ? 1 : 0)`,
the low nibble is `p[0]` if `len(p)` is odd and `0` otherwise; byte `j + 1` packs the next two
nibbles of the rest of the path, the high nibble first. -/
theorem C10_hexPrefixEncode_layout (p : List Nat) (t : Bool) (hp : ∀ x ∈ p, x < 16)
    (hlen : p.length < 2 ^ 64) :
    ∃ out : Bytes, hexPrefixEncode p t 0 (-1) = .ok out ∧
      out.length = p.length / 2 + 1 ∧
      out.headD 0 / 16 = ((if t then 2 else 0) ||| (if p.length % 2 = 1 then 1 else 0)) ∧
      out.headD 0 % 16 = (if p.length % 2 = 1 then p.headD 0 else 0) ∧
      ∀ j, j < p.length / 2 → ∃ a b, p[p.length % 2 + 2 * j]? = some a ∧
        p[p.length % 2 + 2 * j + 1]? = some b ∧ out[j + 1]? = some (a * 16 + b) := by
  refine ⟨hpLayout p t, hexPrefixEncode_whole p t hp hlen, ?_⟩
  unfold hpLayout
  by_cases ho : p.length % 2 = 1
  · simp only [ho, if_true]
    match p, hp, ho with
    | a :: rest, hp, ho =>
      have ha : a < 16 := hp a (by simp)
      have hev : rest.length % 2 = 0 := by simp at ho; omega
      refine ⟨?_, ?_, ?_, ?_⟩
      · simp [packNibbles_length]; omega
      · cases t <;> simp <;> omega
      · cases t <;> simp <;> omega
      · intro j hj
        have hj2 : j < rest.length / 2 := by simp at hj; omega
        obtain ⟨x, y, h1, h2, h3⟩ := packNibbles_getElem rest j hj2
        refine ⟨x, y, ?_, ?_, ?_⟩
        · rw [show 1 + 2 * j = 2 * j + 1 by ring]; simpa using h1
        · rw [show 1 + 2 * j + 1 = (2 * j + 1) + 1 by ring]; simpa using h2
        · simpa using h3
  · have ho2 : p.length % 2 = 0 := by omega
    simp only [ho2, show ¬ ((0 : Nat) = 1) by decide, if_false]
    refine ⟨?_, ?_, ?_, ?_⟩
    · simp [packNibbles_length]
    · cases t <;> simp
    · cases t <;> simp
    · intro j hj
      obtain ⟨x, y, h1, h2, h3⟩ := packNibbles_getElem p j hj
      exact ⟨x, y, by simpa using h1, by simpa using h2, by simpa using h3⟩

/-- Witness of C10 at `[1,2,3,4,5]`, unterminated, and the examples `[1,2,3,4,5],false →
11 23 45`, `[0,1,2,3,4,5],false → 00 01 23 45`, `[1,2,3,4,5],true → 31 23 45`,
`[1,2,3,4],true → 20 12 34`. -/
theorem C10_hexPrefixEncode_layout_witness :
    (∃ out : Bytes, hexPrefixEncode [1, 2, 3, 4, 5] false 0 (-1) = .ok out ∧
      out.length = [1, 2, 3, 4, 5].length / 2 + 1 ∧
      out.headD 0 / 16 = ((if false then 2 else 0) |||
        (if [1, 2, 3, 4, 5].length % 2 = 1 then 1 else 0)) ∧
      out.headD 0 % 16 = (if [1, 2, 3, 4, 5].length % 2 = 1 then [1, 2, 3, 4, 5].headD 0 else 0) ∧
      ∀ j, j < [1, 2, 3, 4, 5].length / 2 → ∃ a b,
        [1, 2, 3, 4, 5][[1, 2, 3, 4, 5].length % 2 + 2 * j]? = some a ∧
        [1, 2, 3, 4, 5][[1, 2, 3, 4, 5].length % 2 + 2 * j + 1]? = some b ∧
        out[j + 1]? = some (a * 16 + b)) ∧
    hexPrefixEncode [1, 2, 3, 4, 5] false 0 (-1) = .ok [0x11, 0x23, 0x45] ∧
    hexPrefixEncode [0, 1, 2, 3, 4, 5] false 0 (-1) = .ok [0x00, 0x01, 0x23, 0x45] ∧
    hexPrefixEncode [1, 2, 3, 4, 5] true 0 (-1) = .ok [0x31, 0x23, 0x45] ∧
    hexPrefixEncode [1, 2, 3, 4] true 0 (-1) = .ok [0x20, 0x12, 0x34] :=
  ⟨C10_hexPrefixEncode_layout [1, 2, 3, 4, 5] false (by decide) (by simp),
   by decide, by decide, by decide, by decide⟩

/-! ## Reading an encoding back -/

theorem shl8_lor {b : Nat} (acc : Nat) (h : b < 256) : (acc <<< 8) ||| b = acc * 256 + b := by
  rw [Nat.shiftLeft_eq, Nat.mul_comm]
  exact (Nat.mul_add_lt_is_or (i := 8) (by simpa using h) acc).symm

theorem bigEndianValue_foldl (bs : Bytes) (acc : Nat) :
    bs.foldl (fun a b => a * 256 + b) acc = acc * 256 ^ bs.length + bigEndianValue bs := by
  induction bs generalizing acc with
  | nil => simp [bigEndianValue]
  | cons b bs ih =>
    simp only [List.foldl_cons, List.length_cons, bigEndianValue]
    rw [ih (acc * 256 + b), ih (0 * 256 + b)]
    ring

theorem bigEndianValue_cons (b : Nat) (bs : Bytes) :
    bigEndianValue (b :: bs) = b * 256 ^ bs.length + bigEndianValue bs := by
  simp only [bigEndianValue, List.foldl_cons]
  rw [bigEndianValue_foldl]
  simp [bigEndianValue]

theorem get_append_length (pre : Bytes) (a : Nat) (rest : Bytes) :
    fConstBytes.get (some (pre ++ a :: rest)) pre.length = .ok a := by
  simp only [fConstBytes.get]
  exact readByte_append_length pre a rest

/-- Reading `todo` big-endian after `done`, from the accumulator `acc`. -/
theorem readBigEndian_eq (wrap : Nat → Nat) (pre post : Bytes) :
    ∀ (todo done : Bytes) (acc : Nat), (∀ b ∈ todo, b < 256) →
    (∀ y, y ≤ acc * 256 ^ todo.length + bigEndianValue todo → wrap y = y) →
    RLP.readBigEndian wrap (some (pre ++ done ++ todo ++ post)) pre.length todo.length
      done.length acc = .ok (acc * 256 ^ todo.length + bigEndianValue todo) := by
  intro todo
  induction todo with
  | nil => intro done acc _ _; simp [RLP.readBigEndian, bigEndianValue]
  | cons b bs ih =>
    intro done acc hb hw
    have hb0 : b < 256 := hb b (by simp)
    simp only [List.length_cons, RLP.readBigEndian]
    have e1 : pre ++ done ++ b :: bs ++ post = (pre ++ done) ++ b :: (bs ++ post) := by simp
    have e2 : done.length + pre.length = (pre ++ done).length := by simp; omega
    rw [e1, e2, get_append_length]
    simp only [bind, Except.bind]
    rw [shl8_lor acc hb0]
    have hle : acc * 256 + b ≤ acc * 256 ^ (bs.length + 1) + bigEndianValue (b :: bs) := by
      rw [bigEndianValue_cons, pow_succ]
      have : 1 ≤ 256 ^ bs.length := Nat.one_le_pow _ _ (by norm_num)
      nlinarith [Nat.zero_le (bigEndianValue bs), Nat.zero_le acc, Nat.zero_le b]
    have heq : (acc * 256 + b) * 256 ^ bs.length + bigEndianValue bs
        = acc * 256 ^ (bs.length + 1) + bigEndianValue (b :: bs) := by
      rw [bigEndianValue_cons, pow_succ]; ring
    rw [hw _ hle]
    have e3 : (pre ++ done) ++ b :: (bs ++ post) = pre ++ (done ++ [b]) ++ bs ++ post := by simp
    have e4 : done.length + 1 = (done ++ [b]).length := by simp
    rw [e3, e4, ih (done ++ [b]) (acc * 256 + b) (fun y hy => hb y (by simp [hy]))
      (by rw [heq]; exact hw), heq]

/-- Reading the `k` big-endian bytes of `x` that follow `pre`. -/
theorem readBigEndian_beBytes (wrap : Nat → Nat) (pre post : Bytes) (k x : Nat)
    (hx : x < 256 ^ k) (hw : ∀ y, y ≤ x → wrap y = y) :
    RLP.readBigEndian wrap (some (pre ++ beBytes k x ++ post)) pre.length k 0 0 = .ok x := by
  have := readBigEndian_eq wrap pre post (beBytes k x) [] 0 (beBytes_lt k x)
    (by rw [bigEndianValue_beBytes k x hx]; simpa using hw)
  simp only [List.append_nil, List.length_nil, beBytes_length, Nat.zero_mul, Nat.zero_add,
    bigEndianValue_beBytes k x hx] at this
  exact this

namespace RLP

theorem isNull_cons (b : Nat) (t : Bytes) : isNull ⟨some (b :: t)⟩ = false := by
  simp [isNull, fConstBytes.size]

theorem get_zero_cons (b : Nat) (t : Bytes) : fConstBytes.get (some (b :: t)) 0 = .ok b := by
  simp [fConstBytes.get, readByte]

theorem isInt_cons (b : Nat) (t : Bytes) : isInt ⟨some (b :: t)⟩ = .ok (decide (b < 0x40)) := by
  simp [isInt, assertNotNull, isNull_cons, get_zero_cons, bind, Except.bind, pure, Except.pure]

theorem isString_cons (b : Nat) (t : Bytes) :
    isString ⟨some (b :: t)⟩ = .ok (decide (0x40 ≤ b) && decide (b < 0x80)) := by
  simp [isString, assertNotNull, isNull_cons, get_zero_cons, bind, Except.bind, pure,
    Except.pure]

theorem isList_cons (b : Nat) (t : Bytes) :
    isList ⟨some (b :: t)⟩ = .ok (decide (0x80 ≤ b) && decide (b < 0xc0)) := by
  simp [isList, assertNotNull, isNull_cons, get_zero_cons, bind, Except.bind, pure,
    Except.pure]

theorem isDirectValueInt_cons (b : Nat) (t : Bytes) :
    isDirectValueInt ⟨some (b :: t)⟩ = .ok (decide (b < 0x18)) := by
  simp [isDirectValueInt, assertNotNull, isNull_cons, get_zero_cons, bind, Except.bind, pure,
    Except.pure]

theorem isIndirectAddressedInt_cons (b : Nat) (t : Bytes) :
    isIndirectAddressedInt ⟨some (b :: t)⟩ = .ok (decide (b < 0x40) && decide (0x38 ≤ b)) := by
  simp [isIndirectAddressedInt, assertNotNull, isNull_cons, get_zero_cons, bind, Except.bind,
    pure, Except.pure]

theorem items_cons_small (b : Nat) (t : Bytes) (h : b &&& 0x3f < 0x38) :
    items ⟨some (b :: t)⟩ = .ok (b &&& 0x3f) := by
  simp [items, get_zero_cons, bind, Except.bind, pure, Except.pure, h]

theorem items_cons_big (b : Nat) (t : Bytes) (h : ¬ b &&& 0x3f < 0x38) :
    items ⟨some (b :: t)⟩
      = readBigEndian (· % uintMod) (some (b :: t)) 1 ((b &&& 0x3f) - 0x37) 0 0 := by
  simp [items, get_zero_cons, bind, Except.bind, pure, Except.pure, h]

theorem payload_cons (b : Nat) (t : Bytes) (h : 0x40 ≤ b) (h2 : b < 0xc0) :
    payload ⟨some (b :: t)⟩ = .ok (fConstBytes.cropped (some (b :: t))
      (1 + (if b &&& 0x3f < 0x38 then 0 else (b &&& 0x3f) - 0x37))) := by
  by_cases h3 : b < 0x80
  · simp [payload, isString_cons, get_zero_cons, bind, Except.bind, pure, Except.pure, h, h3]
  · have h4 : 0x80 ≤ b := by omega
    simp [payload, isString_cons, isList_cons, get_zero_cons, bind, Except.bind, pure,
      Except.pure, h, h2, h3, h4]

theorem land_0x3f_str : ∀ n, n < 64 → (0x40 + n) &&& 0x3f = n := by decide
theorem land_0x3f_list : ∀ n, n < 64 → (0x80 + n) &&& 0x3f = n := by decide
theorem land_0x3f_int : ∀ n, n < 64 → n &&& 0x3f = n := by decide

end RLP
namespace RLP

theorem mod_uintMod_of_le {n : Nat} (h : n < 2 ^ 64) : ∀ y, y ≤ n → y % uintMod = y := by
  intro y hy
  apply Nat.mod_eq_of_lt
  unfold uintMod
  omega

theorem items_countLayout (base n : Nat) (rest : Bytes) (hb : base = 0x40 ∨ base = 0x80)
    (hn : n < 2 ^ 64) : items ⟨some (countLayout base n ++ rest)⟩ = .ok n := by
  unfold countLayout
  by_cases h : n < 56
  · simp only [h, if_true, List.singleton_append]
    have e : (base + n) &&& 0x3f = n := by
      rcases hb with hb | hb <;> subst hb
      · exact land_0x3f_str n (by omega)
      · exact land_0x3f_list n (by omega)
    rw [items_cons_small _ _ (by rw [e]; exact h), e]
  · simp only [h, if_false, List.cons_append]
    have h8 := byteLen_le_eight hn
    have h1 := byteLen_pos_of_ne_zero (show n ≠ 0 by omega)
    have e : (base + 0x37 + byteLen n) &&& 0x3f = 0x37 + byteLen n := by
      rcases hb with hb | hb <;> subst hb
      · rw [Nat.add_assoc]; exact land_0x3f_str _ (by omega)
      · rw [Nat.add_assoc]; exact land_0x3f_list _ (by omega)
    rw [items_cons_big _ _ (by rw [e]; omega), e]
    have := readBigEndian_beBytes (· % uintMod) [base + 0x37 + byteLen n] rest (byteLen n) n
      (lt_pow_byteLen n) (mod_uintMod_of_le hn)
    simpa using this

theorem payload_countLayout (base n : Nat) (rest : Bytes) (hb : base = 0x40 ∨ base = 0x80)
    (hn : n < 2 ^ 64) : payload ⟨some (countLayout base n ++ rest)⟩ = .ok (some rest) := by
  unfold countLayout
  by_cases h : n < 56
  · simp only [h, if_true, List.singleton_append]
    have e : (base + n) &&& 0x3f = n := by
      rcases hb with hb | hb <;> subst hb
      · exact land_0x3f_str n (by omega)
      · exact land_0x3f_list n (by omega)
    rw [payload_cons _ _ (by rcases hb with hb | hb <;> omega)
      (by rcases hb with hb | hb <;> omega), e]
    simp [h, fConstBytes.cropped]
  · simp only [h, if_false, List.cons_append]
    have h8 := byteLen_le_eight hn
    have h1 := byteLen_pos_of_ne_zero (show n ≠ 0 by omega)
    have e : (base + 0x37 + byteLen n) &&& 0x3f = 0x37 + byteLen n := by
      rcases hb with hb | hb <;> subst hb
      · rw [Nat.add_assoc]; exact land_0x3f_str _ (by omega)
      · rw [Nat.add_assoc]; exact land_0x3f_list _ (by omega)
    rw [payload_cons _ _ (by rcases hb with hb | hb <;> omega)
      (by rcases hb with hb | hb <;> omega), e]
    have hlen : 1 + (55 + byteLen n - 55) ≤ (beBytes (byteLen n) n ++ rest).length + 1 := by
      simp [beBytes_length]; omega
    simp [fConstBytes.cropped, show ¬ (55 + byteLen n < 56) by omega, beBytes_length]
    rw [show 1 + byteLen n = (byteLen n) + 1 by omega]
    simp [List.drop_append_eq_append_drop, beBytes_length]

theorem countLayout_head (base n : Nat) (hn : n < 2 ^ 64) :
    ∃ hd tl, countLayout base n = hd :: tl ∧ base ≤ hd ∧ hd < base + 0x40 := by
  unfold countLayout
  by_cases h : n < 56
  · exact ⟨base + n, [], by simp [h], by omega, by omega⟩
  · have h8 := byteLen_le_eight hn
    exact ⟨base + 0x37 + byteLen n, beBytes (byteLen n) n, by simp [h], by omega, by omega⟩

theorem countLayout_length_pos (base n : Nat) : 1 ≤ (countLayout base n).length := by
  unfold countLayout
  split <;> simp

end RLP

namespace RLP

theorem intLayout_cases (x : Nat) (hfit : byteLen x < 2 ^ 64) :
    (x < 24 ∧ intLayout x = [x]) ∨
    (1 ≤ byteLen x ∧ byteLen x ≤ 32 ∧
      intLayout x = (0x17 + byteLen x) :: beBytes (byteLen x) x) ∨
    (33 ≤ byteLen x ∧ 1 ≤ byteLen (byteLen x) ∧ byteLen (byteLen x) ≤ 8 ∧
      intLayout x = (0x37 + byteLen (byteLen x)) ::
        (beBytes (byteLen (byteLen x)) (byteLen x) ++ beBytes (byteLen x) x)) := by
  unfold intLayout
  by_cases h : x < 24
  · left; simp [h]
  · right
    have h1 := byteLen_pos_of_ne_zero (show x ≠ 0 by omega)
    by_cases h32 : byteLen x ≤ 32
    · left; simp [h, h32, h1]
    · right
      have := byteLen_le_eight hfit
      have := byteLen_pos_of_ne_zero (show byteLen x ≠ 0 by omega)
      simp [h, h32]
      omega

theorem isInt_intLayout (x : Nat) (rest : Bytes) (hfit : byteLen x < 2 ^ 64) :
    isInt ⟨some (intLayout x ++ rest)⟩ = .ok true := by
  rcases intLayout_cases x hfit with ⟨h, e⟩ | ⟨h1, h2, e⟩ | ⟨h1, h2, h3, e⟩ <;>
    rw [e] <;> simp only [List.cons_append, isInt_cons] <;> simp <;> omega

theorem intSize_intLayout (x : Nat) (rest : Bytes) (hfit : byteLen x < 2 ^ 64)
    (hlen : (intLayout x).length < 2 ^ 64) :
    intSize ⟨some (intLayout x ++ rest)⟩ = .ok ((intLayout x).length - 1) := by
  rcases intLayout_cases x hfit with ⟨h, e⟩ | ⟨h1, h2, e⟩ | ⟨h1, h2, h3, e⟩
  · rw [e]
    simp [intSize, isInt_cons, isDirectValueInt_cons, bind, Except.bind, pure, Except.pure]
    intro _; omega
  · rw [e]
    simp only [intSize, List.cons_append, isInt_cons, isDirectValueInt_cons,
      isIndirectAddressedInt_cons, get_zero_cons, bind, Except.bind, pure, Except.pure]
    simp [show 23 + byteLen x < 64 by omega, show ¬ (23 + byteLen x < 24) by omega,
      show ¬ (56 ≤ 23 + byteLen x) by omega, beBytes_length]
  · rw [e] at hlen ⊢
    simp only [List.length_cons, List.length_append, beBytes_length] at hlen
    have hit : items ⟨some ((0x37 + byteLen (byteLen x)) ::
        (beBytes (byteLen (byteLen x)) (byteLen x) ++ beBytes (byteLen x) x) ++ rest)⟩
        = .ok (byteLen x) := by
      have e2 : (0x37 + byteLen (byteLen x)) &&& 0x3f = 0x37 + byteLen (byteLen x) :=
        land_0x3f_int _ (by omega)
      rw [List.cons_append, items_cons_big _ _ (by rw [e2]; omega), e2]
      have := readBigEndian_beBytes (· % uintMod) [0x37 + byteLen (byteLen x)]
        (beBytes (byteLen x) x ++ rest) (byteLen (byteLen x)) (byteLen x)
        (lt_pow_byteLen _) (mod_uintMod_of_le hfit)
      simpa using this
    simp only [intSize, intLengthSize, hit]
    simp only [List.cons_append, isInt_cons, isDirectValueInt_cons,
      isIndirectAddressedInt_cons, get_zero_cons, bind, Except.bind, pure, Except.pure]
    simp [show 55 + byteLen (byteLen x) < 64 by omega,
      show ¬ (55 + byteLen (byteLen x) < 24) by omega, beBytes_length,
      show 56 ≤ 55 + byteLen (byteLen x) by omega]
    rw [Nat.mod_eq_of_lt (by unfold uintMod; omega)]

theorem intLengthSize_intLayout (x : Nat) (rest : Bytes) (hfit : byteLen x < 2 ^ 64) :
    intLengthSize ⟨some (intLayout x ++ rest)⟩
      = .ok (if byteLen x ≤ 32 then 0 else byteLen (byteLen x)) := by
  rcases intLayout_cases x hfit with ⟨h, e⟩ | ⟨h1, h2, e⟩ | ⟨h1, h2, h3, e⟩
  · rw [e]
    have : byteLen x ≤ 32 := by
      have := byteLen_le_of_lt_pow (show x < 256 ^ 1 by omega)
      omega
    simp [intLengthSize, isIndirectAddressedInt_cons, bind, Except.bind, pure, Except.pure,
      this]
    intro _; omega
  · rw [e]
    simp [intLengthSize, isIndirectAddressedInt_cons, bind, Except.bind, pure, Except.pure, h2]
    intro _; omega
  · rw [e]
    simp [intLengthSize, isIndirectAddressedInt_cons, get_zero_cons, bind, Except.bind, pure,
      Except.pure, show ¬ byteLen x ≤ 32 by omega, show 55 + byteLen (byteLen x) < 64 by omega]
    intro _; omega

theorem toInt_intLayout (wrap : Nat → Nat) (x dflt : Nat) (rest : Bytes)
    (hfit : byteLen x < 2 ^ 64) (hlen : (intLayout x).length < 2 ^ 64)
    (hw : ∀ y, y ≤ x → wrap y = y) :
    toInt wrap ⟨some (intLayout x ++ rest)⟩ dflt = .ok x := by
  unfold toInt
  rw [isInt_intLayout x rest hfit, intSize_intLayout x rest hfit hlen,
    intLengthSize_intLayout x rest hfit]
  simp only [bind, Except.bind, pure, Except.pure, Bool.not_true, Bool.false_eq_true, if_false]
  rcases intLayout_cases x hfit with ⟨h, e⟩ | ⟨h1, h2, e⟩ | ⟨h1, h2, h3, e⟩
  · rw [e]
    simp [isDirectValueInt_cons, get_zero_cons, h]
  · rw [e]
    simp only [List.cons_append, isDirectValueInt_cons, h2, if_true, List.length_cons,
      beBytes_length, Nat.add_sub_cancel]
    simp only [show decide (0x17 + byteLen x < 0x18) = false by simp; omega,
      Bool.false_eq_true, if_false]
    have e1 : (byteLen x + uintMod - 0) % uintMod = byteLen x := by unfold uintMod; omega
    have e2 : (0 + 1) % uintMod = 1 := by unfold uintMod; omega
    rw [e1, e2]
    have := readBigEndian_beBytes wrap [0x17 + byteLen x] rest (byteLen x) x
      (lt_pow_byteLen x) hw
    simpa using this
  · rw [e] at hlen ⊢
    simp only [List.length_cons, List.length_append, beBytes_length] at hlen
    simp only [List.cons_append, isDirectValueInt_cons, show ¬ byteLen x ≤ 32 by omega,
      if_false, List.length_cons, List.length_append, beBytes_length, Nat.add_sub_cancel]
    simp only [show decide (0x37 + byteLen (byteLen x) < 0x18) = false by simp; omega,
      Bool.false_eq_true, if_false]
    have e1 : (byteLen (byteLen x) + byteLen x + uintMod - byteLen (byteLen x)) % uintMod
        = byteLen x := by unfold uintMod; omega
    have e2 : (byteLen (byteLen x) + 1) % uintMod = byteLen (byteLen x) + 1 := by
      unfold uintMod; omega
    rw [e1, e2]
    have := readBigEndian_beBytes wrap
      ((0x37 + byteLen (byteLen x)) :: beBytes (byteLen (byteLen x)) (byteLen x)) rest
      (byteLen x) x (lt_pow_byteLen x) hw
    simpa [beBytes_length] using this

end RLP

namespace RLP

theorem isNull_append_of_pos {l : Bytes} (h : 1 ≤ l.length) (rest : Bytes) :
    isNull ⟨some (l ++ rest)⟩ = false := by
  match l, h with
  | b :: t, _ => exact isNull_cons b (t ++ rest)

theorem intLayout_length_pos (x : Nat) : 1 ≤ (intLayout x).length := by
  unfold intLayout
  split
  · simp
  · split <;> simp

theorem sizeAux_intLayout (x : Nat) (rest : Bytes) (fuel : Nat) (hfit : byteLen x < 2 ^ 64)
    (hlen : (intLayout x).length < 2 ^ 64) :
    sizeAux (fuel + 1) ⟨some (intLayout x ++ rest)⟩ = .ok (intLayout x).length := by
  have hp := intLayout_length_pos x
  simp only [sizeAux, isNull_append_of_pos hp, isInt_intLayout x rest hfit,
    intSize_intLayout x rest hfit hlen, bind, Except.bind, pure, Except.pure,
    Bool.false_eq_true, if_false, if_true]
  rw [Nat.mod_eq_of_lt (by unfold uintMod; omega)]
  congr 1
  omega

theorem isString_countLayout (n : Nat) (rest : Bytes) (hn : n < 2 ^ 64) :
    isString ⟨some (countLayout 0x40 n ++ rest)⟩ = .ok true := by
  obtain ⟨hd, tl, e, h1, h2⟩ := countLayout_head 0x40 n hn
  rw [e, List.cons_append, isString_cons]
  simp; omega

theorem isInt_countLayout (base n : Nat) (rest : Bytes) (hb : 0x40 ≤ base) (hn : n < 2 ^ 64) :
    isInt ⟨some (countLayout base n ++ rest)⟩ = .ok false := by
  obtain ⟨hd, tl, e, h1, h2⟩ := countLayout_head base n hn
  rw [e, List.cons_append, isInt_cons]
  simp; omega

theorem isList_countLayout (n : Nat) (rest : Bytes) (hn : n < 2 ^ 64) :
    isList ⟨some (countLayout 0x80 n ++ rest)⟩ = .ok true := by
  obtain ⟨hd, tl, e, h1, h2⟩ := countLayout_head 0x80 n hn
  rw [e, List.cons_append, isList_cons]
  simp; omega

theorem isString_countLayout_list (n : Nat) (rest : Bytes) (hn : n < 2 ^ 64) :
    isString ⟨some (countLayout 0x80 n ++ rest)⟩ = .ok false := by
  obtain ⟨hd, tl, e, h1, h2⟩ := countLayout_head 0x80 n hn
  rw [e, List.cons_append, isString_cons]
  simp; omega

theorem toString_countLayout (s rest : Bytes) (hn : s.length < 2 ^ 64) :
    toString ⟨some (countLayout 0x40 s.length ++ (s ++ rest))⟩ = .ok s := by
  simp [toString, isString_countLayout _ _ hn, payload_countLayout _ _ _ (Or.inl rfl) hn,
    items_countLayout _ _ _ (Or.inl rfl) hn, bind, Except.bind, pure, Except.pure,
    fConstBytes.croppedCount, fConstBytes.toString]

theorem sizeAux_str (s rest : Bytes) (fuel : Nat) (hn : s.length < 2 ^ 64)
    (hlen : (countLayout 0x40 s.length ++ s).length < 2 ^ 64) :
    sizeAux (fuel + 1) ⟨some (countLayout 0x40 s.length ++ (s ++ rest))⟩
      = .ok (countLayout 0x40 s.length ++ s).length := by
  have hp := countLayout_length_pos 0x40 s.length
  simp only [sizeAux, isNull_append_of_pos hp, isInt_countLayout _ _ _ (le_refl _) hn,
    isString_countLayout _ _ hn, payload_countLayout _ _ _ (Or.inl rfl) hn,
    items_countLayout _ _ _ (Or.inl rfl) hn, bind, Except.bind, pure, Except.pure,
    Bool.false_eq_true, if_false, if_true, fConstBytes.offsetFrom]
  simp only [List.length_append] at hlen ⊢
  rw [Nat.mod_eq_of_lt (by unfold uintMod; omega)]
  congr 1
  omega

theorem sizeAux_list (c : Nat) (body rest : Bytes) (fuel : Nat) (hc : c < 2 ^ 64)
    (hskip : skipItems (sizeAux fuel) c (some (body ++ rest)) = .ok (some rest)) :
    sizeAux (fuel + 1) ⟨some (countLayout 0x80 c ++ (body ++ rest))⟩
      = .ok (countLayout 0x80 c ++ body).length := by
  have hp := countLayout_length_pos 0x80 c
  simp only [sizeAux, isNull_append_of_pos hp, isInt_countLayout 0x80 _ _ (by norm_num) hc,
    isString_countLayout_list _ _ hc, isList_countLayout _ _ hc,
    payload_countLayout _ _ _ (Or.inr rfl) hc,
    items_countLayout _ _ _ (Or.inr rfl) hc, hskip, bind, Except.bind, pure, Except.pure,
    Bool.false_eq_true, if_false, if_true, fConstBytes.offsetFrom]
  simp only [List.length_append]
  congr 1
  omega

end RLP

theorem encode_length_pos (v : RLPValue) (h : v.Fits) : 1 ≤ (encode v).length := by
  cases v with
  | int x =>
    simp only [RLPValue.Fits] at h
    rw [encode_int h]; exact RLP.intLayout_length_pos x
  | str s =>
    simp only [RLPValue.Fits] at h
    rw [encode_str h, List.length_append]
    have := RLP.countLayout_length_pos 0x40 s.length
    omega
  | list l =>
    rw [encode_list h, List.length_append]
    have := RLP.countLayout_length_pos 0x80 l.length
    omega

theorem cropped_append (a b : Bytes) :
    fConstBytes.cropped (some (a ++ b)) a.length = some b := by
  simp [fConstBytes.cropped]

mutual
theorem RLP.sizeAux_encode : ∀ (v : RLPValue) (rest : Bytes) (fuel : Nat), v.Fits →
    (encode v).length < 2 ^ 64 → (encode v ++ rest).length ≤ fuel →
    RLP.sizeAux fuel ⟨some (encode v ++ rest)⟩ = .ok (encode v).length
  | .int x, rest, fuel, hf, hl, hfuel => by
    have hp := encode_length_pos _ hf
    simp only [RLPValue.Fits] at hf
    rw [encode_int hf] at hl hfuel hp ⊢
    obtain ⟨f, rfl⟩ : ∃ f, fuel = f + 1 := ⟨fuel - 1, by rw [List.length_append] at hfuel; omega⟩
    exact RLP.sizeAux_intLayout x rest f hf hl
  | .str s, rest, fuel, hf, hl, hfuel => by
    have hp := encode_length_pos _ hf
    simp only [RLPValue.Fits] at hf
    rw [encode_str hf] at hl hfuel hp ⊢
    obtain ⟨f, rfl⟩ : ∃ f, fuel = f + 1 := ⟨fuel - 1, by rw [List.length_append] at hfuel; omega⟩
    rw [List.append_assoc]
    exact RLP.sizeAux_str s rest f hf hl
  | .list l, rest, fuel, hf, hl, hfuel => by
    have hp := encode_length_pos _ hf
    rw [encode_list hf] at hl hfuel hp ⊢
    simp only [RLPValue.Fits] at hf
    obtain ⟨f, rfl⟩ : ∃ f, fuel = f + 1 := ⟨fuel - 1, by rw [List.length_append] at hfuel; omega⟩
    rw [List.append_assoc]
    have hh := RLP.countLayout_length_pos 0x80 l.length
    apply RLP.sizeAux_list _ _ _ _ hf.1
    apply RLP.skipItems_encode l rest f hf.2
    · simp only [List.length_append] at hl; omega
    · simp only [List.length_append] at hfuel ⊢; omega
theorem RLP.skipItems_encode : ∀ (l : List RLPValue) (rest : Bytes) (fuel : Nat),
    RLPValue.FitsAll l → ((l.map encode).flatten).length < 2 ^ 64 →
    ((l.map encode).flatten ++ rest).length ≤ fuel →
    RLP.skipItems (RLP.sizeAux fuel) l.length (some ((l.map encode).flatten ++ rest))
      = .ok (some rest)
  | [], rest, fuel, _, _, _ => by simp [RLP.skipItems]
  | v :: vs, rest, fuel, hf, hl, hfuel => by
    simp only [RLPValue.FitsAll] at hf
    simp only [List.map_cons, List.flatten_cons, List.length_append, List.append_assoc]
      at hl hfuel ⊢
    simp only [List.length_cons, RLP.skipItems]
    rw [RLP.sizeAux_encode v _ fuel hf.1 (by omega)
      (by simp only [List.length_append]; omega)]
    simp only [bind, Except.bind, cropped_append]
    exact RLP.skipItems_encode vs rest fuel hf.2 (by omega)
      (by simp only [List.length_append]; omega)
end

theorem RLP.size_encode (v : RLPValue) (rest : Bytes) (hf : v.Fits)
    (hl : (encode v).length < 2 ^ 64) :
    RLP.size ⟨some (encode v ++ rest)⟩ = .ok (encode v).length :=
  RLP.sizeAux_encode v rest _ hf hl (le_refl _)

mutual
theorem RLPValue.decodedBy_encode : ∀ (v : RLPValue) (rest : Bytes), v.Fits →
    (encode v).length < 2 ^ 64 → v.DecodedBy ⟨some (encode v ++ rest)⟩
  | .int x, rest, hf, hl => by
    simp only [RLPValue.Fits] at hf
    rw [encode_int hf] at hl ⊢
    refine ⟨RLP.isInt_intLayout x rest hf, ?_, ?_⟩
    · exact RLP.toInt_intLayout id x 0 rest hf hl (fun _ _ => rfl)
    · intro hx
      exact RLP.toInt_intLayout (· % uintMod) x 0 rest hf hl (RLP.mod_uintMod_of_le hx)
  | .str s, rest, hf, hl => by
    simp only [RLPValue.Fits] at hf
    rw [encode_str hf, List.append_assoc]
    exact ⟨RLP.isString_countLayout _ _ hf, RLP.toString_countLayout s rest hf⟩
  | .list l, rest, hf, hl => by
    rw [encode_list hf] at hl ⊢
    simp only [RLPValue.Fits] at hf
    rw [List.append_assoc]
    refine ⟨RLP.isList_countLayout _ _ hf.1, ?_⟩
    have hh := RLP.countLayout_length_pos 0x80 l.length
    obtain ⟨views, h1, h2⟩ := RLPValue.collectItems_encode l rest hf.2
      (by simp only [List.length_append] at hl; omega)
    refine ⟨views, ?_, h2⟩
    simp only [RLP.toList, RLP.isList_countLayout _ _ hf.1,
      RLP.items_countLayout _ _ _ (Or.inr rfl) hf.1,
      RLP.payload_countLayout _ _ _ (Or.inr rfl) hf.1, bind, Except.bind, pure, Except.pure,
      Bool.not_true, Bool.false_eq_true, if_false, h1]
theorem RLPValue.collectItems_encode : ∀ (l : List RLPValue) (rest : Bytes),
    RLPValue.FitsAll l → ((l.map encode).flatten).length < 2 ^ 64 →
    ∃ views : List RLP,
      RLP.collectItems RLP.size l.length (some ((l.map encode).flatten ++ rest)) = .ok views ∧
      RLPValue.AllDecodedBy l views
  | [], rest, _, _ => ⟨[], by simp [RLP.collectItems], by simp [RLPValue.AllDecodedBy]⟩
  | v :: vs, rest, hf, hl => by
    simp only [RLPValue.FitsAll] at hf
    simp only [List.map_cons, List.flatten_cons, List.length_append, List.append_assoc]
      at hl ⊢
    obtain ⟨views, h1, h2⟩ := RLPValue.collectItems_encode vs rest hf.2 (by omega)
    refine ⟨⟨some (encode v ++ ((vs.map encode).flatten ++ rest))⟩ :: views, ?_, ?_⟩
    · simp only [List.length_cons, RLP.collectItems]
      rw [RLP.size_encode v _ hf.1 (by omega)]
      simp only [bind, Except.bind, cropped_append, h1, pure, Except.pure]
    · simp only [RLPValue.AllDecodedBy]
      exact ⟨RLPValue.decodedBy_encode v _ hf.1 (by omega), h2⟩
end

/-- C1: codec round-trip. For every value `v` (an integer, a byte string, or a nested list of
such) that fits the integer widths of the code and whose encoding has a `uint` size, the
reader placed on the bytes the writer produced for `v`, and on whatever follows them, gives
`v` back: `toBigInt` returns the integer (and so does `toSlimInt` when it is below `2 ^ 64`),
`toString` returns the string, and `toList` returns as many items as the list has elements,
each decoding in the same way to the corresponding element. -/
theorem C1_codec_roundtrip (v : RLPValue) (rest : Bytes) (hf : v.Fits)
    (hl : (encode v).length < 2 ^ 64) :
    v.DecodedBy ⟨some (encode v ++ rest)⟩ :=
  RLPValue.decodedBy_encode v rest hf hl

/-- Witness of C1 on the nested list `[1024, "dog", [15]]`, and the extractors evaluated on
the encodings of `1024`, of `"dog"` and of `["cat", "dog"]`. -/
theorem C1_codec_roundtrip_witness :
    (RLPValue.list [.int 1024, .str [0x64, 0x6f, 0x67], .list [.int 15]]).DecodedBy
      ⟨some (encode (.list [.int 1024, .str [0x64, 0x6f, 0x67], .list [.int 15]]) ++ [])⟩ ∧
    RLP.toBigInt ⟨some (encode (.int 1024))⟩ = .ok 1024 ∧
    RLP.toSlimInt ⟨some (encode (.int 1024))⟩ = .ok 1024 ∧
    RLP.toString ⟨some (encode (.str [0x64, 0x6f, 0x67]))⟩ = .ok [0x64, 0x6f, 0x67] ∧
    RLP.toList ⟨some (encode (.list [.str [0x63, 0x61, 0x74], .str [0x64, 0x6f, 0x67]]))⟩
      = .ok [⟨some [0x43, 0x63, 0x61, 0x74, 0x43, 0x64, 0x6f, 0x67]⟩,
          ⟨some [0x43, 0x64, 0x6f, 0x67]⟩] :=
  ⟨C1_codec_roundtrip (.list [.int 1024, .str [0x64, 0x6f, 0x67], .list [.int 15]]) []
    (by
      simp only [RLPValue.Fits, RLPValue.FitsAll, List.length_cons, List.length_nil]
      exact ⟨by norm_num, byteLen_lt_of_lt_two_pow_256 (by norm_num), by norm_num,
        ⟨by norm_num, byteLen_lt_of_lt_two_pow_256 (by norm_num), trivial⟩, trivial⟩)
    (by decide),
   by decide, by decide, by decide, by decide⟩

/-! ## The fuel of `size()` -/

namespace RLP

theorem size_cropped_le (d : fConstBytes) (n : Nat) : (d.cropped n).size ≤ d.size := by
  cases d with
  | none => simp [fConstBytes.cropped, fConstBytes.size]
  | some l =>
    simp only [fConstBytes.cropped]
    split
    · simp [fConstBytes.size]
    · simp [fConstBytes.size]

theorem skipItems_congr (f g : RLP → Except Fault Nat) (n : Nat)
    (h : ∀ d : fConstBytes, d.size ≤ n → f ⟨d⟩ = g ⟨d⟩) :
    ∀ (c : Nat) (d : fConstBytes), d.size ≤ n → skipItems f c d = skipItems g c d
  | 0, _, _ => rfl
  | c + 1, d, hd => by
    simp only [skipItems, h d hd]
    cases g ⟨d⟩ with
    | error e => rfl
    | ok m =>
      simp only [bind, Except.bind]
      exact skipItems_congr f g n h c _ (le_trans (size_cropped_le d m) hd)

theorem payload_eq (r : RLP) (d : fConstBytes) (h : r.payload = .ok d) :
    ∃ n, d = r.m_data.cropped (1 + n) := by
  unfold payload at h
  simp only [bind, Except.bind, pure, Except.pure] at h
  cases h1 : r.isString with
  | error e => simp [h1] at h
  | ok v =>
    simp only [h1] at h
    cases h2 : r.m_data.get 0 with
    | error e =>
      simp only [h2] at h
      cases v
      · cases h3 : r.isList with
        | error e2 => simp [h3] at h
        | ok w => cases w <;> simp [h3, throw, throwThe, MonadExceptOf.throw] at h
      · simp at h
    | ok b =>
      simp only [h2] at h
      cases v
      · cases h3 : r.isList with
        | error e2 => simp [h3] at h
        | ok w =>
          cases w
          · simp [h3, throw, throwThe, MonadExceptOf.throw] at h
          · simp only [h3, Bool.not_false, Bool.not_true, Bool.false_eq_true, if_false,
              if_true] at h
            exact ⟨_, (Except.ok.inj h).symm⟩
      · simp only [Bool.not_true, Bool.false_eq_true, if_false] at h
        exact ⟨_, (Except.ok.inj h).symm⟩

theorem size_cropped_lt (d : fConstBytes) (n : Nat) (h : 1 ≤ d.size) :
    (d.cropped (1 + n)).size < d.size := by
  cases d with
  | none => simp [fConstBytes.size] at h
  | some l =>
    simp only [fConstBytes.size] at h
    by_cases hc : 1 + n ≤ l.length
    · simp only [fConstBytes.cropped, if_pos hc, fConstBytes.size, List.length_drop]; omega
    · simp only [fConstBytes.cropped, if_neg hc, fConstBytes.size]; omega

theorem size_pos_of_not_isNull (r : RLP) (h : r.isNull = false) : 1 ≤ r.m_data.size := by
  simp only [isNull, beq_eq_false_iff_ne, ne_eq] at h
  omega

/-- The fuel of `sizeAux` does not matter once it covers the bytes in view. -/
theorem sizeAux_fuel : ∀ (f1 f2 : Nat) (r : RLP), r.m_data.size ≤ f1 → r.m_data.size ≤ f2 →
    sizeAux f1 r = sizeAux f2 r := by
  intro f1
  induction f1 with
  | zero =>
    intro f2 r h1 _
    have hn : r.isNull = true := by simp only [isNull, beq_iff_eq]; omega
    cases f2 with
    | zero => rfl
    | succ b => simp [sizeAux, hn, pure, Except.pure]
  | succ a ih =>
    intro f2 r h1 h2
    cases f2 with
    | zero =>
      have hn : r.isNull = true := by simp only [isNull, beq_iff_eq]; omega
      simp [sizeAux, hn, pure, Except.pure]
    | succ b =>
      by_cases hn : r.isNull = true
      · simp [sizeAux, hn]
      · have hnf : r.isNull = false := by simpa using hn
        have hpos := size_pos_of_not_isNull r hnf
        have hskip : ∀ (c : Nat) (d : fConstBytes), r.payload = .ok d →
            skipItems (sizeAux a) c d = skipItems (sizeAux b) c d := by
          intro c d hd
          obtain ⟨n, rfl⟩ := payload_eq r d hd
          have hlt := size_cropped_lt r.m_data n hpos
          apply skipItems_congr (sizeAux a) (sizeAux b) (r.m_data.size - 1)
          · intro d2 hd2
            have e2 : (RLP.mk d2).m_data.size = d2.size := rfl
            exact ih b ⟨d2⟩ (by rw [e2]; omega) (by rw [e2]; omega)
          · omega
        simp only [sizeAux, hnf, Bool.false_eq_true, if_false, bind, Except.bind]
        cases r.isInt with
        | error e => rfl
        | ok v1 =>
          cases v1
          · simp only [Bool.false_eq_true, if_false]
            cases r.isString with
            | error e => rfl
            | ok v2 =>
              cases v2
              · simp only [Bool.false_eq_true, if_false]
                cases r.isList with
                | error e => rfl
                | ok v3 =>
                  cases v3
                  · rfl
                  · simp only [if_true]
                    cases hp : r.payload with
                    | error e => rfl
                    | ok d =>
                      simp only
                      cases r.items with
                      | error e => rfl
                      | ok c => simp only [hskip c d hp]
              · rfl
          · rfl

/-- `size()` is the body of `size()` unfolded with any fuel that covers the bytes in view. -/
theorem size_eq_sizeAux (r : RLP) (fuel : Nat) (h : r.m_data.size ≤ fuel) :
    r.size = sizeAux fuel r :=
  sizeAux_fuel _ _ r (le_refl _) h

end RLP
/-! ## The trie: stored mapping and minimal shape -/

namespace TrieNode

theorem isNull_eq_true_iff (t : TrieNode) : t.isNull = true ↔ t = .null := by
  cases t <;> simp [isNull]

theorem isNull_eq_false_iff (t : TrieNode) : t.isNull = false ↔ t ≠ .null := by
  cases t <;> simp [isNull]

theorem isBranch_iff (t : TrieNode) : t.isBranch = true ↔ ∃ ns bv, t = .branch ns bv := by
  cases t <;> simp [isBranch]

theorem isNull_of_isBranch {t : TrieNode} (h : t.isBranch = true) : t.isNull = false := by
  cases t <;> simp_all [isBranch, isNull]

/-- The reader `at` returns the stored mapping on a minimal node. -/
theorem at_eq_lookup : ∀ (t : TrieNode), t.Canonical → t.isNull = false →
    ∀ key, t.at_ key = .ok (t.lookup key) := by
  intro t
  induction t with
  | null => intro _ h; simp [isNull] at h
  | leaf e v => intro _ _ key; simp [at_, lookup]
  | infixNode e next ih =>
    intro hc _ key
    simp only [Canonical] at hc
    have hn := isNull_of_isBranch hc.2.1
    simp only [at_, lookup, hn, Bool.false_eq_true, if_false]
    split
    · exact ih hc.2.2 hn _
    · rfl
  | branch nodes v ih =>
    intro hc _ key
    simp only [Canonical] at hc
    cases key with
    | nil => simp [at_, lookup]
    | cons k rest =>
      simp only [at_, lookup]
      by_cases hk : (nodes k).isNull = true
      · rw [if_pos hk]
        rw [(isNull_eq_true_iff _).mp hk]
        simp [lookup]
      · rw [if_neg hk]
        exact ih k (hc.1 k) (by simpa using hk) rest

/-- A minimal node other than the null pointer stores some key. -/
theorem exists_key : ∀ (t : TrieNode), t.Canonical → t.isNull = false →
    ∃ key, t.lookup key ≠ [] := by
  intro t
  induction t with
  | null => intro _ h; simp [isNull] at h
  | leaf e v => intro hc _; exact ⟨e, by simpa [lookup, Canonical] using hc⟩
  | infixNode e next ih =>
    intro hc _
    simp only [Canonical] at hc
    obtain ⟨k, hk⟩ := ih hc.2.2 (isNull_of_isBranch hc.2.1)
    exact ⟨e ++ k, by simpa [lookup] using hk⟩
  | branch nodes v ih =>
    intro hc _
    simp only [Canonical] at hc
    have : ∃ i, (nodes i).isNull = false := by
      rcases hc.2 with ⟨i, _, _, hi, _⟩ | ⟨_, i, hi⟩ <;> exact ⟨i, hi⟩
    obtain ⟨i, hi⟩ := this
    obtain ⟨k, hk⟩ := ih i (hc.1 i) hi
    exact ⟨i :: k, by simpa [lookup] using hk⟩

/-- The keys stored by a minimal branch do not all begin with the same nibble. -/
theorem branch_no_common_head (nodes : Nibble → TrieNode) (v : Bytes)
    (hc : (TrieNode.branch nodes v).Canonical) (c : Nibble) :
    ∃ key, (TrieNode.branch nodes v).lookup key ≠ [] ∧ key.head? ≠ some c := by
  simp only [Canonical] at hc
  rcases hc.2 with ⟨i, j, hij, hi, hj⟩ | ⟨hv, _⟩
  · by_cases hic : i = c
    · obtain ⟨k, hk⟩ := exists_key _ (hc.1 j) hj
      refine ⟨j :: k, by simpa [lookup] using hk, ?_⟩
      simp only [List.head?_cons, ne_eq, Option.some.injEq]
      intro h; exact hij (hic.trans h.symm)
    · obtain ⟨k, hk⟩ := exists_key _ (hc.1 i) hi
      exact ⟨i :: k, by simpa [lookup] using hk, by simpa using hic⟩
  · exact ⟨[], by simpa [lookup] using hv, by simp⟩

/-- A minimal branch stores two different keys. -/
theorem branch_two_keys (nodes : Nibble → TrieNode) (v : Bytes)
    (hc : (TrieNode.branch nodes v).Canonical) :
    ∃ k1 k2, k1 ≠ k2 ∧ (TrieNode.branch nodes v).lookup k1 ≠ [] ∧
      (TrieNode.branch nodes v).lookup k2 ≠ [] := by
  obtain ⟨k1, h1⟩ := exists_key _ hc rfl
  cases k1 with
  | nil =>
    simp only [Canonical] at hc
    have : ∃ i, (nodes i).isNull = false := by
      rcases hc.2 with ⟨i, _, _, hi, _⟩ | ⟨_, i, hi⟩ <;> exact ⟨i, hi⟩
    obtain ⟨i, hi⟩ := this
    obtain ⟨k, hk⟩ := exists_key _ (hc.1 i) hi
    exact ⟨[], i :: k, by simp, h1, by simpa [lookup] using hk⟩
  | cons c r =>
    obtain ⟨k2, h2, h3⟩ := branch_no_common_head nodes v hc c
    refine ⟨c :: r, k2, ?_, h1, h2⟩
    intro h; subst h; simp at h3

end TrieNode
namespace TrieNode

theorem lookup_infix_append (e : List Nibble) (n : TrieNode) (k : List Nibble) :
    (TrieNode.infixNode e n).lookup (e ++ k) = n.lookup k := by
  simp [lookup]

theorem isPrefix_of_lookup_ne {e : List Nibble} {n : TrieNode} {k : List Nibble}
    (h : (TrieNode.infixNode e n).lookup k ≠ []) : e <+: k := by
  simp only [lookup] at h
  by_cases hp : e.isPrefixOf k = true
  · exact List.isPrefixOf_iff_prefix.mp hp
  · simp [hp] at h

/-- A minimal infix node or branch stores two different keys. -/
theorem two_keys (t : TrieNode) (hc : t.Canonical) (hn : t.isNull = false)
    (hl : ∀ e v, t ≠ .leaf e v) :
    ∃ k1 k2, k1 ≠ k2 ∧ t.lookup k1 ≠ [] ∧ t.lookup k2 ≠ [] := by
  cases t with
  | null => simp [isNull] at hn
  | leaf e v => exact absurd rfl (hl e v)
  | infixNode e next =>
    simp only [Canonical] at hc
    obtain ⟨ns, bv, rfl⟩ := (isBranch_iff _).mp hc.2.1
    obtain ⟨k1, k2, h12, h1, h2⟩ := branch_two_keys ns bv hc.2.2
    refine ⟨e ++ k1, e ++ k2, by simpa using h12, ?_, ?_⟩
    · rw [lookup_infix_append]; exact h1
    · rw [lookup_infix_append]; exact h2
  | branch nodes v => exact branch_two_keys nodes v hc

theorem leaf_ne_of_two_keys (e : List Nibble) (v : Bytes) (t : TrieNode)
    (h : ∃ k1 k2, k1 ≠ k2 ∧ t.lookup k1 ≠ [] ∧ t.lookup k2 ≠ [])
    (heq : ∀ k, (TrieNode.leaf e v).lookup k = t.lookup k) : False := by
  obtain ⟨k1, k2, h12, h1, h2⟩ := h
  rw [← heq] at h1 h2
  simp only [lookup] at h1 h2
  have e1 : k1 = e := by by_contra hc; simp [hc] at h1
  have e2 : k2 = e := by by_contra hc; simp [hc] at h2
  exact h12 (e1.trans e2.symm)

theorem infix_branch_absurd (e : List Nibble) (n : TrieNode) (he : e ≠ [])
    (nodes : Nibble → TrieNode) (v : Bytes) (hc : (TrieNode.branch nodes v).Canonical)
    (heq : ∀ k, (TrieNode.infixNode e n).lookup k = (TrieNode.branch nodes v).lookup k) :
    False := by
  match e, he with
  | c :: e1, _ =>
    obtain ⟨k, hk, hh⟩ := branch_no_common_head nodes v hc c
    rw [← heq] at hk
    obtain ⟨r, hr⟩ := isPrefix_of_lookup_ne hk
    rw [← hr] at hh
    simp at hh

theorem infix_ext_le (e e2 : List Nibble) (n n2 : TrieNode)
    (hc : (TrieNode.infixNode e n).Canonical)
    (heq : ∀ k, (TrieNode.infixNode e n).lookup k = (TrieNode.infixNode e2 n2).lookup k)
    (hp : e <+: e2) : e = e2 := by
  obtain ⟨d, hd⟩ := hp
  cases d with
  | nil => simpa using hd
  | cons c d1 =>
    exfalso
    simp only [Canonical] at hc
    obtain ⟨ns, bv, rfl⟩ := (isBranch_iff _).mp hc.2.1
    obtain ⟨k, hk, hh⟩ := branch_no_common_head ns bv hc.2.2 c
    rw [← lookup_infix_append e, heq] at hk
    have hpre := isPrefix_of_lookup_ne hk
    rw [← hd] at hpre
    have : c :: d1 <+: k := by
      rwa [List.prefix_append_right_inj] at hpre
    obtain ⟨r, hr⟩ := this
    rw [← hr] at hh
    simp at hh

theorem infix_ext_eq (e e2 : List Nibble) (n n2 : TrieNode)
    (hc : (TrieNode.infixNode e n).Canonical) (hc2 : (TrieNode.infixNode e2 n2).Canonical)
    (heq : ∀ k, (TrieNode.infixNode e n).lookup k = (TrieNode.infixNode e2 n2).lookup k) :
    e = e2 := by
  obtain ⟨k0, hk0⟩ := exists_key _ hc rfl
  have h1 := isPrefix_of_lookup_ne hk0
  rw [heq] at hk0
  have h2 := isPrefix_of_lookup_ne hk0
  rcases List.prefix_or_prefix_of_prefix h1 h2 with hp | hp
  · exact infix_ext_le e e2 n n2 hc heq hp
  · exact (infix_ext_le e2 e n2 n hc2 (fun k => (heq k).symm) hp).symm

/-- Uniqueness of shape: two minimal nodes that store the same mapping are equal. -/
theorem canonical_unique : ∀ (t1 : TrieNode), t1.Canonical → ∀ (t2 : TrieNode), t2.Canonical →
    (∀ k, t1.lookup k = t2.lookup k) → t1 = t2 := by
  intro t1
  induction t1 with
  | null =>
    intro _ t2 hc2 heq
    by_contra hne
    have hn : t2.isNull = false := (isNull_eq_false_iff t2).mpr (fun h => hne h.symm)
    obtain ⟨k, hk⟩ := exists_key t2 hc2 hn
    exact hk (by rw [← heq]; rfl)
  | leaf e v =>
    intro hc t2 hc2 heq
    cases t2 with
    | null =>
      exfalso
      have := heq e
      simp only [lookup, if_true] at this
      exact hc this
    | leaf e2 v2 =>
      have h := heq e
      simp only [lookup, if_true] at h
      simp only [Canonical] at hc
      by_cases hee : e = e2
      · subst hee; simp at h; rw [h]
      · simp [hee] at h; exact absurd h hc
    | infixNode e2 n2 =>
      exact (leaf_ne_of_two_keys e v _ (two_keys _ hc2 rfl (by simp)) heq).elim
    | branch ns2 v2 =>
      exact (leaf_ne_of_two_keys e v _ (two_keys _ hc2 rfl (by simp)) heq).elim
  | infixNode e n ih =>
    intro hc t2 hc2 heq
    cases t2 with
    | null =>
      exfalso
      obtain ⟨k, hk⟩ := exists_key _ hc rfl
      exact hk (by rw [heq]; rfl)
    | leaf e2 v2 =>
      exact (leaf_ne_of_two_keys e2 v2 _ (two_keys _ hc rfl (by simp))
        (fun k => (heq k).symm)).elim
    | infixNode e2 n2 =>
      have he := infix_ext_eq e e2 n n2 hc hc2 heq
      subst he
      simp only [Canonical] at hc hc2
      have : n = n2 := by
        apply ih hc.2.2 n2 hc2.2.2
        intro k
        rw [← lookup_infix_append e n k, ← lookup_infix_append e n2 k]
        exact heq _
      rw [this]
    | branch ns2 v2 =>
      have he : e ≠ [] := by simp only [Canonical] at hc; exact hc.1
      exact (infix_branch_absurd e n he ns2 v2 hc2 heq).elim
  | branch nodes v ih =>
    intro hc t2 hc2 heq
    cases t2 with
    | null =>
      exfalso
      obtain ⟨k, hk⟩ := exists_key _ hc rfl
      exact hk (by rw [heq]; rfl)
    | leaf e2 v2 =>
      exact (leaf_ne_of_two_keys e2 v2 _ (two_keys _ hc rfl (by simp))
        (fun k => (heq k).symm)).elim
    | infixNode e2 n2 =>
      have he : e2 ≠ [] := by simp only [Canonical] at hc2; exact hc2.1
      exact (infix_branch_absurd e2 n2 he nodes v hc (fun k => (heq k).symm)).elim
    | branch ns2 v2 =>
      simp only [Canonical] at hc hc2
      have hv : v = v2 := by simpa [lookup] using heq []
      have hn : nodes = ns2 := by
        funext i
        apply ih i (hc.1 i) (ns2 i) (hc2.1 i)
        intro k
        simpa [lookup] using heq (i :: k)
      rw [hv, hn]

end TrieNode
theorem commonPrefix_spec : ∀ (a b : List Nibble), ∃ c r1 r2, a = c ++ r1 ∧ b = c ++ r2 ∧
    c.length = commonPrefix a b ∧ (r1 = [] ∨ r2 = [] ∨ r1.head? ≠ r2.head?)
  | [], b => ⟨[], [], b, rfl, rfl, by simp [commonPrefix], Or.inl rfl⟩
  | x :: a, [] => ⟨[], x :: a, [], rfl, rfl, by simp [commonPrefix], Or.inr (Or.inl rfl)⟩
  | x :: a, y :: b => by
    by_cases h : x = y
    · subst h
      obtain ⟨c, r1, r2, h1, h2, h3, h4⟩ := commonPrefix_spec a b
      exact ⟨x :: c, r1, r2, by simp [h1], by simp [h2], by simp [commonPrefix, h3], h4⟩
    · exact ⟨[], x :: a, y :: b, rfl, rfl, by simp [commonPrefix, h],
        Or.inr (Or.inr (by simpa using h))⟩

theorem commonPrefix_append (c r1 r2 : List Nibble)
    (h : r1 = [] ∨ r2 = [] ∨ r1.head? ≠ r2.head?) :
    commonPrefix (c ++ r1) (c ++ r2) = c.length := by
  induction c with
  | nil =>
    cases r1 with
    | nil => simp [commonPrefix]
    | cons x r1 =>
      cases r2 with
      | nil => simp [commonPrefix]
      | cons y r2 =>
        have : x ≠ y := by simpa using h
        simp [commonPrefix, this]
  | cons x c ih => simp [commonPrefix, ih]

namespace TrieNode

theorem canonical_branch1 (d : Nibble) (r : List Nibble) (v v2 : Bytes) (hv : v ≠ [])
    (hv2 : v2 ≠ []) : (branch1 d (.leaf r v) v2).Canonical := by
  simp only [branch1, Canonical]
  refine ⟨fun i => ?_, Or.inr ⟨hv2, d, by simp [isNull]⟩⟩
  by_cases h : i = d
  · subst h; simpa [Canonical] using hv
  · simp [Function.update_noteq h, noNodes, Canonical]

theorem lookup_branch1 (d : Nibble) (n : TrieNode) (v2 : Bytes) (k : List Nibble) :
    (branch1 d n v2).lookup k
      = match k with
        | [] => v2
        | x :: rest => if x = d then n.lookup rest else [] := by
  cases k with
  | nil => simp [branch1, lookup]
  | cons x rest =>
    by_cases h : x = d
    · subst h; simp [branch1, lookup]
    · simp [branch1, lookup, Function.update_noteq h, noNodes, h]

theorem canonical_branch2 (d1 d2 : Nibble) (r1 r2 : List Nibble) (v1 v2 : Bytes)
    (hd : d1 ≠ d2) (hv1 : v1 ≠ []) (hv2 : v2 ≠ []) :
    (branch2 d1 (.leaf r1 v1) d2 (.leaf r2 v2)).Canonical := by
  simp only [branch2, Canonical]
  refine ⟨fun i => ?_, Or.inl ⟨d1, d2, hd, ?_, ?_⟩⟩
  · by_cases h2 : i = d2
    · subst h2; simpa [Canonical] using hv2
    · by_cases h1 : i = d1
      · subst h1; simpa [Function.update_noteq h2, Canonical] using hv1
      · simp [Function.update_noteq h2, Function.update_noteq h1, noNodes, Canonical]
  · simp [Function.update_noteq hd, isNull]
  · simp [isNull]

theorem lookup_branch2 (d1 d2 : Nibble) (n1 n2 : TrieNode) (hd : d1 ≠ d2) (k : List Nibble) :
    (branch2 d1 n1 d2 n2).lookup k
      = match k with
        | [] => []
        | x :: rest => if x = d1 then n1.lookup rest else if x = d2 then n2.lookup rest
            else [] := by
  cases k with
  | nil => simp [branch2, lookup]
  | cons x rest =>
    by_cases h2 : x = d2
    · subst h2; simp [branch2, lookup, Ne.symm hd]
    · by_cases h1 : x = d1
      · subst h1; simp [branch2, lookup, Function.update_noteq h2]
      · simp [branch2, lookup, Function.update_noteq h2, Function.update_noteq h1, noNodes,
          h1, h2]

/-- A branch, under the shared path `c` when there is one: shape and stored mapping. -/
theorem wrap_spec (c : List Nibble) (b : TrieNode) (hb : b.isBranch = true)
    (hc : b.Canonical) :
    (if c.length ≠ 0 then TrieNode.infixNode c b else b).Canonical ∧
    (if c.length ≠ 0 then TrieNode.infixNode c b else b).isNull = false ∧
    (∀ r, (if c.length ≠ 0 then TrieNode.infixNode c b else b).lookup (c ++ r) = b.lookup r) ∧
    (∀ k, ¬ c <+: k → (if c.length ≠ 0 then TrieNode.infixNode c b else b).lookup k = []) := by
  by_cases h : c.length ≠ 0
  · rw [if_pos h]
    refine ⟨?_, rfl, fun r => lookup_infix_append c b r, ?_⟩
    · simp only [Canonical]
      exact ⟨by intro h0; simp [h0] at h, hb, hc⟩
    · intro k hk
      have : c.isPrefixOf k = false := by
        rw [← Bool.not_eq_true, List.isPrefixOf_iff_prefix]; exact hk
      simp [lookup, this]
  · rw [if_neg h]
    have : c = [] := by
      have : c.length = 0 := by omega
      exact List.eq_nil_of_length_eq_zero this
    subst this
    refine ⟨hc, isNull_of_isBranch hb, fun _ => rfl, ?_⟩
    intro k hk
    exact absurd List.nil_prefix hk

end TrieNode
namespace TrieNode

theorem ok_ite {ε α : Type} (p : Prop) [Decidable p] (a b : α) :
    (if p then (Except.ok a : Except ε α) else .ok b) = .ok (if p then a else b) := by
  split <;> rfl

theorem wrap_lookup (c r1 r2 : List Nibble) (v1 v2 : Bytes) (b : TrieNode)
    (hb : b.isBranch = true) (hc : b.Canonical)
    (hl : ∀ r, b.lookup r = if r = r1 then v1 else if r = r2 then v2 else []) :
    (if c.length ≠ 0 then TrieNode.infixNode c b else b).Canonical ∧
    (if c.length ≠ 0 then TrieNode.infixNode c b else b).isNull = false ∧
    ∀ k, (if c.length ≠ 0 then TrieNode.infixNode c b else b).lookup k
      = if k = c ++ r1 then v1 else if k = c ++ r2 then v2 else [] := by
  obtain ⟨h1, h2, h3, h4⟩ := wrap_spec c b hb hc
  refine ⟨h1, h2, fun k => ?_⟩
  by_cases hp : c <+: k
  · obtain ⟨r, rfl⟩ := hp
    rw [h3, hl]
    simp
  · rw [h4 k hp]
    have e1 : k ≠ c ++ r1 := fun h => hp ⟨r1, h.symm⟩
    have e2 : k ≠ c ++ r2 := fun h => hp ⟨r2, h.symm⟩
    simp [e1, e2]

/-- `newBranch` on two different keys with non-empty values: a minimal node that stores
exactly the two. -/
theorem newBranch_spec (k1 k2 : List Nibble) (v1 v2 : Bytes) (hk : k1 ≠ k2) (hv1 : v1 ≠ [])
    (hv2 : v2 ≠ []) :
    ∃ t, newBranch k1 v1 k2 v2 = .ok t ∧ t.Canonical ∧ t.isNull = false ∧
      ∀ k, t.lookup k = if k = k1 then v1 else if k = k2 then v2 else [] := by
  obtain ⟨c, r1, r2, h1, h2, h3, h4⟩ := commonPrefix_spec k1 k2
  subst h1 h2
  unfold newBranch
  simp only [← h3, List.drop_left, List.take_left, List.length_append, bind, Except.bind, pure,
    Except.pure]
  cases r1 with
  | nil =>
    cases r2 with
    | nil => exact absurd rfl hk
    | cons d r =>
      simp only [List.length_nil, Nat.add_zero, if_true]
      have hb := wrap_lookup c [] (d :: r) v1 v2 (branch1 d (.leaf r v2) v1) rfl
        (canonical_branch1 d r v2 v1 hv2 hv1) (by
          intro k
          rw [lookup_branch1]
          cases k with
          | nil => simp
          | cons x rest =>
            by_cases hx : x = d
            · subst hx; simp [lookup]
            · simp [hx])
      exact ⟨_, ok_ite _ _ _, hb⟩
  | cons d r =>
    cases r2 with
    | nil =>
      simp only [List.length_cons, List.length_nil, Nat.add_zero,
        show ¬ (c.length + (r.length + 1) = c.length) by omega, if_false, if_true]
      have hb := wrap_lookup c (d :: r) [] v1 v2 (branch1 d (.leaf r v1) v2) rfl
        (canonical_branch1 d r v1 v2 hv1 hv2) (by
          intro k
          rw [lookup_branch1]
          cases k with
          | nil => simp
          | cons x rest =>
            by_cases hx : x = d
            · subst hx; simp [lookup]
            · simp [hx])
      exact ⟨_, ok_ite _ _ _, hb⟩
    | cons d2 r2 =>
      have hd : d ≠ d2 := by simpa using h4
      simp only [List.length_cons,
        show ¬ (c.length + (r.length + 1) = c.length) by omega,
        show ¬ (c.length + (r2.length + 1) = c.length) by omega, if_false]
      have hb := wrap_lookup c (d :: r) (d2 :: r2) v1 v2
        (branch2 d (.leaf r v1) d2 (.leaf r2 v2)) rfl
        (canonical_branch2 d d2 r r2 v1 v2 hd hv1 hv2) (by
          intro k
          rw [lookup_branch2 _ _ _ _ hd]
          cases k with
          | nil => simp
          | cons x rest =>
            by_cases hx : x = d
            · subst hx; simp [lookup, hd]
            · by_cases hx2 : x = d2
              · subst hx2; simp [lookup, hx]
              · simp [hx, hx2])
      exact ⟨_, ok_ite _ _ _, hb⟩

end TrieNode
namespace TrieNode

theorem isEmpty_eq_false {v : Bytes} (h : v ≠ []) : v.isEmpty = false := by
  cases v with
  | nil => exact absurd rfl h
  | cons _ _ => rfl

theorem lookup_infix_cons (f : Nibble) (e1 : List Nibble) (next : TrieNode)
    (k : List Nibble) :
    (TrieNode.infixNode (f :: e1) next).lookup k
      = match k with
        | [] => []
        | x :: r => if x = f then
            (if e1.isEmpty then next else TrieNode.infixNode e1 next).lookup r else [] := by
  cases k with
  | nil => simp [lookup]
  | cons x r =>
    by_cases hx : x = f
    · subst hx
      cases e1 with
      | nil => simp [lookup]
      | cons y e2 => simp [lookup]
    · have hx2 : f ≠ x := fun h => hx h.symm
      simp [lookup, hx, hx2]

theorem canonical_trimmed (e1 : List Nibble) (next : TrieNode) (hb : next.isBranch = true)
    (hc : next.Canonical) :
    (if e1.isEmpty then next else TrieNode.infixNode e1 next).Canonical ∧
    (if e1.isEmpty then next else TrieNode.infixNode e1 next).isNull = false := by
  cases e1 with
  | nil => exact ⟨by simpa using hc, by simpa using isNull_of_isBranch hb⟩
  | cons y e2 =>
    simp only [List.isEmpty_cons, Bool.false_eq_true, if_false, Canonical]
    exact ⟨⟨by simp, hb, hc⟩, rfl⟩

/-- The split of an infix node whose path shares nothing with the key. -/
theorem infixInsert_split (nextInsert : List Nibble → Bytes → Except Fault TrieNode)
    (next : TrieNode) (hb : next.isBranch = true) (hc : next.Canonical) (fuel : Nat)
    (f : Nibble) (e1 key : List Nibble) (value : Bytes) (hv : value ≠ [])
    (hp : commonPrefix key (f :: e1) = 0) :
    ∃ t, infixInsert nextInsert next (fuel + 1) (f :: e1) key value = .ok t ∧ t.Canonical ∧
      t.isBranch = true ∧
      ∀ k, t.lookup k = if k = key then value else (TrieNode.infixNode (f :: e1) next).lookup k := by
  obtain ⟨hcn, hnn⟩ := canonical_trimmed e1 next hb hc
  cases key with
  | nil =>
    refine ⟨.branch (Function.update noNodes f
      (if e1.isEmpty then next else TrieNode.infixNode e1 next)) value, ?_, ?_, rfl, ?_⟩
    · simp [infixInsert, isEmpty_eq_false hv, commonPrefix, branchInsert]
    · simp only [Canonical]
      refine ⟨fun i => ?_, Or.inr ⟨hv, f, by simpa using hnn⟩⟩
      by_cases h : i = f
      · subst h; simpa using hcn
      · simp [Function.update_noteq h, noNodes, Canonical]
    · intro k
      rw [lookup_infix_cons]
      cases k with
      | nil => simp [lookup]
      | cons x r =>
        by_cases hx : x = f
        · subst hx; simp [lookup]
        · simp [lookup, Function.update_noteq hx, noNodes, hx]
  | cons c rest =>
    have hcf : c ≠ f := by
      intro h
      simp [commonPrefix, h] at hp
    refine ⟨.branch (Function.update (Function.update noNodes f
      (if e1.isEmpty then next else TrieNode.infixNode e1 next)) c (.leaf rest value)) [],
      ?_, ?_, rfl, ?_⟩
    · have hfc : f ≠ c := fun h => hcf h.symm
      simp [infixInsert, isEmpty_eq_false hv, commonPrefix, hcf, hfc, branchInsert,
        Function.update_noteq hcf, noNodes, isNull]
    · simp only [Canonical]
      refine ⟨fun i => ?_, Or.inl ⟨f, c, Ne.symm hcf, ?_, ?_⟩⟩
      · by_cases h : i = c
        · subst h; simpa [Canonical] using hv
        · by_cases h2 : i = f
          · subst h2; simpa [Function.update_noteq h] using hcn
          · simp [Function.update_noteq h, Function.update_noteq h2, noNodes, Canonical]
      · simpa [Function.update_noteq (Ne.symm hcf)] using hnn
      · simp [isNull]
    · intro k
      rw [lookup_infix_cons]
      cases k with
      | nil => simp [lookup]
      | cons x r =>
        by_cases hx : x = c
        · subst hx; simp [lookup, hcf]
        · by_cases hx2 : x = f
          · subst hx2; simp [lookup, Function.update_noteq hx, hx]
          · simp [lookup, Function.update_noteq hx, Function.update_noteq hx2, noNodes, hx,
              hx2]

end TrieNode
namespace TrieNode

theorem lookup_infix_append_both (c r2 : List Nibble) (next : TrieNode) (r : List Nibble) :
    (TrieNode.infixNode (c ++ r2) next).lookup (c ++ r)
      = (TrieNode.infixNode r2 next).lookup r := by
  induction c with
  | nil => rfl
  | cons x c ih =>
    simp only [lookup, List.cons_append, List.isPrefixOf, Bool.and_eq_true, beq_self_eq_true,
      true_and, List.length_cons, List.drop_succ_cons] at ih ⊢
    exact ih

theorem lookup_infixNode_unrelated {e : List Nibble} {next : TrieNode} {k : List Nibble}
    (h : ¬ e <+: k) : (TrieNode.infixNode e next).lookup k = [] := by
  have : e.isPrefixOf k = false := by
    rw [← Bool.not_eq_true, List.isPrefixOf_iff_prefix]; exact h
  simp [lookup, this]

theorem infixInsert_succ (nextInsert : List Nibble → Bytes → Except Fault TrieNode)
    (next : TrieNode) (fuel : Nat) (e key : List Nibble) (value : Bytes) :
    infixInsert nextInsert next (fuel + 1) e key value
      = if value.isEmpty then .error .assertion
        else if e.isPrefixOf key then do
          let n ← nextInsert (key.drop e.length) value
          pure (.infixNode e n)
        else
          if commonPrefix key e ≠ 0 then do
            let r ← infixInsert nextInsert next fuel (e.drop (commonPrefix key e))
              (key.drop (commonPrefix key e)) value
            pure (.infixNode (key.take (commonPrefix key e)) r)
          else
            match e with
            | [] => .error .outOfBounds
            | f :: e1 =>
              branchInsert
                (fun _ rest x =>
                  if e1.isEmpty then nextInsert rest x
                  else infixInsert nextInsert next fuel e1 rest x)
                (Function.update noNodes f (if e1.isEmpty then next else .infixNode e1 next))
                [] key value := by
  cases e <;> rfl

/-- `TrieInfixNode::insert` on a minimal infix node: a minimal node that stores the old
mapping with the key set to the value. -/
theorem infixInsert_spec (nextInsert : List Nibble → Bytes → Except Fault TrieNode)
    (next : TrieNode) (hb : next.isBranch = true) (hc : next.Canonical)
    (hn : NextInsertSpec nextInsert next) (fuel : Nat) (e key : List Nibble) (value : Bytes)
    (he : e ≠ []) (hf : e.length ≤ fuel) (hv : value ≠ []) :
    ∃ t, infixInsert nextInsert next fuel e key value = .ok t ∧ t.Canonical ∧
      t.isNull = false ∧
      ∀ k, t.lookup k = if k = key then value else (TrieNode.infixNode e next).lookup k := by
  obtain ⟨fuel1, rfl⟩ : ∃ f1, fuel = f1 + 1 := by
    have : 1 ≤ e.length := List.length_pos.mpr he
    exact ⟨fuel - 1, by omega⟩
  by_cases hpre : e.isPrefixOf key = true
  · obtain ⟨n2, h1, h2, h3, h4⟩ := hn (key.drop e.length) value hv
    refine ⟨.infixNode e n2, ?_, ?_, rfl, ?_⟩
    · simp [infixInsert, isEmpty_eq_false hv, hpre, h1, bind, Except.bind, pure, Except.pure]
    · simp only [Canonical]; exact ⟨he, h3, h2⟩
    · intro k
      obtain ⟨rk, hrk⟩ := List.isPrefixOf_iff_prefix.mp hpre
      subst hrk
      by_cases hk : e <+: k
      · obtain ⟨r, rfl⟩ := hk
        rw [lookup_infix_append, lookup_infix_append, h4]
        simp
      · rw [lookup_infixNode_unrelated hk, lookup_infixNode_unrelated hk]
        have : k ≠ e ++ rk := fun h => hk ⟨rk, h.symm⟩
        simp [this]
  · have hnp : ¬ e <+: key := fun h => hpre (List.isPrefixOf_iff_prefix.mpr h)
    obtain ⟨c, r1, r2, hk, hE, hlen, h4⟩ := commonPrefix_spec key e
    subst hk hE
    have hr2 : r2 ≠ [] := by
      intro h
      apply hnp
      rw [h, List.append_nil]
      exact List.prefix_append c r1
    obtain ⟨f, e1, rfl⟩ := List.exists_cons_of_ne_nil hr2
    have hp0 : commonPrefix r1 (f :: e1) = 0 := by
      have := commonPrefix_append [] r1 (f :: e1) h4
      simpa using this
    have hpreF : (c ++ f :: e1).isPrefixOf (c ++ r1) = false := by
      rw [← Bool.not_eq_true]; exact hpre
    by_cases hc0 : c = []
    · subst hc0
      obtain ⟨t, h1, h2, h3, h4⟩ := infixInsert_split nextInsert next hb hc fuel1 f e1 r1 value
        hv hp0
      exact ⟨t, by simpa using h1, h2, isNull_of_isBranch h3, by simpa using h4⟩
    · have hcl : 1 ≤ c.length := List.length_pos.mpr hc0
      obtain ⟨fuel2, rfl⟩ : ∃ f2, fuel1 = f2 + 1 := by
        simp only [List.length_append, List.length_cons] at hf
        exact ⟨fuel1 - 1, by omega⟩
      obtain ⟨t, h1, h2, h3, h4⟩ := infixInsert_split nextInsert next hb hc fuel2 f e1 r1 value
        hv hp0
      refine ⟨.infixNode c t, ?_, ?_, rfl, ?_⟩
      · rw [infixInsert_succ]
        simp only [isEmpty_eq_false hv, hpreF, ← hlen, Bool.false_eq_true, if_false,
          List.drop_left, List.take_left, ne_eq, show ¬ c.length = 0 by omega,
          not_false_eq_true, if_true, h1, bind, Except.bind, pure, Except.pure]
      · simp only [Canonical]; exact ⟨hc0, h3, h2⟩
      · intro k
        by_cases hk : c <+: k
        · obtain ⟨r, rfl⟩ := hk
          rw [lookup_infix_append, h4, lookup_infix_append_both]
          simp
        · rw [lookup_infixNode_unrelated hk]
          have hne : k ≠ c ++ r1 := fun h => hk ⟨r1, h.symm⟩
          have hnp2 : ¬ (c ++ f :: e1) <+: k :=
            fun h => hk ((List.prefix_append c _).trans h)
          rw [lookup_infixNode_unrelated hnp2]
          simp [hne]

theorem canonical_update (nodes : Nibble → TrieNode) (v : Bytes) (c : Nibble) (n2 : TrieNode)
    (hc : (TrieNode.branch nodes v).Canonical) (h2 : n2.Canonical) (hn : n2.isNull = false) :
    (TrieNode.branch (Function.update nodes c n2) v).Canonical := by
  simp only [Canonical] at hc ⊢
  refine ⟨fun i => ?_, ?_⟩
  · by_cases h : i = c
    · subst h; simpa using h2
    · simpa [Function.update_noteq h] using hc.1 i
  · have hnn : ∀ i, (nodes i).isNull = false → (Function.update nodes c n2 i).isNull = false := by
      intro i hi
      by_cases h : i = c
      · subst h; simpa using hn
      · simpa [Function.update_noteq h] using hi
    rcases hc.2 with ⟨i, j, hij, hi, hj⟩ | ⟨hv, i, hi⟩
    · exact Or.inl ⟨i, j, hij, hnn i hi, hnn j hj⟩
    · exact Or.inr ⟨hv, i, hnn i hi⟩

theorem lookup_update (nodes : Nibble → TrieNode) (v : Bytes) (c : Nibble) (n2 : TrieNode)
    (k : List Nibble) :
    (TrieNode.branch (Function.update nodes c n2) v).lookup k
      = match k with
        | [] => v
        | x :: r => if x = c then n2.lookup r else (nodes x).lookup r := by
  cases k with
  | nil => rfl
  | cons x r =>
    by_cases h : x = c
    · subst h; simp [lookup]
    · simp [lookup, Function.update_noteq h, h]

/-- `insert` on a minimal node, with a non-empty value: it returns a minimal node that
stores the old mapping with the key set to the value. -/
theorem insert_spec : ∀ (t : TrieNode), t.Canonical → t.isNull = false →
    ∀ (key : List Nibble) (value : Bytes), value ≠ [] →
    ∃ t2, t.insert key value = .ok t2 ∧ t2.Canonical ∧ t2.isNull = false ∧
      (t.isBranch = true → t2.isBranch = true) ∧
      ∀ k, t2.lookup k = if k = key then value else t.lookup k := by
  intro t
  induction t with
  | null => intro _ h; simp [isNull] at h
  | leaf e v =>
    intro hc _ key value hv
    simp only [Canonical] at hc
    by_cases hk : key = e
    · subst hk
      refine ⟨.leaf key value, by simp [insert, isEmpty_eq_false hv], by simpa [Canonical] using hv,
        rfl, by simp [isBranch], ?_⟩
      intro k
      by_cases h : k = key <;> simp [lookup, h]
    · obtain ⟨t2, h1, h2, h3, h4⟩ := newBranch_spec key e value v hk hv hc
      refine ⟨t2, by simp [insert, isEmpty_eq_false hv, hk, h1], h2, h3, by simp [isBranch], ?_⟩
      intro k
      rw [h4]
      simp [lookup]
  | infixNode e next ih =>
    intro hc _ key value hv
    simp only [Canonical] at hc
    have hn : NextInsertSpec (fun k x => next.insert k x) next := by
      intro key2 value2 hv2
      obtain ⟨n2, h1, h2, _, h4, h5⟩ := ih hc.2.2 (isNull_of_isBranch hc.2.1) key2 value2 hv2
      exact ⟨n2, h1, h2, h4 hc.2.1, h5⟩
    obtain ⟨t2, h1, h2, h3, h4⟩ := infixInsert_spec _ next hc.2.1 hc.2.2 hn e.length e key value
      hc.1 (le_refl _) hv
    exact ⟨t2, by simpa [insert] using h1, h2, h3, by simp [isBranch], h4⟩
  | branch nodes v ih =>
    intro hc _ key value hv
    cases key with
    | nil =>
      refine ⟨.branch nodes value, by simp [insert, isEmpty_eq_false hv, branchInsert], ?_, rfl,
        fun _ => rfl, ?_⟩
      · simp only [Canonical] at hc ⊢
        refine ⟨hc.1, Or.inr ⟨hv, ?_⟩⟩
        rcases hc.2 with ⟨i, _, _, hi, _⟩ | ⟨_, i, hi⟩ <;> exact ⟨i, hi⟩
      · intro k
        cases k with
        | nil => simp [lookup]
        | cons x r => simp [lookup]
    | cons c rest =>
      by_cases hnull : (nodes c).isNull = true
      · refine ⟨.branch (Function.update nodes c (.leaf rest value)) v,
          by simp [insert, isEmpty_eq_false hv, branchInsert, hnull], ?_, rfl, fun _ => rfl, ?_⟩
        · exact canonical_update nodes v c _ hc (by simpa [Canonical] using hv) rfl
        · intro k
          rw [lookup_update]
          have hcn : nodes c = .null := (isNull_eq_true_iff _).mp hnull
          cases k with
          | nil => simp [lookup]
          | cons x r =>
            by_cases hx : x = c
            · subst hx; simp [lookup, hcn]
            · simp [lookup, hx]
      · have hnn : (nodes c).isNull = false := by simpa using hnull
        have hcc : (nodes c).Canonical := by
          simp only [Canonical] at hc; exact hc.1 c
        obtain ⟨c2, h1, h2, h3, _, h5⟩ := ih c hcc hnn rest value hv
        refine ⟨.branch (Function.update nodes c c2) v,
          by simp [insert, isEmpty_eq_false hv, branchInsert, hnn, h1, bind, Except.bind, pure,
            Except.pure], canonical_update nodes v c c2 hc h2 h3, rfl, fun _ => rfl, ?_⟩
        intro k
        rw [lookup_update]
        cases k with
        | nil => simp [lookup]
        | cons x r =>
          by_cases hx : x = c
          · subst hx; simp [lookup, h5]
          · simp [lookup, hx]

end TrieNode
namespace TrieNode

/-- The fuel of `infixInsert` does not matter once it covers the length of `m_ext`. -/
theorem infixInsert_fuel (nextInsert : List Nibble → Bytes → Except Fault TrieNode)
    (next : TrieNode) : ∀ (f1 f2 : Nat) (e key : List Nibble) (value : Bytes),
    e.length ≤ f1 → e.length ≤ f2 →
    infixInsert nextInsert next f1 e key value = infixInsert nextInsert next f2 e key value := by
  intro f1
  induction f1 with
  | zero =>
    intro f2 e key value h1 _
    have he : e = [] := List.eq_nil_of_length_eq_zero (by omega)
    subst he
    cases f2 with
    | zero => rfl
    | succ b => rw [infixInsert_succ]; simp [infixInsert]
  | succ a ih =>
    intro f2 e key value h1 h2
    cases f2 with
    | zero =>
      have he : e = [] := List.eq_nil_of_length_eq_zero (by omega)
      subst he
      rw [infixInsert_succ]; simp [infixInsert]
    | succ b =>
      rw [infixInsert_succ, infixInsert_succ]
      by_cases hv : value.isEmpty = true
      · simp [hv]
      · by_cases hp : e.isPrefixOf key = true
        · simp [hv, hp]
        · simp only [hv, hp, Bool.false_eq_true, if_false]
          by_cases hpre : commonPrefix key e ≠ 0
          · rw [if_pos hpre, if_pos hpre]
            rw [ih b (e.drop (commonPrefix key e)) _ value
              (by simp only [List.length_drop]; omega) (by simp only [List.length_drop]; omega)]
          · rw [if_neg hpre, if_neg hpre]
            cases e with
            | nil => rfl
            | cons f e1 =>
              simp only [List.length_cons] at h1 h2
              have : (fun (_ : Nibble) (rest : List Nibble) (x : Bytes) =>
                  if e1.isEmpty then nextInsert rest x
                  else infixInsert nextInsert next a e1 rest x)
                = (fun (_ : Nibble) (rest : List Nibble) (x : Bytes) =>
                  if e1.isEmpty then nextInsert rest x
                  else infixInsert nextInsert next b e1 rest x) := by
                funext _ rest x
                rw [ih b e1 rest x (by omega) (by omega)]
              simp only [this]

/-- `TrieInfixNode::insert` as the source has it: the recursive calls are calls of `insert`
on this node after `trimFront`. -/
theorem insert_infixNode (e : List Nibble) (next : TrieNode) (key : List Nibble)
    (value : Bytes) (he : e ≠ []) :
    (TrieNode.infixNode e next).insert key value
      = if value.isEmpty then .error .assertion
        else if e.isPrefixOf key then do
          let n ← next.insert (key.drop e.length) value
          pure (.infixNode e n)
        else
          if commonPrefix key e ≠ 0 then do
            let r ← (TrieNode.infixNode (e.drop (commonPrefix key e)) next).insert
              (key.drop (commonPrefix key e)) value
            pure (.infixNode (key.take (commonPrefix key e)) r)
          else
            match e with
            | [] => .error .outOfBounds
            | f :: e1 =>
              branchInsert
                (fun _ rest x =>
                  (if e1.isEmpty then next else TrieNode.infixNode e1 next).insert rest x)
                (Function.update noNodes f (if e1.isEmpty then next else .infixNode e1 next))
                [] key value := by
  obtain ⟨f, e1, rfl⟩ := List.exists_cons_of_ne_nil he
  have hins : ∀ (e2 : List Nibble) (k : List Nibble) (x : Bytes),
      (TrieNode.infixNode e2 next).insert k x
        = infixInsert (fun k x => next.insert k x) next e2.length e2 k x := fun _ _ _ => rfl
  rw [hins, List.length_cons, infixInsert_succ]
  by_cases hv : value.isEmpty = true
  · simp [hv]
  · by_cases hp : (f :: e1).isPrefixOf key = true
    · simp [hv, hp]
    · simp only [hv, hp, Bool.false_eq_true, if_false]
      by_cases hpre : commonPrefix key (f :: e1) ≠ 0
      · rw [if_pos hpre, if_pos hpre, hins]
        rw [infixInsert_fuel _ next e1.length ((f :: e1).drop (commonPrefix key (f :: e1))).length
          _ _ value (by simp only [List.length_drop, List.length_cons]; omega) (le_refl _)]
      · rw [if_neg hpre, if_neg hpre]
        have : (fun (_ : Nibble) (rest : List Nibble) (x : Bytes) =>
            if e1.isEmpty then (fun k x => next.insert k x) rest x
            else infixInsert (fun k x => next.insert k x) next e1.length e1 rest x)
          = (fun (_ : Nibble) (rest : List Nibble) (x : Bytes) =>
            (if e1.isEmpty then next else TrieNode.infixNode e1 next).insert rest x) := by
          funext _ rest x
          by_cases he1 : e1.isEmpty = true
          · simp [he1]
          · simp only [he1, Bool.false_eq_true, if_false]
            rw [hins]
        simp only [this]

end TrieNode

namespace TrieNode

theorem activeBranchLoop_spec (nodes : Nibble → TrieNode) : ∀ (todo i n : Nat),
    i + todo = 16 →
    ((n = 255 ∧ ∀ j : Nibble, j.val < i → (nodes j).isNull = true) ∨
      (∃ m : Nibble, n = m.val ∧ m.val < i ∧ (nodes m).isNull = false ∧
        ∀ j : Nibble, j.val < i → j ≠ m → (nodes j).isNull = true)) →
    ActiveResult nodes (activeBranchLoop nodes todo i n) := by
  intro todo
  induction todo with
  | zero =>
    intro i n hi hinv
    have hi16 : i = 16 := by omega
    subst hi16
    simp only [activeBranchLoop]
    rcases hinv with ⟨hn, hall⟩ | ⟨m, hn, _, hm, hall⟩
    · exact Or.inl ⟨hn, fun j => hall j j.isLt⟩
    · exact Or.inr (Or.inl ⟨m, hn, hm, fun j hj => hall j j.isLt hj⟩)
  | succ todo ih =>
    intro i n hi hinv
    have hlt : i < 16 := by omega
    simp only [activeBranchLoop, hlt, dite_true]
    by_cases hnull : (nodes ⟨i, hlt⟩).isNull = true
    · simp only [hnull, Bool.not_true, Bool.false_eq_true, if_false]
      apply ih (i + 1) n (by omega)
      rcases hinv with ⟨hn, hall⟩ | ⟨m, hn, hmi, hm, hall⟩
      · left
        refine ⟨hn, fun j hj => ?_⟩
        by_cases hji : j.val = i
        · have : j = ⟨i, hlt⟩ := Fin.ext hji
          rw [this]; exact hnull
        · exact hall j (by omega)
      · right
        refine ⟨m, hn, by omega, hm, fun j hj hjm => ?_⟩
        by_cases hji : j.val = i
        · have : j = ⟨i, hlt⟩ := Fin.ext hji
          rw [this]; exact hnull
        · exact hall j (by omega) hjm
    · have hnn : (nodes ⟨i, hlt⟩).isNull = false := by simpa using hnull
      simp only [hnn, Bool.not_false, if_true]
      rcases hinv with ⟨hn, hall⟩ | ⟨m, hn, hmi, hm, hall⟩
      · rw [if_pos hn]
        apply ih (i + 1) i (by omega)
        right
        refine ⟨⟨i, hlt⟩, rfl, by simp, hnn, fun j hj hjm => ?_⟩
        have hji : j.val ≠ i := fun h => hjm (Fin.ext h)
        exact hall j (by omega)
      · have hn255 : n ≠ 255 := by
          have := m.isLt
          omega
        rw [if_neg hn255]
        refine Or.inr (Or.inr ⟨rfl, m, ⟨i, hlt⟩, ?_, hm, hnn⟩)
        intro h
        have : m.val = i := by rw [h]
        omega

theorem activeBranch_spec (nodes : Nibble → TrieNode) :
    ActiveResult nodes (activeBranch nodes) :=
  activeBranchLoop_spec nodes 16 0 255 rfl (Or.inl ⟨rfl, fun j hj => absurd hj (by omega)⟩)

end TrieNode
namespace TrieNode

theorem lookup_branch_all_null (nodes : Nibble → TrieNode) (v : Bytes)
    (h : ∀ i, (nodes i).isNull = true) (k : List Nibble) :
    (TrieNode.branch nodes v).lookup k = if k = [] then v else [] := by
  cases k with
  | nil => simp [lookup]
  | cons x r =>
    have := (isNull_eq_true_iff _).mp (h x)
    simp [lookup, this]

theorem lookup_branch_single (nodes : Nibble → TrieNode) (m : Nibble)
    (h : ∀ j, j ≠ m → (nodes j).isNull = true) (k : List Nibble) :
    (TrieNode.branch nodes []).lookup k
      = match k with
        | [] => []
        | x :: r => if x = m then (nodes m).lookup r else [] := by
  cases k with
  | nil => simp [lookup]
  | cons x r =>
    by_cases hx : x = m
    · subst hx; simp [lookup]
    · have := (isNull_eq_true_iff _).mp (h x hx)
      simp [lookup, this, hx]

/-- `rejig` on a branch with minimal children and something populated: a minimal node other
than the null pointer, storing the same mapping. -/
theorem rejig_spec (nodes : Nibble → TrieNode) (v : Bytes)
    (hch : ∀ i, (nodes i).Canonical)
    (hpop : (∃ i, (nodes i).isNull = false) ∨ v ≠ []) :
    ∃ t, rejig nodes v = .ok t ∧ t.Canonical ∧ t.isNull = false ∧
      ∀ k, t.lookup k = (TrieNode.branch nodes v).lookup k := by
  rcases activeBranch_spec nodes with ⟨h255, hall⟩ | ⟨m, hm, hmn, hothers⟩ | ⟨h16, i, j, hij, hi, hj⟩
  · have hv : v ≠ [] := by
      rcases hpop with ⟨i, hi⟩ | hv
      · rw [hall i] at hi; exact absurd hi (by simp)
      · exact hv
    refine ⟨.leaf [] v, by simp [rejig, h255, hv], by simpa [Canonical] using hv, rfl, ?_⟩
    intro k
    rw [lookup_branch_all_null nodes v hall]
    simp [lookup]
  · have hlt : activeBranch nodes < 16 := by rw [hm]; exact m.isLt
    have hne : activeBranch nodes ≠ 255 := by omega
    have hfin : (⟨activeBranch nodes, hlt⟩ : Nibble) = m := Fin.ext hm
    by_cases hv : v = []
    · subst hv
      have hcm := hch m
      unfold rejig
      simp only [hne, false_and, if_false, hlt, and_self, dite_true, ne_eq, not_true_eq_false,
        and_false]
      rw [hfin]
      cases hnm : nodes m with
      | null => rw [hnm] at hmn; simp [isNull] at hmn
      | leaf e x =>
        rw [hnm] at hcm
        refine ⟨_, rfl, by simpa [Canonical] using hcm, rfl, ?_⟩
        intro k
        rw [lookup_branch_single nodes m hothers, hnm]
        cases k with
        | nil => simp [lookup]
        | cons y r => by_cases hy : y = m <;> simp [lookup, hy]
      | infixNode e x =>
        rw [hnm] at hcm
        simp only [Canonical] at hcm
        refine ⟨_, rfl, by simp only [Canonical]; exact ⟨by simp, hcm.2⟩, rfl, ?_⟩
        intro k
        rw [lookup_branch_single nodes m hothers, hnm]
        cases k with
        | nil => simp [lookup]
        | cons y r =>
          by_cases hy : y = m
          · subst hy; simp [lookup]
          · have hy2 : m ≠ y := fun h => hy h.symm
            simp [lookup, hy, hy2]
      | branch ns bv =>
        rw [hnm] at hcm
        refine ⟨_, rfl, by simp only [Canonical]; exact ⟨by simp, rfl, hcm⟩, rfl, ?_⟩
        intro k
        rw [lookup_branch_single nodes m hothers, hnm]
        cases k with
        | nil => simp [lookup]
        | cons y r =>
          by_cases hy : y = m
          · subst hy; simp [lookup]
          · have hy2 : m ≠ y := fun h => hy h.symm
            simp [lookup, hy, hy2]
    · refine ⟨.branch nodes v, by simp [rejig, hne, hv], ?_, rfl, fun _ => rfl⟩
      simp only [Canonical]
      exact ⟨hch, Or.inr ⟨hv, m, hmn⟩⟩
  · refine ⟨.branch nodes v, by simp [rejig, h16], ?_, rfl, fun _ => rfl⟩
    simp only [Canonical]
    exact ⟨hch, Or.inl ⟨i, j, hij, hi, hj⟩⟩

end TrieNode
namespace TrieNode

theorem infix_merge_lookup (e key : List Nibble) (next n2 t2 : TrieNode) (hp : e <+: key)
    (h4 : ∀ k, n2.lookup k = if k = key.drop e.length then [] else next.lookup k)
    (ha : ∀ r, t2.lookup (e ++ r) = n2.lookup r)
    (hb : ∀ k, ¬ e <+: k → t2.lookup k = []) (k : List Nibble) :
    t2.lookup k = if k = key then [] else (TrieNode.infixNode e next).lookup k := by
  obtain ⟨rk, rfl⟩ := hp
  by_cases hk : e <+: k
  · obtain ⟨r, rfl⟩ := hk
    rw [ha, h4, lookup_infix_append]
    simp
  · rw [hb k hk, lookup_infixNode_unrelated hk]
    simp

/-- `remove` on a minimal node: it returns a minimal node (the null pointer when nothing is
left) that stores the old mapping without the key. -/
theorem remove_spec : ∀ (t : TrieNode), t.Canonical → t.isNull = false →
    ∀ (key : List Nibble),
    ∃ t2, t.remove key = .ok t2 ∧ t2.Canonical ∧
      ∀ k, t2.lookup k = if k = key then [] else t.lookup k := by
  intro t
  induction t with
  | null => intro _ h; simp [isNull] at h
  | leaf e v =>
    intro hc _ key
    by_cases hk : key = e
    · subst hk
      refine ⟨.null, by simp [remove], by simp [Canonical], ?_⟩
      intro k
      by_cases h : k = key <;> simp [lookup, h]
    · refine ⟨.leaf e v, by simp [remove, hk], hc, ?_⟩
      intro k
      by_cases h : k = key
      · subst h; simp [lookup, hk]
      · simp [h]
  | infixNode e next ih =>
    intro hc _ key
    have hc0 := hc
    simp only [Canonical] at hc
    by_cases hpre : e.isPrefixOf key = true
    · have hp := List.isPrefixOf_iff_prefix.mp hpre
      obtain ⟨n2, h1, h2, h4⟩ := ih hc.2.2 (isNull_of_isBranch hc.2.1) (key.drop e.length)
      cases n2 with
      | null =>
        refine ⟨.null, by simp [remove, hpre, h1, bind, Except.bind, pure, Except.pure],
          by simp [Canonical], ?_⟩
        exact infix_merge_lookup e key next .null .null hp h4 (fun _ => rfl) (fun _ _ => rfl)
      | leaf e2 v2 =>
        refine ⟨.leaf (e ++ e2) v2,
          by simp [remove, hpre, h1, bind, Except.bind, pure, Except.pure],
          by simpa [Canonical] using h2, ?_⟩
        apply infix_merge_lookup e key next _ _ hp h4
        · intro r; simp [lookup]
        · intro k hk
          have : k ≠ e ++ e2 := fun h => hk ⟨e2, h.symm⟩
          simp [lookup, this]
      | infixNode e2 n3 =>
        simp only [Canonical] at h2
        refine ⟨.infixNode (e ++ e2) n3,
          by simp [remove, hpre, h1, bind, Except.bind, pure, Except.pure], ?_, ?_⟩
        · simp only [Canonical]
          exact ⟨by simp [hc.1], h2.2⟩
        · apply infix_merge_lookup e key next _ _ hp h4
          · intro r; exact lookup_infix_append_both e e2 n3 r
          · intro k hk
            exact lookup_infixNode_unrelated (fun h => hk ((List.prefix_append e _).trans h))
      | branch ns bv =>
        refine ⟨.infixNode e (.branch ns bv),
          by simp [remove, hpre, h1, bind, Except.bind, pure, Except.pure], ?_, ?_⟩
        · simp only [Canonical]
          exact ⟨hc.1, rfl, h2⟩
        · apply infix_merge_lookup e key next _ _ hp h4
          · intro r; exact lookup_infix_append e _ r
          · intro k hk; exact lookup_infixNode_unrelated hk
    · refine ⟨.infixNode e next, by simp [remove, hpre], hc0, ?_⟩
      intro k
      by_cases h : k = key
      · subst h
        have : ¬ e <+: k := fun h => hpre (List.isPrefixOf_iff_prefix.mpr h)
        simp [lookup_infixNode_unrelated this]
      · simp [h]
  | branch nodes v ih =>
    intro hc _ key
    have hc0 := hc
    simp only [Canonical] at hc
    have hex : ∃ i, (nodes i).isNull = false := by
      rcases hc.2 with ⟨i, _, _, hi, _⟩ | ⟨_, i, hi⟩ <;> exact ⟨i, hi⟩
    cases key with
    | nil =>
      by_cases hv : v = []
      · subst hv
        refine ⟨.branch nodes [], by simp [remove], hc0, ?_⟩
        intro k
        by_cases h : k = []
        · subst h; simp [lookup]
        · simp [h]
      · obtain ⟨t2, h1, h2, _, h4⟩ := rejig_spec nodes [] hc.1 (Or.inl hex)
        refine ⟨t2, by simp [remove, hv, h1], h2, ?_⟩
        intro k
        rw [h4]
        cases k with
        | nil => simp [lookup]
        | cons x r => simp [lookup]
    | cons c rest =>
      by_cases hnull : (nodes c).isNull = true
      · refine ⟨.branch nodes v, by simp [remove, hnull], hc0, ?_⟩
        intro k
        by_cases h : k = c :: rest
        · subst h
          have := (isNull_eq_true_iff _).mp hnull
          simp [lookup, this]
        · simp [h]
      · have hnn : (nodes c).isNull = false := by simpa using hnull
        obtain ⟨c2, h1, h2, h4⟩ := ih c (hc.1 c) hnn rest
        have hch : ∀ i, (Function.update nodes c c2 i).Canonical := by
          intro i
          by_cases h : i = c
          · subst h; simpa using h2
          · simpa [Function.update_noteq h] using hc.1 i
        have hpop : (∃ i, (Function.update nodes c c2 i).isNull = false) ∨ v ≠ [] := by
          rcases hc.2 with ⟨i, j, hij, hi, hj⟩ | ⟨hv, _⟩
          · left
            by_cases h : i = c
            · have hjc : j ≠ c := fun h2 => hij (h.trans h2.symm)
              exact ⟨j, by simpa [Function.update_noteq hjc] using hj⟩
            · exact ⟨i, by simpa [Function.update_noteq h] using hi⟩
          · exact Or.inr hv
        obtain ⟨t2, g1, g2, _, g4⟩ := rejig_spec (Function.update nodes c c2) v hch hpop
        refine ⟨t2, by simp [remove, hnn, h1, g1, bind, Except.bind], g2, ?_⟩
        intro k
        rw [g4, lookup_update]
        cases k with
        | nil => simp [lookup]
        | cons x r =>
          by_cases hx : x = c
          · subst hx; simp [lookup, h4]
          · simp [lookup, hx]

end TrieNode
/-! ## The trie: whole-trie operations -/

theorem toHex_cons (b : Nat) (s : Bytes) :
    toHex (b :: s) = Fin.ofNat (b / 16) :: Fin.ofNat (b % 16) :: toHex s := by
  simp [toHex]

theorem byte_of_nibbles {a b : Nat} (ha : a < 256) (hb : b < 256)
    (h1 : (Fin.ofNat (a / 16) : Fin 16) = Fin.ofNat (b / 16))
    (h2 : (Fin.ofNat (a % 16) : Fin 16) = Fin.ofNat (b % 16)) : a = b := by
  have e1 := congrArg Fin.val h1
  have e2 := congrArg Fin.val h2
  simp only [Fin.ofNat, Fin.val_mk] at e1 e2
  omega

/-- Two byte strings with the same nibbles are equal. -/
theorem toHex_injective : ∀ (a b : Bytes), IsBytes a → IsBytes b → toHex a = toHex b → a = b
  | [], [], _, _, _ => rfl
  | [], y :: b, _, _, h => by simp [toHex] at h
  | x :: a, [], _, _, h => by simp [toHex] at h
  | x :: a, y :: b, ha, hb, h => by
    rw [toHex_cons, toHex_cons] at h
    simp only [List.cons.injEq] at h
    have hx : x < 256 := ha x (by simp)
    have hy : y < 256 := hb y (by simp)
    have e := byte_of_nibbles hx hy h.1 h.2.1
    have := toHex_injective a b (fun z hz => ha z (by simp [hz])) (fun z hz => hb z (by simp [hz]))
      h.2.2
    rw [e, this]

namespace Trie

theorem lastValue_nil {κ : Type} [DecidableEq κ] (k : κ) :
    lastValue ([] : List (κ × Bytes)) k = [] := rfl

theorem lastValue_cons {κ : Type} [DecidableEq κ] (a : κ × Bytes) (rest : List (κ × Bytes))
    (k : κ) :
    lastValue (a :: rest) k
      = if (∃ e ∈ rest, e.1 = k) then lastValue rest k else if a.1 = k then a.2 else [] := by
  unfold lastValue
  rw [List.reverse_cons, List.find?_append]
  by_cases h : ∃ e ∈ rest, e.1 = k
  · rw [if_pos h]
    obtain ⟨e, he, hk⟩ := h
    cases hf : rest.reverse.find? (fun e => decide (e.1 = k)) with
    | none =>
      rw [List.find?_eq_none] at hf
      exact absurd (by simpa using hk) (hf e (by simpa using he))
    | some x => rfl
  · rw [if_neg h]
    have hf : rest.reverse.find? (fun e => decide (e.1 = k)) = none := by
      rw [List.find?_eq_none]
      intro x hx hp
      exact h ⟨x, by simpa using hx, by simpa using hp⟩
    rw [hf]
    by_cases ha : a.1 = k <;> simp [ha]

theorem lastValue_of_not_mem {κ : Type} [DecidableEq κ] (l : List (κ × Bytes)) (k : κ)
    (h : ¬ ∃ e ∈ l, e.1 = k) : lastValue l k = [] := by
  induction l with
  | nil => rfl
  | cons a rest ih =>
    rw [lastValue_cons]
    have h1 : ¬ ∃ e ∈ rest, e.1 = k := fun ⟨e, he, hk⟩ => h ⟨e, by simp [he], hk⟩
    have h2 : a.1 ≠ k := fun hk => h ⟨a, by simp, hk⟩
    simp [h1, h2]

/-- With no key repeated, the last value of a key of the list is the value paired with it. -/
theorem lastValue_of_mem {κ : Type} [DecidableEq κ] (l : List (κ × Bytes))
    (hnd : (l.map Prod.fst).Nodup) (k : κ) (v : Bytes) (h : (k, v) ∈ l) :
    lastValue l k = v := by
  induction l with
  | nil => simp at h
  | cons a rest ih =>
    rw [lastValue_cons]
    simp only [List.map_cons, List.nodup_cons] at hnd
    rcases List.mem_cons.mp h with h1 | h1
    · subst h1
      have : ¬ ∃ e ∈ rest, e.1 = k := by
        rintro ⟨e, he, hk⟩
        have hm : e.1 ∈ rest.map Prod.fst := List.mem_map_of_mem _ he
        rw [hk] at hm
        exact hnd.1 hm
      simp [this]
    · have : ∃ e ∈ rest, e.1 = k := ⟨(k, v), h1, rfl⟩
      rw [if_pos this]
      exact ih hnd.2 h1

/-- Two orderings of the entries of a mapping have the same last values. -/
theorem lastValue_perm {κ : Type} [DecidableEq κ] (l1 l2 : List (κ × Bytes))
    (hp : l1.Perm l2) (hnd : (l1.map Prod.fst).Nodup) (k : κ) :
    lastValue l1 k = lastValue l2 k := by
  have hnd2 : (l2.map Prod.fst).Nodup := (hp.map Prod.fst).nodup_iff.mp hnd
  by_cases h : ∃ e ∈ l1, e.1 = k
  · obtain ⟨⟨k1, v⟩, he, hk⟩ := h
    simp only at hk
    subst hk
    rw [lastValue_of_mem l1 hnd k1 v he, lastValue_of_mem l2 hnd2 k1 v (hp.mem_iff.mp he)]
  · have h2 : ¬ ∃ e ∈ l2, e.1 = k := fun ⟨e, he, hk⟩ => h ⟨e, hp.mem_iff.mpr he, hk⟩
    rw [lastValue_of_not_mem l1 k h, lastValue_of_not_mem l2 k h2]

end Trie
namespace Trie

theorem at_eq (t : Trie) (hc : t.m_root.Canonical) (k : Bytes) :
    t.at_ k = .ok (t.m_root.lookup (toHex k)) := by
  unfold at_
  by_cases hn : t.m_root.isNull = true
  · rw [if_pos hn, (TrieNode.isNull_eq_true_iff _).mp hn]
    rfl
  · rw [if_neg hn]
    exact TrieNode.at_eq_lookup _ hc (by simpa using hn) _

theorem insert_root_spec (t : Trie) (hc : t.m_root.Canonical) (k v : Bytes) (hv : v ≠ []) :
    ∃ t2, t.insert k v = .ok t2 ∧ t2.m_root.Canonical ∧
      ∀ nk, t2.m_root.lookup nk = if nk = toHex k then v else t.m_root.lookup nk := by
  unfold insert
  simp only [TrieNode.isEmpty_eq_false hv, Bool.false_eq_true, if_false, bind, Except.bind, pure,
    Except.pure]
  by_cases hn : t.m_root.isNull = true
  · rw [if_pos hn]
    refine ⟨⟨.leaf (toHex k) v⟩, rfl, by simpa [TrieNode.Canonical] using hv, ?_⟩
    intro nk
    rw [(TrieNode.isNull_eq_true_iff _).mp hn]
    simp [TrieNode.lookup]
  · rw [if_neg hn]
    obtain ⟨r, h1, h2, _, _, h5⟩ := TrieNode.insert_spec _ hc (by simpa using hn) (toHex k) v hv
    exact ⟨⟨r⟩, by rw [h1], h2, h5⟩

theorem remove_root_spec (t : Trie) (hc : t.m_root.Canonical) (k : Bytes) :
    ∃ t2, t.remove k = .ok t2 ∧ t2.m_root.Canonical ∧
      ∀ nk, t2.m_root.lookup nk = if nk = toHex k then [] else t.m_root.lookup nk := by
  unfold remove
  by_cases hn : t.m_root.isNull = true
  · rw [if_pos hn]
    refine ⟨t, rfl, hc, ?_⟩
    intro nk
    rw [(TrieNode.isNull_eq_true_iff _).mp hn]
    simp [TrieNode.lookup]
  · rw [if_neg hn]
    obtain ⟨r, h1, h2, h3⟩ := TrieNode.remove_spec _ hc (by simpa using hn) (toHex k)
    exact ⟨⟨r⟩, by simp [h1, bind, Except.bind, pure, Except.pure], h2, h3⟩

/-- Every reachable trie has the minimal shape. -/
theorem Reachable.canonical {t : Trie} (h : t.Reachable) : t.m_root.Canonical := by
  induction h with
  | empty => simp [Trie.empty, TrieNode.Canonical]
  | insert k v _ hv hi ih =>
    obtain ⟨t3, h1, h2, _⟩ := insert_root_spec _ ih k v hv
    rw [hi] at h1
    cases h1
    exact h2
  | remove k _ hi ih =>
    obtain ⟨t3, h1, h2, _⟩ := remove_root_spec _ ih k
    rw [hi] at h1
    cases h1
    exact h2

/-- Two tries of minimal shape that store the same mapping have the same root. -/
theorem root_unique (t1 t2 : Trie) (h1 : t1.m_root.Canonical) (h2 : t2.m_root.Canonical)
    (h : ∀ nk, t1.m_root.lookup nk = t2.m_root.lookup nk) : t1 = t2 := by
  cases t1; cases t2
  simp only [Trie.mk.injEq]
  exact TrieNode.canonical_unique _ h1 _ h2 h

/-- Inserting pairs with non-empty values into a minimal trie: a minimal trie in which a
key of the pairs has its last value and every other key keeps its value. -/
theorem insertAll_spec : ∀ (l : List (Bytes × Bytes)) (t : Trie), t.m_root.Canonical →
    (∀ e ∈ l, e.2 ≠ []) →
    ∃ t2, insertAll t l = .ok t2 ∧ t2.m_root.Canonical ∧
      ∀ nk, t2.m_root.lookup nk
        = if (∃ e ∈ l.map (fun e => (toHex e.1, e.2)), e.1 = nk)
          then lastValue (l.map fun e => (toHex e.1, e.2)) nk
          else t.m_root.lookup nk
  | [], t, hc, _ => ⟨t, rfl, hc, fun nk => by simp⟩
  | (k, v) :: rest, t, hc, hv => by
    obtain ⟨t1, h1, h2, h3⟩ := insert_root_spec t hc k v (hv (k, v) (by simp))
    obtain ⟨t2, g1, g2, g3⟩ := insertAll_spec rest t1 h2 (fun e he => hv e (by simp [he]))
    refine ⟨t2, by simp [insertAll, h1, g1, bind, Except.bind], g2, ?_⟩
    intro nk
    rw [g3, List.map_cons, lastValue_cons]
    by_cases hr : ∃ e ∈ rest.map (fun e => (toHex e.1, e.2)), e.1 = nk
    · have : ∃ e ∈ (toHex k, v) :: rest.map (fun e => (toHex e.1, e.2)), e.1 = nk := by
        obtain ⟨e, he, hk⟩ := hr
        exact ⟨e, by simp [he], hk⟩
      rw [if_pos hr, if_pos this, if_pos hr]
    · rw [if_neg hr, if_neg hr, h3]
      by_cases hk : nk = toHex k
      · subst hk
        have : ∃ e ∈ (toHex k, v) :: rest.map (fun e => (toHex e.1, e.2)), e.1 = toHex k :=
          ⟨(toHex k, v), by simp, rfl⟩
        rw [if_pos this]
        simp
      · have : ¬ ∃ e ∈ (toHex k, v) :: rest.map (fun e => (toHex e.1, e.2)), e.1 = nk := by
          rintro ⟨e, he, hk2⟩
          rcases List.mem_cons.mp he with he | he
          · subst he; exact hk hk2.symm
          · exact hr ⟨e, he, hk2⟩
        rw [if_neg this, if_neg hk]

theorem insertAll_empty_lookup (l : List (Bytes × Bytes)) (hv : ∀ e ∈ l, e.2 ≠ []) :
    ∃ t2, insertAll Trie.empty l = .ok t2 ∧ t2.m_root.Canonical ∧
      ∀ nk, t2.m_root.lookup nk = lastValue (l.map fun e => (toHex e.1, e.2)) nk := by
  obtain ⟨t2, h1, h2, h3⟩ := insertAll_spec l Trie.empty (by simp [Trie.empty, TrieNode.Canonical])
    hv
  refine ⟨t2, h1, h2, fun nk => ?_⟩
  rw [h3]
  by_cases h : ∃ e ∈ l.map (fun e => (toHex e.1, e.2)), e.1 = nk
  · rw [if_pos h]
  · rw [if_neg h, lastValue_of_not_mem _ _ h]
    rfl

theorem lastValue_toHex : ∀ (l : List (Bytes × Bytes)) (k : Bytes), (∀ e ∈ l, IsBytes e.1) →
    IsBytes k → lastValue (l.map fun e => (toHex e.1, e.2)) (toHex k) = lastValue l k
  | [], _, _, _ => rfl
  | a :: rest, k, hb, hk => by
    have hbr : ∀ e ∈ rest, IsBytes e.1 := fun e he => hb e (by simp [he])
    have ha : IsBytes a.1 := hb a (by simp)
    rw [List.map_cons, lastValue_cons, lastValue_cons, lastValue_toHex rest k hbr hk]
    have e1 : (∃ e ∈ rest.map (fun e => (toHex e.1, e.2)), e.1 = toHex k)
        ↔ ∃ e ∈ rest, e.1 = k := by
      constructor
      · rintro ⟨e, he, hk2⟩
        obtain ⟨x, hx, rfl⟩ := List.mem_map.mp he
        exact ⟨x, hx, toHex_injective _ _ (hbr x hx) hk hk2⟩
      · rintro ⟨e, he, hk2⟩
        exact ⟨(toHex e.1, e.2), List.mem_map.mpr ⟨e, he, rfl⟩, by simp [hk2]⟩
    have e2 : toHex a.1 = toHex k ↔ a.1 = k :=
      ⟨fun h => toHex_injective _ _ ha hk h, fun h => by rw [h]⟩
    simp only [e1, e2]

end Trie


theorem toHex_length (s : Bytes) : (toHex s).length = 2 * s.length := by
  induction s with
  | nil => rfl
  | cons b s ih => rw [toHex_cons]; simp [ih]; omega

theorem foldlM_ok {α β : Type} (f : β → α → Except Fault β)
    (hf : ∀ acc a, ∃ r, f acc a = .ok r) : ∀ (l : List α) (init : β),
    ∃ r, l.foldlM f init = .ok r
  | [], init => ⟨init, rfl⟩
  | a :: l, init => by
    obtain ⟨r, hr⟩ := hf init a
    obtain ⟨r2, hr2⟩ := foldlM_ok f hf l r
    exact ⟨r2, by simp [List.foldlM, hr, hr2, bind, Except.bind]⟩

namespace TrieNode

theorem hexPrefixEncode_nibbles (e : List Nibble) (t : Bool) (h : e.length < 2 ^ 64) :
    hexPrefixEncode (e.map Fin.val) t 0 (-1) = .ok (hpLayout (e.map Fin.val) t) := by
  apply hexPrefixEncode_whole
  · intro x hx
    obtain ⟨n, _, rfl⟩ := List.mem_map.mp hx
    exact n.isLt
  · simpa using h

theorem makeRLP_leaf (sha3 : Bytes → Bytes) (e : List Nibble) (v : Bytes) (s : RLPStream) :
    makeRLP sha3 (.leaf e v) s = (do
      let hp ← hexPrefixEncode (e.map Fin.val) true 0 (-1)
      pure (((s.appendList 2).append hp).append v)) := rfl

theorem makeRLP_infixNode (sha3 : Bytes → Bytes) (e : List Nibble) (next : TrieNode)
    (s : RLPStream) :
    makeRLP sha3 (.infixNode e next) s = (do
      if next.isNull then throw Fault.assertion
      let hp ← hexPrefixEncode (e.map Fin.val) false 0 (-1)
      let s1 := (s.appendList 2).append hp
      let c ← makeRLP sha3 next ⟨[]⟩
      pure (if c.out.length < 32 then s1.appendRaw c.out else s1.append (sha3 c.out))) := rfl

theorem makeRLP_branch (sha3 : Bytes → Bytes) (nodes : Nibble → TrieNode) (v : Bytes)
    (s : RLPStream) :
    makeRLP sha3 (.branch nodes v) s = (do
      let s1 ← (List.finRange 16).foldlM
        (fun (acc : RLPStream) (i : Nibble) =>
          if (nodes i).isNull then pure (acc.append [])
          else do
            let c ← makeRLP sha3 (nodes i) ⟨[]⟩
            pure (if c.out.length < 32 then acc.appendRaw c.out
              else acc.append (sha3 c.out)))
        (s.appendList 17)
      pure (s1.append v)) := rfl

/-- `makeRLP` returns an encoding on a minimal node whose stored keys have a `uint`
length. -/
theorem makeRLP_ok (sha3 : Bytes → Bytes) : ∀ (t : TrieNode), t.Canonical →
    t.isNull = false → (∀ k, t.lookup k ≠ [] → k.length < 2 ^ 64) →
    ∀ s, ∃ s2, makeRLP sha3 t s = .ok s2 := by
  intro t
  induction t with
  | null => intro _ h; simp [isNull] at h
  | leaf e v =>
    intro hc _ hk s
    have he : e.length < 2 ^ 64 := hk e (by simpa [lookup, Canonical] using hc)
    rw [makeRLP_leaf, hexPrefixEncode_nibbles e true he]
    exact ⟨_, rfl⟩
  | infixNode e next ih =>
    intro hc _ hk s
    simp only [Canonical] at hc
    have hnn := isNull_of_isBranch hc.2.1
    obtain ⟨k0, hk0⟩ := exists_key next hc.2.2 hnn
    have he : e.length < 2 ^ 64 := by
      have := hk (e ++ k0) (by rw [lookup_infix_append]; exact hk0)
      rw [List.length_append] at this
      omega
    obtain ⟨c, hcr⟩ := ih hc.2.2 hnn (fun k h => by
      have := hk (e ++ k) (by rw [lookup_infix_append]; exact h)
      rw [List.length_append] at this
      omega) ⟨[]⟩
    rw [makeRLP_infixNode, hnn, hexPrefixEncode_nibbles e false he, hcr]
    exact ⟨_, rfl⟩
  | branch nodes v ih =>
    intro hc _ hk s
    simp only [Canonical] at hc
    have hstep : ∀ (acc : RLPStream) (i : Nibble), ∃ r,
        (if (nodes i).isNull then (pure (acc.append []) : Except Fault RLPStream)
          else do
            let c ← makeRLP sha3 (nodes i) ⟨[]⟩
            pure (if c.out.length < 32 then acc.appendRaw c.out else acc.append (sha3 c.out)))
          = .ok r := by
      intro acc i
      by_cases hn : (nodes i).isNull = true
      · exact ⟨_, by rw [if_pos hn]; rfl⟩
      · rw [if_neg hn]
        obtain ⟨c, hcr⟩ := ih i (hc.1 i) (by simpa using hn) (fun k h => by
          have := hk (i :: k) (by simpa [lookup] using h)
          simp only [List.length_cons] at this
          omega) ⟨[]⟩
        simp only [hcr, bind, Except.bind, pure, Except.pure]
        exact ⟨_, rfl⟩
    obtain ⟨r, hr⟩ := foldlM_ok _ hstep (List.finRange 16) (s.appendList 17)
    rw [makeRLP_branch, hr]
    exact ⟨_, rfl⟩

end TrieNode

namespace Trie

/-- `Trie::rlp` and `Trie::hash256` return the encoding and its digest on a minimal trie
whose stored keys have a `uint` length. -/
theorem rlp_ok (sha3 : Bytes → Bytes) (t : Trie) (hc : t.m_root.Canonical)
    (hk : ∀ k, t.m_root.lookup k ≠ [] → k.length < 2 ^ 64) :
    ∃ b, t.rlp sha3 = .ok b ∧ t.hash256 sha3 = .ok (sha3 b) := by
  by_cases hn : t.m_root.isNull = true
  · exact ⟨RLPNull, by simp [rlp, hn], by simp [hash256, hn, pure, Except.pure]⟩
  · obtain ⟨s2, h⟩ := TrieNode.makeRLP_ok sha3 t.m_root hc (by simpa using hn) hk ⟨[]⟩
    exact ⟨s2.out, by simp [rlp, hn, TrieNode.rlp, h, bind, Except.bind, pure, Except.pure],
      by simp [hash256, hn, TrieNode.rlp, h, bind, Except.bind, pure, Except.pure]⟩

end Trie
/-! ## The trie: order-independence, lookup, removal -/

namespace Trie

/-- Inserting pairs with non-empty values into a reachable trie gives a reachable trie. -/
theorem insertAll_reachable : ∀ (l : List (Bytes × Bytes)) (t t2 : Trie), t.Reachable →
    (∀ e ∈ l, e.2 ≠ []) → insertAll t l = .ok t2 → t2.Reachable
  | [], t, t2, hr, _, h => by
    simp only [insertAll] at h
    cases h
    exact hr
  | (k, v) :: rest, t, t2, hr, hv, h => by
    obtain ⟨t1, h1, _, _⟩ := insert_root_spec t hr.canonical k v (hv (k, v) (by simp))
    simp only [insertAll, h1, bind, Except.bind] at h
    exact insertAll_reachable rest t1 t2 (Reachable.insert k v hr (hv (k, v) (by simp)) h1)
      (fun e he => hv e (by simp [he])) h

end Trie

/-- C2: trie order-independence. For every finite mapping from byte-string keys (shorter than
`2 ^ 63` bytes, so that their nibble paths have a `uint` length) to non-empty values and
every two orderings of its entries, inserting the entries in the first order and in the
second order into an empty trie gives tries for which `Trie::rlp` returns the same root
encoding and `Trie::hash256` the same root digest. -/
theorem C2_trie_order_independence (sha3 : Bytes → Bytes) (l1 l2 : List (Bytes × Bytes))
    (hp : l1.Perm l2) (hnd : (l1.map Prod.fst).Nodup) (hk : ∀ e ∈ l1, IsBytes e.1)
    (hlen : ∀ e ∈ l1, 2 * e.1.length < 2 ^ 64) (hv : ∀ e ∈ l1, e.2 ≠ []) :
    ∃ t1 t2 b, Trie.insertAll Trie.empty l1 = .ok t1 ∧ Trie.insertAll Trie.empty l2 = .ok t2 ∧
      t1.rlp sha3 = .ok b ∧ t2.rlp sha3 = .ok b ∧
      t1.hash256 sha3 = .ok (sha3 b) ∧ t2.hash256 sha3 = .ok (sha3 b) := by
  have hv2 : ∀ e ∈ l2, e.2 ≠ [] := fun e he => hv e (hp.mem_iff.mpr he)
  obtain ⟨t1, h1, c1, g1⟩ := Trie.insertAll_empty_lookup l1 hv
  obtain ⟨t2, h2, c2, g2⟩ := Trie.insertAll_empty_lookup l2 hv2
  have heq : t1 = t2 := by
    apply Trie.root_unique t1 t2 c1 c2
    intro nk
    rw [g1, g2]
    apply Trie.lastValue_perm _ _ (hp.map _)
    rw [List.map_map]
    have : (Prod.fst ∘ fun e : Bytes × Bytes => (toHex e.1, e.2)) = toHex ∘ Prod.fst := rfl
    rw [this, ← List.map_map]
    apply List.Nodup.map_on _ hnd
    intro a ha b hb hab
    obtain ⟨x, hx, rfl⟩ := List.mem_map.mp ha
    obtain ⟨y, hy, rfl⟩ := List.mem_map.mp hb
    exact toHex_injective _ _ (hk x hx) (hk y hy) hab
  have hkeys : ∀ nk, t1.m_root.lookup nk ≠ [] → nk.length < 2 ^ 64 := by
    intro nk hne
    rw [g1] at hne
    by_cases hm : ∃ e ∈ l1.map (fun e => (toHex e.1, e.2)), e.1 = nk
    · obtain ⟨e, he, rfl⟩ := hm
      obtain ⟨x, hx, rfl⟩ := List.mem_map.mp he
      simp only [toHex_length]
      exact hlen x hx
    · exact absurd (Trie.lastValue_of_not_mem _ _ hm) hne
  obtain ⟨b, hb1, hb2⟩ := Trie.rlp_ok sha3 t1 c1 hkeys
  exact ⟨t1, t2, b, h1, h2, hb1, by rw [← heq]; exact hb1, hb2, by rw [← heq]; exact hb2⟩

/-- Witness of C2 on scenario S2: its four inserts forwards and in reverse give the same root
encoding and the same root digest. -/
theorem C2_trie_order_independence_witness :
    ∃ t1 t2 b, Trie.insertAll Trie.empty scenarioS2 = .ok t1 ∧
      Trie.insertAll Trie.empty scenarioS2.reverse = .ok t2 ∧
      t1.rlp zeroDigest = .ok b ∧ t2.rlp zeroDigest = .ok b ∧
      t1.hash256 zeroDigest = .ok (zeroDigest b) ∧ t2.hash256 zeroDigest = .ok (zeroDigest b) :=
  C2_trie_order_independence zeroDigest scenarioS2 scenarioS2.reverse
    (List.reverse_perm scenarioS2).symm (by decide) (by decide) (by decide) (by decide)

/-- C3: lookup after insert. After any sequence of `Trie::insert` calls with byte-string keys
and non-empty values on an empty trie, `Trie::at(k)` returns the value of the last insert
whose key equals `k`, and the empty byte string if no insert used `k` (so also when `k` is a
proper prefix or a proper extension of a stored key). -/
theorem C3_lookup_after_insert (ops : List (Bytes × Bytes)) (hk : ∀ e ∈ ops, IsBytes e.1)
    (hv : ∀ e ∈ ops, e.2 ≠ []) (k : Bytes) (hkb : IsBytes k) :
    ∃ t, Trie.insertAll Trie.empty ops = .ok t ∧ t.at_ k = .ok (Trie.lastValue ops k) := by
  obtain ⟨t, h1, c1, g1⟩ := Trie.insertAll_empty_lookup ops hv
  refine ⟨t, h1, ?_⟩
  rw [Trie.at_eq t c1, g1, Trie.lastValue_toHex ops k hk hkb]

/-- Witness of C3 on scenario S2: `at("do")` is "verb", `at("dog")` is "puppy", `at("horse")`
is "stallion" and `at("cat")` is empty. -/
theorem C3_lookup_after_insert_witness :
    (∃ t, Trie.insertAll Trie.empty scenarioS2 = .ok t ∧
      t.at_ [0x64, 0x6f] = .ok (Trie.lastValue scenarioS2 [0x64, 0x6f])) ∧
    Trie.lastValue scenarioS2 [0x64, 0x6f] = [0x76, 0x65, 0x72, 0x62] ∧
    (Trie.insertAll Trie.empty scenarioS2).bind (fun t => t.at_ [0x64, 0x6f])
      = .ok [0x76, 0x65, 0x72, 0x62] ∧
    (Trie.insertAll Trie.empty scenarioS2).bind (fun t => t.at_ [0x64, 0x6f, 0x67])
      = .ok [0x70, 0x75, 0x70, 0x70, 0x79] ∧
    (Trie.insertAll Trie.empty scenarioS2).bind (fun t => t.at_ [0x68, 0x6f, 0x72, 0x73, 0x65])
      = .ok [0x73, 0x74, 0x61, 0x6c, 0x6c, 0x69, 0x6f, 0x6e] ∧
    (Trie.insertAll Trie.empty scenarioS2).bind (fun t => t.at_ [0x63, 0x61, 0x74]) = .ok [] :=
  ⟨C3_lookup_after_insert scenarioS2 (by decide) (by decide) [0x64, 0x6f] (by decide),
   by decide, by decide, by decide, by decide, by decide⟩

/-- C4: remove deletes exactly one key. For every trie reachable from the empty trie by
inserts of non-empty values and removes, and every byte-string key `k`, `Trie::remove(k)`
returns a trie in which `at(k)` is the empty byte string and `at` of every other key is what
it was. -/
theorem C4_remove_deletes_one_key (t : Trie) (hr : t.Reachable) (k : Bytes) (hkb : IsBytes k) :
    ∃ t2, t.remove k = .ok t2 ∧ t2.at_ k = .ok [] ∧
      ∀ k2, IsBytes k2 → k2 ≠ k → t2.at_ k2 = t.at_ k2 := by
  have hc := hr.canonical
  obtain ⟨t2, h1, h2, h3⟩ := Trie.remove_root_spec t hc k
  refine ⟨t2, h1, ?_, ?_⟩
  · rw [Trie.at_eq t2 h2, h3]; simp
  · intro k2 hk2 hne
    rw [Trie.at_eq t2 h2, Trie.at_eq t hc, h3]
    have : toHex k2 ≠ toHex k := fun h => hne (toHex_injective _ _ hk2 hkb h)
    simp [this]

/-- Witness of C4 on the trie of scenario S2, from which "dog" is removed; then `at("dog")`
is empty and `at("do")` is still "verb". -/
theorem C4_remove_deletes_one_key_witness :
    (∃ t, Trie.insertAll Trie.empty scenarioS2 = .ok t ∧
      ∃ t2, t.remove [0x64, 0x6f, 0x67] = .ok t2 ∧ t2.at_ [0x64, 0x6f, 0x67] = .ok [] ∧
        ∀ k2, IsBytes k2 → k2 ≠ [0x64, 0x6f, 0x67] → t2.at_ k2 = t.at_ k2) ∧
    ((Trie.insertAll Trie.empty scenarioS2).bind fun t =>
      (t.remove [0x64, 0x6f, 0x67]).bind fun t2 => t2.at_ [0x64, 0x6f, 0x67]) = .ok [] ∧
    ((Trie.insertAll Trie.empty scenarioS2).bind fun t =>
      (t.remove [0x64, 0x6f, 0x67]).bind fun t2 => t2.at_ [0x64, 0x6f])
      = .ok [0x76, 0x65, 0x72, 0x62] := by
  obtain ⟨t, h1, _, _⟩ := Trie.insertAll_empty_lookup scenarioS2 (by decide)
  have hr : t.Reachable :=
    Trie.insertAll_reachable scenarioS2 Trie.empty t Trie.Reachable.empty (by decide) h1
  exact ⟨⟨t, h1, C4_remove_deletes_one_key t hr [0x64, 0x6f, 0x67] (by decide)⟩,
    by decide, by decide⟩

/-- C6: insert/delete inverse. For every trie reachable from the empty trie by inserts of
non-empty values and removes, every key `k` it does not hold and every non-empty value `v`,
inserting `(k, v)` and then removing `k` gives a trie with the root encoding and the root
digest of the trie before. -/
theorem C6_insert_delete_inverse (sha3 : Bytes → Bytes) (t : Trie) (hr : t.Reachable)
    (k v : Bytes) (hv : v ≠ []) (habs : t.at_ k = .ok []) :
    ∃ t1 t2, t.insert k v = .ok t1 ∧ t1.remove k = .ok t2 ∧
      t2.rlp sha3 = t.rlp sha3 ∧ t2.hash256 sha3 = t.hash256 sha3 := by
  have hc := hr.canonical
  obtain ⟨t1, h1, c1, g1⟩ := Trie.insert_root_spec t hc k v hv
  obtain ⟨t2, h2, c2, g2⟩ := Trie.remove_root_spec t1 c1 k
  have hab : t.m_root.lookup (toHex k) = [] := by
    rw [Trie.at_eq t hc] at habs
    exact Except.ok.inj habs
  have heq : t2 = t := by
    apply Trie.root_unique t2 t c2 hc
    intro nk
    rw [g2, g1]
    by_cases h : nk = toHex k
    · subst h; simp [hab]
    · simp [h]
  exact ⟨t1, t2, h1, h2, by rw [heq], by rw [heq]⟩

/-- Witness of C6 on the trie of scenario S2, the absent key "dot" and the value "x": the
root encoding after the insert and the remove is the one before. -/
theorem C6_insert_delete_inverse_witness :
    (∃ t, Trie.insertAll Trie.empty scenarioS2 = .ok t ∧
      ∃ t1 t2, t.insert [0x64, 0x6f, 0x74] [0x78] = .ok t1 ∧
        t1.remove [0x64, 0x6f, 0x74] = .ok t2 ∧
        t2.rlp zeroDigest = t.rlp zeroDigest ∧ t2.hash256 zeroDigest = t.hash256 zeroDigest) ∧
    ((Trie.insertAll Trie.empty scenarioS2).bind fun t =>
      (t.insert [0x64, 0x6f, 0x74] [0x78]).bind fun t1 =>
        (t1.remove [0x64, 0x6f, 0x74]).bind fun t2 => t2.rlp zeroDigest)
      = (Trie.insertAll Trie.empty scenarioS2).bind fun t => t.rlp zeroDigest := by
  obtain ⟨t, h1, hc, h2⟩ := Trie.insertAll_empty_lookup scenarioS2 (by decide)
  have hr : t.Reachable :=
    Trie.insertAll_reachable scenarioS2 Trie.empty t Trie.Reachable.empty (by decide) h1
  have habs : t.at_ [0x64, 0x6f, 0x74] = .ok [] := by
    rw [Trie.at_eq t hc, h2]
    decide
  exact ⟨⟨t, h1, C6_insert_delete_inverse zeroDigest t hr [0x64, 0x6f, 0x74] [0x78] (by decide)
    habs⟩, by decide⟩

/-- C5, the code evaluated: `insert("key", "value")` then `insert("key", "")` on an empty trie
leaves a root leaf that holds the empty value, encoded `82 44 20 6b 65 79 40`, whereas
`insert("key", "value")` then `remove("key")` leaves the empty trie, encoded `40`; and on a
trie that still holds another key the insert of the empty value stops at
`assert(_value.size())`. -/
theorem C5_insert_empty_value_evaluated :
    ((Trie.empty.insert [0x6b, 0x65, 0x79] [0x76, 0x61, 0x6c, 0x75, 0x65]).bind fun t =>
      (t.insert [0x6b, 0x65, 0x79] []).bind fun t2 => t2.rlp zeroDigest)
      = .ok [0x82, 0x44, 0x20, 0x6b, 0x65, 0x79, 0x40] ∧
    ((Trie.empty.insert [0x6b, 0x65, 0x79] [0x76, 0x61, 0x6c, 0x75, 0x65]).bind fun t =>
      (t.remove [0x6b, 0x65, 0x79]).bind fun t2 => t2.rlp zeroDigest) = .ok [0x40] ∧
    ((Trie.empty.insert [0x6b, 0x65, 0x79] [0x76, 0x61, 0x6c, 0x75, 0x65]).bind fun t =>
      (t.insert [0x6b, 0x65, 0x79] []).bind fun t2 => t2.at_ [0x6b, 0x65, 0x79]) = .ok [] ∧
    ((Trie.insertAll Trie.empty scenarioS2).bind fun t =>
      (t.insert [0x64, 0x6f] []).bind fun t2 => t2.rlp zeroDigest)
      = .error Fault.assertion := by
  decide


/-! ## Hex-prefix encoding is injective -/

theorem unpack_packNibbles : ∀ (q : List Nat), q.length % 2 = 0 → (∀ x ∈ q, x < 16) →
    unpackNibbles (packNibbles q) = q
  | [], _, _ => rfl
  | [_], h, _ => by simp at h
  | a :: b :: rest, h, hn => by
    have ha : a < 16 := hn a (by simp)
    have hb : b < 16 := hn b (by simp)
    have hr := unpack_packNibbles rest (by simp at h; omega) (fun x hx => hn x (by simp [hx]))
    simp only [packNibbles, unpackNibbles, hr]
    have e1 : (a * 16 + b) / 16 = a := by omega
    have e2 : (a * 16 + b) % 16 = b := by omega
    rw [e1, e2]

theorem hpDecode_cons (f a : Nat) (rest : Bytes) (ha : a < 16) :
    hpDecode ((f * 16 + a) :: rest)
      = if f % 2 = 1 then some (a :: unpackNibbles rest, decide (f / 2 % 2 = 1))
        else some (unpackNibbles rest, decide (f / 2 % 2 = 1)) := by
  have e1 : (f * 16 + a) / 16 = f := by omega
  have e2 : (f * 16 + a) % 16 = a := by omega
  simp only [hpDecode, e1, e2]

/-- The reference decoder inverts the reference layout on nibble paths. -/
theorem hpDecode_hpLayout (p : List Nat) (t : Bool) (hp : ∀ x ∈ p, x < 16) :
    hpDecode (hpLayout p t) = some (p, t) := by
  unfold hpLayout
  by_cases ho : p.length % 2 = 1
  · rw [if_pos ho]
    match p, hp, ho with
    | a :: rest, hp, ho =>
      have ha : a < 16 := hp a (by simp)
      have hr := unpack_packNibbles rest (by simp at ho; omega)
        (fun x hx => hp x (by simp [hx]))
      rw [List.headD_cons, List.tail_cons, hpDecode_cons _ a _ ha, hr]
      cases t <;> simp
  · rw [if_neg ho]
    have hr := unpack_packNibbles p (by omega) hp
    have := hpDecode_cons (if t = true then 2 else 0) 0 (packNibbles p) (by norm_num)
    rw [Nat.add_zero] at this
    rw [this, hr]
    cases t <;> simp

/-- C11: hex-prefix encoding is a bijection onto its image. For nibble paths `p` and `q`
(each entry in `0..15`, the length a `uint`) and flags `t` and `u`: `hexPrefixEncode(p, t)`
returns a byte string from which the reference decoder recovers `(p, t)`, and
`hexPrefixEncode(p, t) == hexPrefixEncode(q, u)` implies `p == q` and `t == u`. -/
theorem C11_hexPrefixEncode_injective (p q : List Nat) (t u : Bool)
    (hp : ∀ x ∈ p, x < 16) (hq : ∀ x ∈ q, x < 16)
    (hpl : p.length < 2 ^ 64) (hql : q.length < 2 ^ 64) :
    (∃ out, hexPrefixEncode p t 0 (-1) = .ok out ∧ hpDecode out = some (p, t)) ∧
    (hexPrefixEncode p t 0 (-1) = hexPrefixEncode q u 0 (-1) → p = q ∧ t = u) := by
  refine ⟨⟨_, hexPrefixEncode_whole p t hp hpl, hpDecode_hpLayout p t hp⟩, ?_⟩
  intro h
  rw [hexPrefixEncode_whole p t hp hpl, hexPrefixEncode_whole q u hq hql] at h
  have h2 := congrArg hpDecode (Except.ok.inj h)
  rw [hpDecode_hpLayout p t hp, hpDecode_hpLayout q u hq] at h2
  simpa using h2

/-- Witness of C11 at the paths `[1,2,3,4,5]` and `[0,1,2,3,4,5]`, both unterminated, with
the decoder evaluated on `11 23 45`, `00 01 23 45`, `31 23 45` and `20 12 34`. -/
theorem C11_hexPrefixEncode_injective_witness :
    ((∃ out, hexPrefixEncode [1, 2, 3, 4, 5] false 0 (-1) = .ok out ∧
        hpDecode out = some ([1, 2, 3, 4, 5], false)) ∧
      (hexPrefixEncode [1, 2, 3, 4, 5] false 0 (-1)
        = hexPrefixEncode [0, 1, 2, 3, 4, 5] false 0 (-1) →
        [1, 2, 3, 4, 5] = [0, 1, 2, 3, 4, 5] ∧ false = false)) ∧
    hpDecode [0x11, 0x23, 0x45] = some ([1, 2, 3, 4, 5], false) ∧
    hpDecode [0x00, 0x01, 0x23, 0x45] = some ([0, 1, 2, 3, 4, 5], false) ∧
    hpDecode [0x31, 0x23, 0x45] = some ([1, 2, 3, 4, 5], true) ∧
    hpDecode [0x20, 0x12, 0x34] = some ([1, 2, 3, 4], true) :=
  ⟨C11_hexPrefixEncode_injective [1, 2, 3, 4, 5] [0, 1, 2, 3, 4, 5] false false
    (by decide) (by decide) (by simp) (by simp), by decide, by decide, by decide, by decide⟩

/-! ## Serialisation of the nodes -/

theorem foldlM_append {α : Type} (f : RLPStream → α → Except Fault RLPStream) (g : α → Bytes)
    (hf : ∀ acc a, f acc a = .ok ⟨acc.m_out ++ g a⟩) : ∀ (l : List α) (acc : RLPStream),
    l.foldlM f acc = .ok ⟨acc.m_out ++ l.flatMap g⟩
  | [], acc => by simp [List.foldlM, pure, Except.pure]
  | a :: l, acc => by
    simp only [List.foldlM, hf acc a, bind, Except.bind]
    rw [foldlM_append f g hf l]
    simp

theorem hpLayout_length (p : List Nat) (t : Bool) : (hpLayout p t).length = p.length / 2 + 1 := by
  unfold hpLayout
  by_cases ho : p.length % 2 = 1
  · rw [if_pos ho]
    match p, ho with
    | a :: rest, ho =>
      simp only [List.tail_cons, List.length_cons, packNibbles_length] at ho ⊢
      omega
  · rw [if_neg ho]
    simp only [List.length_cons, packNibbles_length]

namespace TrieNode

theorem rlp_ok_iff (sha3 : Bytes → Bytes) (n : TrieNode) (b : Bytes) :
    n.rlp sha3 = .ok b ↔ ∃ s, makeRLP sha3 n ⟨[]⟩ = .ok s ∧ s.out = b := by
  unfold rlp
  cases makeRLP sha3 n ⟨[]⟩ with
  | error e => simp [bind, Except.bind]
  | ok s => simp [bind, Except.bind, pure, Except.pure]

theorem isNull_of_rlp_ok (sha3 : Bytes → Bytes) (n : TrieNode) (b : Bytes)
    (h : n.rlp sha3 = .ok b) : n.isNull = false := by
  cases n with
  | null => simp [rlp, makeRLP, bind, Except.bind] at h
  | _ => rfl

/-- What `putRLP` appends to the parent stream for a child of encoding `c.out`. -/
theorem putRLP_eq (sha3 : Bytes → Bytes) (hsha : ∀ b, (sha3 b).length < 2 ^ 64)
    (acc c : RLPStream) :
    (if c.out.length < 32 then acc.appendRaw c.out else acc.append (sha3 c.out))
      = ⟨acc.m_out ++ childRef sha3 c.out⟩ := by
  unfold childRef
  by_cases h : c.out.length < 32
  · rw [if_pos h, if_pos h]; rfl
  · rw [if_neg h, if_neg h, RLPStream.append_eq _ (hsha _), encode_str (hsha _)]
    simp

theorem rlp_leaf (sha3 : Bytes → Bytes) (e : List Nibble) (v : Bytes)
    (he : e.length < 2 ^ 64) :
    ∃ hp, hexPrefixEncode (e.map Fin.val) true 0 (-1) = .ok hp ∧
      (TrieNode.leaf e v).rlp sha3 = .ok (encode (.list [.str hp, .str v])) := by
  refine ⟨_, hexPrefixEncode_nibbles e true he, ?_⟩
  unfold rlp
  rw [makeRLP_leaf, hexPrefixEncode_nibbles e true he]
  rfl

theorem rlp_infixNode (sha3 : Bytes → Bytes) (hsha : ∀ b, (sha3 b).length < 2 ^ 64)
    (e : List Nibble) (c : TrieNode) (cb : Bytes) (he : e.length < 2 ^ 64)
    (hc : c.rlp sha3 = .ok cb) :
    ∃ hp, hexPrefixEncode (e.map Fin.val) false 0 (-1) = .ok hp ∧
      (TrieNode.infixNode e c).rlp sha3
        = .ok (0x82 :: (encode (.str hp) ++ childRef sha3 cb)) := by
  refine ⟨_, hexPrefixEncode_nibbles e false he, ?_⟩
  have hnn := isNull_of_rlp_ok sha3 c cb hc
  obtain ⟨s, hs, rfl⟩ := (rlp_ok_iff sha3 c cb).mp hc
  have hl : (hpLayout (e.map Fin.val) false).length < 2 ^ 64 := by
    rw [hpLayout_length, List.length_map]
    omega
  unfold rlp
  rw [makeRLP_infixNode, hnn, hexPrefixEncode_nibbles e false he, hs]
  simp only [Bool.false_eq_true, if_false, bind, Except.bind, pure, Except.pure]
  rw [putRLP_eq sha3 hsha, RLPStream.append_eq _ hl, RLPStream.appendList_eq _ (by norm_num),
    encode_str hl]
  simp [RLPStream.out, countLayout]

theorem rlp_branch (sha3 : Bytes → Bytes) (hsha : ∀ b, (sha3 b).length < 2 ^ 64)
    (nodes : Nibble → TrieNode) (v : Bytes) (cb : Nibble → Bytes) (hv : v.length < 2 ^ 64)
    (hc : ∀ i, (nodes i).isNull = false → (nodes i).rlp sha3 = .ok (cb i)) :
    (TrieNode.branch nodes v).rlp sha3
      = .ok (0x91 :: ((List.finRange 16).flatMap
          (fun i => if (nodes i).isNull then encode (.str []) else childRef sha3 (cb i))
          ++ encode (.str v))) := by
  have hstep : ∀ (acc : RLPStream) (i : Nibble),
      (if (nodes i).isNull then (pure (acc.append []) : Except Fault RLPStream)
        else do
          let c ← makeRLP sha3 (nodes i) ⟨[]⟩
          pure (if c.out.length < 32 then acc.appendRaw c.out else acc.append (sha3 c.out)))
        = .ok ⟨acc.m_out ++ (if (nodes i).isNull then encode (.str [])
            else childRef sha3 (cb i))⟩ := by
    intro acc i
    by_cases hn : (nodes i).isNull = true
    · rw [if_pos hn, if_pos hn, RLPStream.append_eq _ (by simp), encode_str (by simp)]
      simp [pure, Except.pure]
    · rw [if_neg hn, if_neg hn]
      obtain ⟨s, hs, hsb⟩ := (rlp_ok_iff sha3 _ _).mp (hc i (by simpa using hn))
      simp only [hs, bind, Except.bind, pure, Except.pure]
      rw [putRLP_eq sha3 hsha, hsb]
  unfold rlp
  rw [makeRLP_branch, foldlM_append _ _ hstep]
  simp only [bind, Except.bind, pure, Except.pure]
  rw [RLPStream.append_eq _ hv, RLPStream.appendList_eq _ (by norm_num), encode_str hv]
  simp [RLPStream.out, countLayout]

end TrieNode

/-- C12: canonical node serialisation. With a hash function whose digests have a `uint`
length (32 bytes in the spec) and nibble paths and values of `uint` length: (a) a leaf
`(P, V)` serialises to the two-element list `[HP(P, terminated = true), V]`; (b) an extension
`(P, C)` whose child serialises to `cb` serialises to the header of a two-element list
followed by the byte string `HP(P, terminated = false)` and by `ref(C)`; (c) a branch
serialises to the header of a 17-element list followed, for each of the sixteen slots in
order, by the empty byte string when the slot is empty and by `ref(slot)` otherwise, and then
by the value of the branch as a byte string; where `ref(C)` is the encoding of `C` itself when
it is shorter than 32 bytes and the digest of that encoding, as a byte string, otherwise. -/
theorem C12_node_serialization (sha3 : Bytes → Bytes) (hsha : ∀ b, (sha3 b).length < 2 ^ 64) :
    (∀ (e : List Nibble) (v : Bytes), e.length < 2 ^ 64 →
      ∃ hp, hexPrefixEncode (e.map Fin.val) true 0 (-1) = .ok hp ∧
        (TrieNode.leaf e v).rlp sha3 = .ok (encode (.list [.str hp, .str v]))) ∧
    (∀ (e : List Nibble) (c : TrieNode) (cb : Bytes), e.length < 2 ^ 64 →
      c.rlp sha3 = .ok cb →
      ∃ hp, hexPrefixEncode (e.map Fin.val) false 0 (-1) = .ok hp ∧
        (TrieNode.infixNode e c).rlp sha3
          = .ok (0x82 :: (encode (.str hp) ++ childRef sha3 cb))) ∧
    (∀ (nodes : Nibble → TrieNode) (v : Bytes) (cb : Nibble → Bytes), v.length < 2 ^ 64 →
      (∀ i, (nodes i).isNull = false → (nodes i).rlp sha3 = .ok (cb i)) →
      (TrieNode.branch nodes v).rlp sha3
        = .ok (0x91 :: ((List.finRange 16).flatMap
            (fun i => if (nodes i).isNull then encode (.str []) else childRef sha3 (cb i))
            ++ encode (.str v)))) :=
  ⟨fun e v he => TrieNode.rlp_leaf sha3 e v he,
   fun e c cb he hc => TrieNode.rlp_infixNode sha3 hsha e c cb he hc,
   fun nodes v cb hv hc => TrieNode.rlp_branch sha3 hsha nodes v cb hv hc⟩

/-- Witness of C12 with the digest of 32 zero bytes: the leaf `([1,2,3], "a")`, the
extension `([6,4], C)` and the branch with `C` in slot 6 and the value `"b"`, where `C` is
the branch that holds the leaves `([], "puppy")` and `([5], "coin")` in slots 1 and 2; and the
serialisation of a 40-byte leaf below an extension, which is embedded as its digest. -/
theorem C12_node_serialization_witness :
    (∃ hp, hexPrefixEncode (([1, 2, 3] : List Nibble).map Fin.val) true 0 (-1) = .ok hp ∧
      (TrieNode.leaf [1, 2, 3] [0x61]).rlp zeroDigest
        = .ok (encode (.list [.str hp, .str [0x61]]))) ∧
    (TrieNode.leaf [1, 2, 3] [0x61]).rlp zeroDigest = .ok [0x82, 0x42, 0x31, 0x23, 0x41, 0x61] ∧
    (∃ hp, hexPrefixEncode (([6, 4] : List Nibble).map Fin.val) false 0 (-1) = .ok hp ∧
      (TrieNode.infixNode [6, 4] (TrieNode.branch2 1 (.leaf [] [0x70]) 2 (.leaf [5] [0x63]))).rlp
          zeroDigest
        = .ok (0x82 :: (encode (.str hp) ++ childRef zeroDigest
            ([0x91, 0x40, 0x82, 0x41, 0x20, 0x41, 0x70, 0x82, 0x41, 0x35, 0x41, 0x63]
              ++ List.replicate 14 0x40)))) ∧
    (TrieNode.infixNode [6, 4] (.leaf [] (List.replicate 40 0x61))).rlp zeroDigest
      = .ok ([0x82, 0x42, 0x00, 0x64, 0x60] ++ List.replicate 32 0) :=
  ⟨(C12_node_serialization zeroDigest (by simp [zeroDigest])).1 [1, 2, 3] [0x61] (by simp),
   by decide,
   (C12_node_serialization zeroDigest (by simp [zeroDigest])).2.1 [6, 4]
     (TrieNode.branch2 1 (.leaf [] [0x70]) 2 (.leaf [5] [0x63])) _ (by simp) (by decide),
   by decide⟩

/-! ## The empty trie -/

theorem toHex_mod (s : Bytes) : toHex (s.map (· % 256)) = toHex s := by
  induction s with
  | nil => rfl
  | cons b s ih =>
    rw [List.map_cons, toHex_cons, toHex_cons, ih]
    have e1 : (Fin.ofNat (b % 256 / 16) : Nibble) = Fin.ofNat (b / 16) := by
      apply Fin.ext
      simp only [Fin.ofNat, Fin.val_mk]
      omega
    have e2 : (Fin.ofNat (b % 256 % 16) : Nibble) = Fin.ofNat (b % 16) := by
      apply Fin.ext
      simp only [Fin.ofNat, Fin.val_mk]
      omega
    rw [e1, e2]

theorem toHex_isBytes (s : Bytes) : ∃ b, IsBytes b ∧ toHex s = toHex b :=
  ⟨s.map (· % 256), by
    intro x hx
    obtain ⟨y, _, rfl⟩ := List.mem_map.mp hx
    exact Nat.mod_lt _ (by norm_num), (toHex_mod s).symm⟩

namespace Trie

/-- Every key stored in a reachable trie is the nibble sequence of a byte string. -/
theorem Reachable.keys {t : Trie} (h : t.Reachable) :
    ∀ nk, t.m_root.lookup nk ≠ [] → ∃ b, IsBytes b ∧ nk = toHex b := by
  induction h with
  | empty => intro nk h; simp [Trie.empty, TrieNode.lookup] at h
  | insert k v hr hv hi ih =>
    intro nk hnk
    obtain ⟨t3, h1, _, h3⟩ := insert_root_spec _ hr.canonical k v hv
    rw [hi] at h1
    cases h1
    rw [h3] at hnk
    by_cases e : nk = toHex k
    · rw [e]; exact toHex_isBytes k
    · rw [if_neg e] at hnk; exact ih nk hnk
  | remove k hr hi ih =>
    intro nk hnk
    obtain ⟨t3, h1, _, h3⟩ := remove_root_spec _ hr.canonical k
    rw [hi] at h1
    cases h1
    rw [h3] at hnk
    by_cases e : nk = toHex k
    · rw [if_pos e] at hnk; exact absurd rfl hnk
    · rw [if_neg e] at hnk; exact ih nk hnk

/-- A reachable trie in which no byte-string key has a value has the null root. -/
theorem Reachable.root_null {t : Trie} (h : t.Reachable)
    (hempty : ∀ k, IsBytes k → t.at_ k = .ok []) : t.m_root.isNull = true := by
  by_contra hn
  have hnf : t.m_root.isNull = false := by simpa using hn
  obtain ⟨nk, hnk⟩ := TrieNode.exists_key _ h.canonical hnf
  obtain ⟨b, hb, rfl⟩ := h.keys nk hnk
  have := hempty b hb
  rw [at_eq t h.canonical] at this
  exact hnk (Except.ok.inj this)

end Trie

/-- C13: canonical empty trie. Whenever the mapping of a trie reachable from the empty trie
by inserts of non-empty values and removes is empty (no byte-string key has a value: the trie
is fresh, or every key inserted has been removed again), `Trie::rlp()` is the single byte
`0x40`, the encoding of the empty string, and `Trie::hash256()` is `H(0x40)`. -/
theorem C13_empty_trie_canonical (sha3 : Bytes → Bytes) (t : Trie) (hr : t.Reachable)
    (hempty : ∀ k, IsBytes k → t.at_ k = .ok []) :
    t.rlp sha3 = .ok [0x40] ∧ t.rlp sha3 = .ok (encode (.str [])) ∧
      t.hash256 sha3 = .ok (sha3 [0x40]) := by
  have hn := hr.root_null hempty
  refine ⟨?_, ?_, ?_⟩
  · simp [Trie.rlp, hn, RLPNull]
  · simp [Trie.rlp, hn, RLPNull]
    decide
  · simp [Trie.hash256, hn, RLPNull, pure, Except.pure]

/-- Witness of C13 on the trie left by `insert("key", "value")` then `remove("key")`, and the
evaluation of the four inserts of scenario S2 followed by the removal of the four keys. -/
theorem C13_empty_trie_canonical_witness :
    (Trie.rlp zeroDigest ⟨.null⟩ = .ok [0x40] ∧
      Trie.rlp zeroDigest ⟨.null⟩ = .ok (encode (.str [])) ∧
      Trie.hash256 zeroDigest ⟨.null⟩ = .ok (zeroDigest [0x40])) ∧
    ((Trie.insertAll Trie.empty scenarioS2).bind fun t =>
      (t.remove [0x64, 0x6f, 0x67]).bind fun t =>
      (t.remove [0x68, 0x6f, 0x72, 0x73, 0x65]).bind fun t =>
      (t.remove [0x64, 0x6f]).bind fun t =>
      (t.remove [0x64, 0x6f, 0x67, 0x65]).bind fun t => t.rlp zeroDigest) = .ok [0x40] ∧
    ((Trie.insertAll Trie.empty scenarioS2).bind fun t =>
      (t.remove [0x64, 0x6f, 0x67]).bind fun t =>
      (t.remove [0x68, 0x6f, 0x72, 0x73, 0x65]).bind fun t =>
      (t.remove [0x64, 0x6f]).bind fun t =>
      (t.remove [0x64, 0x6f, 0x67, 0x65]).bind fun t => t.hash256 zeroDigest)
      = .ok (zeroDigest [0x40]) :=
  ⟨C13_empty_trie_canonical zeroDigest ⟨.null⟩
    (Trie.Reachable.remove [0x6b, 0x65, 0x79]
      (Trie.Reachable.insert [0x6b, 0x65, 0x79] [0x76, 0x61, 0x6c, 0x75, 0x65]
        Trie.Reachable.empty (by simp) rfl) rfl)
    (fun _ _ => rfl), by decide, by decide⟩

/-! ## Size and classification of an item -/

/-- C14: item size. For every value `v` (an integer, a byte string or a nested list) that
fits the integer widths of the code and whose encoding has a `uint` size, and every byte
string `r` of trailing data, `RLP::size` on `encode(v) ++ r` is `len(encode(v))`, whatever
`r` is. On the buffer `41 00` of scenario S6, `isString` holds, the extracted bytes are `00`
and the size is 2. -/
theorem C14_item_size (v : RLPValue) (r : Bytes) (hf : v.Fits)
    (hl : (encode v).length < 2 ^ 64) :
    RLP.size ⟨some (encode v ++ r)⟩ = .ok (encode v).length ∧
    RLP.isString ⟨some [0x41, 0x00]⟩ = .ok true ∧
    RLP.toString ⟨some [0x41, 0x00]⟩ = .ok [0x00] ∧
    RLP.size ⟨some [0x41, 0x00]⟩ = .ok 2 :=
  ⟨RLP.size_encode v r hf hl, by decide, by decide, by decide⟩

/-- Witness of C14 on the nested list `[1024, "dog", [15]]` followed by two bytes, with the
sizes evaluated: 10 for this list, 3 for `1024`, 4 for `"dog"`, whatever follows. -/
theorem C14_item_size_witness :
    (RLP.size ⟨some (encode (.list [.int 1024, .str [0x64, 0x6f, 0x67], .list [.int 15]])
        ++ [0xff, 0x01])⟩
      = .ok (encode (.list [.int 1024, .str [0x64, 0x6f, 0x67], .list [.int 15]])).length ∧
      RLP.isString ⟨some [0x41, 0x00]⟩ = .ok true ∧
      RLP.toString ⟨some [0x41, 0x00]⟩ = .ok [0x00] ∧
      RLP.size ⟨some [0x41, 0x00]⟩ = .ok 2) ∧
    RLP.size ⟨some (encode (.list [.int 1024, .str [0x64, 0x6f, 0x67], .list [.int 15]])
        ++ [0xff, 0x01])⟩ = .ok 10 ∧
    RLP.size ⟨some (encode (.int 1024) ++ [0x43])⟩ = .ok 3 ∧
    RLP.size ⟨some (encode (.str [0x64, 0x6f, 0x67]))⟩ = .ok 4 :=
  ⟨C14_item_size (.list [.int 1024, .str [0x64, 0x6f, 0x67], .list [.int 15]]) [0xff, 0x01]
    (by
      simp only [RLPValue.Fits, RLPValue.FitsAll, List.length_cons, List.length_nil]
      exact ⟨by norm_num, byteLen_lt_of_lt_two_pow_256 (by norm_num), by norm_num,
        ⟨by norm_num, byteLen_lt_of_lt_two_pow_256 (by norm_num), trivial⟩, trivial⟩)
    (by decide),
   by decide, by decide, by decide⟩

namespace RLP

theorem isSlimInt_cons (b : Nat) (t : Bytes) :
    isSlimInt ⟨some (b :: t)⟩ = .ok (decide (b < 0x20)) := by
  simp [isSlimInt, assertNotNull, isNull_cons, get_zero_cons, bind, Except.bind, pure,
    Except.pure]

theorem isFatInt_cons (b : Nat) (t : Bytes) :
    isFatInt ⟨some (b :: t)⟩ = .ok (decide (0x20 ≤ b) && decide (b < 0x38)) := by
  simp [isFatInt, assertNotNull, isNull_cons, get_zero_cons, bind, Except.bind, pure,
    Except.pure]

theorem isBigInt_cons (b : Nat) (t : Bytes) :
    isBigInt ⟨some (b :: t)⟩ = .ok (decide (0x38 ≤ b) && decide (b < 0x40)) := by
  simp [isBigInt, assertNotNull, isNull_cons, get_zero_cons, bind, Except.bind, pure,
    Except.pure]

theorem isEmpty_cons (b : Nat) (t : Bytes) :
    isEmpty ⟨some (b :: t)⟩ = .ok (b == 0x40 || b == 0x80) := by
  simp [isEmpty, get_zero_cons, bind, Except.bind, pure, Except.pure]

theorem isNull_iff (d : fConstBytes) : isNull ⟨d⟩ = true ↔ d.size = 0 := by
  simp [isNull]

end RLP

/-- C15: first-byte classification is a partition. `isNull` holds exactly of a view without
bytes. On a view whose first byte is `b`: `isInt` iff `b ≤ 0x3f`, `isString` iff
`0x40 ≤ b ≤ 0x7f`, `isList` iff `0x80 ≤ b ≤ 0xbf`, so exactly one of the three holds when
`b < 0xc0` and none when `b ≥ 0xc0`; `isSlimInt` iff `b < 0x20`, `isFatInt` iff
`0x20 ≤ b ≤ 0x37`, `isBigInt` iff `0x38 ≤ b ≤ 0x3f`, so exactly one of the three holds of an
integer. The encodings of the empty string (`40`) and of the empty list (`80`) are `isEmpty`
and not `isNull`. -/
theorem C15_first_byte_partition (b : Nat) (t : Bytes) :
    (∀ d : fConstBytes, RLP.isNull ⟨d⟩ = true ↔ d.size = 0) ∧
    RLP.isNull ⟨some (b :: t)⟩ = false ∧
    RLP.isInt ⟨some (b :: t)⟩ = .ok (decide (b ≤ 0x3f)) ∧
    RLP.isString ⟨some (b :: t)⟩ = .ok (decide (0x40 ≤ b ∧ b ≤ 0x7f)) ∧
    RLP.isList ⟨some (b :: t)⟩ = .ok (decide (0x80 ≤ b ∧ b ≤ 0xbf)) ∧
    (b < 0xc0 →
      (RLP.isInt ⟨some (b :: t)⟩ = .ok true ∧ RLP.isString ⟨some (b :: t)⟩ = .ok false ∧
        RLP.isList ⟨some (b :: t)⟩ = .ok false) ∨
      (RLP.isInt ⟨some (b :: t)⟩ = .ok false ∧ RLP.isString ⟨some (b :: t)⟩ = .ok true ∧
        RLP.isList ⟨some (b :: t)⟩ = .ok false) ∨
      (RLP.isInt ⟨some (b :: t)⟩ = .ok false ∧ RLP.isString ⟨some (b :: t)⟩ = .ok false ∧
        RLP.isList ⟨some (b :: t)⟩ = .ok true)) ∧
    (0xc0 ≤ b →
      RLP.isInt ⟨some (b :: t)⟩ = .ok false ∧ RLP.isString ⟨some (b :: t)⟩ = .ok false ∧
        RLP.isList ⟨some (b :: t)⟩ = .ok false) ∧
    RLP.isSlimInt ⟨some (b :: t)⟩ = .ok (decide (b < 0x20)) ∧
    RLP.isFatInt ⟨some (b :: t)⟩ = .ok (decide (0x20 ≤ b ∧ b ≤ 0x37)) ∧
    RLP.isBigInt ⟨some (b :: t)⟩ = .ok (decide (0x38 ≤ b ∧ b ≤ 0x3f)) ∧
    (b ≤ 0x3f →
      (RLP.isSlimInt ⟨some (b :: t)⟩ = .ok true ∧ RLP.isFatInt ⟨some (b :: t)⟩ = .ok false ∧
        RLP.isBigInt ⟨some (b :: t)⟩ = .ok false) ∨
      (RLP.isSlimInt ⟨some (b :: t)⟩ = .ok false ∧ RLP.isFatInt ⟨some (b :: t)⟩ = .ok true ∧
        RLP.isBigInt ⟨some (b :: t)⟩ = .ok false) ∨
      (RLP.isSlimInt ⟨some (b :: t)⟩ = .ok false ∧ RLP.isFatInt ⟨some (b :: t)⟩ = .ok false ∧
        RLP.isBigInt ⟨some (b :: t)⟩ = .ok true)) ∧
    encode (.str []) = [0x40] ∧ encode (.list []) = [0x80] ∧
    RLP.isEmpty ⟨some (encode (.str []))⟩ = .ok true ∧
    RLP.isNull ⟨some (encode (.str []))⟩ = false ∧
    RLP.isEmpty ⟨some (encode (.list []))⟩ = .ok true ∧
    RLP.isNull ⟨some (encode (.list []))⟩ = false := by
  have e1 : decide (b < 0x40) = decide (b ≤ 0x3f) := decide_eq_decide.mpr (by omega)
  have e2 : (decide (0x40 ≤ b) && decide (b < 0x80)) = decide (0x40 ≤ b ∧ b ≤ 0x7f) := by
    rw [← Bool.decide_and]; exact decide_eq_decide.mpr (by omega)
  have e3 : (decide (0x80 ≤ b) && decide (b < 0xc0)) = decide (0x80 ≤ b ∧ b ≤ 0xbf) := by
    rw [← Bool.decide_and]; exact decide_eq_decide.mpr (by omega)
  have e4 : (decide (0x20 ≤ b) && decide (b < 0x38)) = decide (0x20 ≤ b ∧ b ≤ 0x37) := by
    rw [← Bool.decide_and]; exact decide_eq_decide.mpr (by omega)
  have e5 : (decide (0x38 ≤ b) && decide (b < 0x40)) = decide (0x38 ≤ b ∧ b ≤ 0x3f) := by
    rw [← Bool.decide_and]; exact decide_eq_decide.mpr (by omega)
  rw [RLP.isInt_cons, RLP.isString_cons, RLP.isList_cons, RLP.isSlimInt_cons,
    RLP.isFatInt_cons, RLP.isBigInt_cons, RLP.isNull_cons, e2, e3, e4, e5, e1]
  refine ⟨RLP.isNull_iff, rfl, rfl, rfl, rfl, ?_, ?_, rfl, rfl, rfl, ?_, by decide, by decide,
    by decide, by decide, by decide, by decide⟩
  · intro h
    by_cases h1 : b ≤ 0x3f
    · left
      exact ⟨by rw [decide_eq_true h1], by rw [decide_eq_false (by omega)],
        by rw [decide_eq_false (by omega)]⟩
    · by_cases h2 : b ≤ 0x7f
      · right; left
        exact ⟨by rw [decide_eq_false h1], by rw [decide_eq_true (by omega)],
          by rw [decide_eq_false (by omega)]⟩
      · right; right
        exact ⟨by rw [decide_eq_false h1], by rw [decide_eq_false (by omega)],
          by rw [decide_eq_true (by omega)]⟩
  · intro h
    exact ⟨by rw [decide_eq_false (by omega)], by rw [decide_eq_false (by omega)],
      by rw [decide_eq_false (by omega)]⟩
  · intro h
    by_cases h1 : b < 0x20
    · left
      exact ⟨by rw [decide_eq_true h1], by rw [decide_eq_false (by omega)],
        by rw [decide_eq_false (by omega)]⟩
    · by_cases h2 : b ≤ 0x37
      · right; left
        exact ⟨by rw [decide_eq_false h1], by rw [decide_eq_true (by omega)],
          by rw [decide_eq_false (by omega)]⟩
      · right; right
        exact ⟨by rw [decide_eq_false h1], by rw [decide_eq_false (by omega)],
          by rw [decide_eq_true (by omega)]⟩

/-- Witness of C15 on the buffer `41 00` (a string) and on the buffer `c0` (none of the
three), and on the integer first bytes `05`, `21` and `38`. -/
theorem C15_first_byte_partition_witness :
    ((RLP.isInt ⟨some [0x41, 0x00]⟩ = .ok true ∧ RLP.isString ⟨some [0x41, 0x00]⟩ = .ok false ∧
        RLP.isList ⟨some [0x41, 0x00]⟩ = .ok false) ∨
      (RLP.isInt ⟨some [0x41, 0x00]⟩ = .ok false ∧ RLP.isString ⟨some [0x41, 0x00]⟩ = .ok true ∧
        RLP.isList ⟨some [0x41, 0x00]⟩ = .ok false) ∨
      (RLP.isInt ⟨some [0x41, 0x00]⟩ = .ok false ∧ RLP.isString ⟨some [0x41, 0x00]⟩ = .ok false ∧
        RLP.isList ⟨some [0x41, 0x00]⟩ = .ok true)) ∧
    (RLP.isInt ⟨some [0xc0]⟩ = .ok false ∧ RLP.isString ⟨some [0xc0]⟩ = .ok false ∧
      RLP.isList ⟨some [0xc0]⟩ = .ok false) ∧
    RLP.isSlimInt ⟨some [0x05]⟩ = .ok true ∧ RLP.isFatInt ⟨some [0x21]⟩ = .ok true ∧
    RLP.isBigInt ⟨some [0x38]⟩ = .ok true ∧ RLP.isNull ⟨some []⟩ = true ∧
    RLP.isNull ⟨none⟩ = true :=
  ⟨(C15_first_byte_partition 0x41 [0x00]).2.2.2.2.2.1 (by norm_num),
   (C15_first_byte_partition 0xc0 []).2.2.2.2.2.2.1 (by norm_num),
   by decide, by decide, by decide, by decide, by decide⟩

/-! ## Indexing a list -/

namespace RLP

theorem itemCount_encode_list (l : List RLPValue) (rest : Bytes) (hf : (RLPValue.list l).Fits) :
    itemCount ⟨some (encode (.list l) ++ rest)⟩ = .ok l.length := by
  rw [encode_list hf, List.append_assoc]
  simp only [RLPValue.Fits] at hf
  simp [itemCount, isList_countLayout _ _ hf.1, items_countLayout _ _ _ (Or.inr rfl) hf.1, bind,
    Except.bind]

/-- Skipping `i` items of the concatenated encodings leaves the view at the encoding of
element `i`. -/
theorem skipItems_size_encode : ∀ (i : Nat) (l : List RLPValue) (rest : Bytes),
    RLPValue.FitsAll l → ((l.map encode).flatten).length < 2 ^ 64 → i ≤ l.length →
    skipItems size i (some ((l.map encode).flatten ++ rest))
      = .ok (some (((l.drop i).map encode).flatten ++ rest))
  | 0, _, _, _, _, _ => rfl
  | i + 1, [], _, _, _, h => by simp at h
  | i + 1, v :: vs, rest, hf, hl, h => by
    simp only [RLPValue.FitsAll] at hf
    simp only [List.map_cons, List.flatten_cons, List.length_append, List.append_assoc] at hl ⊢
    simp only [skipItems, List.drop_succ_cons]
    rw [size_encode v _ hf.1 (by omega)]
    simp only [bind, Except.bind, cropped_append]
    exact skipItems_size_encode i vs rest hf.2 (by omega) (by simpa using h)

theorem fitsAll_get : ∀ (l : List RLPValue) (i : Nat) (hi : i < l.length),
    RLPValue.FitsAll l → (l.get ⟨i, hi⟩).Fits
  | v :: _, 0, _, hf => by simp only [RLPValue.FitsAll] at hf; exact hf.1
  | _ :: vs, i + 1, hi, hf => by
    simp only [RLPValue.FitsAll] at hf
    exact fitsAll_get vs i (by simpa using hi) hf.2

theorem encode_get_le : ∀ (l : List RLPValue) (i : Nat) (hi : i < l.length),
    (encode (l.get ⟨i, hi⟩)).length ≤ ((l.map encode).flatten).length
  | v :: _, 0, _ => by simp
  | _ :: vs, i + 1, hi => by
    have := encode_get_le vs i (by simpa using hi)
    simp only [List.map_cons, List.flatten_cons, List.length_append, List.get_cons_succ]
    simp only [List.get_eq_getElem] at this ⊢
    omega

theorem getItem_encode_list (l : List RLPValue) (rest : Bytes) (hf : (RLPValue.list l).Fits)
    (hl : (encode (.list l)).length < 2 ^ 64) (i : Nat) (hi : i < l.length) :
    getItem ⟨some (encode (.list l) ++ rest)⟩ i
      = .ok ⟨some (encode (l.get ⟨i, hi⟩) ++ (((l.drop (i + 1)).map encode).flatten ++ rest))⟩ := by
  have hc := itemCount_encode_list l rest hf
  rw [encode_list hf, List.append_assoc] at hc ⊢
  rw [encode_list hf] at hl
  have hf2 := hf
  simp only [RLPValue.Fits] at hf2
  have hh := countLayout_length_pos 0x80 l.length
  have hskip := skipItems_size_encode i l rest hf2.2
    (by simp only [List.length_append] at hl; omega) (le_of_lt hi)
  simp only [getItem, isList_countLayout _ _ hf2.1, hc,
    payload_countLayout _ _ _ (Or.inr rfl) hf2.1, hskip, bind, Except.bind, pure, Except.pure,
    Bool.not_true, Bool.false_eq_true, if_false, if_neg (not_le.mpr hi)]
  rw [List.drop_eq_getElem_cons hi]
  simp only [List.map_cons, List.flatten_cons, List.append_assoc, List.get_eq_getElem]

theorem getItem_beyond (l : List RLPValue) (rest : Bytes) (hf : (RLPValue.list l).Fits)
    (i : Nat) (hi : l.length ≤ i) :
    getItem ⟨some (encode (.list l) ++ rest)⟩ i = .ok null := by
  have hc := itemCount_encode_list l rest hf
  rw [encode_list hf, List.append_assoc] at hc ⊢
  simp only [RLPValue.Fits] at hf
  simp [getItem, isList_countLayout _ _ hf.1, hc, bind, Except.bind, pure, Except.pure, hi]

theorem getItem_of_not_isList (r : RLP) (i : Nat) (h : r.isList = .ok false) :
    r.getItem i = .ok null := by
  simp [getItem, h, bind, Except.bind, pure, Except.pure]

end RLP

/-- C16: list indexing. For every list value with elements `e_0 .. e_{n-1}` (fitting the
integer widths of the code, the encoding of a `uint` size) and whatever follows its encoding:
`itemCount()` is `n`; for every `i < n` the view `RLP[i]` starts at the first byte of the
encoding of `e_i` and decodes to `e_i`; for every `i ≥ n` `RLP[i]` is the null view; and on a
view whose first byte is not that of a list `RLP[i]` is the null view for every `i`. -/
theorem C16_list_indexing (l : List RLPValue) (rest : Bytes) (hf : (RLPValue.list l).Fits)
    (hl : (encode (.list l)).length < 2 ^ 64) :
    RLP.itemCount ⟨some (encode (.list l) ++ rest)⟩ = .ok l.length ∧
    (∀ (i : Nat) (hi : i < l.length),
      RLP.getItem ⟨some (encode (.list l) ++ rest)⟩ i
        = .ok ⟨some (encode (l.get ⟨i, hi⟩)
            ++ (((l.drop (i + 1)).map encode).flatten ++ rest))⟩ ∧
      (l.get ⟨i, hi⟩).DecodedBy ⟨some (encode (l.get ⟨i, hi⟩)
            ++ (((l.drop (i + 1)).map encode).flatten ++ rest))⟩) ∧
    (∀ i, l.length ≤ i → RLP.getItem ⟨some (encode (.list l) ++ rest)⟩ i = .ok RLP.null) ∧
    (∀ (b : Nat) (t : Bytes) (i : Nat), ¬ (0x80 ≤ b ∧ b ≤ 0xbf) →
      RLP.getItem ⟨some (b :: t)⟩ i = .ok RLP.null) := by
  refine ⟨RLP.itemCount_encode_list l rest hf, ?_, ?_, ?_⟩
  · intro i hi
    refine ⟨RLP.getItem_encode_list l rest hf hl i hi, ?_⟩
    have hf2 := hf
    simp only [RLPValue.Fits] at hf2
    apply RLPValue.decodedBy_encode _ _ (RLP.fitsAll_get l i hi hf2.2)
    have := RLP.encode_get_le l i hi
    rw [encode_list hf, List.length_append] at hl
    omega
  · exact fun i hi => RLP.getItem_beyond l rest hf i hi
  · intro b t i h
    apply RLP.getItem_of_not_isList
    rw [RLP.isList_cons, ← Bool.decide_and, decide_eq_false (by omega)]

/-- Witness of C16 on the list `["cat", "dog"]` followed by the byte `ff`: two items, item 1
is the view that starts at `43 64 6f 67`, item 2 is null; and indexing the string `"dog"`
gives the null view. -/
theorem C16_list_indexing_witness :
    RLP.itemCount ⟨some (encode (.list [.str [0x63, 0x61, 0x74], .str [0x64, 0x6f, 0x67]])
      ++ [0xff])⟩ = .ok 2 ∧
    RLP.getItem ⟨some (encode (.list [.str [0x63, 0x61, 0x74], .str [0x64, 0x6f, 0x67]])
      ++ [0xff])⟩ 1 = .ok ⟨some (encode (.str [0x64, 0x6f, 0x67]) ++ ([] ++ [0xff]))⟩ ∧
    (RLPValue.str [0x64, 0x6f, 0x67]).DecodedBy
      ⟨some (encode (.str [0x64, 0x6f, 0x67]) ++ ([] ++ [0xff]))⟩ ∧
    RLP.getItem ⟨some (encode (.list [.str [0x63, 0x61, 0x74], .str [0x64, 0x6f, 0x67]])
      ++ [0xff])⟩ 2 = .ok RLP.null ∧
    RLP.getItem ⟨some [0x43, 0x64, 0x6f, 0x67]⟩ 0 = .ok RLP.null ∧
    RLP.getItem ⟨some [0x82, 0x43, 0x63, 0x61, 0x74, 0x43, 0x64, 0x6f, 0x67, 0xff]⟩ 0
      = .ok ⟨some [0x43, 0x63, 0x61, 0x74, 0x43, 0x64, 0x6f, 0x67, 0xff]⟩ ∧
    RLP.getItem ⟨some [0x82, 0x43, 0x63, 0x61, 0x74, 0x43, 0x64, 0x6f, 0x67, 0xff]⟩ 1
      = .ok ⟨some [0x43, 0x64, 0x6f, 0x67, 0xff]⟩ :=
  have hf : (RLPValue.list [.str [0x63, 0x61, 0x74], .str [0x64, 0x6f, 0x67]]).Fits := by
    simp only [RLPValue.Fits, RLPValue.FitsAll, List.length_cons, List.length_nil]
    exact ⟨by norm_num, ⟨by norm_num, by norm_num, trivial⟩⟩
  have h := C16_list_indexing [.str [0x63, 0x61, 0x74], .str [0x64, 0x6f, 0x67]] [0xff] hf
    (by decide)
  ⟨h.1, (h.2.1 1 (by decide)).1, (h.2.1 1 (by decide)).2, h.2.2.1 2 (le_refl _),
    h.2.2.2 0x43 [0x64, 0x6f, 0x67] 0 (by norm_num), by decide, by decide⟩

/-! ## Extractors on an item of another kind -/

namespace RLP

theorem toString_of_not_isString (r : RLP) (h : r.isString = .ok false) :
    r.toString = .ok [] := by
  simp [toString, h, bind, Except.bind, pure, Except.pure]

theorem toInt_of_not_isInt (wrap : Nat → Nat) (r : RLP) (dflt : Nat) (h : r.isInt = .ok false) :
    toInt wrap r dflt = .ok dflt := by
  simp [toInt, h, bind, Except.bind, pure, Except.pure]

theorem toList_of_not_isList (r : RLP) (h : r.isList = .ok false) : r.toList = .ok [] := by
  simp [toList, h, bind, Except.bind, pure, Except.pure]

theorem itemCount_of_not_isList (r : RLP) (h : r.isList = .ok false) : r.itemCount = .ok 0 := by
  simp [itemCount, h, bind, Except.bind, pure, Except.pure]

theorem stringSize_of_not_isString (r : RLP) (h : r.isString = .ok false) :
    r.stringSize = .ok 0 := by
  simp [stringSize, h, bind, Except.bind, pure, Except.pure]

end RLP

/-- C17: a type mismatch returns a default instead of failing. On a view with a first byte
`b`: when the item is not a string (`b` outside `0x40..0x7f`), `toString()` returns the empty
string and `stringSize()` zero; when it is not an integer (`b ≥ 0x40`), `toInt()`,
`toSlimInt()`, `toFatInt()` and `toBigInt()` return the default they are given, zero when
none is given; when it is not a list (`b` outside `0x80..0xbf`), `toList()` returns the empty
list and `itemCount()` zero. -/
theorem C17_type_mismatch_defaults (b : Nat) (t : Bytes) (dflt : Nat) :
    (¬ (0x40 ≤ b ∧ b ≤ 0x7f) →
      RLP.isString ⟨some (b :: t)⟩ = .ok false ∧ RLP.toString ⟨some (b :: t)⟩ = .ok [] ∧
      RLP.stringSize ⟨some (b :: t)⟩ = .ok 0) ∧
    (0x40 ≤ b →
      RLP.isInt ⟨some (b :: t)⟩ = .ok false ∧
      RLP.toSlimInt ⟨some (b :: t)⟩ dflt = .ok dflt ∧
      RLP.toFatInt ⟨some (b :: t)⟩ dflt = .ok dflt ∧
      RLP.toBigInt ⟨some (b :: t)⟩ dflt = .ok dflt ∧
      RLP.toSlimInt ⟨some (b :: t)⟩ = .ok 0 ∧ RLP.toFatInt ⟨some (b :: t)⟩ = .ok 0 ∧
      RLP.toBigInt ⟨some (b :: t)⟩ = .ok 0) ∧
    (¬ (0x80 ≤ b ∧ b ≤ 0xbf) →
      RLP.isList ⟨some (b :: t)⟩ = .ok false ∧ RLP.toList ⟨some (b :: t)⟩ = .ok [] ∧
      RLP.itemCount ⟨some (b :: t)⟩ = .ok 0) := by
  refine ⟨?_, ?_, ?_⟩
  · intro h
    have hs : RLP.isString ⟨some (b :: t)⟩ = .ok false := by
      rw [RLP.isString_cons, ← Bool.decide_and, decide_eq_false (by omega)]
    exact ⟨hs, RLP.toString_of_not_isString _ hs, RLP.stringSize_of_not_isString _ hs⟩
  · intro h
    have hi : RLP.isInt ⟨some (b :: t)⟩ = .ok false := by
      rw [RLP.isInt_cons, decide_eq_false (by omega)]
    exact ⟨hi, RLP.toInt_of_not_isInt _ _ _ hi, RLP.toInt_of_not_isInt _ _ _ hi,
      RLP.toInt_of_not_isInt _ _ _ hi, RLP.toInt_of_not_isInt _ _ _ hi,
      RLP.toInt_of_not_isInt _ _ _ hi, RLP.toInt_of_not_isInt _ _ _ hi⟩
  · intro h
    have hl : RLP.isList ⟨some (b :: t)⟩ = .ok false := by
      rw [RLP.isList_cons, ← Bool.decide_and, decide_eq_false (by omega)]
    exact ⟨hl, RLP.toList_of_not_isList _ hl, RLP.itemCount_of_not_isList _ hl⟩

/-- Witness of C17 on the encoding `43 64 6f 67` of `"dog"` (not an integer, not a list) and
on the encoding `19 04 00` of `1024` (not a string). -/
theorem C17_type_mismatch_defaults_witness :
    (RLP.isInt ⟨some [0x43, 0x64, 0x6f, 0x67]⟩ = .ok false ∧
      RLP.toSlimInt ⟨some [0x43, 0x64, 0x6f, 0x67]⟩ 7 = .ok 7 ∧
      RLP.toFatInt ⟨some [0x43, 0x64, 0x6f, 0x67]⟩ 7 = .ok 7 ∧
      RLP.toBigInt ⟨some [0x43, 0x64, 0x6f, 0x67]⟩ 7 = .ok 7 ∧
      RLP.toSlimInt ⟨some [0x43, 0x64, 0x6f, 0x67]⟩ = .ok 0 ∧
      RLP.toFatInt ⟨some [0x43, 0x64, 0x6f, 0x67]⟩ = .ok 0 ∧
      RLP.toBigInt ⟨some [0x43, 0x64, 0x6f, 0x67]⟩ = .ok 0) ∧
    (RLP.isList ⟨some [0x43, 0x64, 0x6f, 0x67]⟩ = .ok false ∧
      RLP.toList ⟨some [0x43, 0x64, 0x6f, 0x67]⟩ = .ok [] ∧
      RLP.itemCount ⟨some [0x43, 0x64, 0x6f, 0x67]⟩ = .ok 0) ∧
    (RLP.isString ⟨some [0x19, 0x04, 0x00]⟩ = .ok false ∧
      RLP.toString ⟨some [0x19, 0x04, 0x00]⟩ = .ok [] ∧
      RLP.stringSize ⟨some [0x19, 0x04, 0x00]⟩ = .ok 0) :=
  ⟨(C17_type_mismatch_defaults 0x43 [0x64, 0x6f, 0x67] 7).2.1 (by norm_num),
   (C17_type_mismatch_defaults 0x43 [0x64, 0x6f, 0x67] 7).2.2 (by norm_num),
   (C17_type_mismatch_defaults 0x19 [0x04, 0x00] 7).1 (by norm_num)⟩

/-! ## Reserved first bytes -/

namespace RLP

theorem size_of_reserved (b : Nat) (t : Bytes) (h : 0xc0 ≤ b) : size ⟨some (b :: t)⟩ = .ok 0 := by
  have e : size ⟨some (b :: t)⟩ = sizeAux (t.length + 1) ⟨some (b :: t)⟩ := rfl
  rw [e]
  simp only [sizeAux, isNull_cons, isInt_cons, isString_cons, isList_cons, bind, Except.bind,
    pure, Except.pure, Bool.false_eq_true, if_false]
  rw [decide_eq_false (show ¬ b < 0x40 by omega), decide_eq_false (show ¬ b < 0x80 by omega),
    decide_eq_false (show ¬ b < 0xc0 by omega)]
  simp

end RLP

/-- C18 as stated fails: on the buffer `c0` of scenario S5 no operation of the reader fails.
The item is none of integer, string and list, `size()` returns 0, `toString()`, `toSlimInt()`,
`toBigInt()`, `toList()` and `itemCount()` return their defaults and `operator[]` the null
view. -/
theorem C18_reserved_byte_counterexample :
    RLP.isInt ⟨some [0xc0]⟩ = .ok false ∧ RLP.isString ⟨some [0xc0]⟩ = .ok false ∧
    RLP.isList ⟨some [0xc0]⟩ = .ok false ∧ RLP.size ⟨some [0xc0]⟩ = .ok 0 ∧
    RLP.toString ⟨some [0xc0]⟩ = .ok [] ∧ RLP.toSlimInt ⟨some [0xc0]⟩ = .ok 0 ∧
    RLP.toBigInt ⟨some [0xc0]⟩ = .ok 0 ∧ RLP.toList ⟨some [0xc0]⟩ = .ok [] ∧
    RLP.itemCount ⟨some [0xc0]⟩ = .ok 0 ∧ RLP.getItem ⟨some [0xc0]⟩ 0 = .ok RLP.null := by
  decide

/-- C18 (amended): a reserved first byte is not rejected. On every view whose first byte lies
in `0xc0..0xff` (and whatever follows it) the item is none of integer, string and list,
`size()` returns 0, `toString()` returns the empty string, `toSlimInt()`, `toFatInt()` and
`toBigInt()` return the default they are given, `toList()` returns the empty list,
`itemCount()` returns 0 and `operator[]` returns the null view: no failure is reported. -/
theorem C18_reserved_byte_defaults (b : Nat) (t : Bytes) (h : 0xc0 ≤ b) (dflt i : Nat) :
    RLP.isInt ⟨some (b :: t)⟩ = .ok false ∧ RLP.isString ⟨some (b :: t)⟩ = .ok false ∧
    RLP.isList ⟨some (b :: t)⟩ = .ok false ∧ RLP.size ⟨some (b :: t)⟩ = .ok 0 ∧
    RLP.toString ⟨some (b :: t)⟩ = .ok [] ∧
    RLP.toSlimInt ⟨some (b :: t)⟩ dflt = .ok dflt ∧
    RLP.toFatInt ⟨some (b :: t)⟩ dflt = .ok dflt ∧
    RLP.toBigInt ⟨some (b :: t)⟩ dflt = .ok dflt ∧
    RLP.toList ⟨some (b :: t)⟩ = .ok [] ∧ RLP.itemCount ⟨some (b :: t)⟩ = .ok 0 ∧
    RLP.getItem ⟨some (b :: t)⟩ i = .ok RLP.null := by
  have hi : RLP.isInt ⟨some (b :: t)⟩ = .ok false := by
    rw [RLP.isInt_cons, decide_eq_false (by omega)]
  have hs : RLP.isString ⟨some (b :: t)⟩ = .ok false := by
    rw [RLP.isString_cons, ← Bool.decide_and, decide_eq_false (by omega)]
  have hl : RLP.isList ⟨some (b :: t)⟩ = .ok false := by
    rw [RLP.isList_cons, ← Bool.decide_and, decide_eq_false (by omega)]
  exact ⟨hi, hs, hl, RLP.size_of_reserved b t h, RLP.toString_of_not_isString _ hs,
    RLP.toInt_of_not_isInt _ _ _ hi, RLP.toInt_of_not_isInt _ _ _ hi,
    RLP.toInt_of_not_isInt _ _ _ hi, RLP.toList_of_not_isList _ hl,
    RLP.itemCount_of_not_isList _ hl, RLP.getItem_of_not_isList _ _ hl⟩

/-- Witness of the amended C18 on the buffer `ff 01 02`. -/
theorem C18_reserved_byte_defaults_witness :
    RLP.isInt ⟨some [0xff, 0x01, 0x02]⟩ = .ok false ∧
    RLP.isString ⟨some [0xff, 0x01, 0x02]⟩ = .ok false ∧
    RLP.isList ⟨some [0xff, 0x01, 0x02]⟩ = .ok false ∧
    RLP.size ⟨some [0xff, 0x01, 0x02]⟩ = .ok 0 ∧
    RLP.toString ⟨some [0xff, 0x01, 0x02]⟩ = .ok [] ∧
    RLP.toSlimInt ⟨some [0xff, 0x01, 0x02]⟩ 9 = .ok 9 ∧
    RLP.toFatInt ⟨some [0xff, 0x01, 0x02]⟩ 9 = .ok 9 ∧
    RLP.toBigInt ⟨some [0xff, 0x01, 0x02]⟩ 9 = .ok 9 ∧
    RLP.toList ⟨some [0xff, 0x01, 0x02]⟩ = .ok [] ∧
    RLP.itemCount ⟨some [0xff, 0x01, 0x02]⟩ = .ok 0 ∧
    RLP.getItem ⟨some [0xff, 0x01, 0x02]⟩ 1 = .ok RLP.null :=
  C18_reserved_byte_defaults 0xff [0x01, 0x02] (by norm_num) 9 1

/-! ## Reads on well-formed and on truncated buffers -/

namespace RLP

/-- Reading `todo.length` bytes that are in view returns a value. -/
theorem readBigEndian_ok (wrap : Nat → Nat) (pre post : Bytes) :
    ∀ (todo done : Bytes) (acc : Nat),
    ∃ y, readBigEndian wrap (some (pre ++ done ++ todo ++ post)) pre.length todo.length
      done.length acc = .ok y := by
  intro todo
  induction todo with
  | nil => intro done acc; exact ⟨acc, by simp [readBigEndian]⟩
  | cons b bs ih =>
    intro done acc
    simp only [List.length_cons, readBigEndian]
    have e1 : pre ++ done ++ b :: bs ++ post = (pre ++ done) ++ b :: (bs ++ post) := by simp
    have e2 : done.length + pre.length = (pre ++ done).length := by simp; omega
    rw [e1, e2, get_append_length]
    simp only [bind, Except.bind]
    have e3 : (pre ++ done) ++ b :: (bs ++ post) = pre ++ (done ++ [b]) ++ bs ++ post := by simp
    have e4 : done.length + 1 = (done ++ [b]).length := by simp
    rw [e3, e4]
    exact ih (done ++ [b]) _

theorem readBigEndian_ok_beBytes (wrap : Nat → Nat) (pre post : Bytes) (k x : Nat) :
    ∃ y, readBigEndian wrap (some (pre ++ beBytes k x ++ post)) pre.length k 0 0 = .ok y := by
  have := readBigEndian_ok wrap pre post (beBytes k x) [] 0
  simpa [beBytes_length] using this

theorem items_intLayout_ok (x : Nat) (rest : Bytes) (hfit : byteLen x < 2 ^ 64) :
    ∃ n, items ⟨some (intLayout x ++ rest)⟩ = .ok n := by
  rcases intLayout_cases x hfit with ⟨h, e⟩ | ⟨h1, h2, e⟩ | ⟨h1, h2, h3, e⟩
  · rw [e, List.singleton_append]
    have e2 := land_0x3f_int x (by omega)
    exact ⟨_, items_cons_small _ _ (by rw [e2]; omega)⟩
  · rw [e, List.cons_append]
    have e2 := land_0x3f_int (0x17 + byteLen x) (by omega)
    exact ⟨_, items_cons_small _ _ (by rw [e2]; omega)⟩
  · rw [e, List.cons_append]
    have e2 := land_0x3f_int (0x37 + byteLen (byteLen x)) (by omega)
    rw [items_cons_big _ _ (by rw [e2]; omega), e2]
    have := readBigEndian_ok_beBytes (· % uintMod) [0x37 + byteLen (byteLen x)]
      (beBytes (byteLen x) x ++ rest) (byteLen (byteLen x)) (byteLen x)
    simpa using this

theorem toInt_intLayout_ok (wrap : Nat → Nat) (x dflt : Nat) (rest : Bytes)
    (hfit : byteLen x < 2 ^ 64) (hlen : (intLayout x).length < 2 ^ 64) :
    ∃ y, toInt wrap ⟨some (intLayout x ++ rest)⟩ dflt = .ok y := by
  unfold toInt
  rw [isInt_intLayout x rest hfit, intSize_intLayout x rest hfit hlen,
    intLengthSize_intLayout x rest hfit]
  simp only [bind, Except.bind, pure, Except.pure, Bool.not_true, Bool.false_eq_true, if_false]
  rcases intLayout_cases x hfit with ⟨h, e⟩ | ⟨h1, h2, e⟩ | ⟨h1, h2, h3, e⟩
  · rw [e]
    exact ⟨x, by simp [isDirectValueInt_cons, get_zero_cons, h]⟩
  · rw [e]
    simp only [List.cons_append, isDirectValueInt_cons, h2, if_true, List.length_cons,
      beBytes_length, Nat.add_sub_cancel]
    simp only [show decide (0x17 + byteLen x < 0x18) = false by simp; omega,
      Bool.false_eq_true, if_false]
    have e1 : (byteLen x + uintMod - 0) % uintMod = byteLen x := by unfold uintMod; omega
    have e2 : (0 + 1) % uintMod = 1 := by unfold uintMod; omega
    rw [e1, e2]
    have := readBigEndian_ok_beBytes wrap [0x17 + byteLen x] rest (byteLen x) x
    simpa using this
  · rw [e] at hlen ⊢
    simp only [List.length_cons, List.length_append, beBytes_length] at hlen
    simp only [List.cons_append, isDirectValueInt_cons, show ¬ byteLen x ≤ 32 by omega,
      if_false, List.length_cons, List.length_append, beBytes_length, Nat.add_sub_cancel]
    simp only [show decide (0x37 + byteLen (byteLen x) < 0x18) = false by simp; omega,
      Bool.false_eq_true, if_false]
    have e1 : (byteLen (byteLen x) + byteLen x + uintMod - byteLen (byteLen x)) % uintMod
        = byteLen x := by unfold uintMod; omega
    have e2 : (byteLen (byteLen x) + 1) % uintMod = byteLen (byteLen x) + 1 := by
      unfold uintMod; omega
    rw [e1, e2]
    have := readBigEndian_ok_beBytes wrap
      ((0x37 + byteLen (byteLen x)) :: beBytes (byteLen (byteLen x)) (byteLen x)) rest
      (byteLen x) x
    simpa [beBytes_length] using this

theorem isList_countLayout_str (n : Nat) (rest : Bytes) (hn : n < 2 ^ 64) :
    isList ⟨some (countLayout 0x40 n ++ rest)⟩ = .ok false := by
  obtain ⟨hd, tl, e, h1, h2⟩ := countLayout_head 0x40 n hn
  rw [e, List.cons_append, isList_cons]
  simp; omega

theorem isString_intLayout (x : Nat) (rest : Bytes) (hfit : byteLen x < 2 ^ 64) :
    isString ⟨some (intLayout x ++ rest)⟩ = .ok false := by
  rcases intLayout_cases x hfit with ⟨h, e⟩ | ⟨h1, h2, e⟩ | ⟨h1, h2, h3, e⟩ <;>
    rw [e] <;> simp only [List.cons_append, isString_cons] <;> simp <;> omega

theorem isList_intLayout (x : Nat) (rest : Bytes) (hfit : byteLen x < 2 ^ 64) :
    isList ⟨some (intLayout x ++ rest)⟩ = .ok false := by
  rcases intLayout_cases x hfit with ⟨h, e⟩ | ⟨h1, h2, e⟩ | ⟨h1, h2, h3, e⟩ <;>
    rw [e] <;> simp only [List.cons_append, isList_cons] <;> simp <;> omega

theorem isEmpty_ok_of_pos {l : Bytes} (h : 1 ≤ l.length) (rest : Bytes) :
    ∃ x, isEmpty ⟨some (l ++ rest)⟩ = .ok x := by
  match l, h with
  | b :: t, _ => exact ⟨_, isEmpty_cons b (t ++ rest)⟩

end RLP

/-- C19 as stated fails: on the one-byte buffer `19` (an integer of declared width 2)
`toSlimInt()` and `toBigInt()` index byte 1 of a buffer of size 1; on the one-byte buffer `78`
(a string with one length byte declared) `items()`, `stringSize()` and `toString()` index
byte 1; on `b8` (a list with one count byte declared) `toList()` and `operator[]` do; on `38`
`size()` does; and `isEmpty()` on the null view indexes byte 0 of a view without bytes. -/
theorem C19_out_of_bounds_counterexample :
    RLP.toSlimInt ⟨some [0x19]⟩ = .error Fault.outOfBounds ∧
    RLP.toBigInt ⟨some [0x19]⟩ = .error Fault.outOfBounds ∧
    RLP.items ⟨some [0x78]⟩ = .error Fault.outOfBounds ∧
    RLP.stringSize ⟨some [0x78]⟩ = .error Fault.outOfBounds ∧
    RLP.toString ⟨some [0x78]⟩ = .error Fault.outOfBounds ∧
    RLP.toList ⟨some [0xb8]⟩ = .error Fault.outOfBounds ∧
    RLP.getItem ⟨some [0xb8]⟩ 0 = .error Fault.outOfBounds ∧
    RLP.size ⟨some [0x38]⟩ = .error Fault.outOfBounds ∧
    RLP.isEmpty ⟨none⟩ = .error Fault.outOfBounds := by
  decide

/-- C19 (amended): no out-of-bounds read on well-formed input. On every buffer that starts
with the encoding the encoder produces for a value (fitting the integer widths of the code,
the encoding of a `uint` size), whatever follows it, each of `isEmpty`, `items`, `size`,
`toSlimInt`, `toFatInt`, `toBigInt`, `toString`, `toList` and `operator[]` (at any index)
returns a value: none reads an index at or beyond the end of the buffer. On every non-empty
buffer `isEmpty` reads the first byte only. -/
theorem C19_reads_within_bounds (v : RLPValue) (rest : Bytes) (hf : v.Fits)
    (hl : (encode v).length < 2 ^ 64) (dflt i : Nat) :
    (∃ x, RLP.isEmpty ⟨some (encode v ++ rest)⟩ = .ok x) ∧
    (∃ x, RLP.items ⟨some (encode v ++ rest)⟩ = .ok x) ∧
    (∃ x, RLP.size ⟨some (encode v ++ rest)⟩ = .ok x) ∧
    (∃ x, RLP.toSlimInt ⟨some (encode v ++ rest)⟩ dflt = .ok x) ∧
    (∃ x, RLP.toFatInt ⟨some (encode v ++ rest)⟩ dflt = .ok x) ∧
    (∃ x, RLP.toBigInt ⟨some (encode v ++ rest)⟩ dflt = .ok x) ∧
    (∃ x, RLP.toString ⟨some (encode v ++ rest)⟩ = .ok x) ∧
    (∃ x, RLP.toList ⟨some (encode v ++ rest)⟩ = .ok x) ∧
    (∃ x, RLP.getItem ⟨some (encode v ++ rest)⟩ i = .ok x) ∧
    (∀ (b : Nat) (t : Bytes), ∃ x, RLP.isEmpty ⟨some (b :: t)⟩ = .ok x) := by
  have hemp := RLP.isEmpty_ok_of_pos (encode_length_pos v hf) rest
  have hsize := RLP.size_encode v rest hf hl
  have hlast : ∀ (b : Nat) (t : Bytes), ∃ x, RLP.isEmpty ⟨some (b :: t)⟩ = .ok x :=
    fun b t => ⟨_, RLP.isEmpty_cons b t⟩
  cases v with
  | int x =>
    simp only [RLPValue.Fits] at hf
    rw [encode_int hf] at hl ⊢
    have hs := RLP.isString_intLayout x rest hf
    have hli := RLP.isList_intLayout x rest hf
    rw [encode_int hf] at hemp hsize
    exact ⟨hemp, RLP.items_intLayout_ok x rest hf, ⟨_, hsize⟩,
      RLP.toInt_intLayout_ok _ x dflt rest hf hl, RLP.toInt_intLayout_ok _ x dflt rest hf hl,
      RLP.toInt_intLayout_ok _ x dflt rest hf hl, ⟨_, RLP.toString_of_not_isString _ hs⟩,
      ⟨_, RLP.toList_of_not_isList _ hli⟩, ⟨_, RLP.getItem_of_not_isList _ _ hli⟩, hlast⟩
  | str s =>
    have hd := RLPValue.decodedBy_encode (.str s) rest hf hl
    simp only [RLPValue.Fits] at hf
    rw [encode_str hf, List.append_assoc] at hemp hsize hd ⊢
    have hi := RLP.isInt_countLayout 0x40 s.length (s ++ rest) (le_refl _) hf
    have hli := RLP.isList_countLayout_str s.length (s ++ rest) hf
    exact ⟨hemp, ⟨_, RLP.items_countLayout _ _ _ (Or.inl rfl) hf⟩, ⟨_, hsize⟩,
      ⟨_, RLP.toInt_of_not_isInt _ _ _ hi⟩, ⟨_, RLP.toInt_of_not_isInt _ _ _ hi⟩,
      ⟨_, RLP.toInt_of_not_isInt _ _ _ hi⟩, ⟨_, hd.2⟩,
      ⟨_, RLP.toList_of_not_isList _ hli⟩, ⟨_, RLP.getItem_of_not_isList _ _ hli⟩, hlast⟩
  | list l =>
    have hd := RLPValue.decodedBy_encode (.list l) rest hf hl
    have hget : ∃ x, RLP.getItem ⟨some (encode (.list l) ++ rest)⟩ i = .ok x := by
      by_cases hi : i < l.length
      · exact ⟨_, RLP.getItem_encode_list l rest hf hl i hi⟩
      · exact ⟨_, RLP.getItem_beyond l rest hf i (by omega)⟩
    obtain ⟨views, hv, _⟩ := hd.2
    have hf2 := hf
    simp only [RLPValue.Fits] at hf2
    have hitems : ∃ x, RLP.items ⟨some (encode (.list l) ++ rest)⟩ = .ok x := by
      rw [encode_list hf, List.append_assoc]
      exact ⟨_, RLP.items_countLayout _ _ _ (Or.inr rfl) hf2.1⟩
    have hi : RLP.isInt ⟨some (encode (.list l) ++ rest)⟩ = .ok false := by
      rw [encode_list hf, List.append_assoc]
      exact RLP.isInt_countLayout 0x80 _ _ (by norm_num) hf2.1
    have hs : RLP.isString ⟨some (encode (.list l) ++ rest)⟩ = .ok false := by
      rw [encode_list hf, List.append_assoc]
      exact RLP.isString_countLayout_list _ _ hf2.1
    exact ⟨hemp, hitems, ⟨_, hsize⟩,
      ⟨_, RLP.toInt_of_not_isInt _ _ _ hi⟩, ⟨_, RLP.toInt_of_not_isInt _ _ _ hi⟩,
      ⟨_, RLP.toInt_of_not_isInt _ _ _ hi⟩, ⟨_, RLP.toString_of_not_isString _ hs⟩,
      ⟨_, hv⟩, hget, hlast⟩

/-- Witness of the amended C19 on the encoding of `[1024, "dog", [15]]` followed by `ff`, at
index 1, and the operations evaluated on complete buffers: `19 04 00` reads as 1024,
`78 03 61 62 63` holds 3 bytes. -/
theorem C19_reads_within_bounds_witness :
    ((∃ x, RLP.isEmpty ⟨some (encode (.list [.int 1024, .str [0x64, 0x6f, 0x67],
        .list [.int 15]]) ++ [0xff])⟩ = .ok x) ∧
      (∃ x, RLP.items ⟨some (encode (.list [.int 1024, .str [0x64, 0x6f, 0x67],
        .list [.int 15]]) ++ [0xff])⟩ = .ok x) ∧
      (∃ x, RLP.size ⟨some (encode (.list [.int 1024, .str [0x64, 0x6f, 0x67],
        .list [.int 15]]) ++ [0xff])⟩ = .ok x) ∧
      (∃ x, RLP.toSlimInt ⟨some (encode (.list [.int 1024, .str [0x64, 0x6f, 0x67],
        .list [.int 15]]) ++ [0xff])⟩ 0 = .ok x) ∧
      (∃ x, RLP.toFatInt ⟨some (encode (.list [.int 1024, .str [0x64, 0x6f, 0x67],
        .list [.int 15]]) ++ [0xff])⟩ 0 = .ok x) ∧
      (∃ x, RLP.toBigInt ⟨some (encode (.list [.int 1024, .str [0x64, 0x6f, 0x67],
        .list [.int 15]]) ++ [0xff])⟩ 0 = .ok x) ∧
      (∃ x, RLP.toString ⟨some (encode (.list [.int 1024, .str [0x64, 0x6f, 0x67],
        .list [.int 15]]) ++ [0xff])⟩ = .ok x) ∧
      (∃ x, RLP.toList ⟨some (encode (.list [.int 1024, .str [0x64, 0x6f, 0x67],
        .list [.int 15]]) ++ [0xff])⟩ = .ok x) ∧
      (∃ x, RLP.getItem ⟨some (encode (.list [.int 1024, .str [0x64, 0x6f, 0x67],
        .list [.int 15]]) ++ [0xff])⟩ 1 = .ok x) ∧
      (∀ (b : Nat) (t : Bytes), ∃ x, RLP.isEmpty ⟨some (b :: t)⟩ = .ok x)) ∧
    RLP.toSlimInt ⟨some [0x19, 0x04, 0x00]⟩ = .ok 1024 ∧
    RLP.items ⟨some [0x78, 0x03, 0x61, 0x62, 0x63]⟩ = .ok 3 ∧
    RLP.isEmpty ⟨some [0x19]⟩ = .ok false :=
  ⟨C19_reads_within_bounds (.list [.int 1024, .str [0x64, 0x6f, 0x67], .list [.int 15]]) [0xff]
    (by
      simp only [RLPValue.Fits, RLPValue.FitsAll, List.length_cons, List.length_nil]
      exact ⟨by norm_num, byteLen_lt_of_lt_two_pow_256 (by norm_num), by norm_num,
        ⟨by norm_num, byteLen_lt_of_lt_two_pow_256 (by norm_num), trivial⟩, trivial⟩)
    (by decide) 0 1,
   by decide, by decide, by decide⟩

/-! ## Encodings that are not minimal -/

namespace RLP

/-- An integer written with any width `w` in `1..32`: the extractor returns the big-endian
value of the `w` bytes, whatever they are. -/
theorem toInt_width (wrap : Nat → Nat) (w : Nat) (bs rest : Bytes) (dflt : Nat)
    (h1 : 1 ≤ w) (h2 : w ≤ 32) (hlen : bs.length = w) (hb : ∀ x ∈ bs, x < 256)
    (hw : ∀ y, y ≤ bigEndianValue bs → wrap y = y) :
    toInt wrap ⟨some ((0x17 + w) :: (bs ++ rest))⟩ dflt = .ok (bigEndianValue bs) := by
  have hrd := readBigEndian_eq wrap [0x17 + w] rest bs [] 0 hb (by simpa using hw)
  simp only [List.append_nil, List.length_nil, List.length_singleton, Nat.zero_mul,
    Nat.zero_add, List.singleton_append, List.cons_append, List.nil_append] at hrd
  simp only [toInt, intSize, intLengthSize, isInt_cons, isDirectValueInt_cons,
    isIndirectAddressedInt_cons, get_zero_cons, bind, Except.bind, pure, Except.pure]
  rw [decide_eq_true (show 0x17 + w < 0x40 by omega),
    decide_eq_false (show ¬ 0x17 + w < 0x18 by omega),
    decide_eq_false (show ¬ 0x38 ≤ 0x17 + w by omega)]
  simp only [Bool.not_true, Bool.false_eq_true, if_false, Bool.and_false, Bool.true_and,
    Nat.add_sub_cancel_left]
  have e1 : (w + uintMod - 0) % uintMod = bs.length := by unfold uintMod; omega
  have e2 : (0 + 1) % uintMod = 1 := by unfold uintMod; omega
  rw [e1, e2]
  exact hrd

/-- A string written with a long-form length of any `k` bytes in `1..8`: the extractor
returns the bytes, whatever the length bytes are. -/
theorem toString_longForm (k : Nat) (lb s rest : Bytes) (h1 : 1 ≤ k) (h2 : k ≤ 8)
    (hlen : lb.length = k) (hb : ∀ x ∈ lb, x < 256) (hv : bigEndianValue lb = s.length)
    (hs : s.length < 2 ^ 64) :
    isString ⟨some ((0x77 + k) :: (lb ++ (s ++ rest)))⟩ = .ok true ∧
    toString ⟨some ((0x77 + k) :: (lb ++ (s ++ rest)))⟩ = .ok s := by
  have hstr : isString ⟨some ((0x77 + k) :: (lb ++ (s ++ rest)))⟩ = .ok true := by
    rw [isString_cons, decide_eq_true (show 0x40 ≤ 0x77 + k by omega),
      decide_eq_true (show 0x77 + k < 0x80 by omega)]
    rfl
  have hn : (0x77 + k) &&& 0x3f = 0x37 + k := by
    rw [show 0x77 + k = 0x40 + (0x37 + k) by omega]
    exact land_0x3f_str (0x37 + k) (by omega)
  have hit : items ⟨some ((0x77 + k) :: (lb ++ (s ++ rest)))⟩ = .ok s.length := by
    rw [items_cons_big _ _ (by rw [hn]; omega), hn]
    have hrd := readBigEndian_eq (· % uintMod) [0x77 + k] (s ++ rest) lb [] 0 hb
      (by
        intro y hy
        simp only [Nat.zero_mul, Nat.zero_add] at hy
        exact mod_uintMod_of_le hs y (by omega))
    simp only [List.append_nil, List.length_nil, List.length_singleton, Nat.zero_mul,
      Nat.zero_add, List.singleton_append, List.cons_append, List.nil_append] at hrd
    rw [Nat.add_sub_cancel_left, ← hlen]
    rw [← hlen] at hrd
    rw [hrd, hv]
  have hpay : payload ⟨some ((0x77 + k) :: (lb ++ (s ++ rest)))⟩ = .ok (some (s ++ rest)) := by
    rw [payload_cons _ _ (by omega) (by omega), hn, if_neg (by omega), Nat.add_sub_cancel_left]
    have := cropped_append ((0x77 + k) :: lb) (s ++ rest)
    simp only [List.length_cons, hlen, List.cons_append] at this
    rw [show 1 + k = k + 1 by omega, this]
  refine ⟨hstr, ?_⟩
  simp [toString, hstr, hit, hpay, bind, Except.bind, pure, Except.pure,
    fConstBytes.croppedCount, fConstBytes.toString]

end RLP

/-- C20 as stated fails: the reader returns a value on each of these buffers, none of which
is the encoding of that value. `18 05` (an integer below 24 in a non-direct form) and
`19 00 05` (an integer with a leading zero byte) read as `5`, whose encoding is `05`;
`78 03 61 62 63` (a long-form length below 56) and `79 00 03 61 62 63` (a long-form length
with a leading zero byte) read as `"abc"`, whose encoding is `43 61 62 63`; `b8 01 05`
(a long-form item count) is a list of one item. -/
theorem C20_non_minimal_counterexample :
    RLP.isInt ⟨some [0x18, 0x05]⟩ = .ok true ∧
    RLP.toSlimInt ⟨some [0x18, 0x05]⟩ = .ok 5 ∧ RLP.toBigInt ⟨some [0x18, 0x05]⟩ = .ok 5 ∧
    RLP.size ⟨some [0x18, 0x05]⟩ = .ok 2 ∧
    RLP.toBigInt ⟨some [0x19, 0x00, 0x05]⟩ = .ok 5 ∧
    encode (.int 5) = [0x05] ∧
    RLP.isString ⟨some [0x78, 0x03, 0x61, 0x62, 0x63]⟩ = .ok true ∧
    RLP.toString ⟨some [0x78, 0x03, 0x61, 0x62, 0x63]⟩ = .ok [0x61, 0x62, 0x63] ∧
    RLP.size ⟨some [0x78, 0x03, 0x61, 0x62, 0x63]⟩ = .ok 5 ∧
    RLP.toString ⟨some [0x79, 0x00, 0x03, 0x61, 0x62, 0x63]⟩ = .ok [0x61, 0x62, 0x63] ∧
    encode (.str [0x61, 0x62, 0x63]) = [0x43, 0x61, 0x62, 0x63] ∧
    RLP.itemCount ⟨some [0xb8, 0x01, 0x05]⟩ = .ok 1 ∧
    RLP.getItem ⟨some [0xb8, 0x01, 0x05]⟩ 0 = .ok ⟨some [0x05]⟩ := by
  decide

/-- C20 (amended): encodings that are not minimal are read, not rejected. An integer written
with a width `w` in `1..32` (first byte `0x17 + w`, then `w` bytes) is read by `toBigInt()` as
the big-endian value of the `w` bytes, and by `toSlimInt()` when that value is below `2 ^ 64`,
whether or not the first of the bytes is zero and whether or not the value is below 24. A
string written with a long-form length (first byte `0x77 + k` with `k` in `1..8`, then `k`
bytes whose big-endian value is the length, then the bytes) is read by `toString()` as the
bytes, whether or not the first length byte is zero and whether or not the length is below
56. -/
theorem C20_non_minimal_accepted :
    (∀ (w : Nat) (bs rest : Bytes), 1 ≤ w → w ≤ 32 → bs.length = w → (∀ x ∈ bs, x < 256) →
      RLP.isInt ⟨some ((0x17 + w) :: (bs ++ rest))⟩ = .ok true ∧
      RLP.toBigInt ⟨some ((0x17 + w) :: (bs ++ rest))⟩ = .ok (bigEndianValue bs) ∧
      (bigEndianValue bs < 2 ^ 64 →
        RLP.toSlimInt ⟨some ((0x17 + w) :: (bs ++ rest))⟩ = .ok (bigEndianValue bs))) ∧
    (∀ (k : Nat) (lb s rest : Bytes), 1 ≤ k → k ≤ 8 → lb.length = k → (∀ x ∈ lb, x < 256) →
      bigEndianValue lb = s.length → s.length < 2 ^ 64 →
      RLP.isString ⟨some ((0x77 + k) :: (lb ++ (s ++ rest)))⟩ = .ok true ∧
      RLP.toString ⟨some ((0x77 + k) :: (lb ++ (s ++ rest)))⟩ = .ok s) := by
  refine ⟨?_, ?_⟩
  · intro w bs rest h1 h2 hlen hb
    refine ⟨?_, RLP.toInt_width id w bs rest 0 h1 h2 hlen hb (fun _ _ => rfl), ?_⟩
    · rw [RLP.isInt_cons, decide_eq_true (show 0x17 + w < 0x40 by omega)]
    · intro hv
      exact RLP.toInt_width (· % uintMod) w bs rest 0 h1 h2 hlen hb (RLP.mod_uintMod_of_le hv)
  · intro k lb s rest h1 h2 hlen hb hv hs
    exact RLP.toString_longForm k lb s rest h1 h2 hlen hb hv hs

/-- Witness of the amended C20 on `19 00 05` followed by `ff` and on `79 00 03 61 62 63`. -/
theorem C20_non_minimal_accepted_witness :
    (RLP.isInt ⟨some ((0x17 + 2) :: ([0x00, 0x05] ++ [0xff]))⟩ = .ok true ∧
      RLP.toBigInt ⟨some ((0x17 + 2) :: ([0x00, 0x05] ++ [0xff]))⟩
        = .ok (bigEndianValue [0x00, 0x05]) ∧
      (bigEndianValue [0x00, 0x05] < 2 ^ 64 →
        RLP.toSlimInt ⟨some ((0x17 + 2) :: ([0x00, 0x05] ++ [0xff]))⟩
          = .ok (bigEndianValue [0x00, 0x05]))) ∧
    (RLP.isString ⟨some ((0x77 + 2) :: ([0x00, 0x03] ++ ([0x61, 0x62, 0x63] ++ [])))⟩
        = .ok true ∧
      RLP.toString ⟨some ((0x77 + 2) :: ([0x00, 0x03] ++ ([0x61, 0x62, 0x63] ++ [])))⟩
        = .ok [0x61, 0x62, 0x63]) ∧
    bigEndianValue [0x00, 0x05] = 5 :=
  ⟨C20_non_minimal_accepted.1 2 [0x00, 0x05] [0xff] (by norm_num) (by norm_num) rfl
    (by decide),
   C20_non_minimal_accepted.2 2 [0x00, 0x03] [0x61, 0x62, 0x63] [] (by norm_num) (by norm_num)
    rfl (by decide) (by decide) (by norm_num), by decide⟩

/-! ## Removing an absent key -/

/-- C21: removing an absent key is a no-op. For every trie reachable from the empty trie by
inserts of non-empty values and removes, and every key `k` for which `at(k)` is empty (a key
that is a proper prefix of a stored key, or diverges inside the path of one, or lies outside
the trie), `Trie::remove(k)` returns the trie as it was: the root encoding `Trie::rlp()` and
the root digest `Trie::hash256()` are unchanged. -/
theorem C21_remove_absent_noop (sha3 : Bytes → Bytes) (t : Trie) (hr : t.Reachable)
    (k : Bytes) (habs : t.at_ k = .ok []) :
    ∃ t2, t.remove k = .ok t2 ∧ t2.m_root = t.m_root ∧ t2.rlp sha3 = t.rlp sha3 ∧
      t2.hash256 sha3 = t.hash256 sha3 := by
  have hc := hr.canonical
  obtain ⟨t2, h2, c2, g2⟩ := Trie.remove_root_spec t hc k
  have hab : t.m_root.lookup (toHex k) = [] := by
    rw [Trie.at_eq t hc] at habs
    exact Except.ok.inj habs
  have heq : t2 = t := by
    apply Trie.root_unique t2 t c2 hc
    intro nk
    rw [g2]
    by_cases h : nk = toHex k
    · subst h; simp [hab]
    · simp [h]
  exact ⟨t2, h2, by rw [heq], by rw [heq], by rw [heq]⟩

/-- Witness of C21 on the trie of scenario S2 and the absent key "d", a proper prefix of the
stored keys; and the root encoding evaluated after the removal of "d", of "dot" (which
diverges inside the path of "dog") and of "cat". -/
theorem C21_remove_absent_noop_witness :
    (∃ t, Trie.insertAll Trie.empty scenarioS2 = .ok t ∧
      ∃ t2, t.remove [0x64] = .ok t2 ∧ t2.m_root = t.m_root ∧
        t2.rlp zeroDigest = t.rlp zeroDigest ∧ t2.hash256 zeroDigest = t.hash256 zeroDigest) ∧
    ((Trie.insertAll Trie.empty scenarioS2).bind fun t =>
      (t.remove [0x64]).bind fun t2 => t2.rlp zeroDigest)
      = ((Trie.insertAll Trie.empty scenarioS2).bind fun t => t.rlp zeroDigest) ∧
    ((Trie.insertAll Trie.empty scenarioS2).bind fun t =>
      (t.remove [0x64, 0x6f, 0x74]).bind fun t2 => t2.rlp zeroDigest)
      = ((Trie.insertAll Trie.empty scenarioS2).bind fun t => t.rlp zeroDigest) ∧
    ((Trie.insertAll Trie.empty scenarioS2).bind fun t =>
      (t.remove [0x63, 0x61, 0x74]).bind fun t2 => t2.rlp zeroDigest)
      = ((Trie.insertAll Trie.empty scenarioS2).bind fun t => t.rlp zeroDigest) := by
  obtain ⟨t, h1, hc, h2⟩ := Trie.insertAll_empty_lookup scenarioS2 (by decide)
  have hr : t.Reachable :=
    Trie.insertAll_reachable scenarioS2 Trie.empty t Trie.Reachable.empty (by decide) h1
  have habs : t.at_ [0x64] = .ok [] := by
    rw [Trie.at_eq t hc, h2]
    decide
  exact ⟨⟨t, h1, C21_remove_absent_noop zeroDigest t hr [0x64] habs⟩, by decide, by decide,
    by decide⟩

/-! ## Minimality of every node -/

namespace TrieNode

theorem Within.canonical_within {n r : TrieNode} (h : n.Within r) (hc : r.Canonical) : n.Canonical := by
  induction h with
  | here => exact hc
  | infixNode e _ ih =>
    simp only [Canonical] at hc
    exact ih hc.2.2
  | branch i v _ ih =>
    simp only [Canonical] at hc
    exact ih (hc.1 i)

theorem mem_populated_slots (nodes : Nibble → TrieNode) (k : Nibble)
    (hk : (nodes k).isNull = false) :
    k ∈ (List.finRange 16).filter (fun i => !(nodes i).isNull) := by
  simp [List.mem_filter, hk]

theorem populated_ge_two (nodes : Nibble → TrieNode) (v : Bytes)
    (h : (∃ i j, i ≠ j ∧ (nodes i).isNull = false ∧ (nodes j).isNull = false) ∨
      (v ≠ [] ∧ ∃ i, (nodes i).isNull = false)) : 2 ≤ populated nodes v := by
  unfold populated
  rcases h with ⟨i, j, hij, hi, hj⟩ | ⟨hv, i, hi⟩
  · have hnd : ((List.finRange 16).filter (fun i => !(nodes i).isNull)).Nodup :=
      (List.nodup_finRange 16).filter _
    have h2 : ({i, j} : Finset Nibble) ⊆
        ((List.finRange 16).filter (fun i => !(nodes i).isNull)).toFinset := by
      intro x hx
      simp only [Finset.mem_insert, Finset.mem_singleton] at hx
      rcases hx with rfl | rfl
      · exact List.mem_toFinset.mpr (mem_populated_slots nodes _ hi)
      · exact List.mem_toFinset.mpr (mem_populated_slots nodes _ hj)
    have hcard := Finset.card_le_card h2
    rw [List.toFinset_card_of_nodup hnd, Finset.card_pair hij] at hcard
    omega
  · have hpos := List.length_pos_of_mem (mem_populated_slots nodes i hi)
    rw [if_neg hv]
    omega

end TrieNode

/-- C25: minimality is an invariant of the in-memory trie. In every trie reachable from the
empty trie by inserts of non-empty values and removes, for every node of the tree: (a) a
branch has at least two populated among its sixteen slots and its value; (b) an extension has
a non-empty partial key and (c) its child is a branch; (d) the value of a leaf is non-empty
(the value of a branch counts as populated exactly when it is non-empty). -/
theorem C25_minimality_invariant (t : Trie) (hr : t.Reachable) (n : TrieNode)
    (hn : n.Within t.m_root) :
    (∀ nodes v, n = .branch nodes v → 2 ≤ TrieNode.populated nodes v) ∧
    (∀ e next, n = .infixNode e next → e ≠ [] ∧ ∃ nodes v, next = .branch nodes v) ∧
    (∀ e v, n = .leaf e v → v ≠ []) := by
  have hc := hn.canonical_within hr.canonical
  refine ⟨?_, ?_, ?_⟩
  · intro nodes v h
    subst h
    simp only [TrieNode.Canonical] at hc
    exact TrieNode.populated_ge_two nodes v hc.2
  · intro e next h
    subst h
    simp only [TrieNode.Canonical] at hc
    exact ⟨hc.1, (TrieNode.isBranch_iff next).mp hc.2.1⟩
  · intro e v h
    subst h
    simpa [TrieNode.Canonical] using hc

/-- Witness of C25 on the root of the trie of scenario S2, and on the leaf left by one
insert. -/
theorem C25_minimality_invariant_witness :
    (∃ t, Trie.insertAll Trie.empty scenarioS2 = .ok t ∧
      (∀ nodes v, t.m_root = .branch nodes v → 2 ≤ TrieNode.populated nodes v) ∧
      (∀ e next, t.m_root = .infixNode e next → e ≠ [] ∧ ∃ nodes v, next = .branch nodes v) ∧
      (∀ e v, t.m_root = .leaf e v → v ≠ [])) ∧
    ((∀ nodes v, TrieNode.leaf (toHex [0x6b]) [0x76] = .branch nodes v →
        2 ≤ TrieNode.populated nodes v) ∧
      (∀ e next, TrieNode.leaf (toHex [0x6b]) [0x76] = .infixNode e next →
        e ≠ [] ∧ ∃ nodes v, next = .branch nodes v) ∧
      (∀ e v, TrieNode.leaf (toHex [0x6b]) [0x76] = .leaf e v → v ≠ [])) := by
  obtain ⟨t, h1, _, _⟩ := Trie.insertAll_empty_lookup scenarioS2 (by decide)
  have hr : t.Reachable :=
    Trie.insertAll_reachable scenarioS2 Trie.empty t Trie.Reachable.empty (by decide) h1
  exact ⟨⟨t, h1, C25_minimality_invariant t hr t.m_root TrieNode.Within.here⟩,
    C25_minimality_invariant ⟨.leaf (toHex [0x6b]) [0x76]⟩
      (Trie.Reachable.insert [0x6b] [0x76] Trie.Reachable.empty (by simp) rfl)
      (.leaf (toHex [0x6b]) [0x76]) TrieNode.Within.here⟩

/-! ## The empty key -/

/-- C24 as stated fails: no operation of the trie rejects the empty key. On the empty trie
`insert("", "v")` stores a leaf at the empty nibble path, so that the root encoding becomes
`82 41 20 41 76` and `at("")` returns `"v"`; `remove("")` then gives the empty trie back; and
`at("")` and `remove("")` on the empty trie return as for any absent key. -/
theorem C24_empty_key_counterexample :
    ((Trie.empty.insert [] [0x76]).bind fun t => t.rlp zeroDigest)
      = .ok [0x82, 0x41, 0x20, 0x41, 0x76] ∧
    Trie.empty.rlp zeroDigest = .ok [0x40] ∧
    ((Trie.empty.insert [] [0x76]).bind fun t => t.at_ []) = .ok [0x76] ∧
    ((Trie.empty.insert [] [0x76]).bind fun t => (t.remove []).bind fun t2 =>
      t2.rlp zeroDigest) = .ok [0x40] ∧
    Trie.empty.at_ [] = .ok [] ∧
    ((Trie.empty.remove []).bind fun t => t.rlp zeroDigest) = .ok [0x40] ∧
    ((Trie.insertAll Trie.empty scenarioS2).bind fun t =>
      (t.insert [] [0x76]).bind fun t2 => t2.at_ []) = .ok [0x76] := by
  decide

/-- C24 (amended): the empty key is a key like any other. For every trie reachable from the
empty trie by inserts of non-empty values and removes and every non-empty value `v`:
`at("")` and `remove("")` return, `insert("", v)` returns a trie in which `at("")` is `v` and
`at` of every other byte-string key is what it was, and `remove("")` on that trie returns a
trie in which `at("")` is empty. No condition `InvalidKey` is reported. -/
theorem C24_empty_key_accepted (t : Trie) (hr : t.Reachable) (v : Bytes) (hv : v ≠ []) :
    (∃ x, t.at_ [] = .ok x) ∧ (∃ t0, t.remove [] = .ok t0) ∧
    ∃ t1, t.insert [] v = .ok t1 ∧ t1.at_ [] = .ok v ∧
      (∀ k, IsBytes k → k ≠ [] → t1.at_ k = t.at_ k) ∧
      ∃ t2, t1.remove [] = .ok t2 ∧ t2.at_ [] = .ok [] := by
  have hc := hr.canonical
  obtain ⟨t0, h0, _, _⟩ := Trie.remove_root_spec t hc []
  obtain ⟨t1, h1, c1, g1⟩ := Trie.insert_root_spec t hc [] v hv
  obtain ⟨t2, h2, c2, g2⟩ := Trie.remove_root_spec t1 c1 []
  refine ⟨⟨_, Trie.at_eq t hc []⟩, ⟨t0, h0⟩, t1, h1, ?_, ?_, t2, h2, ?_⟩
  · rw [Trie.at_eq t1 c1, g1]; simp
  · intro k hk hne
    rw [Trie.at_eq t1 c1, Trie.at_eq t hc, g1]
    have : toHex k ≠ toHex [] := fun h => hne (toHex_injective _ _ hk (by intro b hb; simp at hb) h)
    simp [this]
  · rw [Trie.at_eq t2 c2, g2]; simp

/-- Witness of the amended C24 on the trie of scenario S2 and the value "v". -/
theorem C24_empty_key_accepted_witness :
    ∃ t, Trie.insertAll Trie.empty scenarioS2 = .ok t ∧
      (∃ x, t.at_ [] = .ok x) ∧ (∃ t0, t.remove [] = .ok t0) ∧
      ∃ t1, t.insert [] [0x76] = .ok t1 ∧ t1.at_ [] = .ok [0x76] ∧
        (∀ k, IsBytes k → k ≠ [] → t1.at_ k = t.at_ k) ∧
        ∃ t2, t1.remove [] = .ok t2 ∧ t2.at_ [] = .ok [] := by
  obtain ⟨t, h1, _, _⟩ := Trie.insertAll_empty_lookup scenarioS2 (by decide)
  have hr : t.Reachable :=
    Trie.insertAll_reachable scenarioS2 Trie.empty t Trie.Reachable.empty (by decide) h1
  exact ⟨t, h1, C24_empty_key_accepted t hr [0x76] (by decide)⟩

/-! ## The persistent trie and `sharedNibbles`, evaluated -/

namespace GenericTrieDB

theorem insert_root (sha3 : Bytes → Bytes) (db : GenericTrieDB) (k v : Bytes) :
    (db.insert sha3 k v).m_root = sha3 [] := rfl

theorem insertAll_root (sha3 : Bytes → Bytes) : ∀ (l : List (Bytes × Bytes)) (db : GenericTrieDB),
    l ≠ [] → (insertAll sha3 db l).m_root = sha3 []
  | [], _, h => absurd rfl h
  | [(k, v)], db, _ => rfl
  | (k, v) :: e :: rest, db, _ => by
    rw [insertAll]
    exact insertAll_root sha3 (e :: rest) _ (by simp)

end GenericTrieDB

/-- C22, the code evaluated: `GenericTrieDB::insert` leaves as root the digest of the empty
byte string, whatever is inserted and whatever hash function is used, because `mergeHelper`
writes nothing to the stream. After `insert("key", "value")` the in-memory trie has the root
digest `H(82 44 20 6b 65 79 45 76 61 6c 75 65)`, the digest of its root encoding; with a hash
function that tells the two byte strings apart the two digests differ. -/
theorem C22_persistent_root_evaluated :
    (∀ (sha3 : Bytes → Bytes) (db : GenericTrieDB) (k v : Bytes),
      (db.insert sha3 k v).m_root = sha3 []) ∧
    (∀ (sha3 : Bytes → Bytes) (e : Bytes × Bytes) (l : List (Bytes × Bytes)),
      (GenericTrieDB.insertAll sha3 (GenericTrieDB.init sha3) (e :: l)).m_root = sha3 []) ∧
    (∀ sha3 : Bytes → Bytes,
      ((Trie.empty.insert [0x6b, 0x65, 0x79] [0x76, 0x61, 0x6c, 0x75, 0x65]).bind fun t =>
        t.hash256 sha3)
      = .ok (sha3 [0x82, 0x44, 0x20, 0x6b, 0x65, 0x79, 0x45, 0x76, 0x61, 0x6c, 0x75, 0x65])) ∧
    Except.ok ((GenericTrieDB.init lengthDigest).insert lengthDigest [0x6b, 0x65, 0x79]
        [0x76, 0x61, 0x6c, 0x75, 0x65]).m_root
      ≠ ((Trie.empty.insert [0x6b, 0x65, 0x79] [0x76, 0x61, 0x6c, 0x75, 0x65]).bind fun t =>
        t.hash256 lengthDigest) := by
  refine ⟨GenericTrieDB.insert_root,
    fun sha3 e l => GenericTrieDB.insertAll_root sha3 (e :: l) _ (by simp),
    fun sha3 => ?_, by decide⟩
  rfl

/-- C23, the code evaluated: `GenericTrieDB::at` returns the empty byte string for every key
and every state of the trie, so after `insert("key", "value")` `at("key")` is empty and not
`"value"`; `GenericTrieDB::remove` leaves the trie as it is, and `at` after it is empty as
well. -/
theorem C23_persistent_lookup_evaluated :
    (∀ (sha3 : Bytes → Bytes) (db : GenericTrieDB) (k v : Bytes),
      (db.insert sha3 k v).at_ k = []) ∧
    (∀ (db : GenericTrieDB) (k : Bytes), db.remove k = db ∧ (db.remove k).at_ k = []) ∧
    ((GenericTrieDB.init zeroDigest).insert zeroDigest [0x6b, 0x65, 0x79]
      [0x76, 0x61, 0x6c, 0x75, 0x65]).at_ [0x6b, 0x65, 0x79] = [] ∧
    ((Trie.empty.insert [0x6b, 0x65, 0x79] [0x76, 0x61, 0x6c, 0x75, 0x65]).bind fun t =>
      t.at_ [0x6b, 0x65, 0x79]) = .ok [0x76, 0x61, 0x6c, 0x75, 0x65] :=
  ⟨fun _ _ _ _ => rfl, fun _ _ => ⟨rfl, rfl⟩, rfl, by decide⟩

theorem sharedNibbles_zero (a : Bytes) (ab ae : Nat) (b : Bytes) (bb be : Nat) :
    sharedNibbles a ab ae b bb be = .ok 0 ∨ ∃ e, sharedNibbles a ab ae b bb be = .error e := by
  unfold sharedNibbles
  cases sharedNibblesLoop a b ae be (ae - ab) ab bb with
  | error e => exact Or.inr ⟨e, rfl⟩
  | ok _ => exact Or.inl rfl

/-- C26, the code evaluated: `sharedNibbles` returns `ret`, which is set to 0 and never
changed by the loop, so every call that returns returns 0. On two identical one-byte inputs
over their full ranges it returns 0, where the shared prefix has 2 nibbles; on `12 34` and
`12 35` it returns 0, where the shared prefix has 3. -/
theorem C26_sharedNibbles_evaluated :
    (∀ (a : Bytes) (ab ae : Nat) (b : Bytes) (bb be : Nat),
      sharedNibbles a ab ae b bb be = .ok 0 ∨
        ∃ e, sharedNibbles a ab ae b bb be = .error e) ∧
    sharedNibbles [0x12] 0 2 [0x12] 0 2 = .ok 0 ∧
    commonPrefix (toHex [0x12]) (toHex [0x12]) = 2 ∧
    sharedNibbles [0x12, 0x34] 0 4 [0x12, 0x35] 0 4 = .ok 0 ∧
    commonPrefix (toHex [0x12, 0x34]) (toHex [0x12, 0x35]) = 3 :=
  ⟨sharedNibbles_zero, by decide, by decide, by decide, by decide⟩

/-! ## The two hex-prefix encoders -/

theorem nibble_cons_add_two (b : Nat) (ds : Bytes) (i : Nat) :
    nibble (b :: ds) (i + 2) = nibble ds i := by
  have e1 : (i + 2) / 2 = i / 2 + 1 := by omega
  have e2 : (i + 2) &&& 1 = i &&& 1 := by
    rw [Nat.and_one_is_mod, Nat.and_one_is_mod]; omega
  simp only [nibble, e1, e2, readByte, List.getElem?_cons_succ]

theorem nibble_zero (b : Nat) (ds : Bytes) :
    nibble (b :: ds) 0 = .ok (b / 16) := by
  simp [nibble, readByte, bind, Except.bind, pure, Except.pure, Nat.shiftRight_eq_div_pow]

theorem nibble_one (b : Nat) (ds : Bytes) :
    nibble (b :: ds) 1 = .ok (b % 16) := by
  have : b &&& 15 = b % 16 := by
    have := Nat.and_pow_two_sub_one_eq_mod b 4
    simpa using this
  simp [nibble, readByte, bind, Except.bind, pure, Except.pure, this]

/-- The nibbles of packed bytes are the entries of their nibble expansion. -/
theorem nibble_toHex : ∀ (d : Bytes), IsBytes d → ∀ (i : Nat) (x : Nat),
    ((toHex d).map Fin.val)[i]? = some x → nibble d i = .ok x
  | [], _, i, x, h => by simp [toHex] at h
  | b :: ds, hd, 0, x, h => by
    have hb : b < 256 := hd b (by simp)
    rw [toHex_cons] at h
    simp only [List.map_cons, List.getElem?_cons_zero, Option.some.injEq] at h
    rw [nibble_zero b ds, ← h]
    simp only [Fin.ofNat, Fin.val_mk]
    congr 1
    omega
  | b :: ds, hd, 1, x, h => by
    have hb : b < 256 := hd b (by simp)
    rw [toHex_cons] at h
    simp only [List.map_cons, List.getElem?_cons_succ, List.getElem?_cons_zero,
      Option.some.injEq] at h
    rw [nibble_one b ds, ← h]
    simp only [Fin.ofNat, Fin.val_mk]
    congr 1
    omega
  | b :: ds, hd, i + 2, x, h => by
    rw [toHex_cons] at h
    simp only [List.map_cons, List.getElem?_cons_succ] at h
    rw [nibble_cons_add_two]
    exact nibble_toHex ds (fun y hy => hd y (by simp [hy])) i x h

theorem drop_take_two (n : List Nat) (i k : Nat) (h : i + 2 * (k + 1) ≤ n.length) :
    ∃ a b, n[i]? = some a ∧ n[i + 1]? = some b ∧
      (n.drop i).take (2 * (k + 1)) = a :: b :: (n.drop (i + 2)).take (2 * k) := by
  have h1 : i < n.length := by omega
  have h2 : i + 1 < n.length := by omega
  refine ⟨n[i], n[i + 1], List.getElem?_eq_getElem h1, List.getElem?_eq_getElem h2, ?_⟩
  rw [List.drop_eq_getElem_cons h1, List.drop_eq_getElem_cons h2,
    show 2 * (k + 1) = 2 * k + 1 + 1 by ring, List.take_succ_cons, List.take_succ_cons]

theorem readByte_of_getElem? {n : List Nat} {i a : Nat} (h : n[i]? = some a) :
    readByte n i = .ok a := by
  simp [readByte, h]

/-- The loop of the nibble-vector encoder over the nibbles `i .. i + 2k` of the vector. -/
theorem hexPrefixEncodeLoop_range (n : List Nat) (hn : ∀ x ∈ n, x < 16) :
    ∀ (k i fuel : Nat) (ret : Bytes), i + 2 * k ≤ n.length → k ≤ fuel →
    hexPrefixEncodeLoop n (i + 2 * k) fuel i ret
      = .ok (ret ++ packNibbles ((n.drop i).take (2 * k))) := by
  intro k
  induction k with
  | zero =>
    intro i fuel ret _ _
    cases fuel <;> simp [hexPrefixEncodeLoop, packNibbles]
  | succ k ih =>
    intro i fuel ret h hf
    obtain ⟨f, rfl⟩ : ∃ f, fuel = f + 1 := ⟨fuel - 1, by omega⟩
    obtain ⟨a, b, ha, hb, hdt⟩ := drop_take_two n i k h
    have ha16 : a < 16 := hn a (List.getElem?_mem ha)
    have hb16 : b < 16 := hn b (List.getElem?_mem hb)
    unfold hexPrefixEncodeLoop
    rw [if_pos (by omega), readByte_of_getElem? ha, readByte_of_getElem? hb]
    simp only [bind, Except.bind]
    have e : i + 2 * (k + 1) = (i + 2) + 2 * k := by ring
    rw [e, ih (i + 2) f _ (by omega) (by omega), hdt, Nat.mod_eq_of_lt (by omega)]
    simp [packNibbles]

theorem shl4_mod {a : Nat} (h : a < 16) : (a <<< 4) % 256 = a * 16 := by
  rw [Nat.shiftLeft_eq]
  omega

theorem lor_low_nibble : ∀ a, a < 16 → ∀ b, b < 16 → ((a * 16) ||| b) % 256 = a * 16 + b := by
  decide

/-- The loop of the packed-byte encoder over the nibbles `i .. i + 2k`, entered with an even
`d`: the nibbles are packed two per byte after `ret`. -/
theorem hexPrefixEncodePackedLoop_range (data : Bytes) (n : List Nat) (hn : ∀ x ∈ n, x < 16)
    (hnib : ∀ (j x : Nat), n[j]? = some x → nibble data j = .ok x) :
    ∀ (k i d fuel : Nat) (ret : Bytes), i + 2 * k ≤ n.length → 2 * k ≤ fuel → d % 2 = 0 →
    hexPrefixEncodePackedLoop data (i + 2 * k) fuel i d ret
      = .ok (ret ++ packNibbles ((n.drop i).take (2 * k))) := by
  intro k
  induction k with
  | zero =>
    intro i d fuel ret _ _ _
    cases fuel <;> simp [hexPrefixEncodePackedLoop, packNibbles]
  | succ k ih =>
    intro i d fuel ret h hf hd
    obtain ⟨f, rfl⟩ : ∃ f, fuel = f + 2 := ⟨fuel - 2, by omega⟩
    obtain ⟨a, b, ha, hb, hdt⟩ := drop_take_two n i k h
    have ha16 : a < 16 := hn a (List.getElem?_mem ha)
    have hb16 : b < 16 := hn b (List.getElem?_mem hb)
    have hd1 : ¬ (d &&& 1 ≠ 0) := by rw [Nat.and_one_is_mod]; omega
    have hd2 : ((d + 1) % uintMod) &&& 1 ≠ 0 := by
      rw [Nat.and_one_is_mod]; unfold uintMod; omega
    have hd3 : ((d + 1) % uintMod + 1) % uintMod % 2 = 0 := by unfold uintMod; omega
    unfold hexPrefixEncodePackedLoop
    rw [if_pos (by omega), hnib i a ha]
    simp only [bind, Except.bind]
    unfold hexPrefixEncodePackedLoop
    rw [if_pos (by omega), hnib (i + 1) b hb]
    simp only [bind, Except.bind]
    rw [if_neg hd1, if_pos hd2]
    have e : i + 2 * (k + 1) = (i + 1 + 1) + 2 * k := by ring
    rw [e, ih (i + 1 + 1) _ f _ (by omega) (by omega) hd3, hdt]
    simp [packNibbles, shl4_mod ha16, lor_low_nibble a ha16 b hb16]

theorem toNat_emod_uintMod {b : Nat} (h : b < 2 ^ 64) :
    (((b : Nat) : Int) % (uintMod : Int)).toNat = b := by
  unfold uintMod
  omega

theorem hp_flag_even (t : Bool) :
    ((if t = true then 2 else 0) ||| 0) * 16 % 256 = (if t = true then 2 else 0) * 16 := by
  cases t <;> rfl

theorem hp_flag_odd (t : Bool) {a : Nat} (ha : a < 16) :
    (((if t = true then 2 else 0) ||| 1) * 16 % 256 ||| a) % 256
      = ((if t = true then 2 else 0) + 1) * 16 + a := by
  cases t
  · simpa using hp_first_byte_false a ha
  · simpa using hp_first_byte_true a ha

/-- The slice `[b, e)` of a vector when `e - b` is odd. -/
theorem slice_odd (n : List Nat) (b e k : Nat) (h : e = b + 1 + 2 * k) (he : e ≤ n.length) :
    ∃ a, n[b]? = some a ∧
      (n.drop b).take (e - b) = a :: (n.drop (b + 1)).take (2 * k) := by
  have h1 : b < n.length := by omega
  refine ⟨n[b], List.getElem?_eq_getElem h1, ?_⟩
  rw [List.drop_eq_getElem_cons h1, show e - b = 2 * k + 1 by omega, List.take_succ_cons]

/-- The nibble-vector encoder on the range `[b, e)` of a nibble vector. -/
theorem hexPrefixEncode_range (n : List Nat) (t : Bool) (b e : Nat) (hn : ∀ x ∈ n, x < 16)
    (hbe : b ≤ e) (he : e ≤ n.length) (hlen : n.length < 2 ^ 64) :
    hexPrefixEncode n t (b : Int) (e : Int) = .ok (hpLayout ((n.drop b).take (e - b)) t) := by
  unfold hexPrefixEncode hpLayout
  have hneg : ¬ ((e : Int) < 0) := by omega
  simp only [if_neg hneg, toNat_emod_uintMod (show b < 2 ^ 64 by omega),
    toNat_emod_uintMod (show e < 2 ^ 64 by omega)]
  have hodd : (e + uintMod - b) % uintMod % 2 = (e - b) % 2 := by
    unfold uintMod
    omega
  have hsl : ((n.drop b).take (e - b)).length = e - b := by
    rw [List.length_take, List.length_drop]; omega
  simp only [hodd, hsl]
  by_cases ho : (e - b) % 2 = 1
  · obtain ⟨k, hk⟩ : ∃ k, e = b + 1 + 2 * k := ⟨(e - b) / 2, by omega⟩
    obtain ⟨a, ha, hs⟩ := slice_odd n b e k hk he
    have ha16 : a < 16 := hn a (List.getElem?_mem ha)
    simp only [ho, show decide ((1 : Nat) ≠ 0) = true from rfl, if_true,
      readByte_of_getElem? ha, bind, Except.bind]
    rw [hk, hexPrefixEncodeLoop_range n hn k (b + 1) _ _ (by omega) (by omega), ← hk, hs]
    simp only [List.headD_cons, List.tail_cons, List.singleton_append, hp_flag_odd t ha16]
  · have ho2 : (e - b) % 2 = 0 := by omega
    obtain ⟨k, hk⟩ : ∃ k, e = b + 2 * k := ⟨(e - b) / 2, by omega⟩
    simp only [ho2, show decide ((0 : Nat) ≠ 0) = false from rfl, Bool.false_eq_true, if_false,
      show ¬ ((0 : Nat) = 1) by decide]
    rw [hk, hexPrefixEncodeLoop_range n hn k b _ _ (by omega) (by omega), ← hk,
      show e - b = 2 * k by omega, hp_flag_even t]
    rfl

/-- With the default end the nibble-vector encoder encodes up to the end of the vector. -/
theorem hexPrefixEncode_default_end (n : List Nat) (t : Bool) (b : Int)
    (hlen : n.length < 2 ^ 64) :
    hexPrefixEncode n t b (-1) = hexPrefixEncode n t b (n.length : Int) := by
  unfold hexPrefixEncode
  have h1 : (((n.length : Int) + 1 + (-1)) % (uintMod : Int)).toNat
      = (((n.length : Nat) : Int) % (uintMod : Int)).toNat := by
    congr 2
    omega
  have hneg : ¬ (((n.length : Nat) : Int) < 0) := by omega
  simp only [show ((-1 : Int) < 0) by decide, if_true, if_neg hneg, h1]

/-- The packed-byte encoder on the range `[b, e)` of the nibbles `n` of its data. -/
theorem hexPrefixEncodePacked_range (data : Bytes) (n : List Nat) (t : Bool) (b e : Nat)
    (hn : ∀ x ∈ n, x < 16) (hnib : ∀ (j x : Nat), n[j]? = some x → nibble data j = .ok x)
    (hbe : b ≤ e) (he : e ≤ n.length) (hlen : n.length < 2 ^ 64) :
    hexPrefixEncodePacked data t (b : Int) (e : Int)
      = .ok (hpLayout ((n.drop b).take (e - b)) t) := by
  unfold hexPrefixEncodePacked hpLayout
  have hneg : ¬ ((e : Int) < 0) := by omega
  simp only [if_neg hneg, toNat_emod_uintMod (show b < 2 ^ 64 by omega),
    toNat_emod_uintMod (show e < 2 ^ 64 by omega)]
  have hodd : ((e + uintMod - b) % uintMod) &&& 1 = (e - b) % 2 := by
    rw [Nat.and_one_is_mod]
    unfold uintMod
    omega
  have hsl : ((n.drop b).take (e - b)).length = e - b := by
    rw [List.length_take, List.length_drop]; omega
  simp only [hodd, hsl]
  by_cases ho : (e - b) % 2 = 1
  · obtain ⟨k, hk⟩ : ∃ k, e = b + 1 + 2 * k := ⟨(e - b) / 2, by omega⟩
    obtain ⟨a, ha, hs⟩ := slice_odd n b e k hk he
    have ha16 : a < 16 := hn a (List.getElem?_mem ha)
    simp only [ho, show decide ((1 : Nat) ≠ 0) = true from rfl, if_true]
    obtain ⟨f, hf⟩ : ∃ f, e - b = f + 1 := ⟨e - b - 1, by omega⟩
    rw [hs, hf]
    unfold hexPrefixEncodePackedLoop
    rw [if_pos (by omega), hnib b a ha]
    simp only [bind, Except.bind]
    rw [if_pos (by decide)]
    have e2 : (1 + 1) % uintMod = 2 := by unfold uintMod; omega
    rw [e2, hk, hexPrefixEncodePackedLoop_range data n hn hnib k (b + 1) 2 f _ (by omega)
      (by omega) rfl]
    simp only [List.dropLast_single, List.nil_append, List.getLastD_cons, List.getLastD_nil,
      List.headD_cons, List.tail_cons, List.singleton_append, hp_flag_odd t ha16]
  · have ho2 : (e - b) % 2 = 0 := by omega
    obtain ⟨k, hk⟩ : ∃ k, e = b + 2 * k := ⟨(e - b) / 2, by omega⟩
    simp only [ho2, show decide ((0 : Nat) ≠ 0) = false from rfl, Bool.false_eq_true, if_false,
      show ¬ ((0 : Nat) = 1) by decide]
    rw [hk, hexPrefixEncodePackedLoop_range data n hn hnib k b 2 _ _ (by omega) (by omega) rfl,
      ← hk, show e - b = 2 * k by omega, hp_flag_even t]
    rfl

/-- With the default end the packed-byte encoder encodes up to the last nibble of the
data. -/
theorem hexPrefixEncodePacked_default_end (data : Bytes) (t : Bool) (b : Int)
    (hlen : 2 * data.length < 2 ^ 64) :
    hexPrefixEncodePacked data t b (-1)
      = hexPrefixEncodePacked data t b ((2 * data.length : Nat) : Int) := by
  unfold hexPrefixEncodePacked
  have h1 : (((data.length : Int) * 2 + 1 + (-1)) % (uintMod : Int)).toNat
      = (((2 * data.length : Nat) : Int) % (uintMod : Int)).toNat := by
    congr 2
    omega
  have hneg : ¬ (((2 * data.length : Nat) : Int) < 0) := by omega
  simp only [show ((-1 : Int) < 0) by decide, if_true, if_neg hneg, h1]

theorem toHex_map_lt (d : Bytes) : ∀ x ∈ (toHex d).map Fin.val, x < 16 := by
  intro x hx
  obtain ⟨y, _, rfl⟩ := List.mem_map.mp hx
  exact y.isLt

/-- C28: the two hex-prefix encoders agree. For every byte string `d` (of octets, the number
of its nibbles a `uint`), flag `t` and nibble range `0 ≤ b ≤ e ≤ 2 * len(d)`: nibble `i` of
the nibble expansion `n` of `d` (the high nibble of each byte first) is `nibble(d, i)`; the
packed-byte `hexPrefixEncode(d, t, b, e)` and the nibble-vector `hexPrefixEncode(n, t, b, e)`
return the same byte string, the hex-prefix layout of the nibbles `b .. e` of `n`; and with
the default end `-1` both return the layout of the nibbles from `b` to the end of the key. -/
theorem C28_hexPrefixEncoders_agree (d : Bytes) (t : Bool) (b e : Nat) (hd : IsBytes d)
    (hbe : b ≤ e) (he : e ≤ 2 * d.length) (hlen : 2 * d.length < 2 ^ 64) :
    (∀ (i x : Nat), ((toHex d).map Fin.val)[i]? = some x → nibble d i = .ok x) ∧
    hexPrefixEncodePacked d t (b : Int) (e : Int)
      = hexPrefixEncode ((toHex d).map Fin.val) t (b : Int) (e : Int) ∧
    hexPrefixEncodePacked d t (b : Int) (e : Int)
      = .ok (hpLayout ((((toHex d).map Fin.val).drop b).take (e - b)) t) ∧
    hexPrefixEncodePacked d t (b : Int) (-1)
      = hexPrefixEncode ((toHex d).map Fin.val) t (b : Int) (-1) ∧
    hexPrefixEncodePacked d t (b : Int) (-1)
      = .ok (hpLayout (((toHex d).map Fin.val).drop b) t) := by
  have hnl : ((toHex d).map Fin.val).length = 2 * d.length := by
    rw [List.length_map, toHex_length]
  have hn := toHex_map_lt d
  have hnib := nibble_toHex d hd
  have h1 := hexPrefixEncodePacked_range d _ t b e hn hnib hbe (by omega) (by omega)
  have h2 := hexPrefixEncode_range _ t b e hn hbe (by omega : e ≤ ((toHex d).map Fin.val).length)
    (by omega)
  have h3 := hexPrefixEncodePacked_range d _ t b (2 * d.length) hn hnib (by omega) (by omega)
    (by omega)
  have h4 := hexPrefixEncode_range _ t b (2 * d.length) hn (by omega)
    (by omega : 2 * d.length ≤ ((toHex d).map Fin.val).length) (by omega)
  have h5 : ((((toHex d).map Fin.val).drop b).take (2 * d.length - b))
      = ((toHex d).map Fin.val).drop b := by
    apply List.take_of_length_le
    rw [List.length_drop]
    omega
  rw [h5] at h3 h4
  refine ⟨hnib, by rw [h1, h2], h1, ?_, ?_⟩
  · rw [hexPrefixEncodePacked_default_end d t b hlen,
      hexPrefixEncode_default_end _ t b (by omega), hnl, h3, h4]
  · rw [hexPrefixEncodePacked_default_end d t b hlen, h3]

/-- Witness of C28 on the key "dog" and the nibble range `[1, 5)`, and the two encoders
evaluated: nibbles `1 .. 5` of `64 6f 67`, terminated, give `20 46 f6`; nibbles `1 .. 6`,
unterminated, with the default end give `14 6f 67`. -/
theorem C28_hexPrefixEncoders_agree_witness :
    ((∀ (i x : Nat), ((toHex [0x64, 0x6f, 0x67]).map Fin.val)[i]? = some x →
        nibble [0x64, 0x6f, 0x67] i = .ok x) ∧
      hexPrefixEncodePacked [0x64, 0x6f, 0x67] true ((1 : Nat) : Int) ((5 : Nat) : Int)
        = hexPrefixEncode ((toHex [0x64, 0x6f, 0x67]).map Fin.val) true ((1 : Nat) : Int)
          ((5 : Nat) : Int) ∧
      hexPrefixEncodePacked [0x64, 0x6f, 0x67] true ((1 : Nat) : Int) ((5 : Nat) : Int)
        = .ok (hpLayout ((((toHex [0x64, 0x6f, 0x67]).map Fin.val).drop 1).take (5 - 1)) true) ∧
      hexPrefixEncodePacked [0x64, 0x6f, 0x67] true ((1 : Nat) : Int) (-1)
        = hexPrefixEncode ((toHex [0x64, 0x6f, 0x67]).map Fin.val) true ((1 : Nat) : Int) (-1) ∧
      hexPrefixEncodePacked [0x64, 0x6f, 0x67] true ((1 : Nat) : Int) (-1)
        = .ok (hpLayout (((toHex [0x64, 0x6f, 0x67]).map Fin.val).drop 1) true)) ∧
    hexPrefixEncodePacked [0x64, 0x6f, 0x67] true 1 5 = .ok [0x20, 0x46, 0xf6] ∧
    hexPrefixEncode [6, 4, 6, 15, 6, 7] true 1 5 = .ok [0x20, 0x46, 0xf6] ∧
    hexPrefixEncodePacked [0x64, 0x6f, 0x67] false 1 (-1) = .ok [0x14, 0x6f, 0x67] ∧
    hexPrefixEncode [6, 4, 6, 15, 6, 7] false 1 (-1) = .ok [0x14, 0x6f, 0x67] :=
  ⟨C28_hexPrefixEncoders_agree [0x64, 0x6f, 0x67] true 1 5 (by decide) (by norm_num)
    (by simp) (by simp), by decide, by decide, by decide, by decide⟩
/-! ## The from-scratch encoding: the shared prefix of a range -/

theorem readNibble_of_getElem? {k : List Nibble} {i : Nat} {a : Nibble} (h : k[i]? = some a) :
    readNibble k i = .ok a := by
  simp [readNibble, h]

theorem readNibble_of_lt {k : List Nibble} {i : Nat} (h : i < k.length) :
    readNibble k i = .ok (k.get ⟨i, h⟩) := by
  simp [readNibble, List.getElem?_eq_getElem h]

/-- The inner loop stays within `[shared, x]` and reads inside both keys. -/
theorem sharedLoop_bounds (k1 k2 : List Nibble) (x : Nat) (h1 : x ≤ k1.length)
    (h2 : x ≤ k2.length) : ∀ (fuel shared : Nat), shared ≤ x → x - shared ≤ fuel →
    ∃ m, sharedLoop k1 k2 x fuel shared = .ok m ∧ shared ≤ m ∧ m ≤ x := by
  intro fuel
  induction fuel with
  | zero => intro shared h _; exact ⟨shared, rfl, le_refl _, h⟩
  | succ f ih =>
    intro shared h hf
    unfold sharedLoop
    by_cases hs : shared < x
    · rw [if_pos hs, readNibble_of_lt (show shared < k1.length by omega),
        readNibble_of_lt (show shared < k2.length by omega)]
      simp only [bind, Except.bind]
      by_cases he : k1.get ⟨shared, by omega⟩ = k2.get ⟨shared, by omega⟩
      · rw [if_pos he]
        obtain ⟨m, hm, hm1, hm2⟩ := ih (shared + 1) (by omega) (by omega)
        exact ⟨m, hm, by omega, hm2⟩
      · rw [if_neg he]
        exact ⟨shared, rfl, le_refl _, h⟩
    · rw [if_neg hs]
      exact ⟨shared, rfl, le_refl _, h⟩

/-- On two keys that start with the same `L` nibbles the inner loop, entered at or before
`L`, reaches `L`, and stops there when the keys do not continue alike. -/
theorem sharedLoop_common (q k1 k2 : List Nibble) (x : Nat) (hq1 : q <+: k1) (hq2 : q <+: k2)
    (h1 : x ≤ k1.length) (h2 : x ≤ k2.length) (hL : q.length ≤ x) :
    ∀ (fuel shared : Nat), shared ≤ q.length → x - shared ≤ fuel →
    ∃ m, sharedLoop k1 k2 x fuel shared = .ok m ∧ q.length ≤ m ∧ m ≤ x ∧
      (DivergeAt k1 k2 q.length → m = q.length) := by
  intro fuel
  induction fuel with
  | zero =>
    intro shared h hf
    exact ⟨shared, rfl, by omega, by omega, fun _ => by omega⟩
  | succ f ih =>
    intro shared h hf
    by_cases hs : shared < q.length
    · unfold sharedLoop
      have hlt1 : shared < k1.length := by omega
      have hlt2 : shared < k2.length := by omega
      rw [if_pos (by omega), readNibble_of_lt hlt1, readNibble_of_lt hlt2]
      simp only [bind, Except.bind]
      have he : k1.get ⟨shared, hlt1⟩ = k2.get ⟨shared, hlt2⟩ := by
        obtain ⟨r1, rfl⟩ := hq1
        obtain ⟨r2, rfl⟩ := hq2
        simp only [List.get_eq_getElem]
        rw [List.getElem_append_left hs, List.getElem_append_left hs]
      rw [if_pos he]
      exact ih (shared + 1) (by omega) (by omega)
    · have hsq : shared = q.length := by omega
      subst hsq
      unfold sharedLoop
      by_cases hx : q.length < x
      · have hlt1 : q.length < k1.length := by omega
        have hlt2 : q.length < k2.length := by omega
        rw [if_pos hx, readNibble_of_lt hlt1, readNibble_of_lt hlt2]
        simp only [bind, Except.bind]
        by_cases he : k1.get ⟨q.length, hlt1⟩ = k2.get ⟨q.length, hlt2⟩
        · rw [if_pos he]
          obtain ⟨m, hm, hm1, hm2⟩ := sharedLoop_bounds k1 k2 x h1 h2 f (q.length + 1)
            (by omega) (by omega)
          refine ⟨m, hm, by omega, hm2, ?_⟩
          intro hd
          exfalso
          apply hd
          refine ⟨k1.get ⟨q.length, hlt1⟩, ?_, ?_⟩
          · simp [List.getElem?_eq_getElem hlt1]
          · rw [he]; simp [List.getElem?_eq_getElem hlt2]
        · rw [if_neg he]
          exact ⟨q.length, rfl, le_refl _, by omega, fun _ => rfl⟩
      · rw [if_neg hx]
        exact ⟨q.length, rfl, le_refl _, by omega, fun _ => rfl⟩

/-- On a range whose keys all start with the nibbles `q`, the loop that computes the shared
prefix returns at least the length of `q`, and exactly that when some key of the range does
not continue as the first one does. -/
theorem sharedPreLoop_common (q first : List Nibble) (preLen : Nat) (hq : q <+: first)
    (hp : preLen ≤ q.length) : ∀ (others : HexMap) (sp : Nat), q.length ≤ sp →
    (∀ e ∈ others, q <+: e.1) →
    ∃ r, sharedPreLoop first preLen others sp = .ok r ∧ q.length ≤ r ∧ r ≤ sp ∧
      ((∃ e ∈ others, DivergeAt first e.1 q.length) → r = q.length) := by
  intro others
  induction others with
  | nil =>
    intro sp hsp _
    exact ⟨sp, rfl, hsp, le_refl _, fun ⟨e, he, _⟩ => by simp at he⟩
  | cons e rest ih =>
    intro sp hsp hall
    unfold sharedPreLoop
    by_cases h0 : sp ≠ 0
    · rw [if_pos h0]
      have hqe : q <+: e.1 := hall e (by simp)
      have hl1 : q.length ≤ first.length := hq.length_le
      have hl2 : q.length ≤ e.1.length := hqe.length_le
      obtain ⟨m, hm, hm1, hm2, hm3⟩ := sharedLoop_common q first e.1
        (min sp (min first.length e.1.length)) hq hqe (by omega) (by omega) (by omega)
        (min sp (min first.length e.1.length) - preLen) preLen hp (le_refl _)
      simp only [hm, bind, Except.bind]
      obtain ⟨r, hr, hr1, hr2, hr3⟩ := ih (min m sp) (by omega)
        (fun e2 he2 => hall e2 (by simp [he2]))
      refine ⟨r, hr, hr1, by omega, ?_⟩
      rintro ⟨e2, he2, hd⟩
      rcases List.mem_cons.mp he2 with rfl | he2
      · have := hm3 hd
        omega
      · exact hr3 ⟨e2, he2, hd⟩
    · rw [if_neg h0]
      have : sp = 0 := by omega
      exact ⟨sp, rfl, hsp, le_refl _, fun _ => by omega⟩
/-! ## The entries of a minimal node -/

namespace HexMap

theorem prepend_nil (m : HexMap) : prepend [] m = m := by
  simp [prepend]

theorem prepend_append (p : List Nibble) (a b : HexMap) :
    prepend p (a ++ b) = prepend p a ++ prepend p b := by
  simp [prepend]

theorem prepend_prepend (p q : List Nibble) (m : HexMap) :
    prepend p (prepend q m) = prepend (p ++ q) m := by
  simp [prepend, List.map_map, Function.comp_def]

theorem prepend_flatMap {α : Type} (p : List Nibble) (l : List α) (f : α → HexMap) :
    prepend p (l.flatMap f) = l.flatMap (fun a => prepend p (f a)) := by
  induction l with
  | nil => rfl
  | cons a l ih => simp only [List.flatMap_cons, prepend_append, ih]

theorem mem_prepend {p : List Nibble} {m : HexMap} {x : List Nibble × Bytes} :
    x ∈ prepend p m ↔ ∃ y ∈ m, x = (p ++ y.1, y.2) := by
  simp only [prepend, List.mem_map]
  constructor
  · rintro ⟨y, hy, rfl⟩; exact ⟨y, hy, rfl⟩
  · rintro ⟨y, hy, rfl⟩; exact ⟨y, hy, rfl⟩

theorem prepend_eq_nil {p : List Nibble} {m : HexMap} : prepend p m = [] ↔ m = [] := by
  simp [prepend]

end HexMap

namespace TrieNode

theorem entries_branch (nodes : Nibble → TrieNode) (v : Bytes) :
    entries (.branch nodes v) = (if v = [] then [] else [([], v)])
      ++ (List.finRange 16).flatMap (fun i => HexMap.prepend [i] (entries (nodes i))) := rfl

theorem entries_infixNode (e : List Nibble) (next : TrieNode) :
    entries (.infixNode e next) = HexMap.prepend e (entries next) := rfl

/-- A minimal node other than the null pointer has an entry. -/
theorem entries_ne_nil : ∀ (t : TrieNode), t.Canonical → t.isNull = false → t.entries ≠ [] := by
  intro t
  induction t with
  | null => intro _ h; simp [isNull] at h
  | leaf e v => intro _ _; simp [entries]
  | infixNode e next ih =>
    intro hc _
    simp only [Canonical] at hc
    rw [entries_infixNode]
    intro h
    exact ih hc.2.2 (isNull_of_isBranch hc.2.1) (HexMap.prepend_eq_nil.mp h)
  | branch nodes v ih =>
    intro hc _
    simp only [Canonical] at hc
    have : ∃ i, (nodes i).isNull = false := by
      rcases hc.2 with ⟨i, _, _, hi, _⟩ | ⟨_, i, hi⟩ <;> exact ⟨i, hi⟩
    obtain ⟨i, hi⟩ := this
    rw [entries_branch]
    intro h
    have h2 := (List.append_eq_nil.mp h).2
    have h3 : HexMap.prepend [i] (entries (nodes i)) = [] := by
      rw [List.flatMap_eq_nil_iff] at h2
      exact h2 i (List.mem_finRange i)
    exact ih i (hc.1 i) hi (HexMap.prepend_eq_nil.mp h3)

theorem entries_of_isNull {t : TrieNode} (h : t.isNull = true) : t.entries = [] := by
  rw [(isNull_eq_true_iff t).mp h]
  rfl

theorem divergeAt_of_heads {k1 k2 : List Nibble} {a b : Nibble} {r1 r2 : List Nibble}
    (h1 : k1 = a :: r1) (h2 : k2 = b :: r2) (hab : a ≠ b) : DivergeAt k1 k2 0 := by
  subst h1 h2
  rintro ⟨c, hc1, hc2⟩
  simp only [List.getElem?_cons_zero, Option.some.injEq] at hc1 hc2
  exact hab (hc1.trans hc2.symm)

theorem divergeAt_nil (k : List Nibble) : DivergeAt [] k 0 := by
  rintro ⟨c, hc1, _⟩
  simp at hc1

theorem divergeAt_prepend {k1 k2 : List Nibble} (q : List Nibble) (h : DivergeAt k1 k2 0) :
    DivergeAt (q ++ k1) (q ++ k2) q.length := by
  rintro ⟨c, hc1, hc2⟩
  apply h
  refine ⟨c, ?_, ?_⟩
  · rw [List.getElem?_append_right (le_refl _)] at hc1
    simpa using hc1
  · rw [List.getElem?_append_right (le_refl _)] at hc2
    simpa using hc2

/-- The entries of a minimal branch: there are at least two, and one of them does not start
as the first one does. -/
theorem branch_entries_shape (nodes : Nibble → TrieNode) (v : Bytes)
    (hc : (TrieNode.branch nodes v).Canonical) :
    ∃ first others, entries (.branch nodes v) = first :: others ∧
      ∃ e ∈ others, DivergeAt first.1 e.1 0 := by
  simp only [Canonical] at hc
  have hgrp : ∀ i, (nodes i).isNull = false →
      ∃ x ∈ (List.finRange 16).flatMap (fun i => HexMap.prepend [i] (entries (nodes i))),
        ∃ r, x.1 = i :: r := by
    intro i hi
    obtain ⟨y, ys, hy⟩ := List.exists_cons_of_ne_nil (entries_ne_nil _ (hc.1 i) hi)
    refine ⟨(i :: y.1, y.2), ?_, y.1, rfl⟩
    rw [List.mem_flatMap]
    exact ⟨i, List.mem_finRange i, HexMap.mem_prepend.mpr ⟨y, by rw [hy]; simp, rfl⟩⟩
  rw [entries_branch]
  by_cases hv : v = []
  · rcases hc.2 with ⟨i, j, hij, hi, hj⟩ | ⟨hv2, _⟩
    · rw [if_pos hv, List.nil_append]
      obtain ⟨a, ha, ra, hka⟩ := hgrp i hi
      obtain ⟨b, hb, rb, hkb⟩ := hgrp j hj
      obtain ⟨first, others, hfo⟩ := List.exists_cons_of_ne_nil (List.ne_nil_of_mem ha)
      refine ⟨first, others, hfo, ?_⟩
      rw [hfo] at ha hb
      have hfirst : ∃ c r, first.1 = c :: r := by
        have hm : first ∈ (List.finRange 16).flatMap
            (fun i => HexMap.prepend [i] (entries (nodes i))) := by rw [hfo]; simp
        rw [List.mem_flatMap] at hm
        obtain ⟨c, _, hc2⟩ := hm
        obtain ⟨y, _, rfl⟩ := HexMap.mem_prepend.mp hc2
        exact ⟨c, y.1, rfl⟩
      obtain ⟨c, r, hcr⟩ := hfirst
      by_cases hci : c = i
      · have hbne : b ≠ first := by
          intro h
          rw [h, hcr] at hkb
          simp only [List.cons.injEq] at hkb
          exact hij (hci.symm.trans hkb.1)
        rcases List.mem_cons.mp hb with h | h
        · exact absurd h hbne
        · exact ⟨b, h, divergeAt_of_heads hcr hkb (by rw [hci]; exact hij)⟩
      · have hane : a ≠ first := by
          intro h
          rw [h, hcr] at hka
          simp only [List.cons.injEq] at hka
          exact hci hka.1
        rcases List.mem_cons.mp ha with h | h
        · exact absurd h hane
        · exact ⟨a, h, divergeAt_of_heads hcr hka hci⟩
    · exact absurd hv hv2
  · have : ∃ i, (nodes i).isNull = false := by
      rcases hc.2 with ⟨i, _, _, hi, _⟩ | ⟨_, i, hi⟩ <;> exact ⟨i, hi⟩
    obtain ⟨i, hi⟩ := this
    obtain ⟨a, ha, _⟩ := hgrp i hi
    rw [if_neg hv]
    exact ⟨([], v), _, rfl, a, ha, divergeAt_nil _⟩

end TrieNode
/-! ## The from-scratch encoding: the slots of a branch -/

theorem spanNibble_append (preLen : Nat) (i : Nibble) : ∀ (g rest : HexMap),
    (∀ e ∈ g, e.1[preLen]? = some i) →
    (∀ e r, rest = e :: r → ∃ j, e.1[preLen]? = some j ∧ j ≠ i) →
    spanNibble preLen i (g ++ rest) = .ok (g, rest) := by
  intro g
  induction g with
  | nil =>
    intro rest _ hrest
    cases rest with
    | nil => rfl
    | cons e r =>
      obtain ⟨j, hj, hne⟩ := hrest e r rfl
      simp only [List.nil_append, spanNibble, readNibble_of_getElem? hj, bind, Except.bind,
        if_neg hne, pure, Except.pure]
  | cons e g ih =>
    intro rest hg hrest
    have he : e.1[preLen]? = some i := hg e (by simp)
    have ih2 := ih rest (fun x hx => hg x (by simp [hx])) hrest
    simp only [List.cons_append, spanNibble, readNibble_of_getElem? he, bind, Except.bind,
      if_true, pure, Except.pure]
    rw [show g.append rest = g ++ rest from rfl, ih2]

theorem getElem?_prepend_key (p : List Nibble) (i : Nibble) (k : List Nibble) :
    (p ++ i :: k)[p.length]? = some i := by
  rw [List.getElem?_append_right (le_refl _)]
  simp

theorem toSigned_of_lt {n : Nat} (h : n < 2 ^ 31) : toSigned n = (n : Int) := by
  unfold toSigned
  have e : n % 2 ^ 32 = n := Nat.mod_eq_of_lt (by omega)
  rw [e, if_pos h]

theorem toUnsigned_of_lt {n : Nat} (h : n < 2 ^ 31) : toUnsigned n = n := by
  unfold toUnsigned
  exact Nat.mod_eq_of_lt (by omega)

/-- The encoder on the nibbles of a key after its first `|p|`. -/
theorem hexPrefixEncode_after (p e : List Nibble) (t : Bool) (h : (p ++ e).length < 2 ^ 31) :
    hexPrefixEncode ((p ++ e).map Fin.val) t (toSigned p.length) (-1)
      = hexPrefixEncode (e.map Fin.val) t 0 (-1) := by
  rw [List.length_append] at h
  have hn : ∀ x ∈ (p ++ e).map Fin.val, x < 16 := by
    intro x hx
    obtain ⟨y, _, rfl⟩ := List.mem_map.mp hx
    exact y.isLt
  have hl : ((p ++ e).map Fin.val).length = p.length + e.length := by simp
  rw [toSigned_of_lt (by omega), hexPrefixEncode_default_end _ _ _ (by rw [hl]; omega),
    hexPrefixEncode_range _ t p.length _ hn (by rw [hl]; omega) (le_refl _) (by rw [hl]; omega),
    TrieNode.hexPrefixEncode_nibbles e t (by omega)]
  congr 2
  simp [hl]

/-- The encoder on the nibbles `|p| .. |p| + |e|` of a key. -/
theorem hexPrefixEncode_between (p e k : List Nibble) (t : Bool)
    (h : (p ++ e ++ k).length < 2 ^ 31) :
    hexPrefixEncode ((p ++ e ++ k).map Fin.val) t (toSigned p.length)
        (toSigned (p.length + e.length))
      = hexPrefixEncode (e.map Fin.val) t 0 (-1) := by
  simp only [List.length_append] at h
  have hn : ∀ x ∈ (p ++ e ++ k).map Fin.val, x < 16 := by
    intro x hx
    obtain ⟨y, _, rfl⟩ := List.mem_map.mp hx
    exact y.isLt
  have hl : ((p ++ e ++ k).map Fin.val).length = p.length + e.length + k.length := by
    simp only [List.length_map, List.length_append]
  rw [toSigned_of_lt (by omega), toSigned_of_lt (by omega),
    hexPrefixEncode_range _ t p.length (p.length + e.length) hn (by omega) (by rw [hl]; omega)
      (by rw [hl]; omega),
    TrieNode.hexPrefixEncode_nibbles e t (by omega)]
  congr 2
  simp [List.map_append, List.drop_append_eq_append_drop, List.take_append_eq_append_take]

theorem hash256Slots_cons (sha3 : Bytes → Bytes)
    (child : HexMap → Option (Except Fault RLPStream)) (preLen : Nat) (i : Nibble)
    (more : List Nibble) (b : HexMap) (s : RLPStream) :
    hash256Slots sha3 child preLen (i :: more) b s =
      (match spanNibble preLen i b with
      | .error f => some (.error f)
      | .ok (g, n) =>
        if g.isEmpty then hash256Slots sha3 child preLen more n (s.append [])
        else
          match hash256aux sha3 (child g) s with
          | none => none
          | some (.error f) => some (.error f)
          | some (.ok s2) => hash256Slots sha3 child preLen more n s2) := rfl

/-- The loop over the sixteen slots, on the entries of the slots of a branch, does what the
loop of `TrieBranchNode::makeRLP` does. -/
theorem hash256Slots_eq (sha3 : Bytes → Bytes) (nodes : Nibble → TrieNode)
    (G : Nibble → HexMap) (child : HexMap → Option (Except Fault RLPStream)) (preLen : Nat)
    (hG0 : ∀ i, (nodes i).isNull = true → G i = [])
    (hG1 : ∀ i, (nodes i).isNull = false → G i ≠ [] ∧
      ∃ c, TrieNode.makeRLP sha3 (nodes i) ⟨[]⟩ = .ok c ∧ child (G i) = some (.ok c))
    (hGk : ∀ i, ∀ e ∈ G i, e.1[preLen]? = some i) :
    ∀ (l : List Nibble), l.Nodup → ∀ (s : RLPStream),
    hash256Slots sha3 child preLen l (l.flatMap G) s
      = some (l.foldlM
          (fun (acc : RLPStream) (i : Nibble) =>
            if (nodes i).isNull then (pure (acc.append []) : Except Fault RLPStream)
            else do
              let c ← TrieNode.makeRLP sha3 (nodes i) ⟨[]⟩
              pure (if c.out.length < 32 then acc.appendRaw c.out
                else acc.append (sha3 c.out))) s) := by
  intro l
  induction l with
  | nil => intro _ s; rfl
  | cons i more ih =>
    intro hnd s
    have hi : i ∉ more := (List.nodup_cons.mp hnd).1
    have hspan : spanNibble preLen i (G i ++ more.flatMap G) = .ok (G i, more.flatMap G) := by
      apply spanNibble_append preLen i _ _ (hGk i)
      intro e r hr
      have he : e ∈ more.flatMap G := by rw [hr]; simp
      obtain ⟨j, hj, hej⟩ := List.mem_flatMap.mp he
      exact ⟨j, hGk j e hej, fun h => hi (h ▸ hj)⟩
    rw [List.flatMap_cons, hash256Slots_cons, hspan, List.foldlM_cons]
    by_cases hn : (nodes i).isNull = true
    · have hg := hG0 i hn
      simp only [hg, List.isEmpty_nil, if_true, hn, pure, Except.pure, bind, Except.bind]
      exact ih (List.nodup_cons.mp hnd).2 _
    · have hnf : (nodes i).isNull = false := by simpa using hn
      obtain ⟨hne, c, hc, hch⟩ := hG1 i hnf
      have hemp : (G i).isEmpty = false := by
        cases hgi : G i with
        | nil => exact absurd hgi hne
        | cons _ _ => rfl
      simp only [hemp, Bool.false_eq_true, if_false, hch, hash256aux, hnf, hc, pure, Except.pure,
        bind, Except.bind]
      exact ih (List.nodup_cons.mp hnd).2 _

namespace TrieNode

theorem height_le_foldl_max (l : List Nat) (a : Nat) : a ≤ l.foldl max a ∧
    ∀ x ∈ l, x ≤ l.foldl max a := by
  induction l generalizing a with
  | nil => exact ⟨le_refl _, fun x hx => by simp at hx⟩
  | cons b l ih =>
    simp only [List.foldl_cons]
    obtain ⟨h1, h2⟩ := ih (max a b)
    refine ⟨le_trans (le_max_left a b) h1, ?_⟩
    intro x hx
    rcases List.mem_cons.mp hx with rfl | hx
    · exact le_trans (le_max_right a x) h1
    · exact h2 x hx

theorem height_child_lt (nodes : Nibble → TrieNode) (v : Bytes) (i : Nibble) :
    (nodes i).height < (TrieNode.branch nodes v).height := by
  have := (height_le_foldl_max ((List.finRange 16).map (fun i => height (nodes i))) 0).2
    (nodes i).height (List.mem_map.mpr ⟨i, List.mem_finRange i, rfl⟩)
  simp only [height]
  omega

end TrieNode
/-! ## The from-scratch encoding of the entries of a minimal node -/

theorem hash256rlp_single (sha3 : Bytes → Bytes) (fuel : Nat) (e : List Nibble × Bytes)
    (preLen : Nat) (s : RLPStream) :
    hash256rlp sha3 (fuel + 1) [e] preLen s = some (do
      let hp ← hexPrefixEncode (e.1.map Fin.val) true (toSigned preLen) (-1)
      pure (((s.appendList 2).append hp).append e.2)) := rfl

theorem hash256rlp_many (sha3 : Bytes → Bytes) (fuel : Nat) (first second : List Nibble × Bytes)
    (rest : HexMap) (preLen : Nat) (s : RLPStream) :
    hash256rlp sha3 (fuel + 1) (first :: second :: rest) preLen s =
      (match sharedPreLoop first.1 preLen (second :: rest) (uintMod - 1) with
      | .error f => some (.error f)
      | .ok sharedPre =>
        if sharedPre > preLen then
          match hexPrefixEncode (first.1.map Fin.val) false (toSigned preLen)
              (toSigned sharedPre) with
          | .error f => some (.error f)
          | .ok hp =>
            hash256aux sha3
              (hash256rlp sha3 fuel (first :: second :: rest) (toUnsigned sharedPre) ⟨[]⟩)
              ((s.appendList 2).append hp)
        else
          match hash256Slots sha3
              (fun g => hash256rlp sha3 fuel g (toUnsigned (preLen + 1)) ⟨[]⟩) preLen
              (List.finRange 16)
              (if preLen = first.1.length then second :: rest else first :: second :: rest)
              (s.appendList 17) with
          | none => none
          | some (.error f) => some (.error f)
          | some (.ok s2) =>
            some (.ok (if preLen = first.1.length then s2.append first.2
              else s2.append []))) := rfl

namespace TrieNode

/-- The shared prefix of the entries of a minimal branch, all keys preceded by `q`, is `q`. -/
theorem sharedPre_branch (nodes : Nibble → TrieNode) (v : Bytes)
    (hc : (TrieNode.branch nodes v).Canonical) (q : List Nibble) (preLen : Nat)
    (hp : preLen ≤ q.length) (hq : q.length < 2 ^ 31) :
    ∃ first second rest, HexMap.prepend q (entries (.branch nodes v)) = first :: second :: rest ∧
      (∃ y ∈ entries (.branch nodes v), first = (q ++ y.1, y.2) ∧
        entries (.branch nodes v) = y :: (entries (.branch nodes v)).tail) ∧
      sharedPreLoop first.1 preLen (second :: rest) (uintMod - 1) = .ok q.length := by
  obtain ⟨first, others, hfo, e, he, hd⟩ := branch_entries_shape nodes v hc
  obtain ⟨o, os, hos⟩ := List.exists_cons_of_ne_nil (List.ne_nil_of_mem he)
  refine ⟨(q ++ first.1, first.2), (q ++ o.1, o.2), HexMap.prepend q os, ?_, ?_, ?_⟩
  · rw [hfo, hos]; rfl
  · exact ⟨first, by rw [hfo]; simp, rfl, by rw [hfo]; rfl⟩
  · have hcm := sharedPreLoop_common q (q ++ first.1) preLen (List.prefix_append q _) hp
      (HexMap.prepend q others) (uintMod - 1) (by unfold uintMod; omega)
      (fun x hx => by
        obtain ⟨y, _, rfl⟩ := HexMap.mem_prepend.mp hx
        exact List.prefix_append q _)
    obtain ⟨r, hr, _, _, hr3⟩ := hcm
    have hrq : r = q.length :=
      hr3 ⟨(q ++ e.1, e.2), HexMap.mem_prepend.mpr ⟨e, he, rfl⟩, divergeAt_prepend q hd⟩
    rw [hos] at hr
    rw [← hrq]
    exact hr

theorem isNull_false_of_mem_slot {nodes : Nibble → TrieNode} {i : Nibble}
    {x : List Nibble × Bytes} (hx : x ∈ entries (nodes i)) : (nodes i).isNull = false := by
  cases h : (nodes i).isNull with
  | false => rfl
  | true => rw [entries_of_isNull h] at hx; simp at hx

theorem mem_entries_branch_slot {nodes : Nibble → TrieNode} {v : Bytes} {i : Nibble}
    {x : List Nibble × Bytes} (hx : x ∈ entries (nodes i)) :
    (i :: x.1, x.2) ∈ entries (.branch nodes v) := by
  rw [entries_branch]
  apply List.mem_append_right
  rw [List.mem_flatMap]
  exact ⟨i, List.mem_finRange i, HexMap.mem_prepend.mpr ⟨x, hx, rfl⟩⟩

/-- On the entries of a minimal node, each key preceded by the nibbles `p` already consumed,
`hash256rlp` with the prefix length `|p|` writes what `makeRLP` writes for the node, once its
recursion is unfolded as many times as the node is high. -/
theorem hash256rlp_entries (sha3 : Bytes → Bytes) : ∀ (t : TrieNode), t.Canonical →
    t.isNull = false → ∀ (p : List Nibble) (fuel : Nat) (s : RLPStream), t.height ≤ fuel →
    (∀ x ∈ t.entries, p.length + x.1.length < 2 ^ 31) →
    ∃ s2, makeRLP sha3 t s = .ok s2 ∧
      hash256rlp sha3 fuel (HexMap.prepend p t.entries) p.length s = some (.ok s2) := by
  intro t
  induction t with
  | null => intro _ h; simp [isNull] at h
  | leaf e v =>
    intro _ _ p fuel s hf hb
    obtain ⟨f, rfl⟩ : ∃ f, fuel = f + 1 := ⟨fuel - 1, by simp only [height] at hf; omega⟩
    have hlen := hb (e, v) (by simp [entries])
    have e1 : HexMap.prepend p (entries (.leaf e v)) = [(p ++ e, v)] := rfl
    rw [e1, hash256rlp_single, makeRLP_leaf,
      hexPrefixEncode_after p e true (by rw [List.length_append]; exact hlen),
      hexPrefixEncode_nibbles e true (by simp only at hlen; omega)]
    exact ⟨_, rfl, rfl⟩
  | infixNode e next ih =>
    intro hc _ p fuel s hf hb
    obtain ⟨f, rfl⟩ : ∃ f, fuel = f + 1 := ⟨fuel - 1, by simp only [height] at hf; omega⟩
    simp only [Canonical] at hc
    obtain ⟨nodes, v, rfl⟩ := (isBranch_iff next).mp hc.2.1
    have hnn : (TrieNode.branch nodes v).isNull = false := rfl
    have hpre : HexMap.prepend p (entries (.infixNode e (.branch nodes v)))
        = HexMap.prepend (p ++ e) (entries (.branch nodes v)) := by
      rw [entries_infixNode, HexMap.prepend_prepend]
    have hbound : ∀ x ∈ entries (.branch nodes v), (p ++ e).length + x.1.length < 2 ^ 31 := by
      intro x hx
      have := hb (e ++ x.1, x.2) (by
        rw [entries_infixNode]
        exact HexMap.mem_prepend.mpr ⟨x, hx, rfl⟩)
      simp only [List.length_append] at this ⊢
      omega
    obtain ⟨y0, hy0⟩ := List.exists_mem_of_ne_nil _ (entries_ne_nil _ hc.2.2 hnn)
    have hpe := hbound y0 hy0
    obtain ⟨first, second, rest, hl, ⟨y, hy, hfy, _⟩, hsp⟩ :=
      sharedPre_branch nodes v hc.2.2 (p ++ e) p.length (by simp) (by omega)
    have hylen := hbound y hy
    obtain ⟨c, hcok, hih⟩ := ih hc.2.2 hnn (p ++ e) f ⟨[]⟩
      (by simp only [height] at hf ⊢; omega) hbound
    have hee : e.length < 2 ^ 64 := by
      rw [List.length_append] at hpe
      omega
    rw [hpre, hl, hash256rlp_many, hsp, ← hl]
    simp only [List.length_append]
    rw [if_pos (by
      have := List.length_pos.mpr hc.1
      omega)]
    have hhp : hexPrefixEncode (first.1.map Fin.val) false (toSigned p.length)
        (toSigned (p.length + e.length)) = .ok (hpLayout (e.map Fin.val) false) := by
      rw [hfy]
      simp only
      rw [hexPrefixEncode_between p e y.1 false (by
        simp only [List.length_append] at hylen ⊢
        omega), hexPrefixEncode_nibbles e false hee]
    rw [hhp]
    simp only
    rw [toUnsigned_of_lt (by rw [List.length_append] at hpe; omega)]
    have hih2 : hash256rlp sha3 f (HexMap.prepend (p ++ e) (entries (.branch nodes v)))
        (p.length + e.length) ⟨[]⟩ = some (.ok c) := by
      rw [← List.length_append]; exact hih
    rw [hih2, makeRLP_infixNode, hnn, hexPrefixEncode_nibbles e false hee, hcok]
    exact ⟨_, rfl, rfl⟩
  | branch nodes v ih =>
    intro hc hnn p fuel s hf hb
    obtain ⟨f, rfl⟩ : ∃ f, fuel = f + 1 := ⟨fuel - 1, by simp only [height] at hf; omega⟩
    have hcc := hc
    simp only [Canonical] at hcc
    obtain ⟨y0, hy0⟩ := List.exists_mem_of_ne_nil _ (entries_ne_nil _ hc hnn)
    have hp31 := hb y0 hy0
    obtain ⟨first, second, rest, hl, ⟨y, hy, hfy, hyt⟩, hsp⟩ :=
      sharedPre_branch nodes v hc p p.length (le_refl _) (by omega)
    -- the entries of the slots
    have hchild : ∀ i, (nodes i).isNull = false →
        ∃ c, makeRLP sha3 (nodes i) ⟨[]⟩ = .ok c ∧
          hash256rlp sha3 f (HexMap.prepend p (HexMap.prepend [i] (entries (nodes i))))
            (toUnsigned (p.length + 1)) ⟨[]⟩ = some (.ok c) := by
      intro i hi
      obtain ⟨c, hc1, hc2⟩ := ih i (hcc.1 i) hi (p ++ [i]) f ⟨[]⟩
        (by have := height_child_lt nodes v i; omega)
        (fun x hx => by
          have := hb (i :: x.1, x.2) (mem_entries_branch_slot hx)
          simp only [List.length_append, List.length_cons, List.length_nil] at this ⊢
          omega)
      refine ⟨c, hc1, ?_⟩
      obtain ⟨x0, hx0⟩ := List.exists_mem_of_ne_nil _ (entries_ne_nil _ (hcc.1 i) hi)
      have hx1 := hb (i :: x0.1, x0.2) (mem_entries_branch_slot hx0)
      simp only [List.length_cons] at hx1
      rw [HexMap.prepend_prepend, toUnsigned_of_lt (by omega)]
      simpa using hc2
    have hslots := hash256Slots_eq sha3 nodes
      (fun i => HexMap.prepend p (HexMap.prepend [i] (entries (nodes i))))
      (fun g => hash256rlp sha3 f g (toUnsigned (p.length + 1)) ⟨[]⟩) p.length
      (fun i hi => by simp only [entries_of_isNull hi]; rfl)
      (fun i hi => ⟨fun h => entries_ne_nil _ (hcc.1 i) hi
          (HexMap.prepend_eq_nil.mp (HexMap.prepend_eq_nil.mp h)), hchild i hi⟩)
      (fun i e he => by
        obtain ⟨z, hz, rfl⟩ := HexMap.mem_prepend.mp he
        obtain ⟨w, _, rfl⟩ := HexMap.mem_prepend.mp hz
        exact getElem?_prepend_key p i w.1)
      (List.finRange 16) (List.nodup_finRange 16) (s.appendList 17)
    have hstep : ∀ (acc : RLPStream) (i : Nibble), ∃ r,
        (if (nodes i).isNull then (pure (acc.append []) : Except Fault RLPStream)
          else do
            let c ← makeRLP sha3 (nodes i) ⟨[]⟩
            pure (if c.out.length < 32 then acc.appendRaw c.out else acc.append (sha3 c.out)))
          = .ok r := by
      intro acc i
      by_cases hn : (nodes i).isNull = true
      · exact ⟨_, by rw [if_pos hn]; rfl⟩
      · rw [if_neg hn]
        obtain ⟨c, hcr, _⟩ := hchild i (by simpa using hn)
        simp only [hcr, bind, Except.bind, pure, Except.pure]
        exact ⟨_, rfl⟩
    obtain ⟨s1, hs1⟩ := foldlM_ok _ hstep (List.finRange 16) (s.appendList 17)
    rw [hs1] at hslots
    have hflat : HexMap.prepend p ((List.finRange 16).flatMap
        (fun i => HexMap.prepend [i] (entries (nodes i))))
        = (List.finRange 16).flatMap
          (fun i => HexMap.prepend p (HexMap.prepend [i] (entries (nodes i)))) :=
      HexMap.prepend_flatMap p _ _
    have hrange : (if p.length = first.1.length then second :: rest
        else first :: second :: rest)
        = (List.finRange 16).flatMap
          (fun i => HexMap.prepend p (HexMap.prepend [i] (entries (nodes i)))) ∧
        (if p.length = first.1.length then s1.append first.2 else s1.append [])
          = s1.append v := by
      rw [entries_branch] at hl hyt hy
      by_cases hv : v = []
      · rw [if_pos hv, List.nil_append] at hl hy
        obtain ⟨i, _, hyi⟩ := List.mem_flatMap.mp hy
        obtain ⟨w, _, hw⟩ := HexMap.mem_prepend.mp hyi
        have hne : ¬ p.length = first.1.length := by
          rw [hfy, hw]
          simp only [List.length_append, List.length_cons, List.length_nil]
          omega
        rw [if_neg hne, if_neg hne, ← hl, hflat, hv]
        exact ⟨rfl, rfl⟩
      · rw [if_neg hv] at hl hyt
        have hyv : y = ([], v) := by
          have := congrArg List.head? hyt
          simpa using this.symm
        have heq : p.length = first.1.length := by
          rw [hfy, hyv]; simp
        rw [if_pos heq, if_pos heq]
        have h2 : second :: rest = HexMap.prepend p ((List.finRange 16).flatMap
            (fun i => HexMap.prepend [i] (entries (nodes i)))) := by
          have := congrArg List.tail hl
          simpa [HexMap.prepend] using this.symm
        rw [h2, hflat, hfy, hyv]
        exact ⟨rfl, rfl⟩
    rw [hl, hash256rlp_many, hsp]
    simp only [gt_iff_lt, lt_irrefl, if_false]
    rw [hrange.1, hslots]
    simp only
    rw [hrange.2, makeRLP_branch, hs1]
    exact ⟨_, rfl, rfl⟩

end TrieNode
/-! ## The entries of a minimal trie are the sorted nibble-key map of its mapping -/

theorem lexLt_irrefl : ∀ (a : List Nibble), lexLt a a = false
  | [] => rfl
  | a :: as => by simp [lexLt, lexLt_irrefl as]

theorem lexLt_trans : ∀ (a b c : List Nibble), lexLt a b = true → lexLt b c = true →
    lexLt a c = true
  | [], [], _, h, _ => by simp [lexLt] at h
  | [], _ :: _, [], _, h => by simp [lexLt] at h
  | [], _ :: _, _ :: _, _, _ => rfl
  | _ :: _, [], _, h, _ => by simp [lexLt] at h
  | _ :: _, _ :: _, [], _, h => by simp [lexLt] at h
  | a :: as, b :: bs, c :: cs, h1, h2 => by
    simp only [lexLt, Bool.or_eq_true, Bool.and_eq_true, decide_eq_true_eq] at h1 h2 ⊢
    rcases h1 with h1 | ⟨rfl, h1⟩
    · rcases h2 with h2 | ⟨rfl, h2⟩
      · exact Or.inl (lt_trans h1 h2)
      · exact Or.inl h1
    · rcases h2 with h2 | ⟨rfl, h2⟩
      · exact Or.inl h2
      · exact Or.inr ⟨rfl, lexLt_trans as bs cs h1 h2⟩

theorem lexLt_total : ∀ (a b : List Nibble), lexLt a b = false → a ≠ b → lexLt b a = true
  | [], [], _, h => absurd rfl h
  | [], _ :: _, h, _ => by simp [lexLt] at h
  | _ :: _, [], _, _ => rfl
  | a :: as, b :: bs, h1, h2 => by
    simp only [lexLt, Bool.or_eq_false_iff, Bool.and_eq_false_imp, decide_eq_false_iff_not,
      decide_eq_true_eq, Bool.or_eq_true, Bool.and_eq_true] at h1 ⊢
    by_cases hab : a = b
    · subst hab
      refine Or.inr ⟨rfl, lexLt_total as bs (h1.2 rfl) (fun h => h2 (by rw [h]))⟩
    · exact Or.inl (lt_of_le_of_ne (not_lt.mp h1.1) (fun h => hab h.symm))

theorem lexLt_append (q a b : List Nibble) : lexLt (q ++ a) (q ++ b) = lexLt a b := by
  induction q with
  | nil => rfl
  | cons c q ih => simp [lexLt, ih]

namespace HexMap

theorem Sorted.prepend {m : HexMap} (p : List Nibble) (h : Sorted m) : Sorted (prepend p m) := by
  unfold Sorted HexMap.prepend
  rw [List.pairwise_map]
  exact List.Pairwise.imp (fun {a b} hab => by simpa only [lexLt_append] using hab) h

theorem sorted_flatMap (f : Nibble → HexMap) (hs : ∀ i, Sorted (f i))
    (hk : ∀ i, ∀ x ∈ f i, ∃ r, x.1 = i :: r) :
    ∀ (l : List Nibble), l.Pairwise (fun a b => a < b) → Sorted (l.flatMap f) := by
  intro l
  induction l with
  | nil => intro _; exact List.Pairwise.nil
  | cons a l ih =>
    intro hl
    rw [List.pairwise_cons] at hl
    rw [List.flatMap_cons]
    unfold Sorted
    rw [List.pairwise_append]
    refine ⟨hs a, ih hl.2, ?_⟩
    intro x hx y hy
    obtain ⟨j, hj, hyj⟩ := List.mem_flatMap.mp hy
    obtain ⟨r1, h1⟩ := hk a x hx
    obtain ⟨r2, h2⟩ := hk j y hyj
    rw [h1, h2]
    simp only [lexLt, Bool.or_eq_true, decide_eq_true_eq]
    exact Or.inl (hl.1 j hj)

theorem sorted_ext {a b : HexMap} (ha : Sorted a) (hb : Sorted b)
    (h : ∀ x, x ∈ a ↔ x ∈ b) : a = b := by
  have hirr : ∀ x : List Nibble × Bytes, ¬ (lexLt x.1 x.1 = true) := fun x => by
    simp [lexLt_irrefl]
  have hna : a.Nodup := List.Pairwise.imp (fun {x y} hxy hEq => by
    subst hEq; exact hirr x hxy) ha
  have hnb : b.Nodup := List.Pairwise.imp (fun {x y} hxy hEq => by
    subst hEq; exact hirr x hxy) hb
  haveI : IsAntisymm (List Nibble × Bytes) (fun x y => lexLt x.1 y.1 = true) :=
    ⟨fun x y h1 h2 => absurd (lexLt_trans _ _ _ h1 h2) (hirr x)⟩
  exact List.eq_of_perm_of_sorted ((List.perm_ext_iff_of_nodup hna hnb).mpr h) ha hb

/-- Assigning at a key the sorted map does not hold puts the entry in its place. -/
theorem assign_fresh (k : List Nibble) (v : Bytes) : ∀ (m : HexMap), Sorted m →
    (∀ x ∈ m, x.1 ≠ k) →
    Sorted (assign k v m) ∧ ∀ x, x ∈ assign k v m ↔ x = (k, v) ∨ x ∈ m := by
  intro m
  induction m with
  | nil =>
    intro _ _
    exact ⟨List.pairwise_singleton _ _, fun x => by simp [assign]⟩
  | cons e rest ih =>
    intro hs hf
    have hs2 := List.pairwise_cons.mp hs
    by_cases h1 : lexLt k e.1 = true
    · have : assign k v (e :: rest) = (k, v) :: e :: rest := by
        simp only [assign, h1, if_true]
      rw [this]
      refine ⟨List.pairwise_cons.mpr ⟨?_, hs⟩, fun x => by simp⟩
      intro y hy
      rcases List.mem_cons.mp hy with rfl | hy
      · exact h1
      · exact lexLt_trans _ _ _ h1 (hs2.1 y hy)
    · have hne : k ≠ e.1 := fun h => hf e (List.mem_cons_self _ _) h.symm
      have : assign k v (e :: rest) = e :: assign k v rest := by
        simp only [assign, h1, if_neg hne]
        rfl
      rw [this]
      obtain ⟨ih1, ih2⟩ := ih hs2.2 (fun x hx => hf x (List.mem_cons_of_mem _ hx))
      refine ⟨List.pairwise_cons.mpr ⟨?_, ih1⟩, fun x => ?_⟩
      · intro y hy
        rcases (ih2 y).mp hy with rfl | hy
        · exact lexLt_total _ _ (by simpa using h1) hne
        · exact hs2.1 y hy
      · rw [List.mem_cons, ih2, List.mem_cons]
        tauto

theorem foldl_assign : ∀ (H : List (List Nibble × Bytes)) (m : HexMap), Sorted m →
    (H.map Prod.fst).Nodup → (∀ e ∈ H, ∀ x ∈ m, x.1 ≠ e.1) →
    Sorted (H.foldl (fun m e => assign e.1 e.2 m) m) ∧
      ∀ x, x ∈ H.foldl (fun m e => assign e.1 e.2 m) m ↔ x ∈ m ∨ x ∈ H := by
  intro H
  induction H with
  | nil => intro m hs _ _; exact ⟨hs, fun x => by simp⟩
  | cons e H ih =>
    intro m hs hnd hf
    rw [List.map_cons, List.nodup_cons] at hnd
    obtain ⟨a1, a2⟩ := assign_fresh e.1 e.2 m hs (hf e (List.mem_cons_self _ _))
    have hf2 : ∀ e2 ∈ H, ∀ x ∈ assign e.1 e.2 m, x.1 ≠ e2.1 := by
      intro e2 he2 x hx
      rcases (a2 x).mp hx with rfl | hx
      · intro h
        exact hnd.1 (List.mem_map.mpr ⟨e2, he2, h.symm⟩)
      · exact hf e2 (List.mem_cons_of_mem _ he2) x hx
    obtain ⟨b1, b2⟩ := ih (assign e.1 e.2 m) a1 hnd.2 hf2
    rw [List.foldl_cons]
    refine ⟨b1, fun x => ?_⟩
    rw [b2, a2, List.mem_cons]
    tauto

/-- The nibble-key map of a mapping: sorted, with the entries of the mapping. -/
theorem ofStringMap_spec (S : List (Bytes × Bytes)) (hnd : (S.map Prod.fst).Nodup)
    (hb : ∀ e ∈ S, IsBytes e.1) :
    Sorted (ofStringMap S) ∧
      ∀ x, x ∈ ofStringMap S ↔ x ∈ S.map (fun e => (toHex e.1, e.2)) := by
  have e1 : ofStringMap S
      = (S.reverse.map (fun e => (toHex e.1, e.2))).foldl (fun m e => assign e.1 e.2 m) [] := by
    unfold ofStringMap
    rw [List.foldl_map]
  have hnd2 : ((S.reverse.map (fun e => (toHex e.1, e.2))).map Prod.fst).Nodup := by
    rw [List.map_map]
    have : (Prod.fst ∘ fun e : Bytes × Bytes => (toHex e.1, e.2)) = toHex ∘ Prod.fst := rfl
    rw [this, ← List.map_map]
    apply List.Nodup.map_on _ (by rw [List.map_reverse]; exact List.nodup_reverse.mpr hnd)
    intro a ha b hb2 hab
    obtain ⟨x, hx, rfl⟩ := List.mem_map.mp ha
    obtain ⟨y, hy, rfl⟩ := List.mem_map.mp hb2
    exact toHex_injective _ _ (hb x (List.mem_reverse.mp hx)) (hb y (List.mem_reverse.mp hy)) hab
  obtain ⟨h1, h2⟩ := foldl_assign _ [] List.Pairwise.nil hnd2 (fun _ _ x hx => by simp at hx)
  rw [e1]
  refine ⟨h1, fun x => ?_⟩
  rw [h2]
  simp [List.mem_map]

end HexMap

namespace TrieNode

theorem entries_sorted : ∀ (t : TrieNode), HexMap.Sorted t.entries := by
  intro t
  induction t with
  | null => exact List.Pairwise.nil
  | leaf e v => exact List.pairwise_singleton _ _
  | infixNode e next ih => exact HexMap.Sorted.prepend e ih
  | branch nodes v ih =>
    rw [entries_branch]
    unfold HexMap.Sorted
    rw [List.pairwise_append]
    have hk : ∀ i, ∀ x ∈ HexMap.prepend [i] (entries (nodes i)), ∃ r, x.1 = i :: r := by
      intro i x hx
      obtain ⟨y, _, rfl⟩ := HexMap.mem_prepend.mp hx
      exact ⟨y.1, rfl⟩
    refine ⟨?_, HexMap.sorted_flatMap _ (fun i => HexMap.Sorted.prepend [i] (ih i)) hk _
      (List.pairwise_lt_finRange 16), ?_⟩
    · by_cases hv : v = []
      · rw [if_pos hv]; exact List.Pairwise.nil
      · rw [if_neg hv]; exact List.pairwise_singleton _ _
    · intro x hx y hy
      by_cases hv : v = []
      · rw [if_pos hv] at hx; simp at hx
      · rw [if_neg hv] at hx
        obtain ⟨j, _, hyj⟩ := List.mem_flatMap.mp hy
        obtain ⟨r, hr⟩ := hk j y hyj
        rw [List.mem_singleton.mp hx, hr]
        rfl

/-- The entries of a minimal node are the pairs of its mapping with a non-empty value. -/
theorem mem_entries_iff : ∀ (t : TrieNode), t.Canonical → ∀ (k : List Nibble) (v : Bytes),
    (k, v) ∈ t.entries ↔ (t.lookup k = v ∧ v ≠ []) := by
  intro t
  induction t with
  | null =>
    intro _ k v
    simp only [entries, lookup, List.not_mem_nil, false_iff, not_and, not_not]
    exact fun h => h.symm
  | leaf e w =>
    intro hc k v
    simp only [Canonical] at hc
    simp only [entries, lookup, List.mem_singleton, Prod.mk.injEq]
    constructor
    · rintro ⟨rfl, rfl⟩
      exact ⟨by simp, hc⟩
    · rintro ⟨h1, h2⟩
      by_cases hk : k = e
      · rw [if_pos hk] at h1
        exact ⟨hk, h1.symm⟩
      · rw [if_neg hk] at h1
        exact absurd h1.symm h2
  | infixNode e next ih =>
    intro hc k v
    simp only [Canonical] at hc
    rw [entries_infixNode, HexMap.mem_prepend]
    constructor
    · rintro ⟨y, hy, heq⟩
      simp only [Prod.mk.injEq] at heq
      obtain ⟨rfl, rfl⟩ := heq
      rw [lookup_infix_append]
      exact (ih hc.2.2 y.1 y.2).mp hy
    · rintro ⟨h1, h2⟩
      have hpre : e <+: k := isPrefix_of_lookup_ne (n := next) (by rw [h1]; exact h2)
      obtain ⟨r, rfl⟩ := hpre
      rw [lookup_infix_append] at h1
      exact ⟨(r, v), (ih hc.2.2 r v).mpr ⟨h1, h2⟩, rfl⟩
  | branch nodes w ih =>
    intro hc k v
    simp only [Canonical] at hc
    rw [entries_branch, List.mem_append, List.mem_flatMap]
    cases k with
    | nil =>
      simp only [lookup]
      constructor
      · rintro (h | ⟨i, _, h⟩)
        · by_cases hw : w = []
          · rw [if_pos hw] at h; simp at h
          · rw [if_neg hw] at h
            simp only [List.mem_singleton, Prod.mk.injEq, true_and] at h
            exact ⟨h.symm, by rw [h]; exact hw⟩
        · obtain ⟨y, _, hy⟩ := HexMap.mem_prepend.mp h
          simp at hy
      · rintro ⟨rfl, h2⟩
        left
        rw [if_neg h2]
        exact List.mem_singleton.mpr rfl
    | cons c r =>
      simp only [lookup]
      rw [← ih c (hc.1 c) r v]
      constructor
      · rintro (h | ⟨i, _, h⟩)
        · by_cases hw : w = []
          · rw [if_pos hw] at h; simp at h
          · rw [if_neg hw] at h
            simp at h
        · obtain ⟨y, hy, heq⟩ := HexMap.mem_prepend.mp h
          simp only [List.singleton_append, Prod.mk.injEq, List.cons.injEq] at heq
          obtain ⟨⟨rfl, rfl⟩, rfl⟩ := heq
          exact hy
      · intro h
        right
        exact ⟨c, List.mem_finRange c, HexMap.mem_prepend.mpr ⟨(r, v), h, rfl⟩⟩

theorem foldl_max_mem : ∀ (l : List Nat) (a : Nat), l.foldl max a = a ∨ l.foldl max a ∈ l := by
  intro l
  induction l with
  | nil => intro a; exact Or.inl rfl
  | cons b l ih =>
    intro a
    rw [List.foldl_cons]
    rcases ih (max a b) with h | h
    · rw [h]
      rcases max_cases a b with ⟨h1, _⟩ | ⟨h1, _⟩
      · exact Or.inl h1
      · exact Or.inr (by rw [h1]; exact List.mem_cons_self _ _)
    · exact Or.inr (List.mem_cons_of_mem _ h)

/-- A minimal node is no higher than its longest key allows. -/
theorem height_le_entries : ∀ (t : TrieNode), t.Canonical → t.isNull = false →
    ∃ x ∈ t.entries, t.height ≤ x.1.length + 1 := by
  intro t
  induction t with
  | null => intro _ h; simp [isNull] at h
  | leaf e v => intro _ _; exact ⟨(e, v), by simp [entries], by simp [height]⟩
  | infixNode e next ih =>
    intro hc _
    simp only [Canonical] at hc
    obtain ⟨x, hx, hh⟩ := ih hc.2.2 (isNull_of_isBranch hc.2.1)
    refine ⟨(e ++ x.1, x.2), HexMap.mem_prepend.mpr ⟨x, hx, rfl⟩, ?_⟩
    have : 0 < e.length := List.length_pos.mpr hc.1
    simp only [height, List.length_append]
    omega
  | branch nodes v ih =>
    intro hc hnn
    have hcc := hc
    simp only [Canonical] at hcc
    by_cases h0 : ((List.finRange 16).map (fun i => height (nodes i))).foldl max 0 = 0
    · obtain ⟨y, hy⟩ := List.exists_mem_of_ne_nil _ (entries_ne_nil _ hc hnn)
      exact ⟨y, hy, by simp only [height, h0]; omega⟩
    · rcases foldl_max_mem ((List.finRange 16).map (fun i => height (nodes i))) 0 with h | h
      · exact absurd h h0
      · obtain ⟨i, _, hi⟩ := List.mem_map.mp h
        have hni : (nodes i).isNull = false := by
          by_contra hn
          have hn2 : (nodes i).isNull = true := by simpa using hn
          rw [(isNull_eq_true_iff _).mp hn2] at hi
          exact h0 hi.symm
        obtain ⟨x, hx, hh⟩ := ih i (hcc.1 i) hni
        refine ⟨(i :: x.1, x.2), mem_entries_branch_slot hx, ?_⟩
        simp only [height, List.length_cons]
        rw [← hi]
        omega

end TrieNode
/-! ## The incremental trie and the from-scratch reference -/

theorem Trie.lastValue_mem {κ : Type} [DecidableEq κ] (l : List (κ × Bytes)) (k : κ)
    (h : Trie.lastValue l k ≠ []) : (k, Trie.lastValue l k) ∈ l := by
  induction l with
  | nil => exact absurd (Trie.lastValue_nil k) h
  | cons a rest ih =>
    rw [Trie.lastValue_cons] at h ⊢
    by_cases h1 : ∃ e ∈ rest, e.1 = k
    · rw [if_pos h1] at h ⊢
      exact List.mem_cons_of_mem _ (ih h)
    · rw [if_neg h1] at h ⊢
      by_cases h2 : a.1 = k
      · rw [if_pos h2]
        rw [← h2]
        exact List.mem_cons_self _ _
      · rw [if_neg h2] at h
        exact absurd rfl h

/-- The entries of the trie built from a mapping are the sorted nibble-key map of any listing
of the mapping. -/
theorem Trie.entries_eq_ofStringMap (M S : List (Bytes × Bytes)) (t : Trie) (hp : S.Perm M)
    (hnd : (M.map Prod.fst).Nodup) (hk : ∀ e ∈ M, IsBytes e.1) (hv : ∀ e ∈ M, e.2 ≠ [])
    (hc : t.m_root.Canonical)
    (hl : ∀ nk, t.m_root.lookup nk = Trie.lastValue (M.map fun e => (toHex e.1, e.2)) nk) :
    t.m_root.entries = HexMap.ofStringMap S := by
  have hndS : (S.map Prod.fst).Nodup := (hp.map Prod.fst).nodup_iff.mpr hnd
  obtain ⟨s1, s2⟩ := HexMap.ofStringMap_spec S hndS (fun e he => hk e (hp.mem_iff.mp he))
  have hndH : ((M.map fun e => (toHex e.1, e.2)).map Prod.fst).Nodup := by
    rw [List.map_map]
    have : (Prod.fst ∘ fun e : Bytes × Bytes => (toHex e.1, e.2)) = toHex ∘ Prod.fst := rfl
    rw [this, ← List.map_map]
    apply List.Nodup.map_on _ hnd
    intro a ha b hb hab
    obtain ⟨x, hx, rfl⟩ := List.mem_map.mp ha
    obtain ⟨y, hy, rfl⟩ := List.mem_map.mp hb
    exact toHex_injective _ _ (hk x hx) (hk y hy) hab
  apply HexMap.sorted_ext (TrieNode.entries_sorted _) s1
  rintro ⟨k, v⟩
  rw [s2, TrieNode.mem_entries_iff _ hc, hl, (hp.map _).mem_iff]
  constructor
  · rintro ⟨h1, h2⟩
    rw [← h1]
    exact Trie.lastValue_mem _ _ (by rw [h1]; exact h2)
  · intro hm
    refine ⟨Trie.lastValue_of_mem _ hndH k v hm, ?_⟩
    obtain ⟨e, he, heq⟩ := List.mem_map.mp hm
    simp only [Prod.mk.injEq] at heq
    rw [← heq.2]
    exact hv e he

/-- C27: the incremental trie agrees with the from-scratch reference. For every non-empty
finite mapping of byte-string keys (shorter than `2 ^ 30` bytes, so that their nibble paths
have an `int` length) to non-empty values, whatever the order `M` in which its entries are
inserted into an empty trie and whatever the listing `S` from which `hash256` builds its
nibble-key map: `Trie::rlp()` returns a root encoding `b`; `hash256rlp` run on the sorted
nibble-key map with prefix length 0 on an empty stream, unfolded `fuel` times or more, writes
exactly `b`; and `Trie::hash256()` and `hash256(S)` both return the digest of `b`. -/
theorem C27_trie_agrees_with_hash256 (sha3 : Bytes → Bytes) (M S : List (Bytes × Bytes))
    (hne : M ≠ []) (hp : S.Perm M) (hnd : (M.map Prod.fst).Nodup)
    (hk : ∀ e ∈ M, IsBytes e.1) (hlen : ∀ e ∈ M, 2 * e.1.length < 2 ^ 31)
    (hv : ∀ e ∈ M, e.2 ≠ []) :
    ∃ t b, Trie.insertAll Trie.empty M = .ok t ∧ t.rlp sha3 = .ok b ∧
      (∃ fuel, ∀ n, fuel ≤ n →
        hash256rlp sha3 n (HexMap.ofStringMap S) 0 ⟨[]⟩ = some (.ok ⟨b⟩)) ∧
      t.hash256 sha3 = .ok (sha3 b) ∧ hash256 sha3 S = some (.ok (sha3 b)) := by
  obtain ⟨t, h1, hc, hl⟩ := Trie.insertAll_empty_lookup M hv
  have hent := Trie.entries_eq_ofStringMap M S t hp hnd hk hv hc hl
  have hndS : (S.map Prod.fst).Nodup := (hp.map Prod.fst).nodup_iff.mpr hnd
  obtain ⟨_, s2⟩ := HexMap.ofStringMap_spec S hndS (fun e he => hk e (hp.mem_iff.mp he))
  -- the root is a node
  obtain ⟨e0, he0⟩ := List.exists_mem_of_ne_nil M hne
  have hmem0 : (toHex e0.1, e0.2) ∈ t.m_root.entries := by
    rw [hent, s2]
    exact List.mem_map.mpr ⟨e0, hp.mem_iff.mpr he0, rfl⟩
  have hnn : t.m_root.isNull = false := by
    cases h : t.m_root.isNull with
    | false => rfl
    | true => rw [TrieNode.entries_of_isNull h] at hmem0; simp at hmem0
  have hSne : S.isEmpty = false := by
    cases S with
    | nil => exact absurd hp.symm.eq_nil hne
    | cons a l => rfl
  -- the keys are short
  have hbound : ∀ x ∈ t.m_root.entries, ([] : List Nibble).length + x.1.length < 2 ^ 31 := by
    intro x hx
    rw [hent, s2] at hx
    obtain ⟨e, he, rfl⟩ := List.mem_map.mp hx
    simp only [List.length_nil, zero_add, toHex_length]
    exact hlen e (hp.mem_iff.mp he)
  -- the root encoding
  obtain ⟨s0, hs0, _⟩ := TrieNode.hash256rlp_entries sha3 t.m_root hc hnn [] t.m_root.height
    ⟨[]⟩ (le_refl _) hbound
  have hrun : ∀ n, t.m_root.height ≤ n →
      hash256rlp sha3 n (HexMap.ofStringMap S) 0 ⟨[]⟩ = some (.ok ⟨s0.out⟩) := by
    intro n hn
    obtain ⟨s3, hs3, hr3⟩ := TrieNode.hash256rlp_entries sha3 t.m_root hc hnn [] n ⟨[]⟩ hn hbound
    rw [hs0] at hs3
    cases hs3
    rw [HexMap.prepend_nil, hent] at hr3
    exact hr3
  have hfuel : t.m_root.height
      ≤ ((HexMap.ofStringMap S).map (fun e => e.1.length)).foldl max 0 + 2 := by
    obtain ⟨x, hx, hh⟩ := TrieNode.height_le_entries t.m_root hc hnn
    rw [hent] at hx
    have := (TrieNode.height_le_foldl_max ((HexMap.ofStringMap S).map (fun e => e.1.length)) 0).2
      x.1.length (List.mem_map.mpr ⟨x, hx, rfl⟩)
    omega
  refine ⟨t, s0.out, h1, ?_, ⟨t.m_root.height, hrun⟩, ?_, ?_⟩
  · simp only [Trie.rlp, hnn, TrieNode.rlp, hs0, bind, Except.bind, pure, Except.pure]
    rfl
  · simp only [Trie.hash256, hnn, TrieNode.rlp, hs0, bind, Except.bind, pure, Except.pure]
    rfl
  · unfold hash256
    rw [hSne]
    simp only [Bool.false_eq_true, if_false, hrun _ hfuel]
    rfl

/-- Witness of C27 on scenario S2, inserted in reverse order and hashed from the forward
listing; evaluated, `hash256rlp` unfolded 12 times writes what `Trie::rlp()` returns, and
`hash256` returns what `Trie::hash256()` returns. -/
theorem C27_trie_agrees_with_hash256_witness :
    (∃ t b, Trie.insertAll Trie.empty scenarioS2.reverse = .ok t ∧ t.rlp zeroDigest = .ok b ∧
      (∃ fuel, ∀ n, fuel ≤ n →
        hash256rlp zeroDigest n (HexMap.ofStringMap scenarioS2) 0 ⟨[]⟩ = some (.ok ⟨b⟩)) ∧
      t.hash256 zeroDigest = .ok (zeroDigest b) ∧
      hash256 zeroDigest scenarioS2 = some (.ok (zeroDigest b))) ∧
    hash256rlp zeroDigest 12 (HexMap.ofStringMap scenarioS2) 0 ⟨[]⟩
      = some (((Trie.insertAll Trie.empty scenarioS2.reverse).bind
          (fun t => t.rlp zeroDigest)).map RLPStream.mk) ∧
    hash256 zeroDigest scenarioS2
      = some ((Trie.insertAll Trie.empty scenarioS2.reverse).bind
          (fun t => t.hash256 zeroDigest)) :=
  ⟨C27_trie_agrees_with_hash256 zeroDigest scenarioS2.reverse scenarioS2 (by decide)
    (List.reverse_perm scenarioS2).symm (by decide) (by decide) (by decide) (by decide),
   by decide, by decide⟩
end eth
